import Mathlib

namespace MPath

/-!
Multipath radix IP lookup (`RadixIPLookupMPath`, `IPRouteTableMPath`)

A shallow embedding of `elements/ip/radixiplookupmpath.{hh,cc}` and of the
command interpreter of `elements/ip/iproutetablempath.cc`, followed by theorems
about longest-prefix match, the single-operation error paths and the batch
handler.

Conventions of the embedding.

* A C++ `int` / `int32_t` holding a trie key is a `Nat` below `2^32` (its bit
  pattern); keys are only compared for equality and against zero.  Ports, the
  `extra` field, `_vfree` and return codes are `Int`.
* IP addresses are `Nat` below `2^32` in host byte order (the value after
  `ntohl`).
* `Radix` is the type of a `Radix *`: `null`, or a node with its bucket array
  (`_children[b].key`, `_children[b].child`) and the inner-key array that
  follows it in memory.  The arrays are functions on `Nat`.
* `assert` aborts: a function that can hit a failing assertion returns an
  `Option`, and `none` is the abort.
-/

/-! ## Data model -/

/-- Error numbers of `<errno.h>` (Linux values). -/
def EEXIST : Int := 17

/-- Error number `ENOENT`. -/
def ENOENT : Int := 2

/-- Error number `EINVAL`, which `ErrorHandler::error` returns negated. -/
def EINVAL : Int := 22

/-- Command tags of `IPRouteTableMPath` (`enum { CMD_ADD, CMD_SET, CMD_REMOVE }`). -/
def CMD_ADD : Int := 0

/-- Command tag `CMD_SET`. -/
def CMD_SET : Int := 1

/-- Command tag `CMD_REMOVE`. -/
def CMD_REMOVE : Int := 2

/-- One hop: `struct GWPort { IPAddress gw; int32_t port; }`. -/
structure GWPort where
  gw : Nat
  port : Int
deriving DecidableEq, Repr, Inhabited

/-- A route: `struct IPRouteMPath`. -/
structure IPRouteMPath where
  addr : Nat
  mask : Nat
  gwports : List GWPort
  extra : Int
deriving DecidableEq, Repr, Inhabited

/-- Pool entry `struct GWPortArr { size_type length; GWPort data[7]; }`.
`data` lists the cells that have been written, in index order. -/
structure GWPortArr where
  length : Nat
  data : List GWPort
deriving DecidableEq, Repr, Inhabited

/-- The capacity of a pool entry: `GWPortArr::capacity()`. -/
def GWPortArr.capacity : Nat := 7

/-- The read `c[i]` of `GWPortArr::operator[]`; a cell never written reads as
the default hop. -/
def GWPortArr.get (c : GWPortArr) (i : Nat) : GWPort := c.data.getD i default

/-- The type of a `Radix *`. A node holds `_children[b].key`,
`_children[b].child` and the inner keys stored behind the bucket array. -/
inductive Radix where
  | null : Radix
  | node (children_key : Nat → Nat) (children_child : Nat → Radix) (inner : Nat → Nat) : Radix

/-- The table `_bitshift[5] = {16, 12, 8, 4, 0}`. -/
def _bitshift (level : Nat) : Nat := [16, 12, 8, 4, 0].getD level 0

/-- The table `_nbuckets[5] = {65536, 16, 16, 16, 16}`. -/
def _nbuckets (level : Nat) : Nat := [65536, 16, 16, 16, 16].getD level 0

/-- The state of a `RadixIPLookupMPath` element. -/
structure Table where
  _v : List IPRouteMPath
  _vfree : Int
  _lookup : List GWPortArr
  _default_key : Nat
  _radix : Radix

/-! ## The trie -/

/-- `Radix::make_radix`: a node whose keys are all zero and whose children are
all null (`new` does not return null, so the allocation always succeeds). -/
def make_radix (_level : Nat) : Radix :=
  Radix.node (fun _ => 0) (fun _ => Radix.null) (fun _ => 0)

/-- `Radix::key_for(i, level)` read: the bucket key for `i >= n`, the inner key
`x[i - 2]` below. -/
def key_for (r : Radix) (i level : Nat) : Nat :=
  match r with
  | Radix.null => 0
  | Radix.node ck _ inner => if i ≥ _nbuckets level then ck (i - _nbuckets level) else inner (i - 2)

/-- `Radix::key_for(i, level) = key`: the write through the returned reference. -/
def set_key_for (r : Radix) (i level key : Nat) : Radix :=
  match r with
  | Radix.null => Radix.null
  | Radix.node ck cc inner =>
    if i ≥ _nbuckets level then
      Radix.node (fun j => if j = i - _nbuckets level then key else ck j) cc inner
    else
      Radix.node ck cc (fun j => if j = i - 2 then key else inner j)

/-- `Radix::lookup`: the descent `while (r) { ... }`. -/
def Radix.lookup : Radix → Nat → Nat → Nat → Nat
  | Radix.null, cur, _, _ => cur
  | Radix.node ck cc _, cur, addr, level =>
    let i1 := (addr >>> _bitshift level) &&& (_nbuckets level - 1)
    Radix.lookup (cc i1) (if ck i1 ≠ 0 then ck i1 else cur) addr (level + 1)

/-- The loop `for (int x = nmasked; x > 1; x /= 2) i1 /= 2;` of `change`,
returning the final `i1`. -/
def halve_loop : Nat → Nat → Nat → Nat
  | 0, _, i1 => i1
  | fuel + 1, x, i1 => if x > 1 then halve_loop fuel (x / 2) (i1 / 2) else i1

/-- The inner loop `for (int x = i1; x < i1 + nmasked; ++x)` of `change`, run
for `cnt` remaining iterations from `x`. -/
def replace_row (replace_key key level : Nat) : Nat → Nat → Radix → Radix
  | 0, _, r => r
  | cnt + 1, x, r =>
    replace_row replace_key key level cnt (x + 1)
      (if key_for r x level = replace_key then set_key_for r x level key else r)

/-- The outer loop `for (nmasked = 1; i1 < n * 2; i1 *= 2, nmasked *= 2)` of
`change`. -/
def replace_loop (replace_key key level : Nat) : Nat → Nat → Nat → Radix → Radix
  | 0, _, _, r => r
  | fuel + 1, i1, nmasked, r =>
    if i1 < _nbuckets level * 2 then
      replace_loop replace_key key level fuel (i1 * 2) (nmasked * 2)
        (replace_row replace_key key level nmasked i1 r)
    else r

/-- The part of `Radix::change` from the comment "find current key" to the
end, with `i1` the heap position the halving loop has produced: the returned
previous key and the node after the propagation. -/
def change_at (r : Radix) (i1 key : Nat) (set : Bool) (level : Nat) : Nat × Radix :=
  let n := _nbuckets level
  let replace_key := key_for r i1 level
  let prev_key := if replace_key ≠ 0 ∧ i1 > 3 ∧ key_for r (i1 / 2) level = replace_key
    then 0 else replace_key
  let key := if key = 0 ∧ i1 > 3 then key_for r (i1 / 2) level else key
  if prev_key ≠ key ∧ (prev_key = 0 ∨ set = true) then
    (prev_key, replace_loop replace_key key level (n * 2) i1 1 r)
  else
    (prev_key, r)

/-- `Radix::change(addr, mask, key, set, level)` on the node `r`: the returned
previous key and the node after the call.  The recursion descends one level
per call and `fuel` bounds it; five levels exist. -/
def change : Nat → Radix → Nat → Nat → Nat → Bool → Nat → Nat × Radix
  | 0, r, _, _, _, _, _ => (0, r)
  | _ + 1, Radix.null, _, _, _, _, _ => (0, Radix.null)
  | fuel + 1, Radix.node ck cc inner, addr, mask, key, set, level =>
    let shift := _bitshift level
    let n := _nbuckets level
    let i1 := (addr >>> shift) &&& (n - 1)
    if mask &&& ((1 <<< shift) - 1) ≠ 0 then
      let child := match cc i1 with
        | Radix.null => make_radix (level + 1)
        | c => c
      let res := change fuel child addr mask key set (level + 1)
      (res.1, Radix.node ck (fun j => if j = i1 then res.2 else cc j) inner)
    else
      let nmasked := n - ((mask >>> shift) &&& (n - 1))
      change_at (Radix.node ck cc inner) (halve_loop nmasked nmasked (n + i1)) key set level

/-! ## Keys, the path-set pool and the route arena -/

/-- `combine_key(key, lookup_key)`: both assertions, then
`(lookup_key << 24) | key` as a 32-bit value. -/
def combine_key (key lookup_key : Nat) : Option Nat :=
  if lookup_key ≤ 0xff ∧ key ≤ 0x00ffffff then
    some (((lookup_key <<< 24) ||| key) % 2 ^ 32)
  else none

/-- `get_key(comb)`: the route key in the low 24 bits. -/
def get_key (comb : Nat) : Nat := comb &&& 0x00ffffff

/-- `get_lookup_key(comb)`: the path key in the high 8 bits. -/
def get_lookup_key (comb : Nat) : Nat := (comb &&& 0xff000000) >>> 24

/-- The inner loop of `find_lookup_key`: all of the first `length` cells of
the pool entry agree with `gwports` in `gw` and `port`. -/
def arr_match (c : GWPortArr) (gwports : List GWPort) : Bool :=
  (List.range c.length).all fun j =>
    decide ((c.get j).gw = (gwports.getD j default).gw) &&
    decide ((c.get j).port = (gwports.getD j default).port)

/-- The outer loop of `find_lookup_key` over the pool entries from index `i`
on: the 1-based index of the first entry that matches, else 0. -/
def find_lookup_key_from (gwports : List GWPort) : List GWPortArr → Nat → Nat
  | [], _ => 0
  | c :: cs, i =>
    if c.length ≠ gwports.length then find_lookup_key_from gwports cs (i + 1)
    else if arr_match c gwports then i + 1
    else find_lookup_key_from gwports cs (i + 1)

/-- `RadixIPLookupMPath::find_lookup_key`. -/
def find_lookup_key (_lookup : List GWPortArr) (gwports : List GWPort) : Nat :=
  find_lookup_key_from gwports _lookup 0

/-- The copy loop of `add_route`,
`for (i = 0; i < gwports.size() && i < capacity(); i++)`, from index `i` with
the hops of index `i` and above still to copy. -/
def collect_loop : List GWPort → Nat → GWPortArr → GWPortArr
  | [], _, c => c
  | g :: gs, i, c =>
    if i < GWPortArr.capacity then collect_loop gs (i + 1) ⟨i + 1, c.data ++ [g]⟩ else c

/-- The local `collection` of `add_route` after the copy loop.  Its `length`
member is not initialised by the source; `junk` is the value it holds when the
loop body never runs. -/
def collect (junk : Nat) (gwports : List GWPort) : GWPortArr :=
  collect_loop gwports 0 ⟨junk, []⟩

/-- Modelled from the spec: `IPRouteMPath::match`, declared in the missing
`iproutetablempath.hh`; the spec compares routes "by (addr, mask) equality". -/
def IPRouteMPath.route_match (r s : IPRouteMPath) : Bool :=
  decide (r.addr = s.addr) && decide (r.mask = s.mask)

/-- Modelled from the spec: `IPRouteMPath::real`, declared in the missing
`iproutetablempath.hh`; the spec renders "a route with no hops" as `-1`, the
text `unparse` emits for a route that is not real. -/
def IPRouteMPath.real (r : IPRouteMPath) : Bool := !r.gwports.isEmpty

/-- Modelled from the spec: `IPRouteMPath::kill`, declared in the missing
`iproutetablempath.hh`; the spec has `dump_routes` mark free slots
"unreadable", that is not real. The free-list link `extra` is kept. -/
def IPRouteMPath.kill (r : IPRouteMPath) : IPRouteMPath :=
  { r with addr := 0, mask := 0xFFFFFFFF, gwports := [] }

/-- What a call of `add_route` or `remove_route` leaves behind: the return
code, the table, and the route written through `old_route` (if any). -/
structure CallResult where
  ret : Int
  table : Table
  old_route : Option IPRouteMPath

/-- The slot `found` reserved by `add_route`:
`_vfree < 0 ? _v.size() : _vfree`. -/
def found_slot (t : Table) : Nat :=
  if t._vfree < 0 then t._v.length else t._vfree.toNat

/-- The tail of `add_route` after the `-EEXIST` check: commit the path set
and the route, and free the displaced slot. -/
def add_route_commit (junk : Nat) (t : Table) (route : IPRouteMPath)
    (found lookup_key last_key : Nat) (radix : Radix) (default_key : Nat)
    (old : Option IPRouteMPath) : CallResult :=
  let pool := if lookup_key = t._lookup.length + 1
    then t._lookup ++ [collect junk route.gwports] else t._lookup
  let vfree1 : Int := if found = t._v.length then t._vfree else (t._v.getD found default).extra
  let v1 := if found = t._v.length then t._v ++ [route] else t._v.set found route
  let v2 := v1.set found { v1.getD found default with extra := -1 }
  let v3 := if last_key ≠ 0
    then v2.set (last_key - 1) { v2.getD (last_key - 1) default with extra := vfree1 } else v2
  let vfree3 : Int := if last_key ≠ 0 then ((last_key - 1 : Nat) : Int) else vfree1
  { ret := 0,
    table := { _v := v3, _vfree := vfree3, _lookup := pool,
               _default_key := default_key, _radix := radix },
    old_route := old }

/-- `RadixIPLookupMPath::add_route(route, set, old_route, errh)`.  `none` is a
failed assertion of `combine_key`. -/
def add_route (junk : Nat) (t : Table) (route : IPRouteMPath) (set : Bool) :
    Option CallResult :=
  let found := found_slot t
  let lk := find_lookup_key t._lookup route.gwports
  let lookup_key := if lk = 0 then t._lookup.length + 1 else lk
  if route.mask ≠ 0 then
    match combine_key (found + 1) lookup_key with
    | none => none
    | some ck =>
      let res := change 5 t._radix route.addr route.mask ck set 0
      let last_key := get_key res.1
      let old := if last_key ≠ 0 then some (t._v.getD (last_key - 1) default) else none
      if last_key ≠ 0 ∧ set = false then
        some { ret := -EEXIST, table := { t with _radix := res.2 }, old_route := old }
      else
        some (add_route_commit junk t route found lookup_key last_key res.2 t._default_key old)
  else
    let last_key := get_key t._default_key
    let old := if last_key ≠ 0 then some (t._v.getD (last_key - 1) default) else none
    if last_key = 0 ∨ set = true then
      match combine_key (found + 1) lookup_key with
      | none => none
      | some ck =>
        some (add_route_commit junk t route found lookup_key last_key t._radix ck old)
    else
      some { ret := -EEXIST, table := t, old_route := old }

/-- `RadixIPLookupMPath::remove_route(route, old_route, errh)`. -/
def remove_route (t : Table) (route : IPRouteMPath) : CallResult :=
  let dry := if route.mask ≠ 0 then change 5 t._radix route.addr route.mask 0 false 0
    else (t._default_key, t._radix)
  let last_key := get_key dry.1
  let old := if last_key ≠ 0 then some (t._v.getD (last_key - 1) default) else none
  if last_key = 0 ∨ route.route_match (t._v.getD (last_key - 1) default) = false then
    { ret := -ENOENT, table := { t with _radix := dry.2 }, old_route := old }
  else
    let v1 := t._v.set (last_key - 1)
      { t._v.getD (last_key - 1) default with extra := t._vfree }
    { ret := 0,
      table := { _v := v1, _vfree := ((last_key - 1 : Nat) : Int), _lookup := t._lookup,
                 _default_key := if route.mask ≠ 0 then t._default_key else 0,
                 _radix := if route.mask ≠ 0
                   then (change 5 dry.2 route.addr route.mask 0 true 0).2 else dry.2 },
      old_route := old }

/-- `RadixIPLookupMPath::lookup_route(addr, gw, hash)`: the returned port and
the gateway written to `gw`. -/
def lookup_route (t : Table) (addr hash : Nat) : Int × Nat :=
  let key := Radix.lookup t._radix t._default_key addr 0
  let lookup_key := get_lookup_key key
  if lookup_key ≠ 0 then
    let c := t._lookup.getD (lookup_key - 1) default
    let n := hash % c.length
    ((c.get n).port, (c.get n).gw)
  else
    (-1, 0)

/-- `RadixIPLookupMPath::flush_table`. -/
def flush_table (t : Table) : Table :=
  { _v := [], _vfree := -1, _lookup := t._lookup, _default_key := 0, _radix := make_radix 0 }

/-- The state the constructor leaves: no routes, an empty root node. -/
def Table.init : Table :=
  { _v := [], _vfree := -1, _lookup := [], _default_key := 0, _radix := make_radix 0 }

/-! ## Text: the route parser and printer

Strings are lists of characters.  The argument parsers of the Click library
(`cp_shift_spacevec`, `IPPrefixArg`, `IPAddressArg`, `IntArg`) and the address
printer are not part of the element sources; they are modelled from the input
grammar and output format of the specification. -/

/-- The characters `isspace` accepts. -/
def is_space (c : Char) : Bool :=
  c = ' ' || c = '\t' || c = '\n' || c = '\r' || c = '\x0b' || c = '\x0c'

/-- Modelled from the spec: `cp_shift_spacevec` of the missing `confparse.cc`,
which removes and returns "the first whitespace-delimited token": the token
and what is left of the string after the whitespace behind it. -/
def cp_shift_spacevec (str : List Char) : List Char × List Char :=
  let s1 := str.dropWhile is_space
  (s1.takeWhile (fun c => !is_space c),
   (s1.dropWhile (fun c => !is_space c)).dropWhile is_space)

/-- Split a string at every occurrence of `sep`. -/
def split_on (sep : Char) : List Char → List (List Char)
  | [] => [[]]
  | c :: cs =>
    if c = sep then [] :: split_on sep cs
    else match split_on sep cs with
      | [] => [[c]]
      | w :: ws => (c :: w) :: ws

/-- A non-empty string of decimal digits, read as a number. -/
def parse_nat (w : List Char) : Option Nat :=
  if w ≠ [] ∧ w.all Char.isDigit = true then
    some (w.foldl (fun acc c => acc * 10 + (c.toNat - '0'.toNat)) 0)
  else none

/-- Modelled from the spec: `IPAddressArg::parse` of the missing `args.cc` on
the grammar's `IPv4`, four decimal bytes separated by dots. -/
def parse_ip (w : List Char) : Option Nat :=
  match (split_on '.' w).map parse_nat with
  | [some a, some b, some c, some d] =>
    if a ≤ 255 ∧ b ≤ 255 ∧ c ≤ 255 ∧ d ≤ 255 then
      some (a * 2 ^ 24 + b * 2 ^ 16 + c * 2 ^ 8 + d)
    else none
  | _ => none

/-- The netmask of a prefix length, `IPAddress:: make_prefix`. -/
def make_prefix (len : Nat) : Nat := 2 ^ 32 - 2 ^ (32 - len)

/-- Modelled from the spec: `IPPrefixArg(true).parse` of the missing `args.cc`
on the grammar's `PREFIX := IPv4 '/' (mask-length | dotted-mask)`; the
argument `true` of the source admits a bare address, read as a `/32`. -/
def parse_prefix_arg (w : List Char) : Option (Nat × Nat) :=
  match split_on '/' w with
  | [a] => (parse_ip a).map fun addr => (addr, make_prefix 32)
  | [a, m] =>
    match parse_ip a with
    | none => none
    | some addr =>
      match parse_nat m with
      | some len => if len ≤ 32 then some (addr, make_prefix len) else none
      | none => (parse_ip m).map fun mask => (addr, mask)
  | _ => none

/-- Modelled from the spec: `IntArg::parse` of the missing `args.cc` into an
`int`, on the grammar's `decimal-integer` with an optional sign. -/
def parse_int (w : List Char) : Option Int :=
  let v : Option Int := match w with
    | '-' :: ds => (parse_nat ds).map fun n => -(n : Int)
    | '+' :: ds => (parse_nat ds).map fun n => (n : Int)
    | ds => (parse_nat ds).map fun n => (n : Int)
  match v with
  | some i => if -2 ^ 31 ≤ i ∧ i < 2 ^ 31 then some i else none
  | none => none

/-- The body of `cp_ip_route_mpath` from the label `next_pair` on, with the
current `word` and the rest `s` of the input.  Every pass consumes a word, so
`fuel` above the length of the input is never exhausted. -/
def next_pair (remove_route : Bool) : Nat → IPRouteMPath → List Char → List Char →
    Option IPRouteMPath
  | 0, _, _, _ => none
  | fuel + 1, r, word, s =>
    let gw_word : Nat × List Char × List Char :=
      if word = ['-'] then (0, (cp_shift_spacevec s).1, (cp_shift_spacevec s).2)
      else match parse_ip word with
        | some g => (g, (cp_shift_spacevec s).1, (cp_shift_spacevec s).2)
        | none => (0, word, s)
    let gw := gw_word.1
    let word := gw_word.2.1
    let s := gw_word.2.2
    let port : Option Int := match parse_int word with
      | some p => some p
      | none => if word = [] ∧ remove_route = true then some (-1) else none
    match port with
    | none => none
    | some port =>
      let r := if port > -1 then { r with gwports := r.gwports ++ [⟨gw, port⟩] } else r
      let word := (cp_shift_spacevec s).1
      let s := (cp_shift_spacevec s).2
      if word ≠ [] then next_pair remove_route fuel r word s else some r

/-- `cp_ip_route_mpath(s, r_store, remove_route, context)`: the stored route,
or `none` for `false`. -/
def cp_ip_route_mpath (s : List Char) (remove_route : Bool) : Option IPRouteMPath :=
  match parse_prefix_arg (cp_shift_spacevec s).1 with
  | none => none
  | some (addr, mask) =>
    let s := (cp_shift_spacevec s).2
    next_pair remove_route (s.length + 1)
      { addr := addr &&& mask, mask := mask, gwports := [], extra := 0 }
      (cp_shift_spacevec s).1 (cp_shift_spacevec s).2

/-- Modelled from the spec: `IPAddress::unparse` of the missing
`ipaddress.cc`, the dotted quad. -/
def unparse_ip (a : Nat) : List Char :=
  Nat.toDigits 10 (a / 2 ^ 24 % 256) ++ ['.'] ++ Nat.toDigits 10 (a / 2 ^ 16 % 256) ++ ['.'] ++
  Nat.toDigits 10 (a / 2 ^ 8 % 256) ++ ['.'] ++ Nat.toDigits 10 (a % 256)

/-- The length of the prefix whose netmask is `mask`, if there is one
(`IPAddress::mask_to_prefix_len`). -/
def mask_to_prefix_len (mask : Nat) : Option Nat :=
  (List.range 33).find? fun len => decide ( make_prefix len = mask)

/-- Modelled from the spec: `IPAddress::unparse_with_mask` of the missing
`ipaddress.cc`, `ADDR/MASK` with the prefix length where the mask has one. -/
def unparse_with_mask (addr mask : Nat) : List Char :=
  match mask_to_prefix_len mask with
  | some len => unparse_ip addr ++ ['/'] ++ Nat.toDigits 10 len
  | none => unparse_ip addr ++ ['/'] ++ unparse_ip mask

/-- The decimal text of an `int`. -/
def unparse_int (i : Int) : List Char :=
  if i < 0 then '-' :: Nat.toDigits 10 i.natAbs else Nat.toDigits 10 i.natAbs

/-- The hop loop of `IPRouteMPath::unparse`. -/
def unparse_hops (tab : Char) : Bool → List GWPort → List Char
  | _, [] => []
  | first, gp :: gps =>
    (if first then [] else [' ']) ++
    (if gp.gw ≠ 0 then unparse_ip gp.gw ++ [tab] else ['-', tab]) ++
    unparse_int gp.port ++ unparse_hops tab false gps

/-- `IPRouteMPath::unparse(sa, tabs)` on an accumulator that is empty or ends
a line: the text appended. -/
def IPRouteMPath.unparse (r : IPRouteMPath) (tabs : Bool) : List Char :=
  let tab := if tabs then '\t' else ' '
  let head := unparse_with_mask r.addr r.mask ++ [tab]
  let head := if head.length < 17 ∧ tabs = true then head ++ ['\t'] else head
  if r.real = false then head ++ ['-', '1'] else head ++ unparse_hops tab true r.gwports

/-- The first loop of `dump_routes`,
`for (j = _vfree; j >= 0; j = _v[j].extra) _v[j].kill()`; `none` when `fuel`
runs out before the walk reaches a negative link. -/
def kill_loop : Nat → List IPRouteMPath → Int → Option (List IPRouteMPath)
  | 0, v, j => if j < 0 then some v else none
  | fuel + 1, v, j =>
    if j < 0 then some v
    else kill_loop fuel (v.set j.toNat (v.getD j.toNat default).kill)
      (v.getD j.toNat default).extra

/-- The second loop of `dump_routes`: one line for every real slot. -/
def dump_lines : List IPRouteMPath → List Char
  | [] => []
  | r :: rs => (if r.real then r.unparse true ++ ['\n'] else []) ++ dump_lines rs

/-- `RadixIPLookupMPath::dump_routes`: the text and the table, whose free
slots the call has killed.  A free list without a cycle is walked in at most
`_v.size()` steps. -/
def dump_routes (t : Table) : Option (List Char × Table) :=
  (kill_loop t._v.length t._v t._vfree).map fun v => (dump_lines v, { t with _v := v })

/-! ## The command interpreter -/

/-- How a handler ends: it returns, it dies on a failed assertion, or the
bound on the number of loop passes is used up. -/
inductive Outcome (α : Type) where
  | done (a : α) : Outcome α
  | abort : Outcome α
  | out_of_fuel : Outcome α

/-- `IPRouteTableMPath::run_command(command, str, old_routes, errh)`: the
return code, the table and the undo log; `none` is a failed assertion.
`errh->error` returns `-EINVAL`. -/
def run_command (junk : Nat) (t : Table) (command : Int) (str : List Char)
    (old_routes : Option (List IPRouteMPath)) :
    Option (Int × Table × Option (List IPRouteMPath)) :=
  match cp_ip_route_mpath str (decide (command = CMD_REMOVE)) with
  | none => some (-EINVAL, t, old_routes)
  | some route =>
    let call : Option CallResult :=
      if command = CMD_ADD then add_route junk t route false
      else if command = CMD_SET then add_route junk t route true
      else some (remove_route t route)
    match call with
    | none => none
    | some res =>
      let old_route : IPRouteMPath := res.old_route.getD default
      let log := match old_routes with
        | some l =>
          if res.ret ≥ 0 then
            some (l ++ [if old_route.gwports.isEmpty then { route with extra := CMD_ADD }
                        else { old_route with extra := command }])
          else some l
        | none => none
      some (res.ret, res.table, log)

/-- The `rollback:` loop of `ctrl_handler` over the undo log, last record
first; `none` is a failed assertion. -/
def rollback (junk : Nat) : List IPRouteMPath → Table → Option Table
  | [], t => some t
  | rt :: older, t =>
    if rt.extra = CMD_REMOVE then
      match add_route junk t rt false with
      | some res => rollback junk older res.table
      | none => none
    else if rt.extra = CMD_ADD then rollback junk older (remove_route t rt).table
    else
      match add_route junk t rt true with
      | some res => rollback junk older res.table
      | none => none

/-- The offset of the first `c` at or after offset `s`, else the length:
`find(s, end, c)`. -/
def find_char (conf : List Char) (s : Nat) (c : Char) : Nat :=
  s + ((conf.drop s).takeWhile (fun d => d ≠ c)).length

/-- The exit through `rollback:` with return code `r`. -/
def ctrl_rollback (junk : Nat) (t : Table) (old_routes : List IPRouteMPath) (r : Int) :
    Outcome (Int × Table) :=
  match rollback junk old_routes.reverse t with
  | some t1 => Outcome.done (r, t1)
  | none => Outcome.abort

/-- The command a first word selects in `ctrl_handler`: `add`, `remove`,
`set` or `setm`; `none` for anything else. -/
def command_of (first_word : List Char) : Option Int :=
  if first_word = "add".toList then some CMD_ADD
  else if first_word = "remove".toList then some CMD_REMOVE
  else if first_word = "set".toList ∨ first_word = "setm".toList then some CMD_SET
  else none

/-- The loop `while (s < end)` of `ctrl_handler` and what follows it, from
offset `s` of `conf`; `fuel` bounds the number of passes. -/
def ctrl_loop (junk : Nat) (conf : List Char) :
    Nat → Table → Nat → List IPRouteMPath → Outcome (Int × Table)
  | 0, _, _, _ => Outcome.out_of_fuel
  | fuel + 1, t, s, old_routes =>
    if s < conf.length then
      let nl := find_char conf s '\n'
      let line := (conf.drop s).take (nl - s)
      let first_word := (cp_shift_spacevec line).1
      let line := (cp_shift_spacevec line).2
      match command_of first_word with
      | none =>
        if first_word = [] then ctrl_loop junk conf fuel t s old_routes
        else ctrl_rollback junk t old_routes (-EINVAL)
      | some command =>
        match run_command junk t command line (some old_routes) with
        | none => Outcome.abort
        | some (r, t1, log) =>
          if r < 0 then ctrl_rollback junk t1 (log.getD []) r
          else ctrl_loop junk conf fuel t1 (nl + 1) (log.getD [])
    else Outcome.done (0, t)

/-- `IPRouteTableMPath::ctrl_handler` on `conf`, the text `cp_uncomment`
returns for the handler's input. -/
def ctrl_handler (junk : Nat) (fuel : Nat) (t : Table) (conf : List Char) :
    Outcome (Int × Table) :=
  ctrl_loop junk conf fuel t 0 []

/-! ## Node-level facts: reads and writes of keys -/

/-- The node is allocated (the pointer is not null). -/
def is_node : Radix → Prop
  | Radix.null => False
  | Radix.node _ _ _ => True

/-- The child pointer `_children[b].child` of a node. -/
def child_of : Radix → Nat → Radix
  | Radix.null, _ => Radix.null
  | Radix.node _ cc _, b => cc b

/-- The value a key has after the propagation step has passed over it. -/
def repl (replace_key key v : Nat) : Nat := if v = replace_key then key else v

/-- The position `y` lies in the subtree of the implicit binary tree rooted at
`i`: `i` is reached from `y` by halving. -/
def in_subtree (i y : Nat) : Prop := ∃ d, y / 2 ^ d = i

/-! ## The keys a node holds, as a function of the keys its positions own -/

/-- The key a heap position shows when the positions own the keys `O`: its
own key if it has one, else what its parent shows; the two top positions have
no parent. -/
def inh (O : Nat → Nat) (i : Nat) : Nat :=
  if O i ≠ 0 then O i else if 3 < i then inh O (i / 2) else 0
termination_by i
decreasing_by omega

/-! ## The whole trie as an assignment of own keys to positions -/

/-- The bucket index of `addr` at a level, as `change` and `lookup` compute it. -/
def bucket (addr level : Nat) : Nat := (addr >>> _bitshift level) &&& (_nbuckets level - 1)

/-- The position `change` reaches for `(addr, mask)` when started at `level`:
the buckets it descends through and the heap position in the last node. -/
def pos_of : Nat → Nat → Nat → Nat → List Nat × Nat
  | 0, _, _, _ => ([], 0)
  | fuel + 1, addr, mask, level =>
    if mask &&& ((1 <<< _bitshift level) - 1) ≠ 0 then
      (bucket addr level :: (pos_of fuel addr mask (level + 1)).1,
        (pos_of fuel addr mask (level + 1)).2)
    else
      ([], halve_loop (_nbuckets level - ((mask >>> _bitshift level) &&& (_nbuckets level - 1)))
        (_nbuckets level - ((mask >>> _bitshift level) &&& (_nbuckets level - 1)))
        (_nbuckets level + bucket addr level))

/-- An assignment of own keys: node (the buckets on the way to it), heap
position, key; zero for no key. -/
abbrev Own := List Nat → Nat → Nat

/-- The assignment with the key of one position replaced. -/
def Own.update (O : Own) (path : List Nat) (i v : Nat) : Own :=
  fun p j => if p = path ∧ j = i then v else O p j

/-- The number of address bits not yet consumed above a level. -/
def top_bit (level : Nat) : Nat := [32, 16, 12, 8, 4].getD level 0

/-- The subtree under `r`, the node reached through `path`, holds exactly the
keys that the own keys `O` make its positions show. -/
inductive Rep (O : Own) : Radix → List Nat → Nat → Prop
  | null (path : List Nat) (level : Nat) :
      (∀ suffix i, O (path ++ suffix) i = 0) → Rep O Radix.null path level
  | node (ck : Nat → Nat) (cc : Nat → Radix) (inner : Nat → Nat) (path : List Nat) (level : Nat) :
      level ≤ 4 →
      (∀ y, 2 ≤ y → y < _nbuckets level * 2 →
        key_for (Radix.node ck cc inner) y level = inh (O path) y) →
      (∀ b, Rep O (cc b) (path ++ [b]) (level + 1)) →
      Rep O (Radix.node ck cc inner) path level

/-! ## The descent of `lookup` in terms of own keys -/

/-- The key the descent ends with when the trie holds the own keys `O`:
level by level, the key the leaf position of the address shows, if any,
replaces the current one. -/
def lk (O : Own) (addr : Nat) : Nat → Nat → List Nat → Nat → Nat
  | 0, _, _, cur => cur
  | fuel + 1, level, path, cur =>
    lk O addr fuel (level + 1) (path ++ [bucket addr level])
      (if inh (O path) (_nbuckets level + bucket addr level) ≠ 0
        then inh (O path) (_nbuckets level + bucket addr level) else cur)

/-! ## The path-set pool -/

/-- The pool entry a path set of at most seven hops is stored as. -/
def arr_of (gwports : List GWPort) : GWPortArr := ⟨gwports.length, gwports⟩

/-- Every entry of the pool records as its length the number of hops written. -/
def PoolSane (pool : List GWPortArr) : Prop := ∀ c ∈ pool, c.length = c.data.length

/-! ## The invariant of the table -/

/-- The free list: `F` lists the slots reached from the head `j` through the
`extra` links, and the walk ends in `-1`. -/
inductive FreeChain (v : List IPRouteMPath) : Int → List Nat → Prop
  | nil : FreeChain v (-1) []
  | cons (f : Nat) (F : List Nat) : f < v.length →
      FreeChain v (v.getD f default).extra F → FreeChain v (f : Int) (f :: F)

/-- The place a route's key is kept: the position `change` reaches for its
prefix, or `none` for the default key when the mask is zero. -/
def gpos (r : IPRouteMPath) : Option (List Nat × Nat) :=
  if r.mask ≠ 0 then some (pos_of 5 r.addr r.mask 0) else none

/-- The key kept at a place: the default key, or the own key of a position. -/
def keyG (dk : Nat) (O : Own) : Option (List Nat × Nat) → Nat
  | none => dk
  | some q => O q.1 q.2

/-- The combined key of the route in slot `i`: its path key and `i + 1`. -/
def slot_key (t : Table) (i : Nat) : Nat :=
  find_lookup_key t._lookup (t._v.getD i default).gwports * 2 ^ 24 + (i + 1)

/-- A canonical prefix with a contiguous mask: `addr & ~mask == 0`. -/
def PrefixOK (r : IPRouteMPath) : Prop :=
  r.addr < 2 ^ 32 ∧ (∃ len, len ≤ 32 ∧ r.mask = make_prefix len) ∧ r.addr &&& r.mask = r.addr

/-- A canonical prefix with a path set of one to seven hops. -/
def RouteOK (r : IPRouteMPath) : Prop :=
  PrefixOK r ∧ 1 ≤ r.gwports.length ∧ r.gwports.length ≤ 7

/-- The invariant, with its witnesses: the own keys `O` the trie holds and
the free list `F`. -/
structure InvW (t : Table) (O : Own) (F : List Nat) : Prop where
  chain : FreeChain t._v t._vfree F
  nodup : F.Nodup
  rep : Rep O t._radix [] 0
  node : is_node t._radix
  keys : ∀ g, keyG t._default_key O g ≠ 0 →
    ∃ i, i < t._v.length ∧ i ∉ F ∧ gpos (t._v.getD i default) = g
  live : ∀ i, i < t._v.length → i ∉ F →
    keyG t._default_key O (gpos (t._v.getD i default)) = slot_key t i ∧
    RouteOK (t._v.getD i default) ∧
    find_lookup_key t._lookup (t._v.getD i default).gwports ≠ 0
  vsize : t._v.length ≤ 0x00ffffff
  psize : t._lookup.length ≤ 0xff
  sane : PoolSane t._lookup

/-! ## Prefixes and positions -/

/-- `i` halved `e` times, as the halving loop of `change` does. -/
def halves : Nat → Nat → Nat
  | 0, i => i
  | e + 1, i => halves e (i / 2)

/-- The buckets an address selects on the way to the node of a level. -/
def apath (a : Nat) : Nat → List Nat
  | 0 => []
  | level + 1 => apath a level ++ [bucket a level]

/-- The level whose node holds prefixes of length `len`. -/
def cand_level (len : Nat) : Nat :=
  if len ≤ 16 then 0 else if len ≤ 20 then 1 else if len ≤ 24 then 2 else if len ≤ 28 then 3 else 4

/-- The position of the prefix of length `len` that contains the address `a`. -/
def cand (a len : Nat) : List Nat × Nat :=
  (apath a (cand_level len),
    halves (16 + 4 * cand_level len - len)
      (_nbuckets (cand_level len) + bucket a (cand_level len)))

/-- The buckets of levels `s`, `s + 1`, ... (`cnt` of them). -/
def bpath (a : Nat) : Nat → Nat → List Nat
  | _, 0 => []
  | s, cnt + 1 => bucket a s :: bpath a (s + 1) cnt

/-- The route's prefix contains the address: `(a & mask) == addr`. -/
def contains (r : IPRouteMPath) (a : Nat) : Prop := a &&& r.mask = r.addr

instance (r : IPRouteMPath) (a : Nat) : Decidable (contains r a) := by
  unfold contains; infer_instance

/-! ## The descent finds the longest prefix that holds a key -/

/-- The first non-zero value of `f` along a list, else `cur`. -/
def firstnz {α : Type} (f : α → Nat) (cur : Nat) : List α → Nat
  | [] => cur
  | x :: xs => if f x ≠ 0 then f x else firstnz f cur xs

/-- The key of the longest prefix of length at most `len` that holds one,
else `cur`. -/
def bestL (f : Nat → Nat) (cur : Nat) : Nat → Nat
  | 0 => cur
  | len + 1 => if f (len + 1) ≠ 0 then f (len + 1) else bestL f cur len

/-- A leaf position and the positions above it, `s` in all. -/
def leaf_chain : Nat → Nat → List Nat
  | 0, _ => []
  | s + 1, i => i :: leaf_chain s (i / 2)

/-! ## Longest-prefix match on a table that satisfies the invariant -/

/-- Hop `hash mod n` of a path set of `n` hops: the port and the gateway. -/
def hop_of (gws : List GWPort) (hash : Nat) : Int × Nat :=
  ((gws.getD (hash % gws.length) default).port, (gws.getD (hash % gws.length) default).gw)

/-! ## Reachable tables -/

/-- The walk along the free list from the head `j` through the `extra`
links, for at most `fuel` steps: the slots visited. -/
def free_slots : Nat → List IPRouteMPath → Int → List Nat
  | 0, _, _ => []
  | fuel + 1, v, j =>
    if j < 0 then [] else j.toNat :: free_slots fuel v (v.getD j.toNat default).extra

/-- The free list of a table: the slots reached from `_vfree`. -/
def free_list (t : Table) : List Nat := free_slots t._v.length t._v t._vfree

/-- Slot `i` of the arena holds a route: it is not on the free list. -/
def is_live (t : Table) (i : Nat) : Prop := i < t._v.length ∧ i ∉ free_list t

/-- A route with this prefix is installed. -/
def installed (t : Table) (addr mask : Nat) : Prop :=
  ∃ i, is_live t i ∧ (t._v.getD i default).addr = addr ∧ (t._v.getD i default).mask = mask

/-- The tables reached from the constructor's state by calls of `add_route`
(add or set) with a canonical prefix and one to seven hops, calls of
`remove_route`, and `flush_table`. -/
inductive Reachable : Table → Prop
  | init : Reachable Table.init
  | add (junk : Nat) (t : Table) (route : IPRouteMPath) (set : Bool) (res : CallResult) :
      Reachable t → RouteOK route → add_route junk t route set = some res →
      Reachable res.table
  | remove (t : Table) (route : IPRouteMPath) :
      Reachable t → route.mask < 2 ^ 32 → Reachable (remove_route t route).table
  | flush (t : Table) : Reachable t → Reachable (flush_table t)

/-! ## Consequences of the invariant used by the claims -/

instance (t : Table) (i : Nat) : Decidable (is_live t i) := by
  unfold is_live; infer_instance

/-- The call of `add_route` meets the two assertions of `combine_key`: the
reserved slot index and the path key fit their fields. -/
def has_room (t : Table) (route : IPRouteMPath) : Prop :=
  found_slot t + 1 ≤ 0x00ffffff ∧
  (find_lookup_key t._lookup route.gwports ≠ 0 ∨ t._lookup.length < 0xff)

/-! ## Concrete tables for the examples -/

instance (t : Table) (route : IPRouteMPath) : Decidable (has_room t route) := by
  unfold has_room; infer_instance

/-- The result of a call that returned; a call that died leaves the table of
the constructor. -/
def res_of (o : Option CallResult) : CallResult :=
  o.getD { ret := 0, table := Table.init, old_route := none }

/-- The address `a.b.c.d`. -/
def ip (a b c d : Nat) : Nat := a * 2 ^ 24 + b * 2 ^ 16 + c * 2 ^ 8 + d

/-- The route `10.1.0.0/16 - 1`. -/
def route_16 : IPRouteMPath := ⟨ip 10 1 0 0, make_prefix 16, [⟨0, 1⟩], 0⟩

/-- The route `10.1.0.0/16 - 2`. -/
def route_16_b : IPRouteMPath := ⟨ip 10 1 0 0, make_prefix 16, [⟨0, 2⟩], 0⟩

/-- The route `10.1.2.0/24 - 2 - 3`, with two hops. -/
def route_24 : IPRouteMPath := ⟨ip 10 1 2 0, make_prefix 24, [⟨0, 2⟩, ⟨0, 3⟩], 0⟩

/-- The table after `add 10.1.0.0/16 - 1`. -/
def table_16 : Table := (res_of (add_route 0 Table.init route_16 false)).table

/-- The table after `add 10.1.0.0/16 - 1` and `add 10.1.2.0/24 - 2 - 3`. -/
def table_16_24 : Table := (res_of (add_route 0 table_16 route_24 false)).table

/-- The Boolean test for an allocated node. -/
def is_node_b : Radix → Bool
  | Radix.null => false
  | Radix.node _ _ _ => true

/-! ### A table whose pool is full -/

/-- The default route with port `1000 + i`. -/
def fill_route (i : Nat) : IPRouteMPath := ⟨0, 0, [⟨0, 1000 + (i : Int)⟩], 0⟩

/-- `k` calls `set 0.0.0.0/0 - (1000 + i)`, for `i` counting up. -/
def fill_from : Nat → Table → Nat → Option Table
  | 0, t, _ => some t
  | k + 1, t, i =>
    match add_route 0 t (fill_route i) true with
    | some res => fill_from k res.table (i + 1)
    | none => none

/-- The table after `add 10.1.0.0/16 - 1` and 254 replacements of the default
route, each with a new path set: its pool holds 255 path sets. -/
def full_table : Table := (fill_from 254 table_16 0).getD Table.init

/-- The facts about `full_table` that one evaluation establishes. -/
def full_check : Bool :=
  match fill_from 254 table_16 0 with
  | some t =>
    decide (t._lookup.length = 255) &&
    decide (find_lookup_key t._lookup route_16_b.gwports = 0) &&
    decide (is_live t 0) &&
    decide ((t._v.getD 0 default).addr = route_16_b.addr) &&
    decide ((t._v.getD 0 default).mask = route_16_b.mask)
  | none => false

/-! ### The command interpreter on concrete scripts -/

/-- The return code of a handler call that returned. -/
def outcome_ret : Outcome (Int × Table) → Option Int
  | Outcome.done (r, _) => some r
  | _ => none

/-- The text `dump_routes` gives on the table a handler call left behind. -/
def outcome_dump : Outcome (Int × Table) → Option (List Char)
  | Outcome.done (_, t) => (dump_routes t).map Prod.fst
  | _ => none

/-- The line of `conf` that starts at offset `s`. -/
def line_at (conf : List Char) (s : Nat) : List Char :=
  (conf.drop s).take (find_char conf s '\n' - s)

/-- The route `10.0.0.0/16 - 1`. -/
def route_a : IPRouteMPath := ⟨ip 10 0 0 0, make_prefix 16, [⟨0, 1⟩], 0⟩

/-- The route `11.0.0.0/16 192.168.1.1 2`. -/
def route_b : IPRouteMPath := ⟨ip 11 0 0 0, make_prefix 16, [⟨ip 192 168 1 1, 2⟩], 0⟩

/-- The table after `add 10.0.0.0/16 - 1` and `add 11.0.0.0/16 192.168.1.1 2`. -/
def table_a_b : Table :=
  (res_of (add_route 0 (res_of (add_route 0 Table.init route_a false)).table route_b false)).table

/-- A batch whose last line is an unknown command; its second line installs
`12.0.0.0/16` with no hop. -/
def script_hopless : List Char :=
  "remove 10.0.0.0/16\nadd 12.0.0.0/16 -1\nset 12.0.0.0/16 - 3\nbogus".toList

/-- A batch with a blank second line. -/
def script_blank : List Char := "add 10.1.0.0/16 - 1\n\nadd 10.2.0.0/16 - 2".toList

/-- The batch `script_blank` without its blank line. -/
def script_no_blank : List Char := "add 10.1.0.0/16 - 1\nadd 10.2.0.0/16 - 2".toList

/-- A batch with a blank second line and an unknown command after it. -/
def script_blank_bogus : List Char := "add 10.1.0.0/16 - 1\n\nbogus".toList

/-! ## Interning of path sets -/

/-- The path key `add_route` obtains for `gwports` and the pool it commits:
`find_lookup_key`, then `_lookup.size() + 1` and a new entry when nothing
matches. -/
def intern (junk : Nat) (pool : List GWPortArr) (gwports : List GWPort) :
    Nat × List GWPortArr :=
  let lk := find_lookup_key pool gwports
  let lookup_key := if lk = 0 then pool.length + 1 else lk
  (lookup_key,
    if lookup_key = pool.length + 1 then pool ++ [collect junk gwports] else pool)

/-- The entry agrees with the path set: same size, same hops. -/
def entry_matches (c : GWPortArr) (gs : List GWPort) : Prop :=
  c.length = gs.length ∧ arr_match c gs = true

/-! ## The keys the table stores -/

/-- The node reached from `r` through the child pointers of the buckets in
`path`. -/
def node_at : Radix → List Nat → Radix
  | r, [] => r
  | r, b :: bs => node_at (child_of r b) bs

/-- A place where the table keeps a combined key: `none` is `_default_key`,
`some (path, i)` is the heap position `i`, `2 <= i < 2 * n`, of the node
reached through the buckets `path`. -/
def place_ok : Option (List Nat × Nat) → Prop
  | none => True
  | some q => q.1.length ≤ 4 ∧ 2 ≤ q.2 ∧ q.2 < _nbuckets q.1.length * 2

/-- The combined key stored at a place: `_default_key`, or `key_for` of the
node. -/
def stored_key (t : Table) : Option (List Nat × Nat) → Nat
  | none => t._default_key
  | some q => key_for (node_at t._radix q.1) q.2 q.1.length

/-- Some non-zero key stored in the trie or in `_default_key` decodes to the
route key of slot `i`. -/
def named (t : Table) (i : Nat) : Prop :=
  ∃ g, place_ok g ∧ stored_key t g ≠ 0 ∧ get_key (stored_key t g) = i + 1

/-- The table after `add 10.1.0.0/16 - 1`, `add 10.1.2.0/24 - 2 - 3` and
`remove 10.1.0.0/16`: slot 0 is free, slot 1 holds a route. -/
def table_24_only : Table := (remove_route table_16_24 route_16).table

/-! ## The packet path -/

/-- Modelled from the spec: the values of `_mode`, an enum of the missing
`iproutetablempath.hh`; the spec names the modes `SINGLE`, `ADDR`, `PORT` and
`PACKET`. -/
inductive Mode where
  | SINGLE : Mode
  | ADDR : Mode
  | PORT : Mode
  | PACKET : Mode
  deriving DecidableEq, Repr

/-- What `calc_hash` and `process` read of a packet: the source and
destination address and the protocol of the IP header, whether the packet is a
first fragment (`IP_FIRSTFRAG`), the 16-bit words at offsets 0 and 2 of the
transport header, and the destination address annotation (in host byte order,
as `lookup_route` reads it). -/
structure Packet where
  ip_src : Nat
  ip_dst : Nat
  ip_p : Nat
  first_frag : Bool
  th_word0 : Nat
  th_word1 : Nat
  dst_ip_anno : Nat
  deriving DecidableEq, Repr

/-- The protocol number of TCP. -/
def IP_PROTO_TCP : Nat := 6

/-- The protocol number of UDP. -/
def IP_PROTO_UDP : Nat := 17

/-- The six steps of the integer hash at the end of `calc_hash`, in
`uint32_t` arithmetic. -/
def hash_mix (a0 : Nat) : Nat :=
  let a := ((a0 + 0x7ed55d16) + (a0 <<< 12)) % 2 ^ 32
  let a := (a ^^^ 0xc761c23c) ^^^ (a >>> 19)
  let a := ((a + 0x165667b1) + (a <<< 5)) % 2 ^ 32
  let a := ((a + 0xd3a2646c) % 2 ^ 32) ^^^ ((a <<< 9) % 2 ^ 32)
  let a := ((a + 0xfd7046c5) + (a <<< 3)) % 2 ^ 32
  (a ^^^ 0xb55a4f09) ^^^ (a >>> 16)

/-- `IPRouteTableMPath::calc_hash(p)` for the mode `mode` and the salt `salt`;
`rnd` is the value `click_random()` returns. -/
def calc_hash (mode : Mode) (salt rnd : Nat) (p : Packet) : Nat :=
  if mode = Mode.SINGLE then 0
  else if mode = Mode.ADDR ∨ mode = Mode.PORT then
    let a := ((p.ip_src * 59) % 2 ^ 32) ^^^ p.ip_dst
    let a := a ^^^ salt
    let a := if mode = Mode.PORT ∧ p.first_frag = true ∧
        (p.ip_p = IP_PROTO_TCP ∨ p.ip_p = IP_PROTO_UDP) then
        (a ^^^ p.th_word0) ^^^ ((p.th_word1 <<< 16) % 2 ^ 32)
      else a
    hash_mix a
  else rnd

/-- `IPRouteTableMPath::process(p)` on an element with `noutputs` outputs: the
port returned and the packet with its annotation; `none` is the failed
assertion `port < noutputs()`. -/
def process (mode : Mode) (salt rnd : Nat) (noutputs : Int) (t : Table) (p : Packet) :
    Option (Int × Packet) :=
  let res := lookup_route t p.dst_ip_anno (calc_hash mode salt rnd p)
  if res.1 ≥ 0 then
    if res.1 < noutputs then
      some (res.1, if res.2 ≠ 0 then { p with dst_ip_anno := res.2 } else p)
    else none
  else some (-1, p)

/-- The route `10.0.0.0/24 - 1 - 2 - 3`. -/
def route_3hops : IPRouteMPath :=
  ⟨ip 10 0 0 0, make_prefix 24, [⟨0, 1⟩, ⟨0, 2⟩, ⟨0, 3⟩], 0⟩

/-- The table after `add 10.0.0.0/24 - 1 - 2 - 3`. -/
def table_3hops : Table := (res_of (add_route 0 Table.init route_3hops false)).table

/-- A TCP packet from `192.168.0.1` port 1234 to `10.0.0.77` port 80. -/
def packet_a : Packet :=
  ⟨ip 192 168 0 1, ip 10 0 0 77, 6, true, 1234, 80, ip 10 0 0 77⟩

/-- The packet `packet_a` with its two ports swapped. -/
def packet_b : Packet :=
  ⟨ip 192 168 0 1, ip 10 0 0 77, 6, true, 80, 1234, ip 10 0 0 77⟩

/-! ## The parser and routes without hops; the cap of the pool -/

/-- The route `10.2.0.0/16 - 2`, a prefix that `full_table` does not hold. -/
def route_new : IPRouteMPath := ⟨ip 10 2 0 0, make_prefix 16, [⟨0, 2⟩], 0⟩

/-- The expression `(lookup_key << 24) | key` that `combine_key` returns, as
a 32-bit pattern: what a build with the assertions compiled out (`NDEBUG`)
computes for any arguments. -/
def combine_key_unchecked (key lookup_key : Nat) : Nat :=
  ((lookup_key <<< 24) ||| key) % 2 ^ 32

/-! ## Decimal text -/

/-- The number a string of decimal digits stands for, as `parse_nat` folds it. -/
def digits_value (w : List Char) : Nat :=
  w.foldl (fun acc c => acc * 10 + (c.toNat - '0'.toNat)) 0

/-! ## Words -/

/-- The string is empty or begins with white space. -/
def at_space (rest : List Char) : Prop := rest = [] ∨ ∃ c r, rest = c :: r ∧ is_space c = true

/-! ## Parsing the text of a route -/

/-- The text `unparse` writes for one hop: the gateway or `-`, the tab, the
port. -/
def hop_text (tab : Char) (gp : GWPort) : List Char :=
  (if gp.gw ≠ 0 then unparse_ip gp.gw ++ [tab] else ['-', tab]) ++ unparse_int gp.port

/-- A hop as `unparse` and the parser can carry it: a 32-bit gateway and a
port that is a non-negative `int`. -/
def HopOK (g : GWPort) : Prop := g.gw < 2 ^ 32 ∧ 0 ≤ g.port ∧ g.port < 2 ^ 31

/-- The route `10.1.2.0/24 - 2 192.168.1.1 3`. -/
def route_gw : IPRouteMPath :=
  ⟨ip 10 1 2 0, make_prefix 24, [⟨0, 2⟩, ⟨ip 192 168 1 1, 3⟩], 0⟩

/-! ## The hash, in the words of the specification -/

/-- Addition taken mod `2^32`. -/
def add32 (a b : Nat) : Nat := (a + b) % 2 ^ 32

/-- The left shift taken mod `2^32`. -/
def shl32 (a k : Nat) : Nat := (a <<< k) % 2 ^ 32

/-- The six steps of the 32-bit integer mix as the specification lists them,
every addition and left shift taken mod `2^32`. -/
def jenkins_mix (a0 : Nat) : Nat :=
  let a := add32 (add32 a0 0x7ed55d16) (shl32 a0 12)
  let a := (a ^^^ 0xc761c23c) ^^^ (a >>> 19)
  let a := add32 (add32 a 0x165667b1) (shl32 a 5)
  let a := (add32 a 0xd3a2646c) ^^^ (shl32 a 9)
  let a := add32 (add32 a 0xfd7046c5) (shl32 a 3)
  (a ^^^ 0xb55a4f09) ^^^ (a >>> 16)

/-- The flow key as the specification gives it: `((src * 59) xor dst) xor salt`,
and with `port_mode`, for a first-fragment TCP or UDP packet,
`xor w0 xor (w1 << 16)`. -/
def flow_key (port_mode : Bool) (salt : Nat) (p : Packet) : Nat :=
  let a := (((p.ip_src * 59) % 2 ^ 32) ^^^ p.ip_dst) ^^^ salt
  if port_mode = true ∧ p.first_frag = true ∧ (p.ip_p = 6 ∨ p.ip_p = 17) then
    (a ^^^ p.th_word0) ^^^ shl32 p.th_word1 16
  else a

/-- The number of passes of the loop `while (r)` of `Radix::lookup`. -/
def lookup_steps : Radix → Nat → Nat → Nat
  | Radix.null, _, _ => 0
  | Radix.node _ cc _, addr, level =>
    1 + lookup_steps (cc ((addr >>> _bitshift level) &&& (_nbuckets level - 1))) addr (level + 1)

/-- The route `10.1.2.3/32 - 9`. -/
def route_32 : IPRouteMPath := ⟨ip 10 1 2 3, make_prefix 32, [⟨0, 9⟩], 0⟩

/-- The table after `add 10.1.2.3/32 - 9`. -/
def table_32 : Table := (res_of (add_route 0 Table.init route_32 false)).table

/-! ## The position of a prefix -/

/-- The route `10.1.128.0/17 - 7`. -/
def route_17 : IPRouteMPath := ⟨ip 10 1 128 0, make_prefix 17, [⟨0, 7⟩], 0⟩

/-- The table after `add 10.1.128.0/17 - 7`. -/
def table_17 : Table := (res_of (add_route 0 Table.init route_17 false)).table

/-! ## `configure` and a failing batch -/

/-- The mode `configure` selects for its first argument; an unknown word
leaves `MODE_PACKET` and only warns. -/
def mode_of (mode : List Char) : Mode :=
  if mode = "single".toList then Mode.SINGLE
  else if mode = "addr".toList then Mode.ADDR
  else if mode = "port".toList then Mode.PORT
  else Mode.PACKET

/-- What `configure` leaves behind: the return code, the table, the mode and
the counter `eexist` that its warning prints. -/
structure ConfigResult where
  ret : Int
  table : Table
  mode : Option Mode
  eexist : Nat

/-- The loop `for (i = 1; i < conf.size(); i++)` of `configure` over the
route arguments still to read, with the table, `r` and `eexist` so far; `none`
is a failed assertion. -/
def configure_loop (junk : Nat) : List (List Char) → Table → Int → Nat →
    Option (Int × Table × Nat)
  | [], t, r, eexist => some (r, t, eexist)
  | arg :: rest, t, r, eexist =>
    match cp_ip_route_mpath arg false with
    | none => configure_loop junk rest t (-EINVAL) eexist
    | some route =>
      match add_route junk t route false with
      | none => none
      | some res =>
        if res.ret < 0 then
          if res.ret = -EEXIST then configure_loop junk rest res.table r (eexist + 1)
          else configure_loop junk rest res.table res.ret eexist
        else configure_loop junk rest res.table r eexist

/-- `IPRouteTableMPath::configure(conf, errh)`; `none` is a failed
assertion.  Without arguments the call returns -1 and sets no mode. -/
def configure (junk : Nat) (t : Table) (conf : List (List Char)) : Option ConfigResult :=
  match conf with
  | [] => some { ret := -1, table := t, mode := none, eexist := 0 }
  | mode :: args =>
    (configure_loop junk args t 0 0).map fun x =>
      { ret := x.1, table := x.2.1, mode := some (mode_of mode), eexist := x.2.2 }

/-- The route `10.0.0.0/8 - 1`. -/
def route_10_8 : IPRouteMPath := ⟨ip 10 0 0 0, make_prefix 8, [⟨0, 1⟩], 0⟩

/-- The table after `add 10.0.0.0/8 - 1`. -/
def table_10_8 : Table := (res_of (add_route 0 Table.init route_10_8 false)).table

/-- The batch `add 11.0.0.0/8 - 5`, `add 10.0.0.0/8 - 6`,
`remove 99.0.0.0/8`. -/
def script_batch : List Char :=
  "add 11.0.0.0/8 - 5\nadd 10.0.0.0/8 - 6\nremove 99.0.0.0/8".toList

/-- A configuration with the prefix `10.1.0.0/16` given twice. -/
def conf_twice : List (List Char) :=
  ["single".toList, "10.1.0.0/16 - 1".toList, "10.1.0.0/16 - 2".toList]

/-- What `configure` left, or the constructor's state for a call that
died. -/
def config_of (o : Option ConfigResult) : ConfigResult :=
  o.getD { ret := 0, table := Table.init, mode := none, eexist := 0 }

/-! ## Canonical routes -/

/-- The route is canonical: `addr & ~mask == 0`, on 32-bit values. -/
def Canonical (r : IPRouteMPath) : Prop := r.addr &&& (r.mask ^^^ 0xFFFFFFFF) = 0

instance (r : IPRouteMPath) : Decidable (Canonical r) := by
  unfold Canonical; infer_instance

/-- Every slot of the arena holds a canonical route. -/
def AllCanonical (t : Table) : Prop := ∀ r ∈ t._v, Canonical r

/-- The table a handler call left, or the constructor's state for a call
that died. -/
def table_of (o : Option (Int × Table × Option (List IPRouteMPath))) : Table :=
  (o.map fun x => x.2.1).getD Table.init

/-- The table states reached from the constructor's state through
`configure`, the `add`, `set` and `remove` handlers (calls of `run_command`
without an undo log), the `ctrl` handler, `add_route` with a canonical route,
`remove_route`, `flush_table` and `dump_routes`. -/
inductive HandlerReachable : Table → Prop
  | init : HandlerReachable Table.init
  | configure (junk : Nat) (t : Table) (conf : List (List Char)) (res : ConfigResult) :
      HandlerReachable t → configure junk t conf = some res → HandlerReachable res.table
  | handler (junk : Nat) (t : Table) (command : Int) (str : List Char) (r : Int) (t1 : Table)
      (log : Option (List IPRouteMPath)) :
      HandlerReachable t → run_command junk t command str none = some (r, t1, log) →
      HandlerReachable t1
  | ctrl (junk fuel : Nat) (t : Table) (conf : List Char) (r : Int) (t1 : Table) :
      HandlerReachable t → ctrl_handler junk fuel t conf = Outcome.done (r, t1) →
      HandlerReachable t1
  | add (junk : Nat) (t : Table) (route : IPRouteMPath) (set : Bool) (res : CallResult) :
      HandlerReachable t → Canonical route → add_route junk t route set = some res →
      HandlerReachable res.table
  | remove (t : Table) (route : IPRouteMPath) :
      HandlerReachable t → HandlerReachable (remove_route t route).table
  | flush (t : Table) : HandlerReachable t → HandlerReachable (flush_table t)
  | dump (t : Table) (text : List Char) (t1 : Table) :
      HandlerReachable t → dump_routes t = some (text, t1) → HandlerReachable t1

/-- The route `10.1.0.1/16 - 1`, whose address has bits outside its mask. -/
def route_host_bits : IPRouteMPath := ⟨ip 10 1 0 1, make_prefix 16, [⟨0, 1⟩], 0⟩

/-- The table after the handler call `add 10.1.0.1/16 1`. -/
def table_handler_add : Table :=
  table_of (run_command 0 Table.init CMD_ADD "10.1.0.1/16 1".toList none)

/-! ## Path sets longer than the capacity -/

/-- The route `10.2.0.0/16` with eight hops, ports 1 to 8. -/
def route_8hops : IPRouteMPath :=
  ⟨ip 10 2 0 0, make_prefix 16,
    [⟨0, 1⟩, ⟨0, 2⟩, ⟨0, 3⟩, ⟨0, 4⟩, ⟨0, 5⟩, ⟨0, 6⟩, ⟨0, 7⟩, ⟨0, 8⟩], 0⟩

/-- The route `10.1.0.0/16` with eight hops, ports 1 to 8. -/
def route_16_8hops : IPRouteMPath :=
  ⟨ip 10 1 0 0, make_prefix 16,
    [⟨0, 1⟩, ⟨0, 2⟩, ⟨0, 3⟩, ⟨0, 4⟩, ⟨0, 5⟩, ⟨0, 6⟩, ⟨0, 7⟩, ⟨0, 8⟩], 0⟩

/-! ## The keys a trie holds -/

/-- Every key stored in the trie, in a bucket or behind the bucket array of
any node, satisfies `P`. -/
inductive AllKeys (P : Nat → Prop) : Radix → Prop
  | null : AllKeys P Radix.null
  | node (ck : Nat → Nat) (cc : Nat → Radix) (inner : Nat → Nat) :
      (∀ b, P (ck b)) → (∀ j, P (inner j)) → (∀ b, AllKeys P (cc b)) →
      AllKeys P (Radix.node ck cc inner)

/-! ## Path keys within the pool -/

/-- The combined key is zero or its path key names an entry of a pool of `n`
entries. -/
def ValidKey (n k : Nat) : Prop := k = 0 ∨ (1 ≤ get_lookup_key k ∧ get_lookup_key k ≤ n)

/-- Every entry of the pool has a length between 1 and the capacity, and that
many hops written. -/
def PoolOK (pool : List GWPortArr) : Prop :=
  ∀ c ∈ pool, 1 ≤ c.length ∧ c.length ≤ 7 ∧ c.data.length = c.length

/-- Every path key stored in the table names an entry of the pool, and every
entry of the pool has between 1 and 7 hops. -/
def Sound (t : Table) : Prop :=
  PoolOK t._lookup ∧ AllKeys (ValidKey t._lookup.length) t._radix ∧
  ValidKey t._lookup.length t._default_key

/-! ## The handlers on routes that have a hop -/

/-- The route argument does not parse, as an argument of `add` or `set`, to a
route without a hop. -/
def arg_has_hops (arg : List Char) : Bool :=
  match cp_ip_route_mpath arg false with
  | some route => !route.gwports.isEmpty
  | none => true

/-- The line of a batch is not an `add` or `set` of a route without a hop. -/
def line_has_hops (line : List Char) : Bool :=
  match command_of (cp_shift_spacevec line).1 with
  | some command =>
    if command = CMD_ADD ∨ command = CMD_SET then arg_has_hops (cp_shift_spacevec line).2
    else true
  | none => true

/-- No line of the batch is an `add` or `set` of a route without a hop. -/
def batch_has_hops (conf : List Char) : Bool := (split_on '\n' conf).all line_has_hops

/-- The table states reached from the constructor's state through
`configure`, the `add`, `set` and `remove` handlers, the `ctrl` handler,
`flush_table`, `dump_routes`, `add_route` and `remove_route`, where every route
that is added has at least one hop. -/
inductive HopReachable : Table → Prop
  | init : HopReachable Table.init
  | configure (junk : Nat) (t : Table) (conf : List (List Char)) (res : ConfigResult) :
      HopReachable t → conf.tail.all arg_has_hops = true → configure junk t conf = some res →
      HopReachable res.table
  | handler (junk : Nat) (t : Table) (command : Int) (str : List Char) (r : Int) (t1 : Table)
      (log : Option (List IPRouteMPath)) :
      HopReachable t → (command = CMD_ADD ∨ command = CMD_SET → arg_has_hops str = true) →
      run_command junk t command str none = some (r, t1, log) → HopReachable t1
  | ctrl (junk fuel : Nat) (t : Table) (conf : List Char) (r : Int) (t1 : Table) :
      HopReachable t → batch_has_hops conf = true →
      ctrl_handler junk fuel t conf = Outcome.done (r, t1) → HopReachable t1
  | add (junk : Nat) (t : Table) (route : IPRouteMPath) (set : Bool) (res : CallResult) :
      HopReachable t → route.gwports ≠ [] → add_route junk t route set = some res →
      HopReachable res.table
  | remove (t : Table) (route : IPRouteMPath) :
      HopReachable t → HopReachable (remove_route t route).table
  | flush (t : Table) : HopReachable t → HopReachable (flush_table t)
  | dump (t : Table) (text : List Char) (t1 : Table) :
      HopReachable t → dump_routes t = some (text, t1) → HopReachable t1

/-- The records of the undo log that the rollback adds again have a hop. -/
def LogOK (l : List IPRouteMPath) : Prop := ∀ x ∈ l, x.extra = CMD_ADD ∨ x.gwports ≠ []

/-- The offsets the loop of `ctrl_handler` visits are starts of lines: the
pieces of the text from there on are lines of the batch. -/
def AtLine (conf : List Char) (s : Nat) : Prop :=
  conf.length ≤ s ∨ ∀ x ∈ split_on '\n' (conf.drop s), x ∈ split_on '\n' conf

/-! ## A route without a hop -/

/-- The route the parser returns for `10.1.0.0/16 -1`: it has no hop. -/
def route_hopless : IPRouteMPath := ⟨ip 10 1 0 0, make_prefix 16, [], 0⟩

/-- The table after `add 10.1.0.0/16 -1` on a new element, with `junk` the
value the uninitialised `collection.length` holds. -/
def table_hopless (junk : Nat) : Table :=
  (res_of (add_route junk Table.init route_hopless false)).table

/-- A batch of two lines that add routes with hops. -/
def script_two_adds : List Char := "add 10.1.0.0/16 - 1\nadd 10.2.0.0/16 - 2 - 3".toList

/-- The table a `ctrl` call left, or the constructor's state for a call that
did not return. -/
def outcome_table : Outcome (Int × Table) → Table
  | Outcome.done (_, t) => t
  | _ => Table.init

/-! ## The default route, long path sets and the pool, revisited -/

theorem key_for_set_key_for (r : Radix) (x y level k : Nat) (hx : 2 ≤ x) (hy : 2 ≤ y)
    (hr : is_node r) :
    key_for (set_key_for r x level k) y level = if y = x then k else key_for r y level := by
  cases r with
  | null => exact absurd hr (by simp [is_node])
  | node ck cc inner =>
    simp only [set_key_for]
    by_cases h1 : x ≥ _nbuckets level
    · by_cases h2 : y ≥ _nbuckets level
      · simp only [h1, h2, if_true, key_for]
        by_cases h3 : y = x
        · simp [h3]
        · have : y - _nbuckets level ≠ x - _nbuckets level := by omega
          simp [h3, this]
      · have h3 : y ≠ x := by omega
        simp [h1, h2, key_for, h3]
    · by_cases h2 : y ≥ _nbuckets level
      · have h3 : y ≠ x := by omega
        simp [h1, h2, key_for, h3]
      · simp only [h1, h2, if_false, key_for]
        by_cases h3 : y = x
        · simp [h3]
        · have : y - 2 ≠ x - 2 := by omega
          simp [h3, this]

theorem child_of_set_key_for (r : Radix) (x level k b : Nat) :
    child_of (set_key_for r x level k) b = child_of r b := by
  cases r with
  | null => rfl
  | node ck cc inner =>
    simp only [set_key_for]
    split <;> rfl

theorem is_node_set_key_for (r : Radix) (x level k : Nat) :
    is_node (set_key_for r x level k) ↔ is_node r := by
  cases r with
  | null => simp [set_key_for, is_node]
  | node ck cc inner =>
    simp only [set_key_for]
    split <;> simp [is_node]

theorem repl_repl (rk key v : Nat) : repl rk key (repl rk key v) = repl rk key v := by
  unfold repl
  by_cases h : v = rk
  · simp [h]
  · simp [h]

theorem replace_row_spec (rk key level : Nat) (cnt : Nat) :
    ∀ (x : Nat) (r : Radix), 2 ≤ x → is_node r →
      (is_node (replace_row rk key level cnt x r)) ∧
      (∀ b, child_of (replace_row rk key level cnt x r) b = child_of r b) ∧
      (∀ y, 2 ≤ y → key_for (replace_row rk key level cnt x r) y level
        = if x ≤ y ∧ y < x + cnt then repl rk key (key_for r y level) else key_for r y level) := by
  induction cnt with
  | zero =>
    intro x r _ hr
    refine ⟨hr, fun _ => rfl, fun y _ => ?_⟩
    have : ¬ (x ≤ y ∧ y < x + 0) := by omega
    rw [if_neg this]; rfl
  | succ cnt ih =>
    intro x r hx hr
    simp only [replace_row]
    by_cases hk : key_for r x level = rk
    · simp only [hk, if_true]
      have hn : is_node (set_key_for r x level key) := (is_node_set_key_for r x level key).2 hr
      obtain ⟨h1, h2, h3⟩ := ih (x + 1) (set_key_for r x level key) (by omega) hn
      refine ⟨h1, fun b => by rw [h2, child_of_set_key_for], fun y hy => ?_⟩
      rw [h3 y hy, key_for_set_key_for r x y level key hx hy hr]
      by_cases hyx : y = x
      · subst hyx
        have c1 : ¬ (y + 1 ≤ y ∧ y < y + 1 + cnt) := by omega
        have c2 : (y ≤ y ∧ y < y + (cnt + 1)) := by omega
        simp [c1, c2, repl, hk]
      · simp only [hyx, if_false]
        by_cases c : x + 1 ≤ y ∧ y < x + 1 + cnt
        · have c2 : (x ≤ y ∧ y < x + (cnt + 1)) := by omega
          simp [c, c2]
        · have c2 : ¬ (x ≤ y ∧ y < x + (cnt + 1)) := by omega
          simp [c, c2]
    · simp only [hk, if_false]
      obtain ⟨h1, h2, h3⟩ := ih (x + 1) r (by omega) hr
      refine ⟨h1, h2, fun y hy => ?_⟩
      rw [h3 y hy]
      by_cases hyx : y = x
      · subst hyx
        have c1 : ¬ (y + 1 ≤ y ∧ y < y + 1 + cnt) := by omega
        have c2 : (y ≤ y ∧ y < y + (cnt + 1)) := by omega
        simp [c1, c2, repl, hk]
      · by_cases c : x + 1 ≤ y ∧ y < x + 1 + cnt
        · have c2 : (x ≤ y ∧ y < x + (cnt + 1)) := by omega
          simp [c, c2]
        · have c2 : ¬ (x ≤ y ∧ y < x + (cnt + 1)) := by omega
          simp [c, c2]

theorem replace_loop_spec (rk key level : Nat) (fuel : Nat) :
    ∀ (a w : Nat) (r : Radix), 2 ≤ a → is_node r →
      (is_node (replace_loop rk key level fuel a w r)) ∧
      (∀ b, child_of (replace_loop rk key level fuel a w r) b = child_of r b) ∧
      (∀ y, 2 ≤ y → key_for (replace_loop rk key level fuel a w r) y level
        = if ∃ e, e < fuel ∧ a * 2 ^ e < _nbuckets level * 2 ∧ a * 2 ^ e ≤ y ∧ y < (a + w) * 2 ^ e
          then repl rk key (key_for r y level) else key_for r y level) := by
  induction fuel with
  | zero =>
    intro a w r _ hr
    refine ⟨hr, fun _ => rfl, fun y _ => ?_⟩
    simp [replace_loop]
  | succ fuel ih =>
    intro a w r ha hr
    simp only [replace_loop]
    by_cases hlt : a < _nbuckets level * 2
    · simp only [hlt, if_true]
      obtain ⟨r1, r2, r3⟩ := replace_row_spec rk key level w a r ha hr
      obtain ⟨h1, h2, h3⟩ := ih (a * 2) (w * 2) _ (by omega) r1
      refine ⟨h1, fun b => by rw [h2, r2], fun y hy => ?_⟩
      rw [h3 y hy, r3 y hy]
      by_cases c0 : a ≤ y ∧ y < a + w
      · have cE : ∃ e, e < fuel + 1 ∧ a * 2 ^ e < _nbuckets level * 2 ∧ a * 2 ^ e ≤ y ∧
            y < (a + w) * 2 ^ e := ⟨0, by omega, by simpa using hlt, by simpa using c0.1,
              by simpa using c0.2⟩
        simp only [c0, and_self, if_true, cE]
        split
        · exact repl_repl rk key _
        · rfl
      · simp only [c0, if_false]
        by_cases c1 : ∃ e, e < fuel ∧ a * 2 * 2 ^ e < _nbuckets level * 2 ∧ a * 2 * 2 ^ e ≤ y ∧
            y < (a * 2 + w * 2) * 2 ^ e
        · obtain ⟨e, he1, he2, he3, he4⟩ := c1
          have cE : ∃ e, e < fuel + 1 ∧ a * 2 ^ e < _nbuckets level * 2 ∧ a * 2 ^ e ≤ y ∧
              y < (a + w) * 2 ^ e := by
            refine ⟨e + 1, by omega, ?_, ?_, ?_⟩
            · rw [pow_succ']; rw [← mul_assoc]; exact he2
            · rw [pow_succ']; rw [← mul_assoc]; exact he3
            · rw [pow_succ']; rw [← mul_assoc]
              have : (a + w) * 2 = a * 2 + w * 2 := by ring
              rw [this]; exact he4
          have c1' : ∃ e, e < fuel ∧ a * 2 * 2 ^ e < _nbuckets level * 2 ∧ a * 2 * 2 ^ e ≤ y ∧
            y < (a * 2 + w * 2) * 2 ^ e := ⟨e, he1, he2, he3, he4⟩
          simp only [c1', cE, if_true]
        · have cE : ¬ ∃ e, e < fuel + 1 ∧ a * 2 ^ e < _nbuckets level * 2 ∧ a * 2 ^ e ≤ y ∧
              y < (a + w) * 2 ^ e := by
            rintro ⟨e, he1, he2, he3, he4⟩
            cases e with
            | zero => simp at he3 he4; omega
            | succ e =>
              apply c1
              refine ⟨e, by omega, ?_, ?_, ?_⟩
              · rw [pow_succ', ← mul_assoc] at he2; exact he2
              · rw [pow_succ', ← mul_assoc] at he3; exact he3
              · rw [pow_succ', ← mul_assoc] at he4
                have : (a + w) * 2 = a * 2 + w * 2 := by ring
                rw [this] at he4; exact he4
          simp only [c1, cE, if_false]
    · rw [if_neg hlt]
      refine ⟨hr, fun _ => rfl, fun y _ => ?_⟩
      have cE : ¬ ∃ e, e < fuel + 1 ∧ a * 2 ^ e < _nbuckets level * 2 ∧ a * 2 ^ e ≤ y ∧
          y < (a + w) * 2 ^ e := by
        rintro ⟨e, _, he2, _, _⟩
        have : a * 1 ≤ a * 2 ^ e := Nat.mul_le_mul_left a (Nat.one_le_two_pow)
        omega
      simp only [cE, if_false]

theorem inh_own (O : Nat → Nat) (i : Nat) (h : O i ≠ 0) : inh O i = O i := by
  rw [inh]; simp [h]

theorem inh_parent (O : Nat → Nat) (i : Nat) (h : O i = 0) (hi : 3 < i) :
    inh O i = inh O (i / 2) := by
  rw [inh]; simp [h, hi]

theorem inh_top (O : Nat → Nat) (i : Nat) (h : O i = 0) (hi : ¬ 3 < i) : inh O i = 0 := by
  rw [inh]; simp [h, hi]

theorem inh_source (O : Nat → Nat) : ∀ i, inh O i = 0 ∨ ∃ d, O (i / 2 ^ d) = inh O i ∧ inh O i ≠ 0 := by
  intro i
  induction i using Nat.strong_induction_on with
  | _ i ih =>
    by_cases h : O i ≠ 0
    · right
      exact ⟨0, by simp [inh_own O i h], by rw [inh_own O i h]; exact h⟩
    · have h0 : O i = 0 := by simpa using h
      by_cases hi : 3 < i
      · rw [inh_parent O i h0 hi]
        rcases ih (i / 2) (by omega) with h1 | ⟨d, h1, h2⟩
        · left; exact h1
        · right
          refine ⟨d + 1, ?_, h2⟩
          rw [pow_succ', ← Nat.div_div_eq_div_mul]; exact h1
      · left; exact inh_top O i h0 hi

theorem inh_congr (O O' : Nat → Nat) : ∀ i, (∀ d, O (i / 2 ^ d) = O' (i / 2 ^ d)) →
    inh O i = inh O' i := by
  intro i
  induction i using Nat.strong_induction_on with
  | _ i ih =>
    intro h
    have hi0 : O i = O' i := by simpa using h 0
    by_cases h1 : O i ≠ 0
    · rw [inh_own O i h1, inh_own O' i (hi0 ▸ h1)]; exact hi0
    · have h0 : O i = 0 := by simpa using h1
      have h0' : O' i = 0 := hi0 ▸ h0
      by_cases hi : 3 < i
      · rw [inh_parent O i h0 hi, inh_parent O' i h0' hi]
        apply ih (i / 2) (by omega)
        intro d
        have := h (d + 1)
        rw [pow_succ', ← Nat.div_div_eq_div_mul] at this
        exact this
      · rw [inh_top O i h0 hi, inh_top O' i h0' hi]

theorem div_pow_le (i d : Nat) : i / 2 ^ d ≤ i := Nat.div_le_self i (2 ^ d)

theorem inh_update_outside (O : Nat → Nat) (i1 v y : Nat) (h : ¬ in_subtree i1 y) :
    inh (Function.update O i1 v) y = inh O y := by
  apply inh_congr
  intro d
  have : y / 2 ^ d ≠ i1 := fun e => h ⟨d, e⟩
  simp [Function.update, this]

theorem subtree_step (i1 y d : Nat) (hi : 2 ≤ i1) (h : y / 2 ^ (d + 1) = i1) :
    (y / 2) / 2 ^ d = i1 ∧ i1 < y ∧ 3 < y := by
  have h1 : (y / 2) / 2 ^ d = i1 := by
    rw [Nat.div_div_eq_div_mul, ← pow_succ']; exact h
  have h2 : i1 ≤ y / 2 := by rw [← h1]; exact div_pow_le _ _
  refine ⟨h1, ?_, ?_⟩ <;> omega

theorem inh_update_subtree (O : Nat → Nat) (i1 v : Nat) (hi : 2 ≤ i1)
    (hinj : ∀ x y, O x ≠ 0 → O x = O y → x = y) :
    ∀ d y, y / 2 ^ d = i1 →
      inh (Function.update O i1 v) y
        = repl (inh O i1) (inh (Function.update O i1 v) i1) (inh O y) := by
  intro d
  induction d with
  | zero =>
    intro y hy
    simp at hy
    subst hy
    simp [repl]
  | succ d ih =>
    intro y hy
    obtain ⟨h1, h2, h3⟩ := subtree_step i1 y d hi hy
    have hne : y ≠ i1 := by omega
    have hO' : Function.update O i1 v y = O y := by simp [Function.update, hne]
    by_cases h0 : O y ≠ 0
    · rw [inh_own _ y (by rw [hO']; exact h0), hO', inh_own O y h0]
      have : O y ≠ inh O i1 := by
        intro e
        rcases inh_source O i1 with hz | ⟨e1, he1, _⟩
        · rw [hz] at e; exact h0 e
        · have := hinj y (i1 / 2 ^ e1) h0 (by rw [he1]; exact e)
          have := div_pow_le i1 e1
          omega
      simp [repl, this]
    · have h0' : O y = 0 := by simpa using h0
      rw [inh_parent _ y (by rw [hO']; exact h0') h3, inh_parent O y h0' h3]
      exact ih (y / 2) h1

theorem visited_iff (n i1 y : Nat) (hi : 1 ≤ i1) (hy : y < n * 2) :
    (∃ e, e < n * 2 ∧ i1 * 2 ^ e < n * 2 ∧ i1 * 2 ^ e ≤ y ∧ y < (i1 + 1) * 2 ^ e)
      ↔ in_subtree i1 y := by
  constructor
  · rintro ⟨e, _, _, h3, h4⟩
    exact ⟨e, Nat.div_eq_of_lt_le h3 h4⟩
  · rintro ⟨e, he⟩
    have hp : 0 < 2 ^ e := Nat.two_pow_pos e
    have h3 : i1 * 2 ^ e ≤ y := by rw [← he]; exact Nat.div_mul_le_self y (2 ^ e)
    have h4 : y < (i1 + 1) * 2 ^ e := by
      rw [← he, mul_comm]; exact Nat.lt_mul_div_succ y hp
    have h5 : 2 ^ e ≤ i1 * 2 ^ e := Nat.le_mul_of_pos_left _ hi
    have h6 : e < 2 ^ e := Nat.lt_two_pow e
    exact ⟨e, by omega, by omega, h3, h4⟩

/-- What `change_at` does to a node whose keys are those inherited from the
own keys `O`: it returns the own key of the position and leaves the node with
the keys inherited from the updated assignment. -/
theorem change_at_spec (O : Nat → Nat) (r : Radix) (level i1 key : Nat) (set : Bool)
    (hr : is_node r) (hi : 2 ≤ i1) (hi2 : i1 < _nbuckets level * 2)
    (hrep : ∀ y, 2 ≤ y → y < _nbuckets level * 2 → key_for r y level = inh O y)
    (hinj : ∀ x y, O x ≠ 0 → O x = O y → x = y)
    (hfresh : key ≠ 0 → ∀ x, O x ≠ key) :
    (change_at r i1 key set level).1 = O i1 ∧
    is_node (change_at r i1 key set level).2 ∧
    (∀ b, child_of (change_at r i1 key set level).2 b = child_of r b) ∧
    (∀ y, 2 ≤ y → y < _nbuckets level * 2 →
      key_for (change_at r i1 key set level).2 y level
        = inh (if O i1 = 0 ∨ set = true then Function.update O i1 key else O) y) ∧
    (O i1 ≠ 0 → set = false → (change_at r i1 key set level).2 = r) := by
  -- the value the parent shows
  have hpar : ∀ (_ : 3 < i1), key_for r (i1 / 2) level = inh O (i1 / 2) :=
    fun h => hrep (i1 / 2) (by omega) (by omega)
  have hrk : key_for r i1 level = inh O i1 := hrep i1 hi hi2
  have hF2 : O i1 ≠ 0 → 3 < i1 → inh O (i1 / 2) ≠ O i1 := by
    intro h0 _ e
    rcases inh_source O (i1 / 2) with hz | ⟨d, hd, _⟩
    · rw [hz] at e; exact h0 e.symm
    · have := hinj i1 (i1 / 2 / 2 ^ d) h0 (by rw [hd]; exact e.symm)
      have := div_pow_le (i1 / 2) d
      omega
  -- prev_key is the own key
  have hprev : (if key_for r i1 level ≠ 0 ∧ i1 > 3 ∧ key_for r (i1 / 2) level = key_for r i1 level
      then 0 else key_for r i1 level) = O i1 := by
    by_cases h0 : O i1 ≠ 0
    · rw [hrk, inh_own O i1 h0]
      by_cases h3 : 3 < i1
      · rw [hpar h3]
        simp [hF2 h0 h3]
      · simp [h3]
    · have h0' : O i1 = 0 := by simpa using h0
      by_cases h3 : 3 < i1
      · rw [hpar h3, hrk, inh_parent O i1 h0' h3, h0']
        by_cases hz : inh O (i1 / 2) = 0
        · simp [hz]
        · simp [hz, h3]
      · rw [hrk, inh_top O i1 h0' h3, h0']
        simp
  -- the key written
  have hkey' : (if key = 0 ∧ i1 > 3 then key_for r (i1 / 2) level else key)
      = inh (Function.update O i1 key) i1 := by
    by_cases hk : key = 0
    · have hO' : Function.update O i1 key i1 = 0 := by simp [hk]
      by_cases h3 : 3 < i1
      · rw [inh_parent _ i1 hO' h3, hpar h3]
        simp only [hk, h3, gt_iff_lt, and_self, if_true]
        symm
        apply inh_update_outside
        rintro ⟨d, hd⟩
        have := div_pow_le (i1 / 2) d
        omega
      · rw [inh_top _ i1 hO' h3]
        simp [hk, h3]
    · have hO' : Function.update O i1 key i1 ≠ 0 := by simp [hk]
      rw [inh_own _ i1 hO']
      simp [hk]
  unfold change_at
  simp only []
  rw [hprev, hkey']
  by_cases hc : O i1 ≠ inh (Function.update O i1 key) i1 ∧ (O i1 = 0 ∨ set = true)
  · rw [if_pos hc]
    obtain ⟨l1, l2, l3⟩ := replace_loop_spec (key_for r i1 level)
      (inh (Function.update O i1 key) i1) level (_nbuckets level * 2) i1 1 r hi hr
    refine ⟨rfl, l1, l2, ?_, ?_⟩
    · intro y hy hy2
      simp only []
      rw [l3 y hy, if_pos hc.2, hrep y hy hy2, hrk]
      have hv := visited_iff (_nbuckets level) i1 y (by omega) hy2
      by_cases hs : in_subtree i1 y
      · rw [if_pos (hv.2 hs)]
        obtain ⟨d, hd⟩ := hs
        exact (inh_update_subtree O i1 key hi hinj d y hd).symm
      · rw [if_neg (fun h => hs (hv.1 h))]
        exact (inh_update_outside O i1 key y hs).symm
    · intro h0 hs
      rcases hc.2 with h | h
      · exact absurd h h0
      · rw [hs] at h; exact absurd h (by simp)
  · rw [if_neg hc]
    refine ⟨rfl, hr, fun _ => rfl, ?_, fun _ _ => rfl⟩
    intro y hy hy2
    simp only []
    rw [hrep y hy hy2]
    by_cases hs : O i1 = 0 ∨ set = true
    · rw [if_pos hs]
      have he : O i1 = inh (Function.update O i1 key) i1 := by
        by_contra hne
        exact hc ⟨hne, hs⟩
      have hk : key = 0 := by
        by_contra hk
        have hO' : Function.update O i1 key i1 ≠ 0 := by simp [hk]
        rw [inh_own _ i1 hO'] at he
        simp at he
        exact hfresh hk i1 he
      have h0 : O i1 = 0 := by
        by_contra h0
        have hO' : Function.update O i1 key i1 = 0 := by simp [hk]
        by_cases h3 : 3 < i1
        · rw [inh_parent _ i1 hO' h3] at he
          have e2 : inh (Function.update O i1 key) (i1 / 2) = inh O (i1 / 2) := by
            apply inh_update_outside
            rintro ⟨d, hd⟩
            have := div_pow_le (i1 / 2) d
            omega
          rw [e2] at he
          exact hF2 h0 h3 he.symm
        · rw [inh_top _ i1 hO' h3] at he
          exact h0 he
      have : Function.update O i1 key = O := by
        rw [hk, ← h0]; exact Function.update_eq_self i1 O
      rw [this]
    · rw [if_neg hs]

theorem Rep.of_parts (O : Own) (r : Radix) (path : List Nat) (level : Nat) (hr : is_node r)
    (hl : level ≤ 4)
    (hk : ∀ y, 2 ≤ y → y < _nbuckets level * 2 → key_for r y level = inh (O path) y)
    (hc : ∀ b, Rep O (child_of r b) (path ++ [b]) (level + 1)) : Rep O r path level := by
  cases r with
  | null => exact absurd hr (by simp [is_node])
  | node ck cc inner => exact Rep.node ck cc inner path level hl hk hc

theorem Rep.congr_own (O O' : Own) (r : Radix) : ∀ (path : List Nat) (level : Nat),
    Rep O r path level → (∀ suffix i, O (path ++ suffix) i = O' (path ++ suffix) i) →
    Rep O' r path level := by
  induction r with
  | null =>
    intro path level h hO
    cases h with
    | null _ _ hz => exact Rep.null path level (fun s i => by rw [← hO]; exact hz s i)
  | node ck cc inner ih =>
    intro path level h hO
    cases h with
    | node _ _ _ _ _ hl hk hc =>
      refine Rep.node ck cc inner path level hl ?_ ?_
      · intro y hy hy2
        rw [hk y hy hy2]
        have : O path = O' path := by
          funext i
          simpa using hO [] i
        rw [this]
      · intro b
        apply ih b (path ++ [b]) (level + 1) (hc b)
        intro s i
        simpa [List.append_assoc] using hO ([b] ++ s) i

theorem inh_zero (O : Nat → Nat) (h : ∀ i, O i = 0) : ∀ y, inh O y = 0 := by
  intro y
  rcases inh_source O y with h1 | ⟨d, h1, h2⟩
  · exact h1
  · rw [h] at h1; exact absurd h1.symm h2

theorem Rep.make_radix (O : Own) (path : List Nat) (level : Nat) (hl : level ≤ 4)
    (hz : ∀ suffix i, O (path ++ suffix) i = 0) : Rep O (make_radix level) path level := by
  unfold MPath.make_radix
  refine Rep.node _ _ _ path level hl ?_ ?_
  · intro y _ _
    have : inh (O path) y = 0 := inh_zero _ (fun i => by simpa using hz [] i) y
    rw [this]
    simp [key_for]
  · intro b
    exact Rep.null _ _ (fun s i => by simpa [List.append_assoc] using hz ([b] ++ s) i)

/-! ### Arithmetic of the level tables -/

theorem level_cases (level : Nat) (h : level ≤ 4) :
    level = 0 ∨ level = 1 ∨ level = 2 ∨ level = 3 ∨ level = 4 := by omega

theorem and_65535 (x : Nat) : x &&& 65535 = x % 65536 := Nat.and_pow_two_sub_one_eq_mod x 16

theorem and_4095 (x : Nat) : x &&& 4095 = x % 4096 := Nat.and_pow_two_sub_one_eq_mod x 12

theorem and_255 (x : Nat) : x &&& 255 = x % 256 := Nat.and_pow_two_sub_one_eq_mod x 8

theorem and_15 (x : Nat) : x &&& 15 = x % 16 := Nat.and_pow_two_sub_one_eq_mod x 4

theorem and_zero_lit (x : Nat) : x &&& 0 = 0 := Nat.and_zero x

theorem shr_16 (x : Nat) : x >>> 16 = x / 65536 := Nat.shiftRight_eq_div_pow x 16

theorem shr_12 (x : Nat) : x >>> 12 = x / 4096 := Nat.shiftRight_eq_div_pow x 12

theorem shr_8 (x : Nat) : x >>> 8 = x / 256 := Nat.shiftRight_eq_div_pow x 8

theorem shr_4 (x : Nat) : x >>> 4 = x / 16 := Nat.shiftRight_eq_div_pow x 4

theorem bucket_lt (addr level : Nat) (h : level ≤ 4) : bucket addr level < _nbuckets level := by
  unfold bucket
  have : (addr >>> _bitshift level) &&& (_nbuckets level - 1) ≤ _nbuckets level - 1 :=
    Nat.and_le_right
  have h1 : 1 ≤ _nbuckets level := by
    rcases level_cases level h with h | h | h | h | h <;> subst h <;> simp [_nbuckets]
  omega

theorem nbuckets_ge (level : Nat) (h : level ≤ 4) : 16 ≤ _nbuckets level := by
  rcases level_cases level h with h | h | h | h | h <;> subst h <;> simp [_nbuckets]

/-- The stride test of `change` is a test on the low bits of the mask. -/
theorem stride_test (mask level : Nat) (h : level ≤ 4) :
    mask &&& ((1 <<< _bitshift level) - 1) = mask % 2 ^ top_bit (level + 1) := by
  rcases level_cases level h with h | h | h | h | h <;> subst h <;>
    simp [_bitshift, top_bit, Nat.shiftLeft_eq, and_65535, and_4095, and_255, and_15]
  exact Nat.mod_one mask |>.symm

theorem halve_loop_range : ∀ (fuel x i k : Nat), x ≤ fuel → 1 ≤ x → x < 2 ^ k → 2 ^ k ≤ i →
    2 ≤ halve_loop fuel x i ∧ halve_loop fuel x i ≤ i := by
  intro fuel
  induction fuel with
  | zero => intro x i k h1 h2; omega
  | succ fuel ih =>
    intro x i k h1 h2 h3 h4
    simp only [halve_loop]
    by_cases hx : x > 1
    · rw [if_pos hx]
      have hk : 1 ≤ k := by
        rcases Nat.eq_zero_or_pos k with h | h
        · subst h; simp at h3; omega
        · exact h
      obtain ⟨k', rfl⟩ : ∃ k', k = k' + 1 := ⟨k - 1, by omega⟩
      have e : 2 ^ (k' + 1) = 2 * 2 ^ k' := by rw [pow_succ']
      have := ih (x / 2) (i / 2) k' (by omega) (by omega) (by omega) (by omega)
      omega
    · rw [if_neg hx]
      have hx1 : x = 1 := by omega
      subst hx1
      have hk : 1 ≤ k := by
        rcases Nat.eq_zero_or_pos k with h | h
        · subst h; simp at h3
        · exact h
      have : 2 ^ 1 ≤ 2 ^ k := Nat.pow_le_pow_right (by omega) hk
      omega

/-- The heap position `change` computes lies in the node: the assertion of
`key_for` holds for it. -/
theorem heap_pos_range (addr mask level : Nat) (hl : level ≤ 4)
    (h1 : mask % 2 ^ top_bit level ≠ 0) (h2 : mask &&& ((1 <<< _bitshift level) - 1) = 0) :
    2 ≤ halve_loop (_nbuckets level - ((mask >>> _bitshift level) &&& (_nbuckets level - 1)))
        (_nbuckets level - ((mask >>> _bitshift level) &&& (_nbuckets level - 1)))
        (_nbuckets level + bucket addr level) ∧
    halve_loop (_nbuckets level - ((mask >>> _bitshift level) &&& (_nbuckets level - 1)))
        (_nbuckets level - ((mask >>> _bitshift level) &&& (_nbuckets level - 1)))
        (_nbuckets level + bucket addr level) < _nbuckets level * 2 := by
  have hb := bucket_lt addr level hl
  rw [stride_test mask level hl] at h2
  have key : ∃ k, _nbuckets level = 2 ^ k ∧
      1 ≤ (mask >>> _bitshift level) &&& (_nbuckets level - 1) ∧
      (mask >>> _bitshift level) &&& (_nbuckets level - 1) < _nbuckets level := by
    rcases level_cases level hl with h | h | h | h | h <;> subst h
    · refine ⟨16, by simp [_nbuckets], ?_, ?_⟩ <;>
        simp [_nbuckets, _bitshift, top_bit, and_65535, shr_16] at * <;> omega
    · refine ⟨4, by simp [_nbuckets], ?_, ?_⟩ <;>
        simp [_nbuckets, _bitshift, top_bit, and_15, shr_12] at * <;> omega
    · refine ⟨4, by simp [_nbuckets], ?_, ?_⟩ <;>
        simp [_nbuckets, _bitshift, top_bit, and_15, shr_8] at * <;> omega
    · refine ⟨4, by simp [_nbuckets], ?_, ?_⟩ <;>
        simp [_nbuckets, _bitshift, top_bit, and_15, shr_4] at * <;> omega
    · refine ⟨4, by simp [_nbuckets], ?_, ?_⟩ <;>
        simp [_nbuckets, _bitshift, top_bit, and_15] at * <;> omega
  obtain ⟨k, hk, hm1, hm2⟩ := key
  have := halve_loop_range
    (_nbuckets level - ((mask >>> _bitshift level) &&& (_nbuckets level - 1)))
    (_nbuckets level - ((mask >>> _bitshift level) &&& (_nbuckets level - 1)))
    (_nbuckets level + bucket addr level) k (le_refl _) (by omega) (by omega) (by omega)
  omega

theorem own_update_same (O : Own) (path : List Nat) (i v : Nat) :
    (Own.update O path i v) path = Function.update (O path) i v := by
  funext j
  by_cases h : j = i
  · simp [Own.update, Function.update, h]
  · simp [Own.update, Function.update, h]

theorem own_update_other (O : Own) (path : List Nat) (i v : Nat) (p : List Nat) (h : p ≠ path) :
    (Own.update O path i v) p = O p := by
  funext j
  simp [Own.update, h]

theorem append_ne_self_cons (path : List Nat) (b : Nat) (rest : List Nat) :
    path ≠ path ++ b :: rest := by
  intro h
  have := congrArg List.length h
  simp at this

theorem append_cons_ne (path : List Nat) (b b' : Nat) (rest s : List Nat) (h : b' ≠ b) :
    path ++ [b'] ++ s ≠ path ++ b :: rest := by
  intro e
  rw [List.append_assoc] at e
  have := List.append_cancel_left e
  simp at this
  exact h this.1

/-- What `change` does to a trie that holds the own keys `O`: it returns the
own key of the position of `(addr, mask)`, and it installs `key` there when the
position had no own key or `set` is given; otherwise the trie is left as it
was. -/
theorem change_spec (O : Own)
    (hinj : ∀ p i p' i', O p i ≠ 0 → O p i = O p' i' → p = p' ∧ i = i')
    (key : Nat) (hfresh : key ≠ 0 → ∀ p i, O p i ≠ key) (addr mask : Nat) (set : Bool) :
    ∀ (fuel level : Nat) (r : Radix) (path : List Nat), level + fuel = 5 → 1 ≤ fuel →
      Rep O r path level → is_node r → mask % 2 ^ top_bit level ≠ 0 →
      (change fuel r addr mask key set level).1
          = O (path ++ (pos_of fuel addr mask level).1) (pos_of fuel addr mask level).2 ∧
      is_node (change fuel r addr mask key set level).2 ∧
      Rep (if O (path ++ (pos_of fuel addr mask level).1) (pos_of fuel addr mask level).2 = 0
              ∨ set = true
            then Own.update O (path ++ (pos_of fuel addr mask level).1)
              (pos_of fuel addr mask level).2 key
            else O)
        (change fuel r addr mask key set level).2 path level ∧
      (O (path ++ (pos_of fuel addr mask level).1) (pos_of fuel addr mask level).2 ≠ 0 →
        set = false → (change fuel r addr mask key set level).2 = r) := by
  intro fuel
  induction fuel with
  | zero => intro level r path h1 h2; omega
  | succ fuel ih =>
    intro level r path hlf _ hrep hr hmask
    have hl : level ≤ 4 := by omega
    cases hrep with
    | null _ _ _ => exact absurd hr (by simp [is_node])
    | node ck cc inner _ _ _ hk hc =>
      simp only [change, pos_of]
      by_cases ht : mask &&& ((1 <<< _bitshift level) - 1) ≠ 0
      · -- the change only affects a child
        rw [if_pos ht, if_pos ht]
        have hl3 : level ≤ 3 := by
          by_contra h
          have : level = 4 := by omega
          subst this
          simp [_bitshift] at ht
        have hfuel : 1 ≤ fuel := by omega
        have hmask' : mask % 2 ^ top_bit (level + 1) ≠ 0 := by
          rw [← stride_test mask level hl]; exact ht
        -- the child the call descends to
        have hchild : Rep O (match cc (bucket addr level) with
            | Radix.null => make_radix (level + 1)
            | c => c) (path ++ [bucket addr level]) (level + 1) ∧
            is_node (match cc (bucket addr level) with
            | Radix.null => make_radix (level + 1)
            | c => c) := by
          have hcb := hc (bucket addr level)
          cases hcc : cc (bucket addr level) with
          | null =>
            rw [hcc] at hcb
            cases hcb with
            | null _ _ hz =>
              exact ⟨Rep.make_radix O _ _ (by omega) hz, by simp [make_radix, is_node]⟩
          | node ck' cc' inner' =>
            rw [hcc] at hcb
            exact ⟨hcb, by simp [is_node]⟩
        obtain ⟨i1, i2, i3, i4⟩ := ih (level + 1) _ (path ++ [bucket addr level]) (by omega) hfuel
          hchild.1 hchild.2 hmask'
        have hpath : path ++ [bucket addr level] ++ (pos_of fuel addr mask (level + 1)).1
            = path ++ bucket addr level :: (pos_of fuel addr mask (level + 1)).1 := by
          simp
        rw [hpath] at i1 i3 i4
        simp only [bucket] at i1 i2 i3 i4 hchild ⊢
        refine ⟨i1, by simp [is_node], ?_, ?_⟩
        · refine Rep.node _ _ _ path level hl ?_ ?_
          · intro y hy hy2
            have e1 := hk y hy hy2
            simp only [key_for] at e1 ⊢
            rw [e1]
            split
            · rw [own_update_other _ _ _ _ _ (append_ne_self_cons path _ _)]
            · rfl
          · intro b
            by_cases hb : b = (addr >>> _bitshift level) &&& (_nbuckets level - 1)
            · subst hb
              simp only [if_true]
              exact i3
            · simp only [hb, if_false]
              apply Rep.congr_own O _ (cc b) (path ++ [b]) (level + 1) (hc b)
              intro s i
              split
              · simp only [Own.update]
                rw [if_neg]
                rintro ⟨e, _⟩
                exact append_cons_ne path _ b _ s hb e
              · rfl
        · intro h0 hs
          have e := i4 h0 hs
          have hcb := hc ((addr >>> _bitshift level) &&& (_nbuckets level - 1))
          cases hcc : cc ((addr >>> _bitshift level) &&& (_nbuckets level - 1)) with
          | null =>
            rw [hcc] at hcb
            cases hcb with
            | null _ _ hz =>
              exact absurd (hz _ _) (by simpa [bucket] using h0)
          | node ck' cc' inner' =>
            rw [hcc] at e
            simp only [] at e
            congr 1
            funext j
            by_cases hj : j = (addr >>> _bitshift level) &&& (_nbuckets level - 1)
            · subst hj; simp only [if_true]; rw [hcc] ; exact e
            · simp [hj]
      · -- the change is made in this node
        have ht0 : mask &&& ((1 <<< _bitshift level) - 1) = 0 := by simpa using ht
        rw [if_neg ht, if_neg ht]
        obtain ⟨p1, p2⟩ := heap_pos_range addr mask level hl hmask ht0
        simp only [bucket] at p1 p2 ⊢
        simp only [List.append_nil]
        obtain ⟨c1, c2, c3, c4, c5⟩ := change_at_spec (O path) (Radix.node ck cc inner) level _ key
          set (by simp [is_node]) p1 p2 hk
          (fun x y hx hxy => (hinj path x path y hx hxy).2)
          (fun hk0 x => hfresh hk0 path x)
        refine ⟨c1, c2, ?_, c5⟩
        apply Rep.of_parts _ _ path level c2 hl
        · intro y hy hy2
          rw [c4 y hy hy2]
          split
          · rw [own_update_same]
          · rfl
        · intro b
          rw [c3 b]
          apply Rep.congr_own O _ (cc b) (path ++ [b]) (level + 1) (hc b)
          intro s i
          split
          · simp only [Own.update]
            rw [if_neg]
            rintro ⟨e, _⟩
            have := congrArg List.length e
            simp at this
          · rfl

theorem lk_zero (O : Own) (addr : Nat) : ∀ (fuel level : Nat) (path : List Nat) (cur : Nat),
    (∀ suffix i, O (path ++ suffix) i = 0) → lk O addr fuel level path cur = cur := by
  intro fuel
  induction fuel with
  | zero => intro level path cur _; rfl
  | succ fuel ih =>
    intro level path cur hz
    simp only [lk]
    have h0 : inh (O path) (_nbuckets level + bucket addr level) = 0 :=
      inh_zero _ (fun i => by simpa using hz [] i) _
    rw [h0]
    simp only [ne_eq, not_true_eq_false, if_false]
    apply ih
    intro s i
    simpa [List.append_assoc] using hz ([bucket addr level] ++ s) i

theorem lookup_spec (O : Own) (addr : Nat) : ∀ (fuel level : Nat) (r : Radix) (path : List Nat)
    (cur : Nat), level + fuel = 5 → Rep O r path level →
    Radix.lookup r cur addr level = lk O addr fuel level path cur := by
  intro fuel
  induction fuel with
  | zero =>
    intro level r path cur h hrep
    cases hrep with
    | null _ _ _ => rfl
    | node _ _ _ _ _ hl _ _ => omega
  | succ fuel ih =>
    intro level r path cur h hrep
    cases hrep with
    | null _ _ hz =>
      simp only [Radix.lookup]
      exact (lk_zero O addr _ _ _ _ hz).symm
    | node ck cc inner _ _ hl hk hc =>
      simp only [Radix.lookup, lk]
      have hb := bucket_lt addr level hl
      have hn := nbuckets_ge level hl
      have e := hk (_nbuckets level + bucket addr level) (by omega) (by omega)
      simp only [key_for, ge_iff_le, Nat.le_add_right, if_true, Nat.add_sub_cancel_left] at e
      simp only [bucket] at e ⊢
      rw [e]
      exact ih (level + 1) _ _ _ (by omega) (hc _)

/-! ## Lists: reads and writes by index -/

theorem getD_set (l : List IPRouteMPath) (i j : Nat) (a d : IPRouteMPath) :
    (l.set i a).getD j d = if i = j ∧ i < l.length then a else l.getD j d := by
  simp only [List.getD_eq_getElem?_getD, List.getElem?_set]
  by_cases h : i = j
  · subst h
    by_cases h2 : i < l.length
    · simp [h2]
    · rw [List.getElem?_eq_none (by omega)]
      simp [h2]
  · simp [h]

theorem getD_append_left {α : Type} (l l' : List α) (j : Nat) (d : α) (h : j < l.length) :
    (l ++ l').getD j d = l.getD j d := by
  simp only [List.getD_eq_getElem?_getD]
  rw [List.getElem?_append_left h]

theorem getD_append_right {α : Type} (l : List α) (a d : α) :
    (l ++ [a]).getD l.length d = a := by
  simp [List.getD_eq_getElem?_getD]

/-! ## The combined key -/

theorem combine_key_some (k p : Nat) (hk : k ≤ 0x00ffffff) (hp : p ≤ 0xff) :
    combine_key k p = some (p * 2 ^ 24 + k) := by
  unfold combine_key
  rw [if_pos ⟨hp, hk⟩]
  have h1 : p <<< 24 ||| k = p * 2 ^ 24 + k := by
    rw [Nat.shiftLeft_eq, mul_comm]
    exact (Nat.mul_add_lt_is_or (by omega : k < 2 ^ 24) p).symm
  rw [h1]
  have : p * 2 ^ 24 + k < 2 ^ 32 := by omega
  rw [Nat.mod_eq_of_lt this]

theorem combine_key_bounds (k p c : Nat) (h : combine_key k p = some c) :
    k ≤ 0x00ffffff ∧ p ≤ 0xff ∧ c = p * 2 ^ 24 + k := by
  unfold combine_key at h
  by_cases hc : p ≤ 0xff ∧ k ≤ 0x00ffffff
  · have := combine_key_some k p hc.2 hc.1
    unfold combine_key at this
    rw [this] at h
    exact ⟨hc.2, hc.1, (Option.some.inj h).symm⟩
  · rw [if_neg hc] at h
    exact absurd h (by simp)

theorem get_key_combined (k p : Nat) (hk : k ≤ 0x00ffffff) :
    get_key (p * 2 ^ 24 + k) = k := by
  unfold get_key
  have : (0x00ffffff : Nat) = 2 ^ 24 - 1 := by norm_num
  rw [this, Nat.and_pow_two_sub_one_eq_mod]
  omega

theorem shr_and (a b i : Nat) : (a &&& b) >>> i = (a >>> i) &&& (b >>> i) := by
  apply Nat.eq_of_testBit_eq
  intro j
  simp

theorem get_lookup_key_combined (k p : Nat) (hk : k ≤ 0x00ffffff) (hp : p ≤ 0xff) :
    get_lookup_key (p * 2 ^ 24 + k) = p := by
  unfold get_lookup_key
  rw [shr_and]
  have h1 : (0xff000000 : Nat) >>> 24 = 2 ^ 8 - 1 := by decide
  rw [h1, Nat.and_pow_two_sub_one_eq_mod, Nat.shiftRight_eq_div_pow]
  omega

theorem get_key_zero : get_key 0 = 0 := by decide

theorem get_lookup_key_zero : get_lookup_key 0 = 0 := by decide

theorem collect_loop_spec : ∀ (gs : List GWPort) (i : Nat) (c : GWPortArr),
    i + gs.length ≤ 7 → gs ≠ [] →
    collect_loop gs i c = ⟨i + gs.length, c.data ++ gs⟩ := by
  intro gs
  induction gs with
  | nil => intro i c _ h; exact absurd rfl h
  | cons g gs ih =>
    intro i c h _
    simp only [collect_loop, GWPortArr.capacity]
    simp only [List.length_cons] at h
    rw [if_pos (by omega)]
    cases gs with
    | nil => simp [collect_loop]
    | cons g' gs' =>
      rw [ih (i + 1) _ (by simp only [List.length_cons] at h ⊢; omega) (by simp)]
      simp only [List.length_cons, List.append_assoc, List.singleton_append]
      congr 1
      omega

theorem collect_eq (junk : Nat) (gs : List GWPort) (h1 : 1 ≤ gs.length) (h2 : gs.length ≤ 7) :
    collect junk gs = arr_of gs := by
  unfold collect arr_of
  rw [collect_loop_spec gs 0 _ (by omega) (by intro e; subst e; simp at h1)]
  simp

theorem arr_match_iff (c : GWPortArr) (gs : List GWPort) (hs : c.length = c.data.length)
    (hl : c.length = gs.length) : arr_match c gs = true ↔ c = arr_of gs := by
  unfold arr_match arr_of
  constructor
  · intro h
    rw [List.all_eq_true] at h
    have hd : c.data = gs := by
      apply List.ext_getElem (by omega)
      intro j h1 h2
      have := h j (by simp; omega)
      simp only [GWPortArr.get, Bool.and_eq_true, decide_eq_true_eq] at this
      rw [List.getD_eq_getElem _ _ h1, List.getD_eq_getElem _ _ h2] at this
      cases hc : c.data[j]
      cases hg : gs[j]
      rw [hc, hg] at this
      simp at this
      rw [this.1, this.2]
    cases c
    simp only [GWPortArr.mk.injEq]
    simp only at hd hl
    exact ⟨hl, hd⟩
  · intro h
    rw [h]
    simp [GWPortArr.get]

theorem find_from_spec (gs : List GWPort) : ∀ (cs : List GWPortArr) (i : Nat),
    (∀ c ∈ cs, c.length = c.data.length) →
    (find_lookup_key_from gs cs i = 0 ∧ arr_of gs ∉ cs) ∨
    (i + 1 ≤ find_lookup_key_from gs cs i ∧ find_lookup_key_from gs cs i ≤ i + cs.length ∧
      cs.getD (find_lookup_key_from gs cs i - (i + 1)) default = arr_of gs) := by
  intro cs
  induction cs with
  | nil => intro i _; left; simp [find_lookup_key_from]
  | cons c cs ih =>
    intro i hs
    have hc := hs c (List.mem_cons_self _ _)
    have hs' : ∀ c ∈ cs, c.length = c.data.length := fun x hx => hs x (List.mem_cons_of_mem _ hx)
    simp only [find_lookup_key_from]
    by_cases hl : c.length ≠ gs.length
    · rw [if_pos hl]
      have hne : arr_of gs ≠ c := by
        intro e; rw [← e] at hl; simp [arr_of] at hl
      rcases ih (i + 1) hs' with ⟨h1, h2⟩ | ⟨h1, h2, h3⟩
      · left
        refine ⟨h1, ?_⟩
        simp only [List.mem_cons, not_or]
        exact ⟨hne, h2⟩
      · right
        refine ⟨by omega, by simp only [List.length_cons]; omega, ?_⟩
        have : find_lookup_key_from gs cs (i + 1) - (i + 1)
            = (find_lookup_key_from gs cs (i + 1) - (i + 1 + 1)) + 1 := by omega
        rw [this, List.getD_cons_succ]
        exact h3
    · rw [if_neg hl]
      have hl' : c.length = gs.length := by simpa using hl
      by_cases hm : arr_match c gs = true
      · rw [if_pos hm]
        right
        refine ⟨le_refl _, by simp only [List.length_cons]; omega, ?_⟩
        simp only [Nat.sub_self, List.getD_cons_zero]
        exact (arr_match_iff c gs hc hl').1 hm
      · rw [if_neg hm]
        have hne : arr_of gs ≠ c := by
          intro e
          exact hm ((arr_match_iff c gs hc hl').2 e.symm)
        rcases ih (i + 1) hs' with ⟨h1, h2⟩ | ⟨h1, h2, h3⟩
        · left
          refine ⟨h1, ?_⟩
          simp only [List.mem_cons, not_or]
          exact ⟨hne, h2⟩
        · right
          refine ⟨by omega, by simp only [List.length_cons]; omega, ?_⟩
          have : find_lookup_key_from gs cs (i + 1) - (i + 1)
              = (find_lookup_key_from gs cs (i + 1) - (i + 1 + 1)) + 1 := by omega
          rw [this, List.getD_cons_succ]
          exact h3

theorem find_from_append (gs : List GWPort) (e : GWPortArr) : ∀ (cs : List GWPortArr) (i : Nat),
    find_lookup_key_from gs cs i ≠ 0 →
    find_lookup_key_from gs (cs ++ [e]) i = find_lookup_key_from gs cs i := by
  intro cs
  induction cs with
  | nil => intro i h; simp [find_lookup_key_from] at h
  | cons c cs ih =>
    intro i h
    rw [List.cons_append]
    simp only [find_lookup_key_from] at h ⊢
    by_cases hl : c.length ≠ gs.length
    · simp only [if_pos hl] at h ⊢
      exact ih (i + 1) h
    · simp only [if_neg hl] at h ⊢
      by_cases hm : arr_match c gs = true
      · simp only [if_pos hm]
      · simp only [if_neg hm] at h ⊢
        exact ih (i + 1) h

theorem find_from_append_new (gs : List GWPort) : ∀ (cs : List GWPortArr) (i : Nat),
    find_lookup_key_from gs cs i = 0 →
    find_lookup_key_from gs (cs ++ [arr_of gs]) i = i + cs.length + 1 := by
  intro cs
  induction cs with
  | nil =>
    intro i _
    have : arr_match (arr_of gs) gs = true := (arr_match_iff _ gs rfl rfl).2 rfl
    simp [find_lookup_key_from, arr_of] at this ⊢
    simpa [arr_of] using this
  | cons c cs ih =>
    intro i h
    rw [List.cons_append]
    simp only [find_lookup_key_from, List.length_cons] at h ⊢
    by_cases hl : c.length ≠ gs.length
    · rw [if_pos hl] at h ⊢
      rw [ih (i + 1) h]; omega
    · rw [if_neg hl] at h ⊢
      by_cases hm : arr_match c gs = true
      · rw [if_pos hm] at h; omega
      · rw [if_neg hm] at h ⊢
        rw [ih (i + 1) h]; omega

theorem FreeChain.neg {v : List IPRouteMPath} {j : Int} {F : List Nat} (h : FreeChain v j F)
    (hj : j < 0) : F = [] ∧ j = -1 := by
  cases h with
  | nil => exact ⟨rfl, rfl⟩
  | cons f F _ _ => omega

theorem FreeChain.nonneg {v : List IPRouteMPath} {j : Int} {F : List Nat} (h : FreeChain v j F)
    (hj : ¬ j < 0) : ∃ Ft, F = j.toNat :: Ft ∧ j.toNat < v.length ∧ j = (j.toNat : Int) ∧
      FreeChain v (v.getD j.toNat default).extra Ft := by
  cases h with
  | nil => omega
  | cons f F h1 h2 => exact ⟨F, by simp, by simpa using h1, by simp, by simpa using h2⟩

theorem FreeChain.lt {v : List IPRouteMPath} {j : Int} {F : List Nat} (h : FreeChain v j F) :
    ∀ f ∈ F, f < v.length := by
  induction h with
  | nil => intro f hf; simp at hf
  | cons f F h1 _ ih =>
    intro x hx
    rcases List.mem_cons.1 hx with e | e
    · rw [e]; exact h1
    · exact ih x e

theorem FreeChain.congr_arena {v v' : List IPRouteMPath} {j : Int} {F : List Nat}
    (h : FreeChain v j F) (hl : v.length ≤ v'.length)
    (he : ∀ f ∈ F, (v'.getD f default).extra = (v.getD f default).extra) :
    FreeChain v' j F := by
  induction h with
  | nil => exact FreeChain.nil
  | cons f F h1 _ ih =>
    refine FreeChain.cons f F (by omega) ?_
    rw [he f (List.mem_cons_self _ _)]
    exact ih (fun x hx => he x (List.mem_cons_of_mem _ hx))

theorem find_lookup_key_le (pool : List GWPortArr) (gs : List GWPort) (hs : PoolSane pool) :
    find_lookup_key pool gs ≤ pool.length := by
  unfold find_lookup_key
  rcases find_from_spec gs pool 0 hs with ⟨h, _⟩ | ⟨_, h, _⟩
  · omega
  · omega

theorem find_lookup_key_entry (pool : List GWPortArr) (gs : List GWPort) (hs : PoolSane pool)
    (h : find_lookup_key pool gs ≠ 0) :
    pool.getD (find_lookup_key pool gs - 1) default = arr_of gs := by
  unfold find_lookup_key at h ⊢
  rcases find_from_spec gs pool 0 hs with ⟨h1, _⟩ | ⟨_, _, h3⟩
  · exact absurd h1 h
  · simpa using h3

namespace InvW

variable {t : Table} {O : Own} {F : List Nat}

theorem slot_key_get (h : InvW t O F) (i : Nat) (hi : i < t._v.length) :
    get_key (slot_key t i) = i + 1 ∧
    get_lookup_key (slot_key t i) = find_lookup_key t._lookup (t._v.getD i default).gwports := by
  have h1 := find_lookup_key_le t._lookup (t._v.getD i default).gwports h.sane
  have h2 := h.psize
  have h3 := h.vsize
  unfold slot_key
  exact ⟨get_key_combined _ _ (by omega), get_lookup_key_combined _ _ (by omega) (by omega)⟩

theorem slot_key_ne_zero (t : Table) (i : Nat) : slot_key t i ≠ 0 := by
  unfold slot_key; omega

/-- A key that is kept somewhere is the key of a live slot whose route has
that place. -/
theorem key_slot (h : InvW t O F) (g : Option (List Nat × Nat))
    (hg : keyG t._default_key O g ≠ 0) :
    ∃ i, i < t._v.length ∧ i ∉ F ∧ gpos (t._v.getD i default) = g ∧
      keyG t._default_key O g = slot_key t i := by
  obtain ⟨i, h1, h2, h3⟩ := h.keys g hg
  exact ⟨i, h1, h2, h3, by rw [← h3]; exact (h.live i h1 h2).1⟩

theorem keyG_inj (h : InvW t O F) (g g' : Option (List Nat × Nat))
    (hg : keyG t._default_key O g ≠ 0)
    (he : get_key (keyG t._default_key O g) = get_key (keyG t._default_key O g')) : g = g' := by
  obtain ⟨i, h1, h2, h3, h4⟩ := h.key_slot g hg
  have hk : get_key (keyG t._default_key O g) = i + 1 := by
    rw [h4]; exact (h.slot_key_get i h1).1
  have hg' : keyG t._default_key O g' ≠ 0 := by
    intro e
    rw [e, get_key_zero, hk] at he
    omega
  obtain ⟨i', h1', h2', h3', h4'⟩ := h.key_slot g' hg'
  have hk' : get_key (keyG t._default_key O g') = i' + 1 := by
    rw [h4']; exact (h.slot_key_get i' h1').1
  have : i = i' := by omega
  subst this
  rw [← h3, ← h3']

theorem own_inj (h : InvW t O F) : ∀ p i p' i', O p i ≠ 0 → O p i = O p' i' → p = p' ∧ i = i' := by
  intro p i p' i' h0 he
  have := h.keyG_inj (some (p, i)) (some (p', i')) h0 (by simp only [keyG]; rw [he])
  simpa using this

/-- The slot `add_route` reserves is not live, so the key built from it is
kept nowhere. -/
theorem found_not_live (h : InvW t O F) : found_slot t ∈ F ∨ found_slot t = t._v.length := by
  unfold found_slot
  by_cases hj : t._vfree < 0
  · right; simp [hj]
  · left
    obtain ⟨Ft, e, _, _, _⟩ := h.chain.nonneg hj
    rw [if_neg hj, e]
    exact List.mem_cons_self _ _

theorem key_fresh (h : InvW t O F) (c : Nat) (hc : get_key c = found_slot t + 1) :
    ∀ g, keyG t._default_key O g ≠ c := by
  intro g e
  have hg : keyG t._default_key O g ≠ 0 := by
    intro e0
    rw [e0] at e
    rw [← e, get_key_zero] at hc
    omega
  obtain ⟨i, h1, h2, _, h4⟩ := h.key_slot g hg
  have hk : get_key (keyG t._default_key O g) = i + 1 := by
    rw [h4]; exact (h.slot_key_get i h1).1
  rw [e, hc] at hk
  have : i = found_slot t := by omega
  subst this
  rcases h.found_not_live with h5 | h5
  · exact h2 h5
  · omega

end InvW

/-! ## The commit of `add_route` keeps the invariant -/

theorem pool_step (junk : Nat) (pool : List GWPortArr) (gs : List GWPort) (hs : PoolSane pool)
    (h1 : 1 ≤ gs.length) (h2 : gs.length ≤ 7) :
    let lookup_key := if find_lookup_key pool gs = 0 then pool.length + 1
      else find_lookup_key pool gs
    let pool' := if lookup_key = pool.length + 1 then pool ++ [collect junk gs] else pool
    find_lookup_key pool' gs = lookup_key ∧ PoolSane pool' ∧
    (∀ gs2, find_lookup_key pool gs2 ≠ 0 → find_lookup_key pool' gs2 = find_lookup_key pool gs2) ∧
    pool'.length ≤ max pool.length lookup_key ∧ lookup_key ≠ 0 ∧
    (∀ j, j < pool.length → pool'.getD j default = pool.getD j default) := by
  intro lookup_key pool'
  have hle := find_lookup_key_le pool gs hs
  by_cases hf : find_lookup_key pool gs = 0
  · have e1 : lookup_key = pool.length + 1 := by simp [lookup_key, hf]
    have e2 : pool' = pool ++ [arr_of gs] := by
      simp only [pool', e1, if_true]
      rw [collect_eq junk gs h1 h2]
    rw [e1, e2]
    refine ⟨?_, ?_, ?_, ?_, by omega, ?_⟩
    · have := find_from_append_new gs pool 0 hf
      simpa [find_lookup_key] using this
    · intro c hc
      rcases List.mem_append.1 hc with h | h
      · exact hs c h
      · simp at h; rw [h]; rfl
    · intro gs2 h
      exact find_from_append gs2 _ pool 0 h
    · simp
    · intro j hj
      exact getD_append_left pool _ j default hj
  · have e1 : lookup_key = find_lookup_key pool gs := by simp [lookup_key, hf]
    have e2 : pool' = pool := by
      simp only [pool', e1]
      rw [if_neg (by omega)]
    rw [e1, e2]
    exact ⟨rfl, hs, fun _ _ => rfl, by omega, hf, fun _ _ => rfl⟩

theorem gpos_extra (r : IPRouteMPath) (e : Int) : gpos { r with extra := e } = gpos r := rfl

theorem RouteOK_extra (r : IPRouteMPath) (e : Int) (h : RouteOK r) : RouteOK { r with extra := e } := h

/-- The arena after the commit of `add_route`. -/
theorem commit_arena (t : Table) (F : List Nat) (route : IPRouteMPath) (last : Nat)
    (hc : FreeChain t._v t._vfree F) (hn : F.Nodup)
    (hlast : last ≠ 0 → last - 1 < t._v.length ∧ last - 1 ∉ F) (junk lookup_key : Nat)
    (radix : Radix) (dk : Nat) (old : Option IPRouteMPath) :
    let t' := (add_route_commit junk t route (found_slot t) lookup_key last radix dk old).table
    let F' := (if last ≠ 0 then [last - 1] else []) ++ F.tail
    FreeChain t'._v t'._vfree F' ∧ F'.Nodup ∧
    t'._v.length = max t._v.length (found_slot t + 1) ∧
    t'._v.getD (found_slot t) default = { route with extra := -1 } ∧
    (∀ i, i ≠ found_slot t → (last = 0 ∨ i ≠ last - 1) →
      t'._v.getD i default = t._v.getD i default) ∧
    (∀ i, i ∈ F ↔ i = found_slot t ∧ found_slot t < t._v.length ∨ i ∈ F.tail) ∧
    found_slot t ∉ F.tail ∧ (last ≠ 0 → found_slot t ≠ last - 1) := by
  intro t' F'
  -- the slot reserved
  have hfound : (found_slot t = t._v.length ∧ F = [] ∧ t._vfree = -1) ∨
      (found_slot t < t._v.length ∧ F = found_slot t :: F.tail ∧
        FreeChain t._v (t._v.getD (found_slot t) default).extra F.tail) := by
    unfold found_slot
    by_cases hj : t._vfree < 0
    · left
      obtain ⟨e1, e2⟩ := hc.neg hj
      simp [hj, e1, e2]
    · right
      obtain ⟨Ft, e, h1, _, h3⟩ := hc.nonneg hj
      rw [if_neg hj]
      rw [e]
      exact ⟨h1, by simp, by simpa using h3⟩
  have hmem : ∀ i, i ∈ F ↔ i = found_slot t ∧ found_slot t < t._v.length ∨ i ∈ F.tail := by
    intro i
    rcases hfound with ⟨h1, h2, _⟩ | ⟨h1, h2, _⟩
    · rw [h2]; simp; intro _; omega
    · constructor
      · intro hi
        rw [h2] at hi
        rcases List.mem_cons.1 hi with e | e
        · left; exact ⟨e, h1⟩
        · right; exact e
      · rintro (⟨e, _⟩ | e)
        · rw [h2, e]; exact List.mem_cons_self _ _
        · exact List.mem_of_mem_tail e
  have hft : found_slot t ∉ F.tail := by
    rcases hfound with ⟨_, h2, _⟩ | ⟨_, h2, _⟩
    · rw [h2]; simp
    · rw [h2] at hn
      exact (List.nodup_cons.1 hn).1
  have hfl : last ≠ 0 → found_slot t ≠ last - 1 := by
    intro hl e
    obtain ⟨l1, l2⟩ := hlast hl
    rcases hfound with ⟨h1, _, _⟩ | ⟨_, h2, _⟩
    · omega
    · apply l2; rw [h2, ← e]; exact List.mem_cons_self _ _
  have hnt : F.tail.Nodup := by
    rcases hfound with ⟨_, h2, _⟩ | ⟨_, h2, _⟩
    · rw [h2]; simp
    · rw [h2] at hn
      exact (List.nodup_cons.1 hn).2
  -- the arena after the route is stored
  let vfree1 : Int := if found_slot t = t._v.length then t._vfree
    else (t._v.getD (found_slot t) default).extra
  let v1 := if found_slot t = t._v.length then t._v ++ [route] else t._v.set (found_slot t) route
  let v2 := v1.set (found_slot t) { v1.getD (found_slot t) default with extra := -1 }
  have hv1len : v1.length = max t._v.length (found_slot t + 1) := by
    rcases hfound with ⟨h1, _, _⟩ | ⟨h1, _, _⟩
    · simp only [v1, h1, if_true, List.length_append, List.length_singleton]
      omega
    · have : found_slot t ≠ t._v.length := by omega
      simp only [v1, this, if_false, List.length_set]
      omega
  have hv1f : v1.getD (found_slot t) default = route := by
    rcases hfound with ⟨h1, _, _⟩ | ⟨h1, _, _⟩
    · simp only [v1, h1, if_true]
      exact getD_append_right _ _ _
    · have : found_slot t ≠ t._v.length := by omega
      simp only [v1, this, if_false]
      rw [getD_set]; simp [h1]
  have hv1o : ∀ i, i ≠ found_slot t → v1.getD i default = t._v.getD i default := by
    intro i hi
    rcases hfound with ⟨h1, _, _⟩ | ⟨h1, _, _⟩
    · simp only [v1, h1, if_true]
      by_cases hil : i < t._v.length
      · exact getD_append_left _ _ _ _ hil
      · have hi2 : i ≠ t._v.length := by omega
        simp only [List.getD_eq_getElem?_getD]
        rw [List.getElem?_eq_none (by simp; omega), List.getElem?_eq_none (by omega)]
    · have : found_slot t ≠ t._v.length := by omega
      simp only [v1, this, if_false]
      rw [getD_set]
      have : ¬ (found_slot t = i ∧ found_slot t < t._v.length) := fun h => hi h.1.symm
      rw [if_neg this]
  have hv2len : v2.length = max t._v.length (found_slot t + 1) := by
    simp only [v2, List.length_set]; exact hv1len
  have hv2f : v2.getD (found_slot t) default = { route with extra := -1 } := by
    simp only [v2]
    rw [getD_set, hv1f]
    have : found_slot t < v1.length := by rw [hv1len]; omega
    simp [this]
  have hv2o : ∀ i, i ≠ found_slot t → v2.getD i default = t._v.getD i default := by
    intro i hi
    simp only [v2]
    rw [getD_set]
    have : ¬ (found_slot t = i ∧ found_slot t < v1.length) := fun h => hi h.1.symm
    rw [if_neg this]
    exact hv1o i hi
  have hc1 : FreeChain t._v vfree1 F.tail := by
    rcases hfound with ⟨h1, h2, h3⟩ | ⟨h1, _, h3⟩
    · simp only [vfree1, h1, if_true, h2, h3, List.tail_nil]
      exact FreeChain.nil
    · have : found_slot t ≠ t._v.length := by omega
      simp only [vfree1, this, if_false]
      exact h3
  have hc2 : FreeChain v2 vfree1 F.tail := by
    apply hc1.congr_arena (by rw [hv2len]; omega)
    intro f hf
    rw [hv2o f (fun e => hft (e ▸ hf))]
  -- the displaced slot is freed
  have ht' : t'._v = (if last ≠ 0
      then v2.set (last - 1) { v2.getD (last - 1) default with extra := vfree1 } else v2) ∧
      t'._vfree = (if last ≠ 0 then ((last - 1 : Nat) : Int) else vfree1) := ⟨rfl, rfl⟩
  obtain ⟨e1, e2⟩ := ht'
  clear_value v2 vfree1
  by_cases hl : last ≠ 0
  · obtain ⟨l1, l2⟩ := hlast hl
    have hfl' := hfl hl
    have l3 : last - 1 ∉ F.tail := fun h => l2 (List.mem_of_mem_tail h)
    have l4 : last - 1 < v2.length := by rw [hv2len]; omega
    rw [if_pos hl] at e1 e2
    have hF' : F' = (last - 1) :: F.tail := by simp [F', hl]
    refine ⟨?_, ?_, ?_, ?_, ?_, hmem, hft, hfl⟩
    · rw [hF', e1, e2]
      refine FreeChain.cons _ _ (by simpa using l4) ?_
      rw [getD_set]
      simp only [l4, and_self, if_true]
      apply hc2.congr_arena (by simp)
      intro f hf
      rw [getD_set]
      have : ¬ (last - 1 = f ∧ last - 1 < v2.length) := fun h => l3 (h.1 ▸ hf)
      rw [if_neg this]
    · rw [hF']
      exact List.nodup_cons.2 ⟨l3, hnt⟩
    · rw [e1, List.length_set]; exact hv2len
    · rw [e1, getD_set]
      have : ¬ (last - 1 = found_slot t ∧ last - 1 < v2.length) := fun h => hfl' h.1.symm
      rw [if_neg this]
      exact hv2f
    · intro i hi hil
      rw [e1, getD_set]
      have : ¬ (last - 1 = i ∧ last - 1 < v2.length) := by
        rintro ⟨h, _⟩
        rcases hil with h' | h'
        · exact hl h'
        · exact h' h.symm
      rw [if_neg this]
      exact hv2o i hi
  · rw [if_neg hl] at e1 e2
    have hF' : F' = F.tail := by simp [F', hl]
    refine ⟨?_, ?_, ?_, ?_, ?_, hmem, hft, hfl⟩
    · rw [hF', e1, e2]; exact hc2
    · rw [hF']; exact hnt
    · rw [e1]; exact hv2len
    · rw [e1]; exact hv2f
    · intro i hi _
      rw [e1]; exact hv2o i hi

/-- The slot the key at a place names. -/
theorem last_slot {t : Table} {O : Own} {F : List Nat} (h : InvW t O F)
    (g : Option (List Nat × Nat)) :
    (keyG t._default_key O g = 0 ∧ get_key (keyG t._default_key O g) = 0) ∨
    (keyG t._default_key O g ≠ 0 ∧ get_key (keyG t._default_key O g) ≠ 0 ∧
      get_key (keyG t._default_key O g) - 1 < t._v.length ∧
      get_key (keyG t._default_key O g) - 1 ∉ F ∧
      gpos (t._v.getD (get_key (keyG t._default_key O g) - 1) default) = g) := by
  by_cases hg : keyG t._default_key O g = 0
  · left; exact ⟨hg, by rw [hg]; exact get_key_zero⟩
  · right
    obtain ⟨i, h1, h2, h3, h4⟩ := h.key_slot g hg
    have hk : get_key (keyG t._default_key O g) = i + 1 := by
      rw [h4]; exact (h.slot_key_get i h1).1
    rw [hk]
    simp only [Nat.add_sub_cancel]
    exact ⟨hg, by omega, h1, h2, h3⟩

/-- The commit of `add_route` re-establishes the invariant, for the own keys
with the new key at the place of the route. -/
theorem commit_inv (junk : Nat) {t : Table} {O : Own} {F : List Nat} (h : InvW t O F)
    (route : IPRouteMPath) (hroute : RouteOK route) (ck : Nat)
    (hck : combine_key (found_slot t + 1)
      (if find_lookup_key t._lookup route.gwports = 0 then t._lookup.length + 1
        else find_lookup_key t._lookup route.gwports) = some ck)
    (O' : Own) (dk' : Nat) (r' : Radix) (hrep : Rep O' r' [] 0) (hnode : is_node r')
    (hG : ∀ g, keyG dk' O' g = if g = gpos route then ck else keyG t._default_key O g)
    (old : Option IPRouteMPath) :
    let last := get_key (keyG t._default_key O (gpos route))
    let t' := (add_route_commit junk t route (found_slot t)
      (if find_lookup_key t._lookup route.gwports = 0 then t._lookup.length + 1
        else find_lookup_key t._lookup route.gwports) last r' dk' old).table
    let F' := (if last ≠ 0 then [last - 1] else []) ++ F.tail
    InvW t' O' F' ∧
    (∀ i, (i < t'._v.length ∧ i ∉ F') ↔
      (i = found_slot t ∨ (i < t._v.length ∧ i ∉ F ∧ gpos (t._v.getD i default) ≠ gpos route))) ∧
    t'._v.getD (found_slot t) default = { route with extra := -1 } ∧
    (∀ i, i < t._v.length → i ∉ F → gpos (t._v.getD i default) ≠ gpos route →
      t'._v.getD i default = t._v.getD i default) ∧
    (∀ j, j < t._lookup.length → t'._lookup.getD j default = t._lookup.getD j default) ∧
    t._lookup.length ≤ t'._lookup.length := by
  intro last t' F'
  have hlast := last_slot h (gpos route)
  have hlast' : last ≠ 0 → last - 1 < t._v.length ∧ last - 1 ∉ F := by
    intro hl
    rcases hlast with ⟨_, h2⟩ | ⟨_, _, h3, h4, _⟩
    · exact absurd h2 hl
    · exact ⟨h3, h4⟩
  obtain ⟨a1, a2, a3, a4, a5, a6, a7, a8⟩ := commit_arena t F route last h.chain h.nodup hlast'
    junk (if find_lookup_key t._lookup route.gwports = 0 then t._lookup.length + 1
        else find_lookup_key t._lookup route.gwports) r' dk' old
  obtain ⟨p1, p2, p3, p4, p5, p6⟩ := pool_step junk t._lookup route.gwports h.sane
    hroute.2.1 hroute.2.2
  obtain ⟨b1, b2, b3⟩ := combine_key_bounds _ _ _ hck
  have hpool : t'._lookup = (if (if find_lookup_key t._lookup route.gwports = 0
      then t._lookup.length + 1 else find_lookup_key t._lookup route.gwports) = t._lookup.length + 1
      then t._lookup ++ [collect junk route.gwports] else t._lookup) := rfl
  have hdk : t'._default_key = dk' := rfl
  have hradix : t'._radix = r' := rfl
  -- membership in the new free list
  have hF' : ∀ i, i ∈ F' ↔ (last ≠ 0 ∧ i = last - 1) ∨ i ∈ F.tail := by
    intro i
    by_cases hl : last ≠ 0
    · simp [F', hl]
    · simp [F', hl]
  -- the live slots
  have hlive : ∀ i, (i < t'._v.length ∧ i ∉ F') ↔
      (i = found_slot t ∨ (i < t._v.length ∧ i ∉ F ∧ gpos (t._v.getD i default) ≠ gpos route)) := by
    intro i
    rw [hF']
    constructor
    · rintro ⟨h1, h2⟩
      rw [a3] at h1
      by_cases hi : i = found_slot t
      · left; exact hi
      · right
        have h3 : i < t._v.length := by
          rcases Nat.lt_or_ge i t._v.length with z | z
          · exact z
          · exfalso
            have := Nat.lt_of_lt_of_le h1 (max_le_iff.2 ⟨z, ?_⟩)
            · exact Nat.lt_irrefl _ this
            · rcases h.found_not_live with w | w
              · have := h.chain.lt _ w; omega
              · omega
        have h4 : i ∉ F.tail := fun hx => h2 (Or.inr hx)
        refine ⟨h3, ?_, ?_⟩
        · rw [a6]
          rintro (⟨e, _⟩ | e)
          · exact hi e
          · exact h4 e
        · intro eg
          rcases hlast with ⟨z1, _⟩ | ⟨z1, z2, _, _, _⟩
          · have hnotF : i ∉ F := by
              rw [a6]
              rintro (⟨e, _⟩ | e)
              · exact hi e
              · exact h4 e
            have := (h.live i h3 hnotF).1
            rw [eg, z1] at this
            exact InvW.slot_key_ne_zero t i this.symm
          · have hnotF : i ∉ F := by
              rw [a6]
              rintro (⟨e, _⟩ | e)
              · exact hi e
              · exact h4 e
            have hk := (h.live i h3 hnotF).1
            rw [eg] at hk
            have : last = i + 1 := by
              simp only [last]
              rw [hk]; exact (h.slot_key_get i h3).1
            exact h2 (Or.inl ⟨z2, by omega⟩)
    · rintro (hi | ⟨h1, h2, h3⟩)
      · subst hi
        refine ⟨by rw [a3]; exact lt_max_of_lt_right (Nat.lt_succ_self _), ?_⟩
        rintro (⟨hl, e⟩ | e)
        · exact a8 hl e
        · exact a7 e
      · refine ⟨by rw [a3]; exact lt_max_of_lt_left h1, ?_⟩
        rintro (⟨hl, e⟩ | e)
        · rcases hlast with ⟨_, z2⟩ | ⟨_, _, _, _, z5⟩
          · exact hl z2
          · apply h3; rw [e]; exact z5
        · exact h2 (List.mem_of_mem_tail e)
  have hkeep : ∀ i, i < t._v.length → i ∉ F → gpos (t._v.getD i default) ≠ gpos route →
      t'._v.getD i default = t._v.getD i default := by
    intro i h1 h2 h3
    apply a5 i
    · intro e
      rcases h.found_not_live with z | z
      · exact h2 (e ▸ z)
      · omega
    · by_cases hl : last = 0
      · left; exact hl
      · right
        intro e
        rcases hlast with ⟨_, z2⟩ | ⟨_, _, _, _, z5⟩
        · exact hl z2
        · apply h3; rw [e]; exact z5
  refine ⟨?_, hlive, a4, hkeep, ?_, ?_⟩
  · refine ⟨a1, a2, by rw [hradix]; exact hrep, by rw [hradix]; exact hnode, ?_, ?_, ?_, ?_, ?_⟩
    · -- keys
      intro g hg
      rw [hdk, hG] at hg
      by_cases e : g = gpos route
      · refine ⟨found_slot t, ((hlive _).2 (Or.inl rfl)).1, ((hlive _).2 (Or.inl rfl)).2, ?_⟩
        rw [a4, e]; rfl
      · rw [if_neg e] at hg
        obtain ⟨i, h1, h2, h3, _⟩ := h.key_slot g hg
        have h4 : gpos (t._v.getD i default) ≠ gpos route := by rw [h3]; exact e
        refine ⟨i, ((hlive i).2 (Or.inr ⟨h1, h2, h4⟩)).1, ((hlive i).2 (Or.inr ⟨h1, h2, h4⟩)).2, ?_⟩
        rw [hkeep i h1 h2 h4]; exact h3
    · -- live
      intro i h1 h2
      rcases (hlive i).1 ⟨h1, h2⟩ with hi | ⟨l1, l2, l3⟩
      · subst hi
        rw [a4, hdk, hG]
        simp only [gpos_extra, if_true]
        refine ⟨?_, hroute, ?_⟩
        · unfold slot_key
          rw [a4, hpool, p1, b3]
        · rw [hpool, p1]; exact p5
      · rw [hkeep i l1 l2 l3, hdk, hG, if_neg l3]
        obtain ⟨m1, m2, m3⟩ := h.live i l1 l2
        refine ⟨?_, m2, ?_⟩
        · rw [m1]
          unfold slot_key
          rw [hkeep i l1 l2 l3, hpool, p3 _ m3]
        · rw [hpool, p3 _ m3]; exact m3
    · rw [a3]
      exact max_le_iff.2 ⟨h.vsize, b1⟩
    · rw [hpool]
      exact le_trans p4 (max_le_iff.2 ⟨h.psize, b2⟩)
    · rw [hpool]; exact p2
  · intro j hj
    rw [hpool]; exact p6 j hj
  · rw [hpool]
    by_cases hc : (if find_lookup_key t._lookup route.gwports = 0 then t._lookup.length + 1
        else find_lookup_key t._lookup route.gwports) = t._lookup.length + 1
    · rw [if_pos hc]; simp
    · rw [if_neg hc]

/-! ## `add_route` keeps the invariant -/

theorem keyG_update (dk : Nat) (O : Own) (q : List Nat × Nat) (ck : Nat)
    (g : Option (List Nat × Nat)) :
    keyG dk (Own.update O q.1 q.2 ck) g = if g = some q then ck else keyG dk O g := by
  cases g with
  | none => simp [keyG]
  | some q' =>
    simp only [keyG, Own.update, Option.some.injEq]
    by_cases e : q' = q
    · subst e; simp
    · have : ¬ (q'.1 = q.1 ∧ q'.2 = q.2) := by
        rintro ⟨e1, e2⟩
        exact e (Prod.ext e1 e2)
      simp [e, this]

theorem table_eta (t : Table) : ({ t with _radix := t._radix } : Table) = t := by
  cases t; rfl

theorem mask_top {mask : Nat} (h0 : mask ≠ 0) (h1 : mask < 2 ^ 32) :
    mask % 2 ^ top_bit 0 ≠ 0 := by
  have : top_bit 0 = 32 := by decide
  rw [this, Nat.mod_eq_of_lt h1]
  exact h0

theorem make_prefix_lt (len : Nat) : make_prefix len < 2 ^ 32 := by
  unfold make_prefix
  have : 0 < 2 ^ (32 - len) := Nat.two_pow_pos _
  omega

theorem RouteOK.mask_lt {r : IPRouteMPath} (h : RouteOK r) : r.mask < 2 ^ 32 := by
  obtain ⟨len, _, e⟩ := h.1.2.1
  rw [e]; exact make_prefix_lt len

/-- What a call of `add_route` that returns does to a table that satisfies
the invariant. -/
theorem add_route_inv (junk : Nat) {t : Table} {O : Own} {F : List Nat} (h : InvW t O F)
    (route : IPRouteMPath) (hroute : RouteOK route) (set : Bool) (res : CallResult)
    (ha : add_route junk t route set = some res) :
    (keyG t._default_key O (gpos route) ≠ 0 ∧ set = false ∧ res.ret = -EEXIST ∧ res.table = t ∧
      res.old_route = some (t._v.getD
        (get_key (keyG t._default_key O (gpos route)) - 1) default)) ∨
    ((keyG t._default_key O (gpos route) = 0 ∨ set = true) ∧ res.ret = 0 ∧
      res.old_route = (if get_key (keyG t._default_key O (gpos route)) ≠ 0
        then some (t._v.getD (get_key (keyG t._default_key O (gpos route)) - 1) default)
        else none) ∧
      (route.mask = 0 → res.table._radix = t._radix) ∧
      (route.mask ≠ 0 → res.table._default_key = t._default_key) ∧
      ∃ O' F', InvW res.table O' F' ∧
        (∀ g, g ≠ gpos route →
          keyG res.table._default_key O' g = keyG t._default_key O g) ∧
        get_key (keyG res.table._default_key O' (gpos route)) = found_slot t + 1 ∧
        (∀ i, (i < res.table._v.length ∧ i ∉ F') ↔
          (i = found_slot t ∨
            (i < t._v.length ∧ i ∉ F ∧ gpos (t._v.getD i default) ≠ gpos route))) ∧
        res.table._v.getD (found_slot t) default = { route with extra := -1 } ∧
        (∀ i, i < t._v.length → i ∉ F → gpos (t._v.getD i default) ≠ gpos route →
          res.table._v.getD i default = t._v.getD i default) ∧
        (∀ j, j < t._lookup.length →
          res.table._lookup.getD j default = t._lookup.getD j default) ∧
        t._lookup.length ≤ res.table._lookup.length ∧
        F' = (if get_key (keyG t._default_key O (gpos route)) ≠ 0
          then [get_key (keyG t._default_key O (gpos route)) - 1] else []) ++ F.tail) := by
  have hlast := last_slot h (gpos route)
  have hz : get_key (keyG t._default_key O (gpos route)) = 0 →
      keyG t._default_key O (gpos route) = 0 := by
    intro e
    rcases hlast with ⟨z, _⟩ | ⟨_, z, _⟩
    · exact z
    · exact absurd e z
  unfold add_route at ha
  simp only [] at ha
  by_cases hm : route.mask ≠ 0
  · rw [if_pos hm] at ha
    have hgp : gpos route = some (pos_of 5 route.addr route.mask 0) := by simp [gpos, hm]
    cases hck : combine_key (found_slot t + 1)
        (if find_lookup_key t._lookup route.gwports = 0 then t._lookup.length + 1
          else find_lookup_key t._lookup route.gwports) with
    | none => rw [hck] at ha; simp at ha
    | some ck =>
      rw [hck] at ha
      simp only [] at ha
      obtain ⟨b1, b2, b3⟩ := combine_key_bounds _ _ _ hck
      have hgk : get_key ck = found_slot t + 1 := by rw [b3]; exact get_key_combined _ _ b1
      have hfresh : ck ≠ 0 → ∀ p i, O p i ≠ ck :=
        fun _ p i => h.key_fresh ck hgk (some (p, i))
      obtain ⟨c1, c2, c3, c4⟩ := change_spec O h.own_inj ck hfresh route.addr route.mask set 5 0
        t._radix [] rfl (by omega) h.rep h.node (mask_top hm hroute.mask_lt)
      simp only [List.nil_append] at c1 c3 c4
      have hprev : (change 5 t._radix route.addr route.mask ck set 0).1
          = keyG t._default_key O (gpos route) := by rw [c1, hgp]; rfl
      have hO : O (pos_of 5 route.addr route.mask 0).1 (pos_of 5 route.addr route.mask 0).2
          = keyG t._default_key O (gpos route) := by rw [hgp]; rfl
      rw [hO] at c3 c4
      rw [hprev] at ha
      by_cases hex : get_key (keyG t._default_key O (gpos route)) ≠ 0 ∧ set = false
      · rw [if_pos hex] at ha
        left
        have hne : keyG t._default_key O (gpos route) ≠ 0 := by
          intro e; rw [e, get_key_zero] at hex; exact hex.1 rfl
        have e := Option.some.inj ha
        rw [c4 hne hex.2, table_eta] at e
        rw [← e]
        exact ⟨hne, hex.2, rfl, rfl, if_pos hex.1⟩
      · rw [if_neg hex] at ha
        right
        have hcond : keyG t._default_key O (gpos route) = 0 ∨ set = true := by
          by_cases hs : set = true
          · right; exact hs
          · left; apply hz
            by_contra hne
            exact hex ⟨hne, by simpa using hs⟩
        rw [if_pos hcond] at c3
        have e := Option.some.inj ha
        obtain ⟨d1, d2, d3, d4, d5, d6⟩ := commit_inv junk h route hroute ck hck
          (Own.update O (pos_of 5 route.addr route.mask 0).1 (pos_of 5 route.addr route.mask 0).2 ck)
          t._default_key _ c3 c2
          (fun g => by rw [keyG_update, hgp])
          (if get_key (keyG t._default_key O (gpos route)) ≠ 0
            then some (t._v.getD (get_key (keyG t._default_key O (gpos route)) - 1) default)
            else none)
        rw [e] at d1 d2 d3 d4 d5 d6
        refine ⟨hcond, by rw [← e]; rfl, by rw [← e]; rfl, fun hm0 => absurd hm0 hm,
          fun _ => by rw [← e]; rfl, _, _, d1, ?_, ?_, d2, d3, d4, d5, d6, rfl⟩
        · intro g hg
          rw [← e]
          show keyG t._default_key _ g = _
          rw [keyG_update, ← hgp, if_neg hg]
        · rw [← e]
          show get_key (keyG t._default_key _ (gpos route)) = _
          rw [keyG_update, ← hgp, if_pos rfl]
          exact hgk
  · rw [if_neg hm] at ha
    have hm0 : route.mask = 0 := by simpa using hm
    have hgp : gpos route = none := by simp [gpos, hm0]
    have hdk : keyG t._default_key O (gpos route) = t._default_key := by rw [hgp]; rfl
    rw [hdk] at hz hlast ⊢
    by_cases hcond : get_key t._default_key = 0 ∨ set = true
    · rw [if_pos hcond] at ha
      right
      cases hck : combine_key (found_slot t + 1)
          (if find_lookup_key t._lookup route.gwports = 0 then t._lookup.length + 1
            else find_lookup_key t._lookup route.gwports) with
      | none => rw [hck] at ha; simp at ha
      | some ck =>
        rw [hck] at ha
        simp only [] at ha
        obtain ⟨b1, b2, b3⟩ := combine_key_bounds _ _ _ hck
        have hgk : get_key ck = found_slot t + 1 := by rw [b3]; exact get_key_combined _ _ b1
        have hcond' : t._default_key = 0 ∨ set = true := by
          rcases hcond with z | z
          · left; exact hz z
          · right; exact z
        have e := Option.some.inj ha
        obtain ⟨d1, d2, d3, d4, d5, d6⟩ := commit_inv junk h route hroute ck hck O ck t._radix
          h.rep h.node
          (fun g => by
            rw [hgp]
            cases g with
            | none => simp [keyG]
            | some q => simp [keyG])
          (if get_key t._default_key ≠ 0
            then some (t._v.getD (get_key t._default_key - 1) default) else none)
        rw [hdk, e] at d1 d2 d3 d4 d5 d6
        refine ⟨hcond', by rw [← e]; rfl, by rw [← e]; rfl, fun _ => by rw [← e]; rfl,
          fun hm1 => absurd hm0 hm1, O, _, d1, ?_, ?_, d2, d3, d4, d5, d6, rfl⟩
        · intro g hg
          rw [← e]
          cases g with
          | none => exact absurd hgp.symm hg
          | some q => rfl
        · rw [← e, hgp]
          exact hgk
    · rw [if_neg hcond] at ha
      left
      have e := Option.some.inj ha
      have hs : set = false := by
        by_contra hs
        exact hcond (Or.inr (by simpa using hs))
      have hne : get_key t._default_key ≠ 0 := fun z => hcond (Or.inl z)
      have hne' : t._default_key ≠ 0 := by
        intro z; rw [z, get_key_zero] at hne; exact hne rfl
      rw [← e]
      exact ⟨hne', hs, rfl, rfl, if_pos hne⟩

/-! ## `remove_route` keeps the invariant -/

theorem own_update_zero (O : Own) (p : List Nat) (i : Nat) (h : O p i = 0) :
    Own.update O p i 0 = O := by
  funext p' j
  simp only [Own.update]
  split
  · rename_i hc
    rw [hc.1, hc.2, h]
  · rfl

/-- What a call of `remove_route` does to a table that satisfies the
invariant. -/
theorem remove_route_inv {t : Table} {O : Own} {F : List Nat} (h : InvW t O F)
    (route : IPRouteMPath) (hmask : route.mask < 2 ^ 32) :
    ((keyG t._default_key O (gpos route) = 0 ∨
        route.route_match (t._v.getD (get_key (keyG t._default_key O (gpos route)) - 1) default)
          = false) ∧
      (remove_route t route).ret = -ENOENT ∧
      InvW (remove_route t route).table O F ∧
      (remove_route t route).table._v = t._v ∧
      (remove_route t route).table._vfree = t._vfree ∧
      (remove_route t route).table._lookup = t._lookup ∧
      (remove_route t route).table._default_key = t._default_key ∧
      (route.mask = 0 → (remove_route t route).table = t)) ∨
    (keyG t._default_key O (gpos route) ≠ 0 ∧
      route.route_match (t._v.getD (get_key (keyG t._default_key O (gpos route)) - 1) default)
        = true ∧
      (remove_route t route).ret = 0 ∧
      (remove_route t route).old_route
        = some (t._v.getD (get_key (keyG t._default_key O (gpos route)) - 1) default) ∧
      (remove_route t route).table._lookup = t._lookup ∧
      (remove_route t route).table._v.length = t._v.length ∧
      (∀ j, j ≠ get_key (keyG t._default_key O (gpos route)) - 1 →
        (remove_route t route).table._v.getD j default = t._v.getD j default) ∧
      ∃ O', InvW (remove_route t route).table O'
          ((get_key (keyG t._default_key O (gpos route)) - 1) :: F) ∧
        (∀ g, g ≠ gpos route →
          keyG (remove_route t route).table._default_key O' g = keyG t._default_key O g) ∧
        keyG (remove_route t route).table._default_key O' (gpos route) = 0) := by
  have hlast := last_slot h (gpos route)
  -- the dry run
  have hdry : (if route.mask ≠ 0 then change 5 t._radix route.addr route.mask 0 false 0
        else (t._default_key, t._radix)).1 = keyG t._default_key O (gpos route) ∧
      Rep O (if route.mask ≠ 0 then change 5 t._radix route.addr route.mask 0 false 0
        else (t._default_key, t._radix)).2 [] 0 ∧
      is_node (if route.mask ≠ 0 then change 5 t._radix route.addr route.mask 0 false 0
        else (t._default_key, t._radix)).2 ∧
      (route.mask = 0 → (if route.mask ≠ 0 then change 5 t._radix route.addr route.mask 0 false 0
        else (t._default_key, t._radix)).2 = t._radix) := by
    by_cases hm : route.mask ≠ 0
    · rw [if_pos hm]
      have hgp : gpos route = some (pos_of 5 route.addr route.mask 0) := by simp [gpos, hm]
      obtain ⟨c1, c2, c3, _⟩ := change_spec O h.own_inj 0 (fun z => absurd rfl z) route.addr
        route.mask false 5 0 t._radix [] rfl (by omega) h.rep h.node (mask_top hm hmask)
      simp only [List.nil_append] at c1 c3
      refine ⟨by rw [c1, hgp]; rfl, ?_, c2, fun z => absurd z hm⟩
      by_cases hz : O (pos_of 5 route.addr route.mask 0).1 (pos_of 5 route.addr route.mask 0).2 = 0
      · rw [if_pos (Or.inl hz), own_update_zero O _ _ hz] at c3
        exact c3
      · rw [if_neg (by simp [hz])] at c3
        exact c3
    · rw [if_neg hm]
      have hm0 : route.mask = 0 := by simpa using hm
      have hgp : gpos route = none := by simp [gpos, hm0]
      exact ⟨by rw [hgp]; rfl, h.rep, h.node, fun _ => rfl⟩
  obtain ⟨y1, y2, y3, y4⟩ := hdry
  unfold remove_route
  simp only []
  rw [y1]
  by_cases hc : get_key (keyG t._default_key O (gpos route)) = 0 ∨
      route.route_match (t._v.getD (get_key (keyG t._default_key O (gpos route)) - 1) default)
        = false
  · rw [if_pos hc]
    left
    refine ⟨?_, rfl, ⟨h.chain, h.nodup, y2, y3, h.keys, h.live, h.vsize, h.psize, h.sane⟩,
      rfl, rfl, rfl, rfl, ?_⟩
    · rcases hc with z | z
      · rcases hlast with ⟨w, _⟩ | ⟨_, w, _⟩
        · left; exact w
        · exact absurd z w
      · right; exact z
    · intro hm0
      simp only []
      rw [y4 hm0]
  · rw [if_neg hc]
    right
    have hne : get_key (keyG t._default_key O (gpos route)) ≠ 0 := fun z => hc (Or.inl z)
    have hmt : route.route_match
        (t._v.getD (get_key (keyG t._default_key O (gpos route)) - 1) default) = true := by
      by_contra z
      exact hc (Or.inr (by simpa using z))
    rcases hlast with ⟨_, w⟩ | ⟨w1, _, w3, w4, w5⟩
    · exact absurd w hne
    · have hslot : ∀ j, j < t._v.length → j ∉ F →
          gpos (t._v.getD j default) = gpos route →
          j = get_key (keyG t._default_key O (gpos route)) - 1 := by
        intro j j1 j2 j3
        have := (h.live j j1 j2).1
        rw [j3] at this
        rw [this, (h.slot_key_get j j1).1]
        simp
      refine ⟨w1, hmt, rfl, if_pos hne, rfl, by simp, ?_, ?_⟩
      · intro j hj
        simp only []
        rw [getD_set]
        have : ¬ (get_key (keyG t._default_key O (gpos route)) - 1 = j ∧
            get_key (keyG t._default_key O (gpos route)) - 1 < t._v.length) :=
          fun z => hj z.1.symm
        rw [if_neg this]
      · -- the effective pass
        have heff : ∃ O', Rep O' (if route.mask ≠ 0 then
              (change 5 (if route.mask ≠ 0 then change 5 t._radix route.addr route.mask 0 false 0
                else (t._default_key, t._radix)).2 route.addr route.mask 0 true 0).2
              else (if route.mask ≠ 0 then change 5 t._radix route.addr route.mask 0 false 0
                else (t._default_key, t._radix)).2) [] 0 ∧
            is_node (if route.mask ≠ 0 then
              (change 5 (if route.mask ≠ 0 then change 5 t._radix route.addr route.mask 0 false 0
                else (t._default_key, t._radix)).2 route.addr route.mask 0 true 0).2
              else (if route.mask ≠ 0 then change 5 t._radix route.addr route.mask 0 false 0
                else (t._default_key, t._radix)).2) ∧
            (∀ g, keyG (if route.mask ≠ 0 then t._default_key else 0) O' g
              = if g = gpos route then 0 else keyG t._default_key O g) := by
          by_cases hm : route.mask ≠ 0
          · have hgp : gpos route = some (pos_of 5 route.addr route.mask 0) := by simp [gpos, hm]
            simp only [if_pos hm]
            obtain ⟨_, c2, c3, _⟩ := change_spec O h.own_inj 0 (fun z => absurd rfl z)
              route.addr route.mask true 5 0 _ [] rfl (by omega)
              (by simpa only [if_pos hm] using y2) (by simpa only [if_pos hm] using y3)
              (mask_top hm hmask)
            simp only [List.nil_append, or_true, if_true] at c3
            exact ⟨_, c3, c2, fun g => by rw [keyG_update, hgp]⟩
          · have hm0 : route.mask = 0 := by simpa using hm
            have hgp : gpos route = none := by simp [gpos, hm0]
            simp only [if_neg hm]
            refine ⟨O, h.rep, h.node, fun g => ?_⟩
            rw [hgp]
            cases g with
            | none => simp [keyG]
            | some q => simp [keyG]
        obtain ⟨O', e1, e2, e3⟩ := heff
        refine ⟨O', ⟨?_, ?_, e1, e2, ?_, ?_, ?_, h.psize, h.sane⟩, ?_, ?_⟩
        · -- chain
          simp only []
          refine FreeChain.cons _ _ (by simpa using w3) ?_
          rw [getD_set]
          simp only [w3, and_self, if_true]
          apply h.chain.congr_arena (by simp)
          intro f hf
          rw [getD_set]
          have : ¬ (get_key (keyG t._default_key O (gpos route)) - 1 = f ∧
              get_key (keyG t._default_key O (gpos route)) - 1 < t._v.length) :=
            fun z => w4 (z.1 ▸ hf)
          rw [if_neg this]
        · exact List.nodup_cons.2 ⟨w4, h.nodup⟩
        · -- keys
          intro g hg
          simp only [] at hg ⊢
          rw [e3] at hg
          by_cases eg : g = gpos route
          · rw [if_pos eg] at hg; exact absurd rfl hg
          · rw [if_neg eg] at hg
            obtain ⟨j, j1, j2, j3, _⟩ := h.key_slot g hg
            have hji : j ≠ get_key (keyG t._default_key O (gpos route)) - 1 := by
              intro z
              apply eg
              rw [← j3, z, w5]
            refine ⟨j, by simpa using j1, ?_, ?_⟩
            · simp only [List.mem_cons, not_or]
              exact ⟨hji, j2⟩
            · rw [getD_set]
              have : ¬ (get_key (keyG t._default_key O (gpos route)) - 1 = j ∧
                  get_key (keyG t._default_key O (gpos route)) - 1 < t._v.length) :=
                fun z => hji z.1.symm
              rw [if_neg this]
              exact j3
        · -- live
          intro j j1 j2
          simp only [List.length_set] at j1
          simp only [List.mem_cons, not_or] at j2
          have hget : (t._v.set (get_key (keyG t._default_key O (gpos route)) - 1)
              { t._v.getD (get_key (keyG t._default_key O (gpos route)) - 1) default with
                extra := t._vfree }).getD j default = t._v.getD j default := by
            rw [getD_set]
            have : ¬ (get_key (keyG t._default_key O (gpos route)) - 1 = j ∧
                get_key (keyG t._default_key O (gpos route)) - 1 < t._v.length) :=
              fun z => j2.1 z.1.symm
            rw [if_neg this]
          simp only []
          unfold slot_key
          simp only []
          rw [hget, e3]
          have hgne : gpos (t._v.getD j default) ≠ gpos route :=
            fun z => j2.1 (hslot j j1 j2.2 z)
          rw [if_neg hgne]
          obtain ⟨m1, m2, m3⟩ := h.live j j1 j2.2
          exact ⟨m1, m2, m3⟩
        · simpa using h.vsize
        · intro g hg
          simp only []
          rw [e3, if_neg hg]
        · simp only []
          rw [e3, if_pos rfl]

theorem halve_loop_pow : ∀ (e fuel i : Nat), e < fuel →
    halve_loop fuel (2 ^ e) i = halves e i := by
  intro e
  induction e with
  | zero =>
    intro fuel i h
    obtain ⟨f, rfl⟩ : ∃ f, fuel = f + 1 := ⟨fuel - 1, by omega⟩
    simp [halve_loop, halves]
  | succ e ih =>
    intro fuel i h
    obtain ⟨f, rfl⟩ : ∃ f, fuel = f + 1 := ⟨fuel - 1, by omega⟩
    have h1 : 2 ^ (e + 1) > 1 := by
      have : 0 < 2 ^ e := Nat.two_pow_pos e
      rw [pow_succ]; omega
    have h2 : 2 ^ (e + 1) / 2 = 2 ^ e := by
      rw [pow_succ]; omega
    simp only [halve_loop, halves]
    rw [if_pos h1, h2]
    exact ih f (i / 2) (by omega)

theorem bpath_snoc (a : Nat) : ∀ (cnt s : Nat),
    bpath a s (cnt + 1) = bpath a s cnt ++ [bucket a (s + cnt)] := by
  intro cnt
  induction cnt with
  | zero => intro s; simp [bpath]
  | succ cnt ih =>
    intro s
    rw [bpath, ih (s + 1)]
    simp only [bpath, List.cons_append]
    have : s + 1 + cnt = s + (cnt + 1) := by omega
    rw [this]

theorem apath_eq_bpath (a : Nat) : ∀ level, apath a level = bpath a 0 level := by
  intro level
  induction level with
  | zero => rfl
  | succ level ih =>
    rw [apath, ih, bpath_snoc]
    simp

theorem pos_of_level_aux (addr mask e : Nat) : ∀ (cnt s fuel : Nat), cnt < fuel →
    (∀ j, j < cnt → mask &&& ((1 <<< _bitshift (s + j)) - 1) ≠ 0) →
    mask &&& ((1 <<< _bitshift (s + cnt)) - 1) = 0 →
    _nbuckets (s + cnt) - ((mask >>> _bitshift (s + cnt)) &&& (_nbuckets (s + cnt) - 1)) = 2 ^ e →
    pos_of fuel addr mask s
      = (bpath addr s cnt, halves e (_nbuckets (s + cnt) + bucket addr (s + cnt))) := by
  intro cnt
  induction cnt with
  | zero =>
    intro s fuel hf _ h2 h3
    obtain ⟨f, rfl⟩ : ∃ f, fuel = f + 1 := ⟨fuel - 1, by omega⟩
    simp only [Nat.add_zero] at h2 h3 ⊢
    simp only [pos_of, bpath]
    rw [if_neg (by simpa using h2), h3, halve_loop_pow e _ _ (Nat.lt_two_pow e)]
  | succ cnt ih =>
    intro s fuel hf h1 h2 h3
    obtain ⟨f, rfl⟩ : ∃ f, fuel = f + 1 := ⟨fuel - 1, by omega⟩
    have e1 : s + (cnt + 1) = s + 1 + cnt := by omega
    rw [e1] at h2 h3 ⊢
    have := ih (s + 1) f (by omega)
      (fun j hj => by
        have := h1 (j + 1) (by omega)
        have e2 : s + (j + 1) = s + 1 + j := by omega
        rw [e2] at this; exact this) h2 h3
    simp only [pos_of, bpath]
    rw [if_pos (by simpa using h1 0 (by omega)), this]

theorem pos_of_level (addr mask level e : Nat)
    (h1 : ∀ j, j < level → mask &&& ((1 <<< _bitshift j) - 1) ≠ 0)
    (h2 : mask &&& ((1 <<< _bitshift level) - 1) = 0)
    (h3 : _nbuckets level - ((mask >>> _bitshift level) &&& (_nbuckets level - 1)) = 2 ^ e)
    (h4 : level < 5) :
    pos_of 5 addr mask 0 = (apath addr level, halves e (_nbuckets level + bucket addr level)) := by
  rw [apath_eq_bpath]
  have := pos_of_level_aux addr mask e level 0 5 h4 (by simpa using h1) (by simpa using h2)
    (by simpa using h3)
  simpa using this

/-- The position `change` reaches for a prefix of length `len`. -/
theorem pos_of_prefix_len (addr len : Nat) (h1 : 1 ≤ len) (h2 : len ≤ 32) :
    pos_of 5 addr ( make_prefix len) 0 = cand addr len := by
  interval_cases len <;>
    exact pos_of_level addr _ _ _ (by decide) (by decide) (by decide) (by decide)

theorem bucket_arith (a level : Nat) (h : level ≤ 4) :
    bucket a level = a / 2 ^ _bitshift level % _nbuckets level := by
  unfold bucket
  rcases level_cases level h with h | h | h | h | h <;> subst h <;>
    simp [_bitshift, _nbuckets, and_65535, and_15, shr_16, shr_12, shr_8, shr_4]

set_option maxHeartbeats 4000000 in
/-- Two addresses have the same position of length `len` exactly when they
agree on their first `len` bits. -/
theorem cand_eq_iff (a b len : Nat) (ha : a < 2 ^ 32) (hb : b < 2 ^ 32) (h1 : 1 ≤ len)
    (h2 : len ≤ 32) : cand a len = cand b len ↔ a / 2 ^ (32 - len) = b / 2 ^ (32 - len) := by
  interval_cases len <;>
    simp [cand, cand_level, apath, halves, bucket_arith, _bitshift, _nbuckets] <;> omega

theorem halves_eq_div : ∀ (e i : Nat), halves e i = i / 2 ^ e := by
  intro e
  induction e with
  | zero => intro i; simp [halves]
  | succ e ih =>
    intro i
    rw [halves, ih, Nat.div_div_eq_div_mul, ← pow_succ']

theorem dyadic_range (s e x : Nat) (he : e ≤ s) (hx : x < 2 ^ s) :
    2 ^ (s - e) ≤ (2 ^ s + x) / 2 ^ e ∧ (2 ^ s + x) / 2 ^ e < 2 ^ (s - e + 1) := by
  have hp : 0 < 2 ^ e := Nat.two_pow_pos e
  have h1 : 2 ^ (s - e) * 2 ^ e = 2 ^ s := by
    rw [← pow_add]; congr 1; omega
  have h2 : 2 ^ (s - e + 1) * 2 ^ e = 2 ^ s * 2 := by
    rw [← pow_add, ← pow_succ]; congr 1; omega
  constructor
  · rw [Nat.le_div_iff_mul_le hp, h1]; omega
  · rw [Nat.div_lt_iff_lt_mul hp, h2]; omega

theorem apath_length (a : Nat) : ∀ level, (apath a level).length = level := by
  intro level
  induction level with
  | zero => rfl
  | succ level ih => simp [apath, ih]

theorem cand_level_bounds (len : Nat) (h1 : 1 ≤ len) (h2 : len ≤ 32) :
    cand_level len ≤ 4 ∧ len ≤ 16 + 4 * cand_level len ∧
    16 + 4 * cand_level len - len < (if cand_level len = 0 then 16 else 4) := by
  unfold cand_level
  split_ifs <;> omega

theorem nbuckets_pow (level : Nat) (h : level ≤ 4) :
    _nbuckets level = 2 ^ (if level = 0 then 16 else 4) := by
  rcases level_cases level h with h | h | h | h | h <;> subst h <;> simp [_nbuckets]

theorem halves_dyadic (level e x : Nat) (hl : level ≤ 4)
    (he : e < (if level = 0 then 16 else 4)) (hx : x < _nbuckets level) :
    2 ^ ((if level = 0 then 16 else 4) - e) ≤ halves e (_nbuckets level + x) ∧
    halves e (_nbuckets level + x) < 2 ^ ((if level = 0 then 16 else 4) - e + 1) := by
  rw [halves_eq_div, nbuckets_pow level hl]
  rw [nbuckets_pow level hl] at hx
  exact dyadic_range _ e x (by omega) hx

/-- A position determines the length of its prefix. -/
theorem cand_len (a b len len' : Nat) (h1 : 1 ≤ len) (h2 : len ≤ 32) (h1' : 1 ≤ len')
    (h2' : len' ≤ 32) (h : cand a len = cand b len') : len = len' := by
  have hl : cand_level len' = cand_level len := by
    have := congrArg (fun q => q.1.length) h
    simpa [cand, apath_length] using this.symm
  obtain ⟨c1, c2, c3⟩ := cand_level_bounds len h1 h2
  obtain ⟨_, c2', c3'⟩ := cand_level_bounds len' h1' h2'
  have hi := congrArg (fun q => q.2) h
  simp only [cand] at hi
  rw [hl] at hi c2' c3'
  obtain ⟨d1, d2⟩ := halves_dyadic (cand_level len) _ _ c1 c3 (bucket_lt a _ c1)
  obtain ⟨d1', d2'⟩ := halves_dyadic (cand_level len) _ _ c1 c3' (bucket_lt b _ c1)
  rw [hi] at d1 d2
  generalize (if cand_level len = 0 then 16 else 4) = s at *
  generalize hE : 16 + 4 * cand_level len - len = e at *
  generalize hE' : 16 + 4 * cand_level len - len' = e' at *
  have hee : e = e' := by
    by_contra hne
    rcases Nat.lt_or_gt_of_ne hne with z | z
    · have : 2 ^ (s - e' + 1) ≤ 2 ^ (s - e) := Nat.pow_le_pow_right (by omega) (by omega)
      omega
    · have : 2 ^ (s - e + 1) ≤ 2 ^ (s - e') := Nat.pow_le_pow_right (by omega) (by omega)
      omega
  omega

/-! ### Masks -/

theorem make_prefix_mul (len : Nat) (h : len ≤ 32) :
    make_prefix len = 2 ^ (32 - len) * (2 ^ len - 1) := by
  unfold make_prefix
  have : 2 ^ (32 - len) * 2 ^ len = 2 ^ 32 := by
    rw [← pow_add]; congr 1; omega
  rw [Nat.mul_sub, this, mul_one]

theorem and_make_prefix_eq (x len : Nat) (hx : x < 2 ^ 32) (h : len ≤ 32) :
    x &&& make_prefix len = x / 2 ^ (32 - len) * 2 ^ (32 - len) := by
  rw [make_prefix_mul len h, mul_comm (x / 2 ^ (32 - len))]
  apply Nat.eq_of_testBit_eq
  intro j
  rw [Nat.testBit_and, Nat.testBit_mul_pow_two, Nat.testBit_mul_pow_two,
    Nat.testBit_two_pow_sub_one, ← Nat.shiftRight_eq_div_pow, Nat.testBit_shiftRight]
  by_cases hj : 32 - len ≤ j
  · have e : 32 - len + (j - (32 - len)) = j := by omega
    rw [e]
    by_cases hj2 : j - (32 - len) < len
    · simp [hj, hj2]
    · have : x.testBit j = false := by
        apply Nat.testBit_lt_two_pow
        calc x < 2 ^ 32 := hx
          _ ≤ 2 ^ j := Nat.pow_le_pow_right (by omega) (by omega)
      simp [hj, hj2, this]
  · simp [hj]

theorem make_prefix_zero : make_prefix 0 = 0 := by decide

theorem make_prefix_pos (len : Nat) (h1 : 1 ≤ len) (h2 : len ≤ 32) : make_prefix len ≠ 0 := by
  unfold make_prefix
  have : 2 ^ (32 - len) < 2 ^ 32 := Nat.pow_lt_pow_right (by omega) (by omega)
  omega

theorem make_prefix_mono (len len' : Nat) (h : len ≤ len') (h2 : len' ≤ 32) :
    make_prefix len ≤ make_prefix len' := by
  unfold make_prefix
  have : 2 ^ (32 - len') ≤ 2 ^ (32 - len) := Nat.pow_le_pow_right (by omega) (by omega)
  omega

theorem make_prefix_lt_of_lt (len len' : Nat) (h : len < len') (h2 : len' ≤ 32) :
    make_prefix len < make_prefix len' := by
  unfold make_prefix
  have h3 : 2 ^ (32 - len') < 2 ^ (32 - len) := Nat.pow_lt_pow_right (by omega) (by omega)
  have h4 : 2 ^ (32 - len) ≤ 2 ^ 32 := Nat.pow_le_pow_right (by omega) (by omega)
  omega

theorem make_prefix_inj (len len' : Nat) (h1 : len ≤ 32) (h2 : len' ≤ 32)
    (h : make_prefix len = make_prefix len') : len = len' := by
  by_contra hne
  rcases Nat.lt_or_gt_of_ne hne with z | z
  · have := make_prefix_lt_of_lt len len' z h2; omega
  · have := make_prefix_lt_of_lt len' len z h1; omega

theorem contains_iff (r : IPRouteMPath) (a len : Nat) (ha : a < 2 ^ 32) (hr : PrefixOK r)
    (hl : len ≤ 32) (hm : r.mask = make_prefix len) :
    contains r a ↔ a / 2 ^ (32 - len) = r.addr / 2 ^ (32 - len) := by
  unfold contains
  have hc := hr.2.2
  rw [hm] at hc ⊢
  rw [and_make_prefix_eq r.addr len hr.1 hl] at hc
  rw [and_make_prefix_eq a len ha hl]
  have hp : 0 < 2 ^ (32 - len) := Nat.two_pow_pos _
  constructor
  · intro h
    rw [← hc] at h
    exact Nat.eq_of_mul_eq_mul_right hp h
  · intro h
    rw [h]; exact hc

theorem firstnz_append {α : Type} (f : α → Nat) (cur : Nat) (l1 l2 : List α) :
    firstnz f cur (l1 ++ l2) = firstnz f (firstnz f cur l2) l1 := by
  induction l1 with
  | nil => rfl
  | cons x xs ih =>
    rw [List.cons_append, firstnz, firstnz, ih]

theorem firstnz_cur {α : Type} (f : α → Nat) (cur : Nat) (l : List α) :
    (if firstnz f 0 l ≠ 0 then firstnz f 0 l else cur) = firstnz f cur l := by
  induction l with
  | nil => simp [firstnz]
  | cons x xs ih =>
    simp only [firstnz]
    by_cases h : f x ≠ 0
    · simp [h]
    · rw [if_neg h, if_neg h]; exact ih

theorem firstnz_map {α β : Type} (f : β → Nat) (g : α → β) (cur : Nat) (l : List α) :
    firstnz f cur (l.map g) = firstnz (fun x => f (g x)) cur l := by
  induction l with
  | nil => rfl
  | cons x xs ih => simp only [List.map, firstnz]; rw [ih]

theorem inh_leaf_chain (O : Nat → Nat) : ∀ (s i : Nat), 2 ^ (s + 1) ≤ i → i < 2 ^ (s + 2) →
    inh O i = firstnz O 0 (leaf_chain (s + 1) i) := by
  intro s
  induction s with
  | zero =>
    intro i h1 h2
    simp only [leaf_chain, firstnz]
    by_cases h : O i ≠ 0
    · rw [inh_own O i h, if_pos h]
    · rw [if_neg h]
      exact inh_top O i (by simpa using h) (by norm_num at h2; omega)
  | succ s ih =>
    intro i h1 h2
    rw [leaf_chain]
    simp only [firstnz]
    have hp : 2 ^ (s + 1 + 1) = 2 * 2 ^ (s + 1) := by rw [pow_succ']
    have hp2 : 2 ^ (s + 1 + 2) = 2 * 2 ^ (s + 2) := by rw [pow_succ']
    have hp3 : 2 ≤ 2 ^ (s + 1) := by
      calc 2 = 2 ^ 1 := by norm_num
        _ ≤ 2 ^ (s + 1) := Nat.pow_le_pow_right (by omega) (by omega)
    by_cases h : O i ≠ 0
    · rw [inh_own O i h, if_pos h]
    · rw [if_neg h, inh_parent O i (by simpa using h) (by omega)]
      exact ih (i / 2) (by omega) (by omega)

/-- One level of the descent. -/
theorem lk_step (O : Own) (a : Nat) (fuel level : Nat) (path : List Nat) (cur : Nat)
    (s : Nat) (hn : _nbuckets level = 2 ^ (s + 1)) (hl : level ≤ 4) :
    lk O a (fuel + 1) level path cur
      = lk O a fuel (level + 1) (path ++ [bucket a level])
          (firstnz (fun q : List Nat × Nat => O q.1 q.2) cur
            ((leaf_chain (s + 1) (_nbuckets level + bucket a level)).map (fun i => (path, i)))) := by
  simp only [lk]
  congr 1
  have hb := bucket_lt a level hl
  rw [inh_leaf_chain (O path) s _ (by omega) (by rw [pow_succ, ← hn]; omega)]
  rw [firstnz_map]
  exact firstnz_cur _ cur _

theorem bestL_eq_firstnz (f : Nat → Nat) (cur : Nat) : ∀ len,
    bestL f cur len = firstnz f cur ((List.range len).reverse.map (fun j => j + 1)) := by
  intro len
  induction len with
  | zero => rfl
  | succ len ih =>
    rw [List.range_succ, List.reverse_append]
    have e : [len].reverse ++ (List.range len).reverse = len :: (List.range len).reverse := rfl
    rw [e, List.map_cons, firstnz, bestL, ih]

/-- The descent returns the key of the longest prefix of the address that
holds one, else the key it was started with. -/
theorem lk_bestL (O : Own) (a dk : Nat) :
    lk O a 5 0 [] dk = bestL (fun len => O (cand a len).1 (cand a len).2) dk 32 := by
  rw [lk_step O a 4 0 [] dk 15 (by decide) (by decide),
    lk_step O a 3 1 _ _ 3 (by decide) (by decide),
    lk_step O a 2 2 _ _ 3 (by decide) (by decide),
    lk_step O a 1 3 _ _ 3 (by decide) (by decide),
    lk_step O a 0 4 _ _ 3 (by decide) (by decide)]
  simp only [lk]
  rw [← firstnz_append, ← firstnz_append, ← firstnz_append, ← firstnz_append]
  rw [bestL_eq_firstnz, ← firstnz_map (fun q : List Nat × Nat => O q.1 q.2) (cand a),
    List.map_map]
  rfl

theorem bestL_spec (f : Nat → Nat) (cur : Nat) : ∀ len,
    (bestL f cur len = cur ∧ ∀ l, 1 ≤ l → l ≤ len → f l = 0) ∨
    (∃ l0, 1 ≤ l0 ∧ l0 ≤ len ∧ bestL f cur len = f l0 ∧ f l0 ≠ 0 ∧
      ∀ l, l0 < l → l ≤ len → f l = 0) := by
  intro len
  induction len with
  | zero => left; exact ⟨rfl, fun l h1 h2 => by omega⟩
  | succ len ih =>
    simp only [bestL]
    by_cases h : f (len + 1) ≠ 0
    · right
      rw [if_pos h]
      exact ⟨len + 1, by omega, le_refl _, rfl, h, fun l h1 h2 => by omega⟩
    · rw [if_neg h]
      have h0 : f (len + 1) = 0 := by simpa using h
      rcases ih with ⟨e1, e2⟩ | ⟨l0, e1, e2, e3, e4, e5⟩
      · left
        refine ⟨e1, fun l h1 h2 => ?_⟩
        by_cases hl : l = len + 1
        · rw [hl]; exact h0
        · exact e2 l h1 (by omega)
      · right
        refine ⟨l0, e1, by omega, e3, e4, fun l h1 h2 => ?_⟩
        by_cases hl : l = len + 1
        · rw [hl]; exact h0
        · exact e5 l h1 (by omega)

theorem lookup_key_eq {t : Table} {O : Own} {F : List Nat} (h : InvW t O F) (a : Nat) :
    Radix.lookup t._radix t._default_key a 0
      = bestL (fun len => O (cand a len).1 (cand a len).2) t._default_key 32 := by
  rw [lookup_spec O a 5 0 t._radix [] t._default_key rfl h.rep, lk_bestL]

theorem lookup_decode {t : Table} {O : Own} {F : List Nat} (h : InvW t O F) (a hash i : Nat)
    (h1 : i < t._v.length) (h2 : i ∉ F)
    (hk : Radix.lookup t._radix t._default_key a 0 = slot_key t i) :
    lookup_route t a hash = hop_of (t._v.getD i default).gwports hash := by
  unfold lookup_route
  simp only []
  rw [hk, (h.slot_key_get i h1).2]
  obtain ⟨_, _, m3⟩ := h.live i h1 h2
  rw [if_pos m3, find_lookup_key_entry _ _ h.sane m3]
  rfl

/-- The own key at the position of a live route with a non-zero mask. -/
theorem live_key {t : Table} {O : Own} {F : List Nat} (h : InvW t O F) (i : Nat)
    (h1 : i < t._v.length) (h2 : i ∉ F) :
    ∃ len, len ≤ 32 ∧ (t._v.getD i default).mask = make_prefix len ∧
      (len = 0 → t._default_key = slot_key t i) ∧
      (1 ≤ len → O (cand (t._v.getD i default).addr len).1
        (cand (t._v.getD i default).addr len).2 = slot_key t i) := by
  obtain ⟨m1, m2, _⟩ := h.live i h1 h2
  obtain ⟨len, l1, l2⟩ := m2.1.2.1
  refine ⟨len, l1, l2, ?_, ?_⟩
  · intro h0
    have : (t._v.getD i default).mask = 0 := by rw [l2, h0]; exact make_prefix_zero
    simp only [gpos, this, ne_eq, not_true_eq_false, if_false, keyG] at m1
    exact m1
  · intro hl
    have : (t._v.getD i default).mask ≠ 0 := by rw [l2]; exact make_prefix_pos len hl l1
    simp only [gpos, this, ne_eq, not_false_eq_true, if_true, keyG] at m1
    rw [l2, pos_of_prefix_len _ len hl l1] at m1
    exact m1

/-- A non-zero own key at a position of the address belongs to a live route
that contains the address and has the length of the position. -/
theorem key_route {t : Table} {O : Own} {F : List Nat} (h : InvW t O F) (a len : Nat)
    (ha : a < 2 ^ 32) (h1 : 1 ≤ len) (h2 : len ≤ 32)
    (hk : O (cand a len).1 (cand a len).2 ≠ 0) :
    ∃ i, i < t._v.length ∧ i ∉ F ∧ contains (t._v.getD i default) a ∧
      (t._v.getD i default).mask = make_prefix len := by
  obtain ⟨i, i1, i2, i3, _⟩ := h.key_slot (some (cand a len)) hk
  obtain ⟨_, m2, _⟩ := h.live i i1 i2
  obtain ⟨l, l1, l2⟩ := m2.1.2.1
  have hm : (t._v.getD i default).mask ≠ 0 := by
    intro e
    rw [gpos, if_neg (not_not.2 e)] at i3
    exact Option.noConfusion i3
  have hl : 1 ≤ l := by
    by_contra z
    have : l = 0 := by omega
    rw [this, make_prefix_zero] at l2
    exact hm l2
  simp only [gpos, hm, ne_eq, not_false_eq_true, if_true, Option.some.injEq] at i3
  rw [l2, pos_of_prefix_len _ l hl l1] at i3
  have hll : l = len := cand_len _ _ _ _ hl l1 h1 h2 i3
  subst hll
  refine ⟨i, i1, i2, ?_, l2⟩
  rw [contains_iff _ a l ha m2.1 l1 l2]
  exact ((cand_eq_iff _ _ l m2.1.1 ha hl l1).1 i3).symm

/-- Longest-prefix match: the lookup returns a hop of the live route with
the longest prefix that contains the address. -/
theorem lpm_found {t : Table} {O : Own} {F : List Nat} (h : InvW t O F) (a hash i : Nat)
    (ha : a < 2 ^ 32) (h1 : i < t._v.length) (h2 : i ∉ F)
    (hc : contains (t._v.getD i default) a)
    (hmax : ∀ j, j < t._v.length → j ∉ F → contains (t._v.getD j default) a →
      (t._v.getD j default).mask ≤ (t._v.getD i default).mask) :
    lookup_route t a hash = hop_of (t._v.getD i default).gwports hash := by
  apply lookup_decode h a hash i h1 h2
  rw [lookup_key_eq h a]
  obtain ⟨len, l1, l2, l3, l4⟩ := live_key h i h1 h2
  obtain ⟨_, m2, _⟩ := h.live i h1 h2
  -- no longer prefix that contains the address holds a key
  have hlong : ∀ l, len < l → l ≤ 32 → O (cand a l).1 (cand a l).2 = 0 := by
    intro l z1 z2
    by_contra hne
    obtain ⟨j, j1, j2, j3, j4⟩ := key_route h a l ha (by omega) z2 hne
    have := hmax j j1 j2 j3
    rw [j4, l2] at this
    have := make_prefix_lt_of_lt len l z1 z2
    omega
  rcases bestL_spec (fun len => O (cand a len).1 (cand a len).2) t._default_key 32 with
    ⟨e1, e2⟩ | ⟨l0, e1, e2, e3, e4, e5⟩
  · rw [e1]
    by_cases hl : len = 0
    · exact l3 hl
    · have hk := l4 (by omega)
      have hcand : cand (t._v.getD i default).addr len = cand a len :=
        (cand_eq_iff _ _ len m2.1.1 ha (by omega) l1).2
          ((contains_iff _ a len ha m2.1 l1 l2).1 hc).symm
      rw [hcand] at hk
      have := e2 len (by omega) l1
      beta_reduce at this
      rw [hk] at this
      exact absurd this (InvW.slot_key_ne_zero t i)
  · rw [e3]
    have hle : l0 ≤ len := by
      by_contra z
      exact e4 (hlong l0 (by omega) e2)
    have hl : 1 ≤ len := by omega
    have hk := l4 hl
    have hcand : cand (t._v.getD i default).addr len = cand a len :=
      (cand_eq_iff _ _ len m2.1.1 ha hl l1).2
        ((contains_iff _ a len ha m2.1 l1 l2).1 hc).symm
    rw [hcand] at hk
    have : l0 = len := by
      by_contra z
      have := e5 len (by omega) l1
      rw [hk] at this
      exact absurd this (InvW.slot_key_ne_zero t i)
    rw [this, hk]

/-- The lookup fails when no live route contains the address. -/
theorem lpm_none {t : Table} {O : Own} {F : List Nat} (h : InvW t O F) (a hash : Nat)
    (ha : a < 2 ^ 32)
    (hno : ∀ j, j < t._v.length → j ∉ F → ¬ contains (t._v.getD j default) a) :
    lookup_route t a hash = (-1, 0) := by
  have hdk : t._default_key = 0 := by
    by_contra hne
    obtain ⟨i, i1, i2, i3, _⟩ := h.key_slot none hne
    obtain ⟨_, m2, _⟩ := h.live i i1 i2
    have hm : (t._v.getD i default).mask = 0 := by
      by_contra z
      rw [gpos, if_pos z] at i3
      exact Option.noConfusion i3
    apply hno i i1 i2
    unfold contains
    have := m2.1.2.2
    rw [hm] at this ⊢
    simp only [Nat.and_zero] at this ⊢
    exact this
  have hz : ∀ l, 1 ≤ l → l ≤ 32 → O (cand a l).1 (cand a l).2 = 0 := by
    intro l z1 z2
    by_contra hne
    obtain ⟨j, j1, j2, j3, _⟩ := key_route h a l ha z1 z2 hne
    exact hno j j1 j2 j3
  have hkey : Radix.lookup t._radix t._default_key a 0 = 0 := by
    rw [lookup_key_eq h a]
    rcases bestL_spec (fun len => O (cand a len).1 (cand a len).2) t._default_key 32 with
      ⟨e1, _⟩ | ⟨l0, e1, e2, _, e4, _⟩
    · rw [e1, hdk]
    · exact absurd (hz l0 e1 e2) e4
  unfold lookup_route
  simp only []
  rw [hkey, get_lookup_key_zero]
  simp

theorem free_slots_chain {v : List IPRouteMPath} {j : Int} {F : List Nat}
    (h : FreeChain v j F) : ∀ fuel, F.length ≤ fuel → free_slots fuel v j = F := by
  induction h with
  | nil =>
    intro fuel _
    cases fuel with
    | zero => rfl
    | succ fuel => simp [free_slots]
  | cons f F _ _ ih =>
    intro fuel hf
    cases fuel with
    | zero => simp at hf
    | succ fuel =>
      simp only [List.length_cons] at hf
      simp only [free_slots]
      rw [if_neg (by omega)]
      simp only [Int.toNat_ofNat]
      rw [ih fuel (by omega)]

theorem nodup_length_le (F : List Nat) (n : Nat) (hn : F.Nodup) (hlt : ∀ f ∈ F, f < n) :
    F.length ≤ n := by
  have h1 : F.toFinset ⊆ Finset.range n := by
    intro x hx
    rw [List.mem_toFinset] at hx
    exact Finset.mem_range.2 (hlt x hx)
  have h2 := Finset.card_le_card h1
  rw [List.toFinset_card_of_nodup hn, Finset.card_range] at h2
  exact h2

theorem InvW.free_list_eq {t : Table} {O : Own} {F : List Nat} (h : InvW t O F) :
    free_list t = F :=
  free_slots_chain h.chain _ (nodup_length_le F _ h.nodup h.chain.lt)

theorem InvW.live_iff {t : Table} {O : Own} {F : List Nat} (h : InvW t O F) (i : Nat) :
    is_live t i ↔ i < t._v.length ∧ i ∉ F := by
  unfold is_live; rw [h.free_list_eq]

theorem InvW.init : InvW Table.init (fun _ _ => 0) [] := by
  refine ⟨FreeChain.nil, List.nodup_nil, Rep.make_radix _ _ _ (by omega) (fun _ _ => rfl),
    by simp [Table.init, make_radix, is_node], ?_, ?_, by simp [Table.init],
    by simp [Table.init], ?_⟩
  · intro g hg
    cases g with
    | none => simp [keyG, Table.init] at hg
    | some q => simp [keyG] at hg
  · intro i hi
    simp [Table.init] at hi
  · intro c hc
    simp [Table.init] at hc

theorem InvW.flush {t : Table} {O : Own} {F : List Nat} (h : InvW t O F) :
    InvW (flush_table t) (fun _ _ => 0) [] := by
  refine ⟨FreeChain.nil, List.nodup_nil, Rep.make_radix _ _ _ (by omega) (fun _ _ => rfl),
    by simp [flush_table, make_radix, is_node], ?_, ?_, by simp [flush_table],
    h.psize, h.sane⟩
  · intro g hg
    cases g with
    | none => simp [keyG, flush_table] at hg
    | some q => simp [keyG] at hg
  · intro i hi
    simp [flush_table] at hi

/-- Every reachable table satisfies the invariant. -/
theorem reachable_inv {t : Table} (h : Reachable t) : ∃ O F, InvW t O F := by
  induction h with
  | init => exact ⟨_, _, InvW.init⟩
  | add junk t route set res _ hr ha ih =>
    obtain ⟨O, F, hI⟩ := ih
    rcases add_route_inv junk hI route hr set res ha with ⟨_, _, _, e, _⟩ |
      ⟨_, _, _, _, _, O', F', hI', _⟩
    · rw [e]; exact ⟨O, F, hI⟩
    · exact ⟨O', F', hI'⟩
  | remove t route _ hm ih =>
    obtain ⟨O, F, hI⟩ := ih
    rcases remove_route_inv hI route hm with ⟨_, _, hI', _⟩ | ⟨_, _, _, _, _, _, _, O', hI', _⟩
    · exact ⟨O, F, hI'⟩
    · exact ⟨O', _, hI'⟩
  | flush t _ ih =>
    obtain ⟨O, F, hI⟩ := ih
    exact ⟨_, _, hI.flush⟩

theorem gpos_congr (r s : IPRouteMPath) (ha : r.addr = s.addr) (hm : r.mask = s.mask) :
    gpos r = gpos s := by
  unfold gpos; rw [ha, hm]

/-- Two live slots do not keep their keys at the same place. -/
theorem InvW.slot_unique {t : Table} {O : Own} {F : List Nat} (h : InvW t O F) (i j : Nat)
    (hi : i < t._v.length) (hi2 : i ∉ F) (hj : j < t._v.length) (hj2 : j ∉ F)
    (hg : gpos (t._v.getD i default) = gpos (t._v.getD j default)) : i = j := by
  have e1 := (h.live i hi hi2).1
  have e2 := (h.live j hj hj2).1
  rw [hg, e2] at e1
  have := congrArg get_key e1
  rw [(h.slot_key_get i hi).1, (h.slot_key_get j hj).1] at this
  omega

theorem exists_longest (m : Nat → Nat) (P : Nat → Prop) : ∀ n, (∃ j, j < n ∧ P j) →
    ∃ j, j < n ∧ P j ∧ ∀ k, k < n → P k → m k ≤ m j := by
  intro n
  induction n with
  | zero => rintro ⟨j, hj, _⟩; omega
  | succ n ih =>
    intro _
    by_cases hb : ∃ j, j < n ∧ P j
    · obtain ⟨j0, j1, j2, j3⟩ := ih hb
      by_cases hn : P n ∧ m j0 < m n
      · refine ⟨n, by omega, hn.1, fun k k1 k2 => ?_⟩
        by_cases hk : k = n
        · rw [hk]
        · have := j3 k (by omega) k2; omega
      · refine ⟨j0, by omega, j2, fun k k1 k2 => ?_⟩
        by_cases hk : k = n
        · rw [hk]
          by_contra z
          exact hn ⟨hk ▸ k2, by omega⟩
        · exact j3 k (by omega) k2
    · have hPn : P n := by
        rename_i hex
        obtain ⟨j, j1, j2⟩ := hex
        by_cases hj : j = n
        · rw [← hj]; exact j2
        · exact absurd ⟨j, by omega, j2⟩ hb
      refine ⟨n, by omega, hPn, fun k k1 k2 => ?_⟩
      by_cases hk : k = n
      · rw [hk]
      · exact absurd ⟨k, by omega, k2⟩ hb

/-- The result of a lookup depends on the keys kept and on the pool entries
they name. -/
theorem lookup_eq_of_keys {t t2 : Table} {O O2 : Own} {F F2 : List Nat} (h : InvW t O F)
    (h2 : InvW t2 O2 F2)
    (hk : ∀ g, keyG t2._default_key O2 g = keyG t._default_key O g)
    (hp : ∀ j, j < t._lookup.length → t2._lookup.getD j default = t._lookup.getD j default)
    (a hash : Nat) : lookup_route t2 a hash = lookup_route t a hash := by
  have e1 := lookup_key_eq h a
  have e2 := lookup_key_eq h2 a
  have e3 : Radix.lookup t2._radix t2._default_key a 0
      = Radix.lookup t._radix t._default_key a 0 := by
    rw [e1, e2]
    have hd : t2._default_key = t._default_key := hk none
    have hO : (fun len => O2 (cand a len).1 (cand a len).2)
        = (fun len => O (cand a len).1 (cand a len).2) := by
      funext len
      exact hk (some (cand a len))
    rw [hd, hO]
  unfold lookup_route
  simp only []
  rw [e3]
  by_cases hz : get_lookup_key (Radix.lookup t._radix t._default_key a 0) ≠ 0
  · rw [if_pos hz, if_pos hz]
    -- the key names a pool entry of the old table
    have hne : Radix.lookup t._radix t._default_key a 0 ≠ 0 := by
      intro e; rw [e, get_lookup_key_zero] at hz; exact hz rfl
    have hlt : get_lookup_key (Radix.lookup t._radix t._default_key a 0) - 1
        < t._lookup.length := by
      rw [e1] at hne ⊢
      rcases bestL_spec (fun len => O (cand a len).1 (cand a len).2) t._default_key 32 with
        ⟨z1, _⟩ | ⟨l0, _, _, z3, z4, _⟩
      · rw [z1] at hne ⊢
        obtain ⟨i, i1, i2, _, i4⟩ := h.key_slot none hne
        simp only [keyG] at i4
        rw [i4, (h.slot_key_get i i1).2]
        have := find_lookup_key_le t._lookup (t._v.getD i default).gwports h.sane
        have := (h.live i i1 i2).2.2
        omega
      · rw [z3]
        obtain ⟨i, i1, i2, _, i4⟩ := h.key_slot (some (cand a l0)) z4
        simp only [keyG] at i4
        rw [i4, (h.slot_key_get i i1).2]
        have := find_lookup_key_le t._lookup (t._v.getD i default).gwports h.sane
        have := (h.live i i1 i2).2.2
        omega
    rw [hp _ hlt]
  · rw [if_neg hz, if_neg hz]

theorem has_room_key {t : Table} {O : Own} {F : List Nat} (h : InvW t O F)
    (route : IPRouteMPath) (hr : has_room t route) :
    ∃ ck, combine_key (found_slot t + 1)
      (if find_lookup_key t._lookup route.gwports = 0 then t._lookup.length + 1
        else find_lookup_key t._lookup route.gwports) = some ck ∧
      get_key ck = found_slot t + 1 := by
  have h1 := find_lookup_key_le t._lookup route.gwports h.sane
  have h2 := h.psize
  have hp : (if find_lookup_key t._lookup route.gwports = 0 then t._lookup.length + 1
        else find_lookup_key t._lookup route.gwports) ≤ 0xff := by
    split
    · rename_i hz
      rcases hr.2 with z | z
      · exact absurd hz z
      · omega
    · omega
  exact ⟨_, combine_key_some _ _ hr.1 hp, get_key_combined _ _ hr.1⟩

/-! ## The claims -/

/-- Longest-prefix match in a reachable table: the slot of the longest
installed route that contains the address decides the lookup, and without
such a route the lookup finds nothing. -/
theorem lpm_reachable (t : Table) (ht : Reachable t) (a hash : Nat)
    (ha : a < 2 ^ 32) :
    (∀ i, is_live t i → contains (t._v.getD i default) a →
      (∀ j, is_live t j → contains (t._v.getD j default) a →
        (t._v.getD j default).mask ≤ (t._v.getD i default).mask) →
      lookup_route t a hash = hop_of (t._v.getD i default).gwports hash) ∧
    ((∀ j, is_live t j → ¬ contains (t._v.getD j default) a) →
      lookup_route t a hash = (-1, 0)) := by
  obtain ⟨O, F, h⟩ := reachable_inv ht
  constructor
  · intro i hi hc hmax
    have hi' := (h.live_iff i).1 hi
    exact lpm_found h a hash i ha hi'.1 hi'.2 hc
      (fun j j1 j2 j3 => hmax j ((h.live_iff j).2 ⟨j1, j2⟩) j3)
  · intro hno
    exact lpm_none h a hash ha (fun j j1 j2 => hno j ((h.live_iff j).2 ⟨j1, j2⟩))

/-- In a table that satisfies the invariant, `add_route` without `set` on a
place that holds a key returns `-EEXIST` and leaves the table as it was. -/
theorem add_route_eexist (junk : Nat) {t : Table} {O : Own} {F : List Nat} (h : InvW t O F)
    (route : IPRouteMPath) (hmask : route.mask < 2 ^ 32)
    (hk : keyG t._default_key O (gpos route) ≠ 0)
    (hroom : route.mask = 0 ∨ has_room t route) :
    add_route junk t route false = some
      { ret := -EEXIST, table := t,
        old_route := some (t._v.getD (get_key (keyG t._default_key O (gpos route)) - 1)
          default) } := by
  have hlast := last_slot h (gpos route)
  have hne : get_key (keyG t._default_key O (gpos route)) ≠ 0 := by
    rcases hlast with ⟨z, _⟩ | ⟨_, z, _⟩
    · exact absurd z hk
    · exact z
  unfold add_route
  simp only []
  by_cases hm : route.mask ≠ 0
  · rw [if_pos hm]
    have hgp : gpos route = some (pos_of 5 route.addr route.mask 0) := by simp [gpos, hm]
    have hroom' : has_room t route := by
      rcases hroom with z | z
      · exact absurd z hm
      · exact z
    obtain ⟨ck, hck, hgk⟩ := has_room_key h route hroom'
    rw [hck]
    simp only []
    have hfresh : ck ≠ 0 → ∀ p i, O p i ≠ ck :=
      fun _ p i => h.key_fresh ck hgk (some (p, i))
    obtain ⟨c1, _, _, c4⟩ := change_spec O h.own_inj ck hfresh route.addr route.mask false 5 0
      t._radix [] rfl (by omega) h.rep h.node (mask_top hm hmask)
    simp only [List.nil_append] at c1 c4
    have hO : O (pos_of 5 route.addr route.mask 0).1 (pos_of 5 route.addr route.mask 0).2
        = keyG t._default_key O (gpos route) := by rw [hgp]; rfl
    rw [hO] at c1 c4
    rw [c1, if_pos ⟨hne, trivial⟩, if_pos hne, c4 hk trivial]
  · rw [if_neg hm]
    have hm0 : route.mask = 0 := by simpa using hm
    have hgp : gpos route = none := by simp [gpos, hm0]
    have hdk : keyG t._default_key O (gpos route) = t._default_key := by rw [hgp]; rfl
    rw [hdk] at hne ⊢
    have : ¬ (get_key t._default_key = 0 ∨ false = true) := by simp [hne]
    rw [if_neg this, if_pos hne]

/-- C1. Longest-prefix match.  In every reachable table, for every 32-bit
address `a` and every hash: when slot `i` holds an installed route that
contains `a` and no installed route that contains `a` has a longer mask,
`lookup_route` returns the port and gateway of hop `hash mod n` of that route
(the default route `0.0.0.0/0` has the shortest mask and so is chosen only when
nothing else matches); when no installed route contains `a` it returns port
`-1` and gateway `0`. -/
theorem lookup_route_longest_match (t : Table) (ht : Reachable t) (a hash : Nat)
    (ha : a < 2 ^ 32) :
    (∀ i, is_live t i → contains (t._v.getD i default) a →
      (∀ j, is_live t j → contains (t._v.getD j default) a →
        (t._v.getD j default).mask ≤ (t._v.getD i default).mask) →
      lookup_route t a hash = hop_of (t._v.getD i default).gwports hash) ∧
    ((∀ j, is_live t j → ¬ contains (t._v.getD j default) a) →
      lookup_route t a hash = (-1, 0)) :=
  lpm_reachable t ht a hash ha

/-- C10. After `flush_table`, from any table, `lookup_route` returns port `-1`
and gateway `0` for every address and hash, the arena is empty, the free-list
head is `-1` and the default key is `0`. -/
theorem flush_table_empties (t : Table) (a hash : Nat) :
    lookup_route (flush_table t) a hash = (-1, 0) ∧ (flush_table t)._v = [] ∧
    (flush_table t)._vfree = -1 ∧ (flush_table t)._default_key = 0 := by
  refine ⟨?_, rfl, rfl, rfl⟩
  simp [lookup_route, flush_table, make_radix, Radix.lookup, get_lookup_key_zero]

theorem add_route_some (junk : Nat) {t : Table} {O : Own} {F : List Nat} (h : InvW t O F)
    (route : IPRouteMPath) (set : Bool) (hroom : has_room t route) :
    ∃ res, add_route junk t route set = some res := by
  obtain ⟨ck, hck, _⟩ := has_room_key h route hroom
  unfold add_route
  simp only []
  rw [hck]
  simp only []
  split
  · split
    · exact ⟨_, rfl⟩
    · exact ⟨_, rfl⟩
  · split
    · exact ⟨_, rfl⟩
    · exact ⟨_, rfl⟩

theorem contains_congr (r s : IPRouteMPath) (a : Nat) (ha : r.addr = s.addr)
    (hm : r.mask = s.mask) : contains r a ↔ contains s a := by
  unfold contains; rw [ha, hm]

/-- C4 (amended). In every reachable table, when slot `i` holds an installed
route with the prefix of `route`, `route` has one to seven hops, and the call
does not die on an assertion of `combine_key` (the slot index and the path key
fit), `add_route(route, set=true)` returns 0 and writes the previous route to
`old_route`; afterwards every address whose longest installed prefix was that
of slot `i` is routed by hop `hash mod n` of the new path set, and the lookup
of every other address is unchanged. -/
theorem set_existing_replaces (junk : Nat) (t : Table) (route : IPRouteMPath)
    (ht : Reachable t) (hr : RouteOK route) (i : Nat) (hi : is_live t i)
    (haddr : (t._v.getD i default).addr = route.addr)
    (hmask : (t._v.getD i default).mask = route.mask)
    (hroom : has_room t route) :
    ∃ res, add_route junk t route true = some res ∧ res.ret = 0 ∧
      res.old_route = some (t._v.getD i default) ∧
      ∀ a hash, a < 2 ^ 32 →
        ((contains (t._v.getD i default) a ∧
            ∀ j, is_live t j → contains (t._v.getD j default) a →
              (t._v.getD j default).mask ≤ (t._v.getD i default).mask) →
          lookup_route res.table a hash = hop_of route.gwports hash) ∧
        (¬ (contains (t._v.getD i default) a ∧
            ∀ j, is_live t j → contains (t._v.getD j default) a →
              (t._v.getD j default).mask ≤ (t._v.getD i default).mask) →
          lookup_route res.table a hash = lookup_route t a hash) := by
  obtain ⟨O, F, h⟩ := reachable_inv ht
  have hi' := (h.live_iff i).1 hi
  obtain ⟨m1, _, _⟩ := h.live i hi'.1 hi'.2
  have hg : gpos (t._v.getD i default) = gpos route := gpos_congr _ _ haddr hmask
  have hkey : keyG t._default_key O (gpos route) = slot_key t i := by rw [← hg]; exact m1
  have hgk : get_key (keyG t._default_key O (gpos route)) = i + 1 := by
    rw [hkey]; exact (h.slot_key_get i hi'.1).1
  obtain ⟨res, hres⟩ := add_route_some junk h route true hroom
  refine ⟨res, hres, ?_⟩
  rcases add_route_inv junk h route hr true res hres with ⟨_, z, _⟩ |
    ⟨_, r1, r2, _, _, O', F', h', k1, k2, v1, v2, v3, p1, p2, _⟩
  · exact absurd z (by simp)
  · refine ⟨r1, ?_, ?_⟩
    · rw [r2, hgk]; simp
    · intro a hash ha
      -- the live slots of the new table
      have hlive' : ∀ j, is_live res.table j ↔ (j = found_slot t ∨ (is_live t j ∧ j ≠ i)) := by
        intro j
        rw [h'.live_iff, v1, h.live_iff]
        constructor
        · rintro (z | ⟨z1, z2, z3⟩)
          · left; exact z
          · right
            refine ⟨⟨z1, z2⟩, fun e => ?_⟩
            rw [e] at z3; exact z3 hg
        · rintro (z | ⟨⟨z1, z2⟩, z3⟩)
          · left; exact z
          · right
            refine ⟨z1, z2, fun e => ?_⟩
            rw [← hg] at e
            exact z3 (h.slot_unique j i z1 z2 hi'.1 hi'.2 e)
      have hold : ∀ j, is_live t j → j ≠ i →
          res.table._v.getD j default = t._v.getD j default := by
        intro j j1 j2
        have j1' := (h.live_iff j).1 j1
        apply v3 j j1'.1 j1'.2
        intro e
        rw [← hg] at e
        exact j2 (h.slot_unique j i j1'.1 j1'.2 hi'.1 hi'.2 e)
      have hfc : ∀ b, contains (res.table._v.getD (found_slot t) default) b ↔
          contains (t._v.getD i default) b := by
        intro b
        rw [v2]
        exact contains_congr _ _ b haddr.symm hmask.symm
      have hfm : (res.table._v.getD (found_slot t) default).mask
          = (t._v.getD i default).mask := by rw [v2]; exact hmask.symm
      have hr' : Reachable res.table := Reachable.add junk t route true res ht hr hres
      obtain ⟨n1, n2⟩ := lpm_reachable res.table hr' a hash ha
      obtain ⟨o1, o2⟩ := lpm_reachable t ht a hash ha
      constructor
      · rintro ⟨c1, c2⟩
        rw [n1 (found_slot t) ((hlive' _).2 (Or.inl rfl)) ((hfc a).2 c1) ?_, v2]
        intro j j1 j2
        rcases (hlive' j).1 j1 with z | ⟨z1, z2⟩
        · rw [z]
        · rw [hold j z1 z2, hfm]
          rw [hold j z1 z2] at j2
          exact c2 j z1 j2
      · intro hnot
        by_cases hex : ∃ j, j < t._v.length ∧ (is_live t j ∧ contains (t._v.getD j default) a)
        · obtain ⟨j0, _, ⟨l1, l2⟩, l3⟩ := exists_longest
            (fun j => (t._v.getD j default).mask)
            (fun j => is_live t j ∧ contains (t._v.getD j default) a) _ hex
          have hmax : ∀ j, is_live t j → contains (t._v.getD j default) a →
              (t._v.getD j default).mask ≤ (t._v.getD j0 default).mask :=
            fun j j1 j2 => l3 j j1.1 ⟨j1, j2⟩
          have hne : j0 ≠ i := by
            intro e
            rw [e] at l2 hmax
            exact hnot ⟨l2, hmax⟩
          rw [o1 j0 l1 l2 hmax]
          rw [n1 j0 ((hlive' j0).2 (Or.inr ⟨l1, hne⟩)) (by rw [hold j0 l1 hne]; exact l2) ?_,
            hold j0 l1 hne]
          intro j j1 j2
          rw [hold j0 l1 hne]
          rcases (hlive' j).1 j1 with z | ⟨z1, z2⟩
          · rw [z] at j2 ⊢
            rw [hfm]
            exact hmax i hi ((hfc a).1 j2)
          · rw [hold j z1 z2] at j2 ⊢
            exact hmax j z1 j2
        · have hno : ∀ j, is_live t j → ¬ contains (t._v.getD j default) a :=
            fun j j1 j2 => hex ⟨j, j1.1, j1, j2⟩
          rw [o2 hno]
          apply n2
          intro j j1 j2
          rcases (hlive' j).1 j1 with z | ⟨z1, z2⟩
          · rw [z] at j2
            exact hno i hi ((hfc a).1 j2)
          · rw [hold j z1 z2] at j2
            exact hno j z1 j2

/-- What `remove_route` of a prefix that is not installed leaves alone.  In
every reachable table the call returns `-ENOENT`; the arena, the free-list
head, the pool and the default key are exactly as before, every descent of the
trie and every `lookup_route` returns what it returned before, and for a zero
mask the whole table is unchanged. -/
theorem remove_absent_returns_enoent (t : Table) (route : IPRouteMPath) (ht : Reachable t)
    (hmask : route.mask < 2 ^ 32) (hno : ¬ installed t route.addr route.mask) :
    (remove_route t route).ret = -ENOENT ∧
    (remove_route t route).table._v = t._v ∧
    (remove_route t route).table._vfree = t._vfree ∧
    (remove_route t route).table._lookup = t._lookup ∧
    (remove_route t route).table._default_key = t._default_key ∧
    (∀ cur a, Radix.lookup (remove_route t route).table._radix cur a 0
      = Radix.lookup t._radix cur a 0) ∧
    (∀ a hash, lookup_route (remove_route t route).table a hash = lookup_route t a hash) ∧
    (route.mask = 0 → (remove_route t route).table = t) := by
  obtain ⟨O, F, h⟩ := reachable_inv ht
  rcases remove_route_inv h route hmask with ⟨_, r1, h', r2, r3, r4, r5, r6⟩ |
    ⟨z1, z2, _⟩
  · refine ⟨r1, r2, r3, r4, r5, ?_, ?_, r6⟩
    · intro cur a
      rw [lookup_spec O a 5 0 _ [] cur rfl h'.rep, lookup_spec O a 5 0 _ [] cur rfl h.rep]
    · intro a hash
      apply lookup_eq_of_keys h h'
      · intro g; rw [r5]
      · intro j _; rw [r4]
  · exfalso
    apply hno
    rcases last_slot h (gpos route) with ⟨w, _⟩ | ⟨_, _, w3, w4, _⟩
    · exact absurd w z1
    · refine ⟨_, (h.live_iff _).2 ⟨w3, w4⟩, ?_, ?_⟩
      · simp only [IPRouteMPath.route_match, Bool.and_eq_true, decide_eq_true_eq] at z2
        exact z2.1.symm
      · simp only [IPRouteMPath.route_match, Bool.and_eq_true, decide_eq_true_eq] at z2
        exact z2.2.symm

/-- C6. In every reachable table, when `add_route(route, set=false)` with a
canonical prefix and one to seven hops succeeds, the `remove_route` of the same
prefix that follows returns 0, and afterwards `lookup_route` returns for every
address and hash what it returned before the add. -/
theorem add_then_remove_restores (junk : Nat) (t : Table) (route : IPRouteMPath)
    (res : CallResult) (ht : Reachable t) (hr : RouteOK route)
    (hadd : add_route junk t route false = some res) (hok : res.ret = 0) :
    (remove_route res.table route).ret = 0 ∧
    ∀ a hash, lookup_route (remove_route res.table route).table a hash
      = lookup_route t a hash := by
  obtain ⟨O, F, h⟩ := reachable_inv ht
  rcases add_route_inv junk h route hr false res hadd with ⟨_, _, z, _⟩ |
    ⟨c, _, _, _, _, O', F', h', k1, k2, _, v2, _, p1, _, _⟩
  · rw [z] at hok
    exact absurd hok (by decide)
  · have hk0 : keyG t._default_key O (gpos route) = 0 := by
      rcases c with z | z
      · exact z
      · exact absurd z (by simp)
    rcases remove_route_inv h' route hr.mask_lt with ⟨y1, _⟩ |
      ⟨_, _, r3, _, r5, _, _, O'', h'', q1, q2⟩
    · exfalso
      rcases y1 with y | y
      · rw [y, get_key_zero] at k2; omega
      · rw [k2] at y
        simp only [Nat.add_sub_cancel] at y
        rw [v2] at y
        simp [IPRouteMPath.route_match] at y
    · refine ⟨r3, fun a hash => ?_⟩
      apply lookup_eq_of_keys h h''
      · intro g
        by_cases hg : g = gpos route
        · rw [hg, q2, hk0]
        · rw [q1 g hg, k1 g hg]
      · intro j hj
        rw [r5]; exact p1 j hj

theorem res_of_some (o : Option CallResult) (h : o.isSome = true) : o = some (res_of o) := by
  cases o with
  | none => simp at h
  | some r => rfl

theorem reach_add (junk : Nat) (t : Table) (route : IPRouteMPath) (set : Bool)
    (ht : Reachable t) (hr : RouteOK route) (h : (add_route junk t route set).isSome = true) :
    Reachable (res_of (add_route junk t route set)).table :=
  Reachable.add junk t route set _ ht hr (res_of_some _ h)

theorem route_16_ok : RouteOK route_16 :=
  ⟨⟨by decide, ⟨16, by decide, rfl⟩, by decide⟩, by decide, by decide⟩

theorem route_16_b_ok : RouteOK route_16_b :=
  ⟨⟨by decide, ⟨16, by decide, rfl⟩, by decide⟩, by decide, by decide⟩

theorem route_24_ok : RouteOK route_24 :=
  ⟨⟨by decide, ⟨24, by decide, rfl⟩, by decide⟩, by decide, by decide⟩

theorem table_16_reachable : Reachable table_16 :=
  reach_add 0 _ _ false Reachable.init route_16_ok (by decide!)

theorem table_16_24_reachable : Reachable table_16_24 :=
  reach_add 0 _ _ false table_16_reachable route_24_ok (by decide!)

/-- C1, witness: after `add 10.1.0.0/16 - 1` and `add 10.1.2.0/24 - 2 - 3` the
lookup of `10.1.2.3` with hash 5 gives port 3, hop `5 mod 2` of the longer
prefix. -/
theorem lookup_route_longest_match_witness :
    Reachable table_16_24 ∧ ip 10 1 2 3 < 2 ^ 32 ∧
    lookup_route table_16_24 (ip 10 1 2 3) 5 = (3, 0) := by
  refine ⟨table_16_24_reachable, by decide, ?_⟩
  rw [(lookup_route_longest_match table_16_24 table_16_24_reachable (ip 10 1 2 3) 5
    (by decide)).1 1 (by decide!) (by decide!) ?_]
  · decide!
  · intro j hj _
    have hlen : table_16_24._v.length = 2 := by decide!
    have hj2 : j < 2 := hlen ▸ hj.1
    interval_cases j <;> decide!

/-- C4, witness: after `add 10.1.0.0/16 - 1`, `set 10.1.0.0/16 - 2` returns 0
and the lookup of `10.1.0.1` gives port 2. -/
theorem set_existing_replaces_witness :
    Reachable table_16 ∧ RouteOK route_16_b ∧ is_live table_16 0 ∧
    ∃ res, add_route 0 table_16 route_16_b true = some res ∧ res.ret = 0 ∧
      lookup_route res.table (ip 10 1 0 1) 0 = (2, 0) := by
  refine ⟨table_16_reachable, route_16_b_ok, by decide!, ?_⟩
  obtain ⟨res, h1, h2, _, h4⟩ := set_existing_replaces 0 table_16 route_16_b
    table_16_reachable route_16_b_ok 0 (by decide!) (by decide!) (by decide!) (by decide!)
  refine ⟨res, h1, h2, ?_⟩
  rw [(h4 (ip 10 1 0 1) 0 (by decide)).1 ⟨by decide!, ?_⟩]
  · decide
  · intro j hj _
    have hlen : table_16._v.length = 1 := by decide!
    have hj2 : j < 1 := hlen ▸ hj.1
    interval_cases j
    exact le_refl _

/-- On the empty table `remove 10.1.2.0/24` returns `-ENOENT` and no lookup
changes. -/
theorem remove_absent_returns_enoent_witness :
    Reachable Table.init ∧ route_24.mask < 2 ^ 32 ∧
    ¬ installed Table.init route_24.addr route_24.mask ∧
    (remove_route Table.init route_24).ret = -ENOENT ∧
    ∀ a hash, lookup_route (remove_route Table.init route_24).table a hash
      = lookup_route Table.init a hash :=
  have hno : ¬ installed Table.init route_24.addr route_24.mask := by
    rintro ⟨i, hi, _⟩
    exact absurd hi.1 (by simp [Table.init])
  ⟨Reachable.init, by decide, hno,
    (remove_absent_returns_enoent Table.init route_24 Reachable.init (by decide) hno).1,
    (remove_absent_returns_enoent Table.init route_24 Reachable.init (by decide)
      hno).2.2.2.2.2.2.1⟩

/-- C5, the code at a failing input.  On the empty table, where
`10.1.2.0/24` is not installed, `remove_route` of that prefix returns `-ENOENT`
but does not leave the trie exactly as it was: the dry run
`change(addr, mask, 0, false)`, of which the source says "this will never
actually make changes", has allocated the child node of bucket `10.1` of the
root. -/
theorem remove_absent_allocates_child :
    Reachable Table.init ∧ ¬ installed Table.init route_24.addr route_24.mask ∧
    (remove_route Table.init route_24).ret = -ENOENT ∧
    is_node_b (child_of Table.init._radix (10 * 256 + 1)) = false ∧
    is_node_b (child_of (remove_route Table.init route_24).table._radix (10 * 256 + 1)) = true ∧
    (remove_route Table.init route_24).table._radix ≠ Table.init._radix := by
  have hno : ¬ installed Table.init route_24.addr route_24.mask := by
    rintro ⟨i, hi, _⟩
    exact absurd hi.1 (by simp [Table.init])
  have h1 : is_node_b (child_of Table.init._radix (10 * 256 + 1)) = false := by decide!
  have h2 : is_node_b (child_of (remove_route Table.init route_24).table._radix (10 * 256 + 1))
      = true := by decide!
  refine ⟨Reachable.init, hno, by decide!, h1, h2, fun e => ?_⟩
  rw [e, h1] at h2
  exact absurd h2 (by decide)

/-- C6, witness: on the empty table, `add 10.1.0.0/16 - 1` followed by
`remove 10.1.0.0/16` returns 0 and leaves every lookup as on the empty table. -/
theorem add_then_remove_restores_witness :
    Reachable Table.init ∧ RouteOK route_16 ∧
    (remove_route table_16 route_16).ret = 0 ∧
    ∀ a hash, lookup_route (remove_route table_16 route_16).table a hash
      = lookup_route Table.init a hash :=
  ⟨Reachable.init, route_16_ok,
    add_then_remove_restores 0 Table.init route_16 _ Reachable.init route_16_ok
      (res_of_some _ (by decide!)) (by decide!)⟩

theorem fill_route_ok (i : Nat) : RouteOK (fill_route i) :=
  ⟨⟨by simp [fill_route], ⟨0, by decide, by simp [fill_route, make_prefix]⟩,
    by simp [fill_route]⟩, by simp [fill_route], by simp [fill_route]⟩

theorem fill_reachable : ∀ (k : Nat) (t t' : Table) (i : Nat), Reachable t →
    fill_from k t i = some t' → Reachable t' := by
  intro k
  induction k with
  | zero =>
    intro t t' i ht h
    simp only [fill_from, Option.some.injEq] at h
    rw [← h]; exact ht
  | succ k ih =>
    intro t t' i ht h
    simp only [fill_from] at h
    cases hadd : add_route 0 t (fill_route i) true with
    | none => rw [hadd] at h; simp at h
    | some res =>
      rw [hadd] at h
      exact ih res.table t' (i + 1) (Reachable.add 0 t _ true res ht (fill_route_ok i) hadd) h

set_option maxRecDepth 100000 in
theorem full_check_ok : full_check = true := by decide!

theorem full_table_facts :
    Reachable full_table ∧ full_table._lookup.length = 255 ∧
    find_lookup_key full_table._lookup route_16_b.gwports = 0 ∧ is_live full_table 0 ∧
    (full_table._v.getD 0 default).addr = route_16_b.addr ∧
    (full_table._v.getD 0 default).mask = route_16_b.mask := by
  have h := full_check_ok
  unfold full_check at h
  unfold full_table
  cases hf : fill_from 254 table_16 0 with
  | none => rw [hf] at h; simp at h
  | some t =>
    rw [hf] at h
    simp only [Bool.and_eq_true, decide_eq_true_eq] at h
    simp only [Option.getD_some]
    exact ⟨fill_reachable 254 table_16 t 0 table_16_reachable hf, h.1.1.1.1, h.1.1.1.2,
      h.1.1.2, h.1.2, h.2⟩

theorem add_route_abort (junk : Nat) (t : Table) (route : IPRouteMPath) (set : Bool)
    (hm : route.mask ≠ 0) (hf : find_lookup_key t._lookup route.gwports = 0)
    (hl : t._lookup.length = 255) : add_route junk t route set = none := by
  unfold add_route
  simp only []
  rw [if_pos hm, hf, hl]
  simp [combine_key]

/-- C4, counterexample to the claim as stated: in a reachable table whose pool
holds 255 path sets and in which `10.1.0.0/16` is installed,
`add_route(10.1.0.0/16 - 2, set=true)` does not return 0: the path set is new,
its path key would be 256, and the call dies on the assertion
`lookup_key <= 0xff` of `combine_key`. -/
theorem set_existing_dies_when_pool_full :
    Reachable full_table ∧ RouteOK route_16_b ∧ is_live full_table 0 ∧
    (full_table._v.getD 0 default).addr = route_16_b.addr ∧
    (full_table._v.getD 0 default).mask = route_16_b.mask ∧
    add_route 0 full_table route_16_b true = none :=
  ⟨full_table_facts.1, route_16_b_ok, full_table_facts.2.2.2.1, full_table_facts.2.2.2.2.1,
    full_table_facts.2.2.2.2.2,
    add_route_abort 0 full_table route_16_b true (by decide) full_table_facts.2.2.1
      full_table_facts.2.1⟩

theorem collect_junk (junk : Nat) (gwports : List GWPort) (h : gwports ≠ []) :
    collect junk gwports = collect 0 gwports := by
  cases gwports with
  | nil => exact absurd rfl h
  | cons g gs =>
    have hc : 0 < GWPortArr.capacity := by decide
    simp only [collect, collect_loop, List.nil_append, if_pos hc]

theorem add_route_junk (junk : Nat) (t : Table) (route : IPRouteMPath) (set : Bool)
    (h : route.gwports ≠ []) : add_route junk t route set = add_route 0 t route set := by
  simp only [add_route, add_route_commit, collect_junk junk route.gwports h]

theorem run_command_junk (junk : Nat) (t : Table) (command : Int) (str : List Char)
    (log : Option (List IPRouteMPath))
    (h : ∀ route, cp_ip_route_mpath str (decide (command = CMD_REMOVE)) = some route →
      route.gwports ≠ []) :
    run_command junk t command str log = run_command 0 t command str log := by
  unfold run_command
  cases hp : cp_ip_route_mpath str (decide (command = CMD_REMOVE)) with
  | none => rfl
  | some route => simp only [add_route_junk junk t route _ (h route hp)]

/-- A pass of the loop over a line whose first word is empty comes back to the
same offset: from there the loop uses up any bound on its passes. -/
theorem ctrl_loop_blank (junk : Nat) (conf : List Char) (s : Nat) (hs : s < conf.length)
    (hw : (cp_shift_spacevec (line_at conf s)).1 = []) :
    ∀ (fuel : Nat) (t : Table) (log : List IPRouteMPath),
      ctrl_loop junk conf fuel t s log = Outcome.out_of_fuel := by
  intro fuel
  induction fuel with
  | zero => intro t log; rfl
  | succ fuel ih =>
    intro t log
    have hc : command_of (cp_shift_spacevec (line_at conf s)).1 = none := by rw [hw]; decide
    unfold line_at at hc hw
    rw [ctrl_loop, if_pos hs]
    simp only [hc, hw, if_true]
    exact ih t log

/-- A pass of the loop over a line that carries a command which succeeds goes
on behind the line's newline. -/
theorem ctrl_loop_step (junk : Nat) (conf : List Char) (s : Nat) (fuel : Nat) (t : Table)
    (log : List IPRouteMPath) (command : Int) (hs : s < conf.length)
    (hc : command_of (cp_shift_spacevec (line_at conf s)).1 = some command)
    (hsome : (run_command junk t command (cp_shift_spacevec (line_at conf s)).2
      (some log)).isSome = true)
    (hr : ∀ x, run_command junk t command (cp_shift_spacevec (line_at conf s)).2 (some log)
      = some x → 0 ≤ x.1) :
    ∃ t1 log1, ctrl_loop junk conf (fuel + 1) t s log
      = ctrl_loop junk conf fuel t1 (find_char conf s '\n' + 1) log1 := by
  unfold line_at at hc hsome hr
  rw [ctrl_loop, if_pos hs]
  simp only [hc]
  cases hrun : run_command junk t command
      (cp_shift_spacevec ((conf.drop s).take (find_char conf s '\n' - s))).2 (some log) with
  | none => rw [hrun] at hsome; exact absurd hsome (by decide)
  | some x =>
    obtain ⟨r, t1, log1⟩ := x
    have h0 : ¬ r < 0 := not_lt.2 (hr _ hrun)
    simp only [if_neg h0]
    exact ⟨t1, log1.getD [], rfl⟩

theorem route_a_ok : RouteOK route_a :=
  ⟨⟨by decide, ⟨16, by decide, rfl⟩, by decide⟩, by decide, by decide⟩

theorem route_b_ok : RouteOK route_b :=
  ⟨⟨by decide, ⟨16, by decide, rfl⟩, by decide⟩, by decide, by decide⟩

theorem table_a_b_reachable : Reachable table_a_b :=
  reach_add 0 _ route_b false
    (reach_add 0 Table.init route_a false Reachable.init route_a_ok (by decide!))
    route_b_ok (by decide!)

/-- A batch on the empty table whose first line is `add 10.1.0.0/16 - 1` and
whose second line has an empty first word never returns: the first line
succeeds, and the pass over the second line comes back to the same offset. -/
theorem add_then_blank_loops (junk : Nat) (conf : List Char) (hs : 0 < conf.length)
    (hline : line_at conf 0 = "add 10.1.0.0/16 - 1".toList)
    (hnl : find_char conf 0 '\n' + 1 < conf.length)
    (hw : (cp_shift_spacevec (line_at conf (find_char conf 0 '\n' + 1))).1 = []) :
    ∀ fuel, ctrl_handler junk fuel Table.init conf = Outcome.out_of_fuel := by
  intro fuel
  cases fuel with
  | zero => rfl
  | succ fuel =>
    have hhops : ∀ route, cp_ip_route_mpath (cp_shift_spacevec (line_at conf 0)).2
        (decide (CMD_ADD = CMD_REMOVE)) = some route → route.gwports ≠ [] := by
      intro route hp
      have e : (cp_ip_route_mpath (cp_shift_spacevec "add 10.1.0.0/16 - 1".toList).2
          (decide (CMD_ADD = CMD_REMOVE))).map (fun r => r.gwports) = some [⟨0, 1⟩] := by
        decide!
      rw [hline] at hp
      rw [hp] at e
      simp only [Option.map_some', Option.some.injEq] at e
      rw [e]
      exact List.cons_ne_nil _ _
    have hj := run_command_junk junk Table.init CMD_ADD (cp_shift_spacevec (line_at conf 0)).2
      (some []) hhops
    have hrun : (run_command 0 Table.init CMD_ADD
        (cp_shift_spacevec "add 10.1.0.0/16 - 1".toList).2 (some [])).map (fun x => x.1)
        = some 0 := by decide!
    obtain ⟨t1, log1, h⟩ := ctrl_loop_step junk conf 0 fuel Table.init [] CMD_ADD hs
      (by rw [hline]; decide)
      (by
        rw [hj, hline]
        cases hx : run_command 0 Table.init CMD_ADD
            (cp_shift_spacevec "add 10.1.0.0/16 - 1".toList).2 (some []) with
        | none => rw [hx] at hrun; exact absurd hrun (by decide)
        | some x => rfl)
      (by
        intro x hx
        rw [hj, hline] at hx
        rw [hx] at hrun
        simp only [Option.map_some', Option.some.injEq] at hrun
        rw [hrun])
    unfold ctrl_handler
    rw [h]
    exact ctrl_loop_blank junk conf _ hnl hw fuel t1 log1

/-- C2, the code at a failing input.  The table holds `10.0.0.0/16 - 1` and
`11.0.0.0/16 192.168.1.1 2`; the batch is `remove 10.0.0.0/16`,
`add 12.0.0.0/16 -1`, `set 12.0.0.0/16 - 3`, `bogus`.  The handler returns
`-EINVAL` after its rollback, and `dump_routes` then lists `11.0.0.0/16` before
`10.0.0.0/16`, where before the batch it listed `10.0.0.0/16` first: the text is
not the one the table gave before the batch. -/
theorem ctrl_rollback_changes_dump :
    Reachable table_a_b ∧
    outcome_ret (ctrl_handler 0 5 table_a_b script_hopless) = some (-EINVAL) ∧
    (dump_routes table_a_b).map Prod.fst
      = some "10.0.0.0/16\t\t-\t1\n11.0.0.0/16\t\t192.168.1.1\t2\n".toList ∧
    outcome_dump (ctrl_handler 0 5 table_a_b script_hopless)
      = some "11.0.0.0/16\t\t192.168.1.1\t2\n10.0.0.0/16\t\t-\t1\n".toList ∧
    outcome_dump (ctrl_handler 0 5 table_a_b script_hopless)
      ≠ (dump_routes table_a_b).map Prod.fst := by
  have h1 : (dump_routes table_a_b).map Prod.fst
      = some "10.0.0.0/16\t\t-\t1\n11.0.0.0/16\t\t192.168.1.1\t2\n".toList := by decide!
  have h2 : outcome_dump (ctrl_handler 0 5 table_a_b script_hopless)
      = some "11.0.0.0/16\t\t192.168.1.1\t2\n10.0.0.0/16\t\t-\t1\n".toList := by decide!
  refine ⟨table_a_b_reachable, by decide!, h1, h2, ?_⟩
  rw [h1, h2]
  decide

/-- C8, the code at a failing input.  On the empty table the batch
`add 10.1.0.0/16 - 1`, blank line, `add 10.2.0.0/16 - 2` does not return
within any number of passes of the loop, whatever the uninitialised length
holds: the blank line is not skipped.  The same batch without the blank line
returns 0. -/
theorem ctrl_handler_blank_line_never_returns :
    (∀ junk fuel, ctrl_handler junk fuel Table.init script_blank = Outcome.out_of_fuel) ∧
    outcome_ret (ctrl_handler 0 3 Table.init script_no_blank) = some 0 :=
  ⟨fun junk => add_then_blank_loops junk script_blank (by decide) (by decide) (by decide)
    (by decide), by decide!⟩

/-- C9, the code at a failing input.  On the empty table the batch
`add 10.1.0.0/16 - 1`, blank line, `bogus` has a failing third line, and the
handler does not return within any number of passes of the loop: it returns
no error code.  The same batch without the blank line returns `-EINVAL`. -/
theorem ctrl_handler_blank_line_hides_failure :
    (∀ junk fuel, ctrl_handler junk fuel Table.init script_blank_bogus
      = Outcome.out_of_fuel) ∧
    outcome_ret (ctrl_handler 0 3 Table.init "add 10.1.0.0/16 - 1\nbogus".toList)
      = some (-EINVAL) :=
  ⟨fun junk => add_then_blank_loops junk script_blank_bogus (by decide) (by decide)
    (by decide) (by decide), by decide!⟩

theorem entry_matches_unique (c : GWPortArr) (x y : List GWPort) (hx : entry_matches c x)
    (hy : entry_matches c y) : x = y := by
  obtain ⟨x1, x2⟩ := hx
  obtain ⟨y1, y2⟩ := hy
  unfold arr_match at x2 y2
  rw [List.all_eq_true] at x2 y2
  apply List.ext_getElem (by omega)
  intro j h1 h2
  have a := x2 j (by simp; omega)
  have b := y2 j (by simp; omega)
  simp only [Bool.and_eq_true, decide_eq_true_eq] at a b
  rw [List.getD_eq_getElem _ _ h1] at a
  rw [List.getD_eq_getElem _ _ h2] at b
  cases hc : x[j]
  cases hg : y[j]
  rw [hc] at a
  rw [hg] at b
  simp only at a b
  rw [← a.1, ← a.2, ← b.1, ← b.2]

theorem entry_matches_arr_of (x : List GWPort) : entry_matches (arr_of x) x := by
  refine ⟨rfl, ?_⟩
  simp [arr_match, arr_of, GWPortArr.get]

/-- What the scan returns: zero, or the index (counted from `i + 1`) of an
entry that agrees with the path set. -/
theorem find_from_found (gs : List GWPort) : ∀ (cs : List GWPortArr) (i : Nat),
    find_lookup_key_from gs cs i ≠ 0 →
    i + 1 ≤ find_lookup_key_from gs cs i ∧ find_lookup_key_from gs cs i ≤ i + cs.length ∧
      entry_matches (cs.getD (find_lookup_key_from gs cs i - (i + 1)) default) gs := by
  intro cs
  induction cs with
  | nil => intro i h; exact absurd rfl h
  | cons c cs ih =>
    intro i h
    simp only [find_lookup_key_from] at h ⊢
    by_cases hl : c.length ≠ gs.length
    · simp only [if_pos hl] at h ⊢
      obtain ⟨a, b, d⟩ := ih (i + 1) h
      refine ⟨by omega, by simp only [List.length_cons]; omega, ?_⟩
      have e : find_lookup_key_from gs cs (i + 1) - (i + 1)
          = (find_lookup_key_from gs cs (i + 1) - (i + 1 + 1)) + 1 := by omega
      rw [e, List.getD_cons_succ]
      exact d
    · simp only [if_neg hl] at h ⊢
      by_cases hm : arr_match c gs = true
      · simp only [if_pos hm]
        refine ⟨le_refl _, by simp only [List.length_cons]; omega, ?_⟩
        rw [Nat.sub_self, List.getD_cons_zero]
        exact ⟨not_not.1 hl, hm⟩
      · simp only [if_neg hm] at h ⊢
        obtain ⟨a, b, d⟩ := ih (i + 1) h
        refine ⟨by omega, by simp only [List.length_cons]; omega, ?_⟩
        have e : find_lookup_key_from gs cs (i + 1) - (i + 1)
            = (find_lookup_key_from gs cs (i + 1) - (i + 1 + 1)) + 1 := by omega
        rw [e, List.getD_cons_succ]
        exact d

/-- The scan of a pool with one more entry at its end. -/
theorem find_from_snoc (gs : List GWPort) (e : GWPortArr) : ∀ (cs : List GWPortArr) (i : Nat),
    find_lookup_key_from gs (cs ++ [e]) i
      = if find_lookup_key_from gs cs i ≠ 0 then find_lookup_key_from gs cs i
        else if e.length ≠ gs.length then 0
        else if arr_match e gs = true then i + cs.length + 1 else 0 := by
  intro cs
  induction cs with
  | nil =>
    intro i
    simp only [List.nil_append, find_lookup_key_from, ne_eq, not_true_eq_false, if_false,
      List.length_nil, Nat.add_zero]
  | cons c cs ih =>
    intro i
    rw [List.cons_append]
    simp only [find_lookup_key_from]
    by_cases hl : c.length ≠ gs.length
    · simp only [if_pos hl]
      rw [ih (i + 1)]
      simp only [List.length_cons]
      have : i + 1 + cs.length + 1 = i + (cs.length + 1) + 1 := by omega
      rw [this]
    · simp only [if_neg hl]
      by_cases hm : arr_match c gs = true
      · simp only [if_pos hm]
        rw [if_pos (by omega)]
      · simp only [if_neg hm]
        rw [ih (i + 1)]
        simp only [List.length_cons]
        have : i + 1 + cs.length + 1 = i + (cs.length + 1) + 1 := by omega
        rw [this]

theorem add_route_commit_pool (junk : Nat) (t : Table) (route : IPRouteMPath)
    (found last_key : Nat) (radix : Radix) (default_key : Nat) (old : Option IPRouteMPath) :
    (add_route_commit junk t route found (intern junk t._lookup route.gwports).1 last_key radix
      default_key old).table._lookup = (intern junk t._lookup route.gwports).2 := rfl

theorem find_lookup_key_found (pool : List GWPortArr) (gs : List GWPort)
    (h : find_lookup_key pool gs ≠ 0) :
    1 ≤ find_lookup_key pool gs ∧ find_lookup_key pool gs ≤ pool.length ∧
      entry_matches (pool.getD (find_lookup_key pool gs - 1) default) gs := by
  unfold find_lookup_key at h ⊢
  obtain ⟨a, b, c⟩ := find_from_found gs pool 0 h
  exact ⟨by omega, by omega, by simpa using c⟩

theorem intern_found (junk : Nat) (pool : List GWPortArr) (gs : List GWPort)
    (h : find_lookup_key pool gs ≠ 0) :
    intern junk pool gs = (find_lookup_key pool gs, pool) := by
  have hb := (find_lookup_key_found pool gs h).2.1
  unfold intern
  simp only [if_neg h]
  rw [if_neg (by omega)]

theorem intern_new (junk : Nat) (pool : List GWPortArr) (gs : List GWPort)
    (h : find_lookup_key pool gs = 0) :
    intern junk pool gs = (pool.length + 1, pool ++ [collect junk gs]) := by
  unfold intern
  simp only [if_pos h, if_true]

theorem find_lookup_key_snoc (pool : List GWPortArr) (e : GWPortArr) (gs : List GWPort) :
    find_lookup_key (pool ++ [e]) gs
      = if find_lookup_key pool gs ≠ 0 then find_lookup_key pool gs
        else if e.length ≠ gs.length then 0
        else if arr_match e gs = true then pool.length + 1 else 0 := by
  unfold find_lookup_key
  rw [find_from_snoc gs e pool 0]
  simp only [Nat.zero_add]

/-- Interning is a function of the path set, stated for the two calls in a
row: the second key equals the first exactly for the same path set, and a
path set interned again finds its key and leaves the pool alone. -/
theorem intern_twice (junk junk2 : Nat) (pool : List GWPortArr) (x y : List GWPort)
    (h1 : 1 ≤ x.length) (h7 : x.length ≤ 7) :
    ((intern junk2 (intern junk pool x).2 y).1 = (intern junk pool x).1 ↔ x = y) ∧
    intern junk2 (intern junk pool x).2 x = intern junk pool x := by
  by_cases hx : find_lookup_key pool x ≠ 0
  · obtain ⟨_, xb, xm⟩ := find_lookup_key_found pool x hx
    rw [intern_found junk pool x hx]
    simp only
    refine ⟨?_, intern_found junk2 pool x hx⟩
    by_cases hy : find_lookup_key pool y ≠ 0
    · obtain ⟨_, _, ym⟩ := find_lookup_key_found pool y hy
      rw [intern_found junk2 pool y hy]
      simp only
      constructor
      · intro e
        rw [e] at ym
        exact entry_matches_unique _ x y xm ym
      · intro e; rw [e]
    · have hy0 : find_lookup_key pool y = 0 := not_not.1 hy
      rw [intern_new junk2 pool y hy0]
      simp only
      constructor
      · intro e; omega
      · intro e; rw [e] at hx; exact absurd hy0 hx
  · have hx0 : find_lookup_key pool x = 0 := not_not.1 hx
    rw [intern_new junk pool x hx0, collect_eq junk x h1 h7]
    simp only
    have hs := find_lookup_key_snoc pool (arr_of x) y
    have hxx := entry_matches_arr_of x
    constructor
    · by_cases hy : find_lookup_key pool y ≠ 0
      · obtain ⟨_, yb, _⟩ := find_lookup_key_found pool y hy
        rw [if_pos hy] at hs
        rw [intern_found junk2 _ y (by rw [hs]; exact hy), hs]
        simp only
        constructor
        · intro e; omega
        · intro e; rw [e] at hx0; exact absurd hx0 hy
      · rw [if_neg hy] at hs
        by_cases hm : entry_matches (arr_of x) y
        · rw [if_neg (not_not.2 hm.1), if_pos hm.2] at hs
          rw [intern_found junk2 _ y (by rw [hs]; omega), hs]
          simp only
          exact ⟨fun _ => entry_matches_unique _ x y hxx hm, fun _ => trivial⟩
        · have hz : find_lookup_key (pool ++ [arr_of x]) y = 0 := by
            rw [hs]
            by_cases hl : (arr_of x).length ≠ y.length
            · rw [if_pos hl]
            · rw [if_neg hl, if_neg (fun hmm => hm ⟨not_not.1 hl, hmm⟩)]
          rw [intern_new junk2 _ y hz]
          simp only [List.length_append, List.length_singleton]
          constructor
          · intro e; omega
          · intro e; rw [← e] at hm; exact absurd hxx hm
    · have hs2 := find_lookup_key_snoc pool (arr_of x) x
      rw [if_neg hx, if_neg (not_not.2 hxx.1), if_pos hxx.2] at hs2
      rw [intern_found junk2 _ x (by rw [hs2]; omega), hs2]

/-- C19. The combined key packs the route key in the low 24 bits and the
path key in the high 8 bits of a 32-bit value: for every route key
`k < 2^24` and every path key `p <= 255`, `combine_key(k, p)` passes its
assertions and gives a 32-bit pattern `c` with `get_key(c) = k` and
`get_lookup_key(c) = p`, and `c` is zero exactly when `k` and `p` both are. -/
theorem combine_key_packs (k p : Nat) (hk : k < 2 ^ 24) (hp : p ≤ 255) :
    ∃ c, combine_key k p = some c ∧ c < 2 ^ 32 ∧ c = p * 2 ^ 24 + k ∧
      get_key c = k ∧ get_lookup_key c = p ∧ (c = 0 ↔ k = 0 ∧ p = 0) := by
  refine ⟨p * 2 ^ 24 + k, combine_key_some k p (by omega) (by omega), by omega, rfl,
    get_key_combined k p (by omega), get_lookup_key_combined k p (by omega) (by omega), ?_⟩
  omega

/-- C19, witness: route key 5 with path key 200, a pattern with the sign bit
set, splits back into 5 and 200. -/
theorem combine_key_packs_witness :
    (5 : Nat) < 2 ^ 24 ∧ (200 : Nat) ≤ 255 ∧
    ∃ c, combine_key 5 200 = some c ∧ c < 2 ^ 32 ∧ c = 200 * 2 ^ 24 + 5 ∧
      get_key c = 5 ∧ get_lookup_key c = 200 ∧ (c = 0 ↔ (5 : Nat) = 0 ∧ (200 : Nat) = 0) :=
  ⟨by decide, by decide, combine_key_packs 5 200 (by decide) (by decide)⟩

theorem node_at_null : ∀ path, node_at Radix.null path = Radix.null := by
  intro path
  induction path with
  | nil => rfl
  | cons b bs ih => simpa [node_at, child_of] using ih

theorem rep_node_at (O : Own) : ∀ (suffix : List Nat) (r : Radix) (path : List Nat) (level : Nat),
    Rep O r path level → Rep O (node_at r suffix) (path ++ suffix) (level + suffix.length) := by
  intro suffix
  induction suffix with
  | nil => intro r path level h; simpa [node_at] using h
  | cons b bs ih =>
    intro r path level h
    cases h with
    | null _ _ hz =>
      rw [node_at_null]
      exact Rep.null _ _ (fun s i => by rw [List.append_assoc]; exact hz _ i)
    | node ck cc inner _ _ hl hk hc =>
      have := ih (cc b) (path ++ [b]) (level + 1) (hc b)
      simp only [List.append_assoc, List.singleton_append] at this
      simp only [node_at, child_of, List.length_cons]
      have e : level + (bs.length + 1) = level + 1 + bs.length := by omega
      rw [e]
      exact this

theorem rep_key_for (O : Own) (r : Radix) (path : List Nat) (level y : Nat)
    (h : Rep O r path level) (hy : 2 ≤ y) (hy2 : y < _nbuckets level * 2) :
    key_for r y level = inh (O path) y := by
  cases h with
  | null _ _ hz =>
    rw [inh_zero (O path) (fun i => by simpa using hz [] i) y]
    rfl
  | node ck cc inner _ _ hl hk hc => exact hk y hy hy2

/-- In a table that satisfies the invariant, the key stored at a heap position is
what the own keys make the position show. -/
theorem stored_key_inh {t : Table} {O : Own} {F : List Nat} (h : InvW t O F) (path : List Nat)
    (p : Nat) (hp : 2 ≤ p) (hp2 : p < _nbuckets path.length * 2) :
    stored_key t (some (path, p)) = inh (O path) p := by
  have := rep_node_at O path t._radix [] 0 h.rep
  simp only [List.nil_append, Nat.zero_add] at this
  exact rep_key_for O _ path path.length p this hp hp2

/-- A non-zero stored key is the key of a live slot. -/
theorem stored_key_slot {t : Table} {O : Own} {F : List Nat} (h : InvW t O F)
    (g : Option (List Nat × Nat)) (hg : place_ok g) (hk : stored_key t g ≠ 0) :
    ∃ i, i < t._v.length ∧ i ∉ F ∧ stored_key t g = slot_key t i := by
  cases g with
  | none =>
    obtain ⟨i, h1, h2, _, h4⟩ := h.key_slot none hk
    exact ⟨i, h1, h2, h4⟩
  | some q =>
    obtain ⟨path, p⟩ := q
    obtain ⟨_, hp, hp2⟩ := hg
    rw [stored_key_inh h path p hp hp2] at hk ⊢
    rcases inh_source (O path) p with z | ⟨d, e, _⟩
    · exact absurd z hk
    · have hne : keyG t._default_key O (some (path, p / 2 ^ d)) ≠ 0 := by
        simp only [keyG]; rw [e]; exact hk
      obtain ⟨i, h1, h2, _, h4⟩ := h.key_slot _ hne
      refine ⟨i, h1, h2, ?_⟩
      rw [← e, ← h4]
      rfl

/-- The place of a canonical prefix is a heap position of a node of the trie. -/
theorem place_ok_gpos (r : IPRouteMPath) (hr : PrefixOK r) : place_ok (gpos r) := by
  unfold gpos
  by_cases hm : r.mask ≠ 0
  · rw [if_pos hm]
    obtain ⟨len, l1, l2⟩ := hr.2.1
    have hlen : 1 ≤ len := by
      rcases Nat.eq_zero_or_pos len with z | z
      · rw [z] at l2; exact absurd l2 hm
      · exact z
    rw [l2, pos_of_prefix_len r.addr len hlen l1]
    obtain ⟨c1, _, c3⟩ := cand_level_bounds len hlen l1
    obtain ⟨d1, d2⟩ := halves_dyadic (cand_level len) _ _ c1 c3 (bucket_lt r.addr _ c1)
    have hk : 1 ≤ (if cand_level len = 0 then 16 else 4) - (16 + 4 * cand_level len - len) := by
      omega
    have hlo : 2 ^ 1 ≤ 2 ^ ((if cand_level len = 0 then 16 else 4)
        - (16 + 4 * cand_level len - len)) := Nat.pow_le_pow_right (by decide) hk
    have hhi : 2 ^ ((if cand_level len = 0 then 16 else 4)
        - (16 + 4 * cand_level len - len) + 1)
        ≤ 2 ^ ((if cand_level len = 0 then 16 else 4) + 1) :=
      Nat.pow_le_pow_right (by decide) (by omega)
    have hn := nbuckets_pow (cand_level len) c1
    refine ⟨?_, ?_, ?_⟩
    · simp only [cand, apath_length]; exact c1
    · simp only [cand]; omega
    · simp only [cand, apath_length]
      have e2 : 2 ^ ((if cand_level len = 0 then 16 else 4) + 1)
          = _nbuckets (cand_level len) * 2 := by rw [hn, pow_succ]
      omega
  · rw [if_neg hm]; trivial

/-- A live slot has its key stored at the place of its prefix. -/
theorem live_slot_stored {t : Table} {O : Own} {F : List Nat} (h : InvW t O F) (i : Nat)
    (h1 : i < t._v.length) (h2 : i ∉ F) :
    place_ok (gpos (t._v.getD i default)) ∧
    stored_key t (gpos (t._v.getD i default)) = slot_key t i ∧
    keyG t._default_key O (gpos (t._v.getD i default)) = slot_key t i := by
  obtain ⟨m1, m2, _⟩ := h.live i h1 h2
  have hp := place_ok_gpos _ m2.1
  refine ⟨hp, ?_, m1⟩
  cases hg : gpos (t._v.getD i default) with
  | none =>
    rw [hg] at m1
    exact m1
  | some q =>
    obtain ⟨path, p⟩ := q
    rw [hg] at m1 hp
    obtain ⟨_, hp1, hp2⟩ := hp
    rw [stored_key_inh h path p hp1 hp2]
    simp only [keyG] at m1
    rw [inh_own _ _ (by rw [m1]; exact InvW.slot_key_ne_zero t i), m1]

theorem named_iff {t : Table} {O : Own} {F : List Nat} (h : InvW t O F) (i : Nat) :
    named t i ↔ i < t._v.length ∧ i ∉ F := by
  constructor
  · rintro ⟨g, hg, hk, he⟩
    obtain ⟨j, j1, j2, j3⟩ := stored_key_slot h g hg hk
    rw [j3, (h.slot_key_get j j1).1] at he
    have : j = i := by omega
    rw [← this]
    exact ⟨j1, j2⟩
  · rintro ⟨h1, h2⟩
    obtain ⟨a, b, _⟩ := live_slot_stored h i h1 h2
    exact ⟨_, a, by rw [b]; exact InvW.slot_key_ne_zero t i, by rw [b]; exact (h.slot_key_get i h1).1⟩

theorem live_count (F : List Nat) (n : Nat) (hn : F.Nodup) (hlt : ∀ f ∈ F, f < n) :
    ∃ live : List Nat, live.Nodup ∧ (∀ i, i ∈ live ↔ i < n ∧ i ∉ F) ∧
      live.length + F.length = n := by
  refine ⟨(Finset.range n \ F.toFinset).toList, Finset.nodup_toList _, ?_, ?_⟩
  · intro i
    simp [Finset.mem_toList]
  · have hsub : F.toFinset ⊆ Finset.range n := by
      intro x hx
      rw [List.mem_toFinset] at hx
      exact Finset.mem_range.2 (hlt x hx)
    rw [Finset.length_toList, Finset.card_sdiff hsub, Finset.card_range,
      List.toFinset_card_of_nodup hn]
    have := nodup_length_le F n hn hlt
    omega

theorem add_route_commit_pool_cases (junk : Nat) (t : Table) (route : IPRouteMPath)
    (found lookup_key last_key : Nat) (radix : Radix) (default_key : Nat)
    (old : Option IPRouteMPath) :
    (add_route_commit junk t route found lookup_key last_key radix default_key old).table._lookup
        = t._lookup ∨
    (add_route_commit junk t route found lookup_key last_key radix default_key old).table._lookup
        = t._lookup ++ [collect junk route.gwports] := by
  unfold add_route_commit
  simp only
  by_cases h : lookup_key = t._lookup.length + 1
  · right; rw [if_pos h]
  · left; rw [if_neg h]

/-- A call of `add_route` that returns leaves the pool as it was or with one
entry more at its end. -/
theorem add_route_pool (junk : Nat) (t : Table) (route : IPRouteMPath) (set : Bool)
    (res : CallResult) (h : add_route junk t route set = some res) :
    res.table._lookup = t._lookup ∨
    res.table._lookup = t._lookup ++ [collect junk route.gwports] := by
  unfold add_route at h
  simp only [] at h
  by_cases hm : route.mask ≠ 0
  · rw [if_pos hm] at h
    cases hck : combine_key (found_slot t + 1)
        (if find_lookup_key t._lookup route.gwports = 0 then t._lookup.length + 1
          else find_lookup_key t._lookup route.gwports) with
    | none => rw [hck] at h; exact absurd h (by simp)
    | some ck =>
      rw [hck] at h
      simp only [] at h
      split_ifs at h
      all_goals
        simp only [Option.some.injEq] at h
        rw [← h]
        first
          | exact add_route_commit_pool_cases _ _ _ _ _ _ _ _ _
          | exact Or.inl rfl
  · rw [if_neg hm] at h
    by_cases hl : get_key t._default_key = 0 ∨ set = true
    · rw [if_pos hl] at h
      cases hck : combine_key (found_slot t + 1)
          (if find_lookup_key t._lookup route.gwports = 0 then t._lookup.length + 1
            else find_lookup_key t._lookup route.gwports) with
      | none => rw [hck] at h; exact absurd h (by simp)
      | some ck =>
        rw [hck] at h
        simp only [Option.some.injEq] at h
        rw [← h]
        exact add_route_commit_pool_cases _ _ _ _ _ _ _ _ _
    · rw [if_neg hl] at h
      simp only [Option.some.injEq] at h
      rw [← h]
      exact Or.inl rfl

theorem remove_route_pool (t : Table) (route : IPRouteMPath) :
    (remove_route t route).table._lookup = t._lookup := by
  unfold remove_route
  simp only []
  split_ifs <;> rfl

theorem table_24_only_reachable : Reachable table_24_only :=
  Reachable.remove table_16_24 route_16 table_16_24_reachable (by decide)

/-- C12. In every reachable table the walk from `_vfree` through the `extra`
links visits no slot twice and ends in `-1`, and the slots named by a stored
key (the live routes) and the slots of the free list together are as many as
the arena has slots. -/
theorem live_plus_free_is_arena (t : Table) (ht : Reachable t) :
    FreeChain t._v t._vfree (free_list t) ∧ (free_list t).Nodup ∧
    ∃ live : List Nat, live.Nodup ∧ (∀ i, i ∈ live ↔ named t i) ∧
      live.length + (free_list t).length = t._v.length := by
  obtain ⟨O, F, h⟩ := reachable_inv ht
  rw [h.free_list_eq]
  refine ⟨h.chain, h.nodup, ?_⟩
  obtain ⟨live, l1, l2, l3⟩ := live_count F t._v.length h.nodup h.chain.lt
  exact ⟨live, l1, fun i => by rw [l2 i, named_iff h i], l3⟩

/-- C12, witness: after two adds and the removal of the first route the
arena has two slots, the free list is `[0]`, and the theorem gives one live
route. -/
theorem live_plus_free_is_arena_witness :
    Reachable table_24_only ∧ table_24_only._v.length = 2 ∧ free_list table_24_only = [0] ∧
    (FreeChain table_24_only._v table_24_only._vfree (free_list table_24_only) ∧
      (free_list table_24_only).Nodup ∧
      ∃ live : List Nat, live.Nodup ∧ (∀ i, i ∈ live ↔ named table_24_only i) ∧
        live.length + (free_list table_24_only).length = table_24_only._v.length) :=
  ⟨table_24_only_reachable, by decide!, by decide!,
    live_plus_free_is_arena table_24_only table_24_only_reachable⟩

/-- C13. In every reachable table a slot named by a non-zero stored key lies
in the arena, and a slot of the arena is on the free list exactly when no
stored key names it.  The own keys `O` of the prefix positions that make up the
trie, together with the default key, name exactly the live slots: every
non-zero one is stored at its place and is the key of a live slot whose route
has that place, every live slot is named by the key at the place of its prefix,
and no other place names it. -/
theorem keys_name_live_slots (t : Table) (ht : Reachable t) :
    (∀ i, named t i → i < t._v.length) ∧
    (∀ i, i < t._v.length → (i ∈ free_list t ↔ ¬ named t i)) ∧
    ∃ O : Own, Rep O t._radix [] 0 ∧
      (∀ g, keyG t._default_key O g ≠ 0 →
        place_ok g ∧ stored_key t g = keyG t._default_key O g ∧
        ∃ i, is_live t i ∧ get_key (keyG t._default_key O g) = i + 1 ∧
          gpos (t._v.getD i default) = g) ∧
      (∀ i, is_live t i →
        keyG t._default_key O (gpos (t._v.getD i default)) ≠ 0 ∧
        get_key (keyG t._default_key O (gpos (t._v.getD i default))) = i + 1) ∧
      (∀ g g', keyG t._default_key O g ≠ 0 →
        get_key (keyG t._default_key O g) = get_key (keyG t._default_key O g') → g = g') := by
  obtain ⟨O, F, h⟩ := reachable_inv ht
  refine ⟨fun i hn => ((named_iff h i).1 hn).1, ?_, O, h.rep, ?_, ?_, ?_⟩
  · intro i hi
    rw [h.free_list_eq, named_iff h i]
    constructor
    · intro hf hn; exact hn.2 hf
    · intro hn
      by_contra hf
      exact hn ⟨hi, hf⟩
  · intro g hg
    obtain ⟨i, h1, h2, h3, h4⟩ := h.key_slot g hg
    obtain ⟨a, b, c⟩ := live_slot_stored h i h1 h2
    rw [h3] at a b
    refine ⟨a, by rw [b, h4], i, (h.live_iff i).2 ⟨h1, h2⟩, ?_, h3⟩
    rw [h4]
    exact (h.slot_key_get i h1).1
  · intro i hi
    obtain ⟨h1, h2⟩ := (h.live_iff i).1 hi
    obtain ⟨_, _, c⟩ := live_slot_stored h i h1 h2
    rw [c]
    exact ⟨InvW.slot_key_ne_zero t i, (h.slot_key_get i h1).1⟩
  · intro g g' hg he
    exact h.keyG_inj g g' hg he

/-- C13, witness: in the table with a free slot 0 and a route in slot 1, slot
1 is live and slot 0 is on the free list. -/
theorem keys_name_live_slots_witness :
    Reachable table_24_only ∧ is_live table_24_only 1 ∧ 0 ∈ free_list table_24_only ∧
    ((∀ i, named table_24_only i → i < table_24_only._v.length) ∧
    (∀ i, i < table_24_only._v.length → (i ∈ free_list table_24_only ↔ ¬ named table_24_only i)) ∧
    ∃ O : Own, Rep O table_24_only._radix [] 0 ∧
      (∀ g, keyG table_24_only._default_key O g ≠ 0 →
        place_ok g ∧ stored_key table_24_only g = keyG table_24_only._default_key O g ∧
        ∃ i, is_live table_24_only i ∧ get_key (keyG table_24_only._default_key O g) = i + 1 ∧
          gpos (table_24_only._v.getD i default) = g) ∧
      (∀ i, is_live table_24_only i →
        keyG table_24_only._default_key O (gpos (table_24_only._v.getD i default)) ≠ 0 ∧
        get_key (keyG table_24_only._default_key O (gpos (table_24_only._v.getD i default)))
          = i + 1) ∧
      (∀ g g', keyG table_24_only._default_key O g ≠ 0 →
        get_key (keyG table_24_only._default_key O g)
          = get_key (keyG table_24_only._default_key O g') → g = g')) :=
  ⟨table_24_only_reachable, by decide!, by decide!,
    keys_name_live_slots table_24_only table_24_only_reachable⟩

theorem route_3hops_ok : RouteOK route_3hops :=
  ⟨⟨by decide, ⟨24, by decide, rfl⟩, by decide⟩, by decide, by decide⟩

theorem table_3hops_reachable : Reachable table_3hops :=
  reach_add 0 Table.init route_3hops false Reachable.init route_3hops_ok (by decide!)

theorem hop_of_zero (gws : List GWPort) :
    hop_of gws 0 = ((gws.getD 0 default).port, (gws.getD 0 default).gw) := by
  simp [hop_of]

/-- C15. In SINGLE mode `calc_hash` is 0 for every packet, so in every
reachable table the lookup for a packet whose destination lies under an
installed prefix (the longest one that contains it) returns the port and the
gateway of the first hop of that prefix, and `process` returns that port and
sets the annotation to the gateway when it is not zero. -/
theorem single_mode_first_hop (t : Table) (ht : Reachable t) (salt rnd : Nat) (p : Packet)
    (i : Nat) (ha : p.dst_ip_anno < 2 ^ 32) (hi : is_live t i)
    (hc : contains (t._v.getD i default) p.dst_ip_anno)
    (hmax : ∀ j, is_live t j → contains (t._v.getD j default) p.dst_ip_anno →
      (t._v.getD j default).mask ≤ (t._v.getD i default).mask) :
    calc_hash Mode.SINGLE salt rnd p = 0 ∧
    lookup_route t p.dst_ip_anno (calc_hash Mode.SINGLE salt rnd p)
      = (((t._v.getD i default).gwports.getD 0 default).port,
         ((t._v.getD i default).gwports.getD 0 default).gw) ∧
    ∀ noutputs : Int, 0 ≤ ((t._v.getD i default).gwports.getD 0 default).port →
      ((t._v.getD i default).gwports.getD 0 default).port < noutputs →
      process Mode.SINGLE salt rnd noutputs t p
        = some (((t._v.getD i default).gwports.getD 0 default).port,
            if ((t._v.getD i default).gwports.getD 0 default).gw ≠ 0
            then { p with dst_ip_anno := ((t._v.getD i default).gwports.getD 0 default).gw }
            else p) := by
  have h0 : calc_hash Mode.SINGLE salt rnd p = 0 := by simp [calc_hash]
  have hl : lookup_route t p.dst_ip_anno 0
      = (((t._v.getD i default).gwports.getD 0 default).port,
         ((t._v.getD i default).gwports.getD 0 default).gw) := by
    rw [(lpm_reachable t ht p.dst_ip_anno 0 ha).1 i hi hc hmax, hop_of_zero]
  refine ⟨h0, by rw [h0, hl], ?_⟩
  intro noutputs hp hn
  unfold process
  simp only []
  rw [h0, hl]
  simp only []
  rw [if_pos hp, if_pos hn]

/-- C15, witness: after `add 10.0.0.0/24 - 1 - 2 - 3` a packet for
`10.0.0.77` gets port 1 in SINGLE mode, whatever the salt. -/
theorem single_mode_first_hop_witness :
    Reachable table_3hops ∧ packet_a.dst_ip_anno < 2 ^ 32 ∧ is_live table_3hops 0 ∧
    contains (table_3hops._v.getD 0 default) packet_a.dst_ip_anno ∧
    calc_hash Mode.SINGLE 12345 99 packet_a = 0 ∧
    lookup_route table_3hops packet_a.dst_ip_anno (calc_hash Mode.SINGLE 12345 99 packet_a)
      = (1, 0) ∧
    process Mode.SINGLE 12345 99 4 table_3hops packet_a = some (1, packet_a) := by
  have hlen : table_3hops._v.length = 1 := by decide!
  have hmax : ∀ j, is_live table_3hops j →
      contains (table_3hops._v.getD j default) packet_a.dst_ip_anno →
      (table_3hops._v.getD j default).mask ≤ (table_3hops._v.getD 0 default).mask := by
    intro j hj _
    have hj2 : j < 1 := hlen ▸ hj.1
    interval_cases j
    exact le_refl _
  have hg : (table_3hops._v.getD 0 default).gwports.getD 0 default = ⟨0, 1⟩ := by decide!
  have h := single_mode_first_hop table_3hops table_3hops_reachable 12345 99 packet_a 0
    (by decide) (by decide!) (by decide!) hmax
  rw [hg] at h
  exact ⟨table_3hops_reachable, by decide, by decide!, by decide!, h.1, h.2.1,
    h.2.2 4 (by decide) (by decide)⟩

/-- C16. In ADDR mode the hash, the lookup and the result of `process` do
not depend on the transport header: two packets with the same source address,
destination address and destination annotation get the same hash for every
salt, and in every table the same port and the same new annotation. -/
theorem addr_mode_ignores_ports (salt rnd : Nat) (noutputs : Int) (t : Table) (p q : Packet)
    (hs : p.ip_src = q.ip_src) (hd : p.ip_dst = q.ip_dst)
    (ha : p.dst_ip_anno = q.dst_ip_anno) :
    calc_hash Mode.ADDR salt rnd p = calc_hash Mode.ADDR salt rnd q ∧
    lookup_route t p.dst_ip_anno (calc_hash Mode.ADDR salt rnd p)
      = lookup_route t q.dst_ip_anno (calc_hash Mode.ADDR salt rnd q) ∧
    (process Mode.ADDR salt rnd noutputs t p).map (fun r => (r.1, r.2.dst_ip_anno))
      = (process Mode.ADDR salt rnd noutputs t q).map (fun r => (r.1, r.2.dst_ip_anno)) := by
  have h : calc_hash Mode.ADDR salt rnd p = calc_hash Mode.ADDR salt rnd q := by
    simp [calc_hash, hs, hd]
  refine ⟨h, by rw [h, ha], ?_⟩
  unfold process
  simp only []
  rw [h, ha]
  split_ifs <;> simp [ha]

/-- C16, witness: `packet_a` and `packet_b` differ only in the order of their
ports; in ADDR mode they get the same hash and the same result of `process`,
while in PORT mode their hashes differ. -/
theorem addr_mode_ignores_ports_witness :
    packet_a.ip_src = packet_b.ip_src ∧ packet_a.ip_dst = packet_b.ip_dst ∧
    packet_a.dst_ip_anno = packet_b.dst_ip_anno ∧ packet_a ≠ packet_b ∧
    calc_hash Mode.PORT 12345 99 packet_a ≠ calc_hash Mode.PORT 12345 99 packet_b ∧
    (calc_hash Mode.ADDR 12345 99 packet_a = calc_hash Mode.ADDR 12345 99 packet_b ∧
    lookup_route table_3hops packet_a.dst_ip_anno (calc_hash Mode.ADDR 12345 99 packet_a)
      = lookup_route table_3hops packet_b.dst_ip_anno (calc_hash Mode.ADDR 12345 99 packet_b) ∧
    (process Mode.ADDR 12345 99 4 table_3hops packet_a).map (fun r => (r.1, r.2.dst_ip_anno))
      = (process Mode.ADDR 12345 99 4 table_3hops packet_b).map
          (fun r => (r.1, r.2.dst_ip_anno))) :=
  ⟨rfl, rfl, rfl, by decide, by decide,
    addr_mode_ignores_ports 12345 99 4 table_3hops packet_a packet_b rfl rfl rfl⟩

theorem ports_snoc (l : List GWPort) (gw : Nat) (port : Int) (hl : ∀ x ∈ l, 0 ≤ x.port)
    (hg : port > -1) : ∀ x ∈ l ++ [(⟨gw, port⟩ : GWPort)], 0 ≤ x.port := by
  intro x hx
  simp only [List.mem_append, List.mem_singleton] at hx
  rcases hx with hx | hx
  · exact hl x hx
  · rw [hx]; simp only; omega

/-- Every hop the loop of the parser stores has a port above `-1`. -/
theorem next_pair_ports (b : Bool) : ∀ (fuel : Nat) (r : IPRouteMPath) (word s : List Char)
    (route : IPRouteMPath), (∀ g ∈ r.gwports, 0 ≤ g.port) →
    next_pair b fuel r word s = some route → ∀ g ∈ route.gwports, 0 ≤ g.port := by
  intro fuel
  induction fuel with
  | zero => intro r word s route _ h; simp [next_pair] at h
  | succ fuel ih =>
    intro r word s route hr h
    simp only [next_pair] at h
    split at h
    · exact absurd h (by simp)
    · rename_i port _
      by_cases hp : port > -1
      · simp only [if_pos hp] at h
        split_ifs at h
        all_goals first
          | exact ih _ _ _ route (ports_snoc _ _ _ hr hp) h
          | (simp only [Option.some.injEq] at h
             rw [← h]
             exact ports_snoc _ _ _ hr hp)
      · simp only [if_neg hp] at h
        split_ifs at h
        all_goals first
          | exact ih _ _ _ route hr h
          | (simp only [Option.some.injEq] at h
             rw [← h]
             exact hr)

/-- C17, the code at a failing input.  With `remove_route = false` the parser
accepts `10.0.0.0/8 -1` (and `10.0.0.0/8 -5`) and stores a route with no hop:
the word `-1` is read as a port by `IntArg`, and a port that is not above `-1`
is skipped, not refused.  What holds is the second half of the claim: every
hop the parser stores has a port of at least 0. -/
theorem parser_accepts_hopless_add :
    (cp_ip_route_mpath "10.0.0.0/8 -1".toList false).map (fun r => (r.addr, r.mask, r.gwports))
      = some (ip 10 0 0 0, make_prefix 8, []) ∧
    (cp_ip_route_mpath "10.0.0.0/8 -5".toList false).map (fun r => (r.addr, r.mask, r.gwports))
      = some (ip 10 0 0 0, make_prefix 8, []) ∧
    cp_ip_route_mpath "10.0.0.0/8".toList false = none ∧
    (cp_ip_route_mpath "10.0.0.0/8 - 1".toList false).map (fun r => (r.addr, r.mask, r.gwports))
      = some (ip 10 0 0 0, make_prefix 8, [⟨0, 1⟩]) ∧
    ∀ (s : List Char) (b : Bool) (route : IPRouteMPath), cp_ip_route_mpath s b = some route →
      ∀ g ∈ route.gwports, 0 ≤ g.port := by
  refine ⟨by decide!, by decide!, by decide!, by decide!, ?_⟩
  intro s b route h
  unfold cp_ip_route_mpath at h
  split at h
  · exact absurd h (by simp)
  · exact next_pair_ports b _ _ _ _ route (by intro g hg; simp at hg) h

theorem add_route_default_abort (junk : Nat) (t : Table) (route : IPRouteMPath) (set : Bool)
    (hm : route.mask = 0) (hs : get_key t._default_key = 0 ∨ set = true)
    (hf : find_lookup_key t._lookup route.gwports = 0)
    (hl : t._lookup.length = 255) : add_route junk t route set = none := by
  unfold add_route
  simp only []
  rw [if_neg (not_not.2 hm), if_pos hs, hf, hl]
  simp [combine_key]

theorem add_route_default_eexist (junk : Nat) (t : Table) (route : IPRouteMPath)
    (hm : route.mask = 0) (hs : get_key t._default_key ≠ 0) :
    add_route junk t route false = some
      { ret := -EEXIST, table := t,
        old_route := some (t._v.getD (get_key t._default_key - 1) default) } := by
  unfold add_route
  simp only []
  rw [if_neg (not_not.2 hm), if_neg (by simp [hs]), if_pos hs]

/-- What the code does at the cap of the pool.  In every reachable table the
pool holds at most 255 path sets and every non-zero stored key has a path key
between 1 and 255.  When the pool holds 255 path sets and the path set of the
route is not among them, `add_route` does not return: it ends on the assertion
`lookup_key <= 0xff` of `combine_key`, before anything is stored.  The one
exception is an add (`set = false`) of a default route while a default route is
installed, which returns `-EEXIST` and leaves the table as it was. -/
theorem add_route_dies_at_pool_cap (t : Table) (ht : Reachable t) :
    t._lookup.length ≤ 255 ∧
    (∀ g, place_ok g → stored_key t g ≠ 0 →
      1 ≤ get_lookup_key (stored_key t g) ∧ get_lookup_key (stored_key t g) ≤ 255) ∧
    ∀ (junk : Nat) (route : IPRouteMPath) (set : Bool), t._lookup.length = 255 →
      find_lookup_key t._lookup route.gwports = 0 →
      ((route.mask ≠ 0 ∨ get_key t._default_key = 0 ∨ set = true) →
        add_route junk t route set = none) ∧
      (route.mask = 0 → get_key t._default_key ≠ 0 → set = false →
        add_route junk t route set = some
          { ret := -EEXIST, table := t,
            old_route := some (t._v.getD (get_key t._default_key - 1) default) }) := by
  obtain ⟨O, F, h⟩ := reachable_inv ht
  have hp := h.psize
  refine ⟨hp, ?_, ?_⟩
  · intro g hg hk
    obtain ⟨i, h1, h2, h3⟩ := stored_key_slot h g hg hk
    obtain ⟨_, _, m3⟩ := h.live i h1 h2
    rw [h3, (h.slot_key_get i h1).2]
    have := find_lookup_key_le t._lookup (t._v.getD i default).gwports h.sane
    exact ⟨by omega, by omega⟩
  · intro junk route set hl hf
    constructor
    · intro hc
      by_cases hm : route.mask ≠ 0
      · exact add_route_abort junk t route set hm hf hl
      · rcases hc with z | z
        · exact absurd z hm
        · exact add_route_default_abort junk t route set (not_not.1 hm) z hf hl
    · intro hm hs hset
      rw [hset]
      exact add_route_default_eexist junk t route hm hs

/-- In the table whose pool holds 255 path sets, the add of
`10.2.0.0/16 - 2`, a new prefix with a new path set, does not return. -/
theorem add_route_dies_at_pool_cap_witness :
    Reachable full_table ∧ full_table._lookup.length = 255 ∧
    find_lookup_key full_table._lookup route_new.gwports = 0 ∧
    add_route 0 full_table route_new false = none :=
  ⟨full_table_facts.1, full_table_facts.2.1, full_table_facts.2.2.1,
    ((add_route_dies_at_pool_cap full_table full_table_facts.1).2.2 0 route_new false
      full_table_facts.2.1 full_table_facts.2.2.1).1 (Or.inl (by decide))⟩

theorem combine_key_unchecked_eq (k p c : Nat) (h : combine_key k p = some c) :
    c = combine_key_unchecked k p := by
  unfold combine_key at h
  split_ifs at h
  simp only [Option.some.injEq] at h
  rw [← h]
  rfl

/-- With the assertions compiled out, path key 256 wraps to 0: the combined
key is the route key alone. -/
theorem combine_key_unchecked_wraps (k : Nat) (hk : k ≤ 0x00ffffff) :
    combine_key_unchecked k 256 = k ∧ get_lookup_key (combine_key_unchecked k 256) = 0 ∧
    get_key (combine_key_unchecked k 256) = k := by
  have e : combine_key_unchecked k 256 = k := by
    unfold combine_key_unchecked
    have h1 : (256 : Nat) <<< 24 = 2 ^ 32 * 1 := by decide
    rw [h1, ← Nat.mul_add_lt_is_or (by omega : k < 2 ^ 32) 1]
    omega
  rw [e]
  have h2 := get_lookup_key_combined k 0 hk (by decide)
  have h3 := get_key_combined k 0 hk
  simp only [Nat.zero_mul, Nat.zero_add] at h2 h3
  exact ⟨rfl, h2, h3⟩

/-- C18, the code at a failing input.  In a reachable table whose pool holds
255 path sets, `add_route(10.2.0.0/16 - 2)`, whose path set is not in the pool,
is not refused with an error code: the call returns nothing at all, for it dies
on the assertion `lookup_key <= 0xff` of `combine_key`, which is the only guard
of the cap (so does every add of a route with a non-zero mask and a new path
set on a pool of 255 entries).  With the assertions compiled out the
expression of `combine_key` wraps path key 256 to 0: the key stored would be
the route key alone, with path key 0. -/
theorem add_route_no_error_at_pool_cap :
    Reachable full_table ∧ full_table._lookup.length = 255 ∧
    find_lookup_key full_table._lookup route_new.gwports = 0 ∧
    (¬ ∃ res, add_route 0 full_table route_new false = some res) ∧
    (∀ k, combine_key k 256 = none) ∧
    (∀ (junk : Nat) (t : Table) (route : IPRouteMPath) (set : Bool), route.mask ≠ 0 →
      find_lookup_key t._lookup route.gwports = 0 → t._lookup.length = 255 →
      add_route junk t route set = none) ∧
    (∀ k c p, combine_key k p = some c → c = combine_key_unchecked k p) ∧
    (∀ k, k ≤ 0x00ffffff →
      combine_key_unchecked k 256 = k ∧ get_lookup_key (combine_key_unchecked k 256) = 0) := by
  refine ⟨full_table_facts.1, full_table_facts.2.1, full_table_facts.2.2.1, ?_, ?_,
    add_route_abort, fun k c p h => combine_key_unchecked_eq k p c h,
    fun k hk => ⟨(combine_key_unchecked_wraps k hk).1, (combine_key_unchecked_wraps k hk).2.1⟩⟩
  · rw [add_route_abort 0 full_table route_new false (by decide) full_table_facts.2.2.1
      full_table_facts.2.1]
    rintro ⟨res, h⟩
    exact absurd h (by simp)
  · intro k
    simp [combine_key]

theorem digitChar_props (k : Nat) (hk : k < 10) :
    (Nat.digitChar k).isDigit = true ∧ (Nat.digitChar k).toNat - '0'.toNat = k := by
  interval_cases k <;> exact ⟨by decide, by decide⟩

theorem digits_value_snoc (l : List Char) (c : Char) :
    digits_value (l ++ [c]) = digits_value l * 10 + (c.toNat - '0'.toNat) := by
  simp [digits_value, List.foldl_append]

theorem toDigitsCore_spec : ∀ (fuel n : Nat) (ds : List Char), n < fuel →
    ∃ l, Nat.toDigitsCore 10 fuel n ds = l ++ ds ∧ l ≠ [] ∧
      (∀ c ∈ l, c.isDigit = true) ∧ digits_value l = n := by
  intro fuel
  induction fuel with
  | zero => intro n ds h; omega
  | succ fuel ih =>
    intro n ds h
    simp only [Nat.toDigitsCore]
    obtain ⟨d1, d2⟩ := digitChar_props (n % 10) (Nat.mod_lt _ (by decide))
    by_cases h0 : n / 10 = 0
    · rw [if_pos h0]
      refine ⟨[Nat.digitChar (n % 10)], rfl, by simp, ?_, ?_⟩
      · intro c hc
        simp only [List.mem_singleton] at hc
        rw [hc]; exact d1
      · have := digits_value_snoc [] (Nat.digitChar (n % 10))
        simp only [List.nil_append] at this
        rw [this, d2]
        simp only [digits_value, List.foldl_nil]
        omega
    · rw [if_neg h0]
      obtain ⟨l, e1, e2, e3, e4⟩ := ih (n / 10) (Nat.digitChar (n % 10) :: ds) (by omega)
      refine ⟨l ++ [Nat.digitChar (n % 10)], by rw [e1]; simp, by simp, ?_, ?_⟩
      · intro c hc
        simp only [List.mem_append, List.mem_singleton] at hc
        rcases hc with hc | hc
        · exact e3 c hc
        · rw [hc]; exact d1
      · rw [digits_value_snoc, e4, d2]
        omega

/-- The decimal text of a number: a non-empty string of digits that stands for
the number. -/
theorem toDigits_spec (n : Nat) :
    Nat.toDigits 10 n ≠ [] ∧ (∀ c ∈ Nat.toDigits 10 n, c.isDigit = true) ∧
    digits_value (Nat.toDigits 10 n) = n := by
  obtain ⟨l, e1, e2, e3, e4⟩ := toDigitsCore_spec (n + 1) n [] (by omega)
  unfold Nat.toDigits
  rw [e1, List.append_nil]
  exact ⟨e2, e3, e4⟩

theorem parse_nat_toDigits (n : Nat) : parse_nat (Nat.toDigits 10 n) = some n := by
  obtain ⟨a, b, c⟩ := toDigits_spec n
  unfold parse_nat
  rw [if_pos ⟨a, List.all_eq_true.2 b⟩]
  exact congrArg some c

theorem isDigit_not_special (c : Char) (h : c.isDigit = true) :
    is_space c = false ∧ c ≠ '.' ∧ c ≠ '/' ∧ c ≠ '-' ∧ c ≠ '+' := by
  have hne : ∀ d : Char, d.isDigit = false → c ≠ d := by
    intro d hd e
    rw [e, hd] at h
    exact absurd h (by decide)
  refine ⟨?_, hne _ (by decide), hne _ (by decide), hne _ (by decide), hne _ (by decide)⟩
  simp only [is_space, Bool.or_eq_false_iff, decide_eq_false_iff_not]
  exact ⟨⟨⟨⟨⟨hne _ (by decide), hne _ (by decide)⟩, hne _ (by decide)⟩, hne _ (by decide)⟩,
    hne _ (by decide)⟩, hne _ (by decide)⟩

theorem takeWhile_word (w rest : List Char) (hw : ∀ c ∈ w, is_space c = false)
    (hr : at_space rest) :
    (w ++ rest).takeWhile (fun c => !is_space c) = w ∧
    (w ++ rest).dropWhile (fun c => !is_space c) = rest := by
  induction w with
  | nil =>
    rcases hr with e | ⟨c, r, e, hc⟩
    · rw [e]; exact ⟨rfl, rfl⟩
    · rw [e]
      simp [List.takeWhile, List.dropWhile, hc]
  | cons a w ih =>
    have ha : is_space a = false := hw a (List.mem_cons_self _ _)
    obtain ⟨i1, i2⟩ := ih (fun c hc => hw c (List.mem_cons_of_mem _ hc))
    rw [List.cons_append, List.takeWhile_cons, List.dropWhile_cons]
    simp only [ha, Bool.not_false, if_true]
    exact ⟨by rw [i1], i2⟩

/-- The first word of a string that begins with a word. -/
theorem shift_word (w rest : List Char) (hw : ∀ c ∈ w, is_space c = false) (hne : w ≠ [])
    (hr : at_space rest) :
    cp_shift_spacevec (w ++ rest) = (w, rest.dropWhile is_space) := by
  obtain ⟨a, w', e⟩ : ∃ a w', w = a :: w' := by
    cases w with
    | nil => exact absurd rfl hne
    | cons a w' => exact ⟨a, w', rfl⟩
  have ha : is_space a = false := hw a (by rw [e]; exact List.mem_cons_self _ _)
  have h1 : (w ++ rest).dropWhile is_space = w ++ rest := by
    rw [e]
    simp [List.dropWhile, ha]
  obtain ⟨t1, t2⟩ := takeWhile_word w rest hw hr
  unfold cp_shift_spacevec
  simp only [h1, t1, t2]

theorem shift_skip (c : Char) (s : List Char) (hc : is_space c = true) :
    cp_shift_spacevec (c :: s) = cp_shift_spacevec s := by
  unfold cp_shift_spacevec
  simp [List.dropWhile, hc]

theorem shift_nil : cp_shift_spacevec [] = ([], []) := rfl

theorem dropWhile_word (w rest : List Char) (hw : ∀ c ∈ w, is_space c = false) (hne : w ≠ []) :
    (w ++ rest).dropWhile is_space = w ++ rest := by
  cases w with
  | nil => exact absurd rfl hne
  | cons a w' =>
    have ha : is_space a = false := hw a (List.mem_cons_self _ _)
    simp [List.dropWhile, ha]

/-! ## Splitting at a separator -/

theorem split_on_ne_nil (sep : Char) : ∀ s, split_on sep s ≠ [] := by
  intro s
  induction s with
  | nil => simp [split_on]
  | cons c cs ih =>
    simp only [split_on]
    split_ifs
    · simp
    · split <;> simp

theorem split_on_cons (sep a : Char) (s x : List Char) (xs : List (List Char)) (ha : a ≠ sep)
    (h : split_on sep s = x :: xs) : split_on sep (a :: s) = (a :: x) :: xs := by
  simp only [split_on, if_neg ha, h]

theorem split_on_none (sep : Char) : ∀ w : List Char, (∀ c ∈ w, c ≠ sep) →
    split_on sep w = [w] := by
  intro w
  induction w with
  | nil => intro _; rfl
  | cons a w ih =>
    intro h
    have ha : a ≠ sep := h a (List.mem_cons_self _ _)
    exact split_on_cons sep a w w [] ha (ih (fun c hc => h c (List.mem_cons_of_mem _ hc)))

theorem split_on_word (sep : Char) (rest : List Char) : ∀ w : List Char, (∀ c ∈ w, c ≠ sep) →
    split_on sep (w ++ sep :: rest) = w :: split_on sep rest := by
  intro w
  induction w with
  | nil => intro _; simp [split_on]
  | cons a w ih =>
    intro h
    have ha : a ≠ sep := h a (List.mem_cons_self _ _)
    rw [List.cons_append]
    exact split_on_cons sep a _ w _ ha (ih (fun c hc => h c (List.mem_cons_of_mem _ hc)))

/-! ## Addresses, prefixes and ports read back -/

theorem toDigits_no (n : Nat) : ∀ c ∈ Nat.toDigits 10 n,
    is_space c = false ∧ c ≠ '.' ∧ c ≠ '/' ∧ c ≠ '-' ∧ c ≠ '+' :=
  fun c hc => isDigit_not_special c ((toDigits_spec n).2.1 c hc)

theorem unparse_ip_chars (a : Nat) : ∀ c ∈ unparse_ip a, is_space c = false ∧ c ≠ '/' := by
  intro c hc
  simp only [unparse_ip, List.mem_append, List.mem_singleton] at hc
  have hdot : is_space '.' = false ∧ '.' ≠ '/' := ⟨by decide, by decide⟩
  rcases hc with ((((((h | h) | h) | h) | h) | h) | h)
  all_goals first
    | exact ⟨(toDigits_no _ c h).1, (toDigits_no _ c h).2.2.1⟩
    | (rw [h]; exact hdot)

theorem unparse_ip_ne_nil (a : Nat) : unparse_ip a ≠ [] := by
  have := (toDigits_spec (a / 2 ^ 24 % 256)).1
  cases h : Nat.toDigits 10 (a / 2 ^ 24 % 256) with
  | nil => exact absurd h this
  | cons x xs => simp [unparse_ip, h]

theorem unparse_ip_head (a : Nat) : ∃ c cs, unparse_ip a = c :: cs ∧ c.isDigit = true := by
  have h1 := (toDigits_spec (a / 2 ^ 24 % 256)).1
  have h2 := (toDigits_spec (a / 2 ^ 24 % 256)).2.1
  cases h : Nat.toDigits 10 (a / 2 ^ 24 % 256) with
  | nil => exact absurd h h1
  | cons x xs =>
    rw [h] at h2
    refine ⟨x, (unparse_ip a).tail, ?_, h2 x (List.mem_cons_self _ _)⟩
    unfold unparse_ip
    rw [h]
    rfl

theorem parse_ip_unparse_ip (a : Nat) (ha : a < 2 ^ 32) : parse_ip (unparse_ip a) = some a := by
  have nd : ∀ n, ∀ c ∈ Nat.toDigits 10 n, c ≠ '.' := fun n c hc => (toDigits_no n c hc).2.1
  unfold parse_ip unparse_ip
  simp only [List.append_assoc, List.singleton_append, List.cons_append, List.nil_append]
  rw [split_on_word '.' _ _ (nd _), split_on_word '.' _ _ (nd _), split_on_word '.' _ _ (nd _),
    split_on_none '.' _ (nd _)]
  simp only [List.map_cons, List.map_nil, parse_nat_toDigits]
  rw [if_pos ⟨by omega, by omega, by omega, by omega⟩]
  congr 1
  omega

theorem mask_to_prefix_len_make (len : Nat) (h : len ≤ 32) :
    mask_to_prefix_len ( make_prefix len) = some len := by
  interval_cases len <;> decide

theorem unparse_with_mask_eq (addr len : Nat) (h : len ≤ 32) :
    unparse_with_mask addr ( make_prefix len)
      = unparse_ip addr ++ '/' :: Nat.toDigits 10 len := by
  unfold unparse_with_mask
  rw [mask_to_prefix_len_make len h]
  simp

theorem parse_prefix_unparse (addr len : Nat) (ha : addr < 2 ^ 32) (h : len ≤ 32) :
    parse_prefix_arg (unparse_with_mask addr ( make_prefix len)) = some (addr, make_prefix len) := by
  rw [unparse_with_mask_eq addr len h]
  unfold parse_prefix_arg
  rw [split_on_word '/' _ _ (fun c hc => (unparse_ip_chars addr c hc).2),
    split_on_none '/' _ (fun c hc => (toDigits_no len c hc).2.2.1)]
  simp only [parse_ip_unparse_ip addr ha, parse_nat_toDigits, if_pos h]

theorem unparse_with_mask_chars (addr len : Nat) (h : len ≤ 32) :
    unparse_with_mask addr ( make_prefix len) ≠ [] ∧
    ∀ c ∈ unparse_with_mask addr ( make_prefix len), is_space c = false := by
  rw [unparse_with_mask_eq addr len h]
  constructor
  · obtain ⟨c, cs, e, _⟩ := unparse_ip_head addr
    rw [e]; simp
  · intro c hc
    simp only [List.mem_append, List.mem_cons] at hc
    rcases hc with hc | hc | hc
    · exact (unparse_ip_chars addr c hc).1
    · rw [hc]; decide
    · exact (toDigits_no len c hc).1

theorem parse_int_unparse (p : Int) (h0 : 0 ≤ p) (h1 : p < 2 ^ 31) :
    parse_int (unparse_int p) = some p := by
  obtain ⟨n, rfl⟩ := Int.eq_ofNat_of_zero_le h0
  have hu : unparse_int (n : Int) = Nat.toDigits 10 n := by
    unfold unparse_int
    rw [if_neg (by omega)]
    simp
  rw [hu]
  obtain ⟨a, b, _⟩ := toDigits_spec n
  cases hd : Nat.toDigits 10 n with
  | nil => exact absurd hd a
  | cons x xs =>
    have hx := isDigit_not_special x (b x (by rw [hd]; exact List.mem_cons_self _ _))
    have hp := parse_nat_toDigits n
    rw [hd] at hp
    unfold parse_int
    split
    · rename_i ds heq
      simp only [List.cons.injEq] at heq
      exact absurd heq.1 hx.2.2.2.1
    · rename_i ds heq
      simp only [List.cons.injEq] at heq
      exact absurd heq.1 hx.2.2.2.2
    · rw [hp]
      show (if -2 ^ 31 ≤ (n : Int) ∧ (n : Int) < 2 ^ 31 then some (n : Int) else none)
        = some (n : Int)
      rw [if_pos ⟨by omega, h1⟩]

theorem unparse_int_chars (p : Int) (h0 : 0 ≤ p) :
    unparse_int p ≠ [] ∧ ∀ c ∈ unparse_int p, is_space c = false := by
  obtain ⟨n, rfl⟩ := Int.eq_ofNat_of_zero_le h0
  have hu : unparse_int (n : Int) = Nat.toDigits 10 n := by
    unfold unparse_int
    rw [if_neg (by omega)]
    simp
  rw [hu]
  exact ⟨(toDigits_spec n).1, fun c hc => (toDigits_no n c hc).1⟩

theorem unparse_hops_cons (tab : Char) (first : Bool) (gp : GWPort) (gps : List GWPort) :
    unparse_hops tab first (gp :: gps)
      = (if first then [] else [' ']) ++ (hop_text tab gp ++ unparse_hops tab false gps) := by
  simp only [unparse_hops, hop_text, List.append_assoc]

theorem at_space_hops (tab : Char) (gps : List GWPort) : at_space (unparse_hops tab false gps) := by
  cases gps with
  | nil => left; rfl
  | cons gp gps =>
    right
    rw [unparse_hops_cons]
    exact ⟨' ', _, rfl, by decide⟩

theorem shift_dropWhile (s : List Char) :
    cp_shift_spacevec (s.dropWhile is_space) = cp_shift_spacevec s := by
  induction s with
  | nil => rfl
  | cons c s ih =>
    by_cases hc : is_space c = true
    · rw [shift_skip c s hc, List.dropWhile_cons, if_pos hc, ih]
    · rw [List.dropWhile_cons, if_neg hc]

/-- The words of the text of one hop followed by `R`. -/
theorem shift_hop (tab : Char) (gp : GWPort) (R : List Char) (htab : is_space tab = true)
    (hgp : HopOK gp) (hR : at_space R) :
    cp_shift_spacevec (hop_text tab gp ++ R)
      = (if gp.gw ≠ 0 then unparse_ip gp.gw else ['-'], unparse_int gp.port ++ R) ∧
    cp_shift_spacevec (unparse_int gp.port ++ R) = (unparse_int gp.port, R.dropWhile is_space) := by
  obtain ⟨p1, p2⟩ := unparse_int_chars gp.port hgp.2.1
  have hrest : (tab :: (unparse_int gp.port ++ R)).dropWhile is_space
      = unparse_int gp.port ++ R := by
    rw [List.dropWhile_cons, if_pos htab]
    exact dropWhile_word _ _ p2 p1
  have hsp : at_space (tab :: (unparse_int gp.port ++ R)) := Or.inr ⟨tab, _, rfl, htab⟩
  refine ⟨?_, shift_word _ _ p2 p1 hR⟩
  unfold hop_text
  by_cases hg : gp.gw ≠ 0
  · simp only [if_pos hg, List.append_assoc, List.singleton_append, List.cons_append,
      List.nil_append]
    rw [shift_word _ _ (fun c hc => (unparse_ip_chars gp.gw c hc).1) (unparse_ip_ne_nil _) hsp,
      hrest]
  · simp only [if_neg hg]
    have e : ['-', tab] ++ unparse_int gp.port ++ R
        = ['-'] ++ (tab :: (unparse_int gp.port ++ R)) := by simp
    rw [e, shift_word ['-'] _ (by intro c hc; simp at hc; rw [hc]; decide) (by simp) hsp, hrest]

/-- One pass of the loop of the parser over the text of a hop. -/
theorem next_pair_hop (b : Bool) (tab : Char) (gp : GWPort) (R : List Char) (fuel : Nat)
    (r : IPRouteMPath) (htab : is_space tab = true) (hgp : HopOK gp) (hR : at_space R) :
    next_pair b (fuel + 1) r (cp_shift_spacevec (hop_text tab gp ++ R)).1
        (cp_shift_spacevec (hop_text tab gp ++ R)).2
      = if (cp_shift_spacevec R).1 ≠ [] then
          next_pair b fuel { r with gwports := r.gwports ++ [gp] } (cp_shift_spacevec R).1
            (cp_shift_spacevec R).2
        else some { r with gwports := r.gwports ++ [gp] } := by
  obtain ⟨s1, s2⟩ := shift_hop tab gp R htab hgp hR
  have hport : gp.port > -1 := by have := hgp.2.1; omega
  have hpi := parse_int_unparse gp.port hgp.2.1 hgp.2.2
  rw [s1]
  simp only []
  rw [next_pair]
  by_cases hg : gp.gw ≠ 0
  · have hw : unparse_ip gp.gw ≠ ['-'] := by
      obtain ⟨c, cs, e, hc⟩ := unparse_ip_head gp.gw
      rw [e]
      intro h
      simp only [List.cons.injEq] at h
      exact (isDigit_not_special c hc).2.2.2.1 h.1
    have hgp2 : (⟨gp.gw, gp.port⟩ : GWPort) = gp := by cases gp; rfl
    simp only [if_pos hg, if_neg hw, parse_ip_unparse_ip gp.gw hgp.1, s2, hpi, shift_dropWhile,
      if_pos hport, hgp2]
  · have hg0 : gp.gw = 0 := not_not.1 hg
    have hgp2 : (⟨0, gp.port⟩ : GWPort) = gp := by cases gp; simp only at hg0; rw [hg0]
    simp only [if_neg hg, if_true, s2, hpi, shift_dropWhile, if_pos hport, hgp2]

theorem shift_hop_ne_nil (tab : Char) (gp : GWPort) (R : List Char)
    (htab : is_space tab = true) (hgp : HopOK gp) (hR : at_space R) :
    (cp_shift_spacevec (hop_text tab gp ++ R)).1 ≠ [] := by
  rw [(shift_hop tab gp R htab hgp hR).1]
  simp only []
  by_cases hg : gp.gw ≠ 0
  · rw [if_pos hg]; exact unparse_ip_ne_nil _
  · rw [if_neg hg]; simp

/-- The loop of the parser over the text of a hop and of the hops after it. -/
theorem next_pair_hops (b : Bool) (tab : Char) (htab : is_space tab = true) :
    ∀ (gps : List GWPort) (gp : GWPort) (fuel : Nat) (r : IPRouteMPath),
    HopOK gp → (∀ g ∈ gps, HopOK g) → gps.length + 1 ≤ fuel →
    next_pair b fuel r (cp_shift_spacevec (hop_text tab gp ++ unparse_hops tab false gps)).1
        (cp_shift_spacevec (hop_text tab gp ++ unparse_hops tab false gps)).2
      = some { r with gwports := r.gwports ++ gp :: gps } := by
  intro gps
  induction gps with
  | nil =>
    intro gp fuel r hgp _ hf
    obtain ⟨f, rfl⟩ : ∃ f, fuel = f + 1 := ⟨fuel - 1, by simp at hf; omega⟩
    rw [next_pair_hop b tab gp _ f r htab hgp (at_space_hops tab [])]
    simp [unparse_hops, shift_nil]
  | cons gp2 gps ih =>
    intro gp fuel r hgp hgps hf
    obtain ⟨f, rfl⟩ : ∃ f, fuel = f + 1 := ⟨fuel - 1, by simp at hf; omega⟩
    have hgp2 : HopOK gp2 := hgps gp2 (List.mem_cons_self _ _)
    have hrest : ∀ g ∈ gps, HopOK g := fun g hg => hgps g (List.mem_cons_of_mem _ hg)
    rw [next_pair_hop b tab gp _ f r htab hgp (at_space_hops tab (gp2 :: gps))]
    have e : cp_shift_spacevec (unparse_hops tab false (gp2 :: gps))
        = cp_shift_spacevec (hop_text tab gp2 ++ unparse_hops tab false gps) := by
      rw [unparse_hops_cons]
      exact shift_skip ' ' _ (by decide)
    rw [e, if_pos (shift_hop_ne_nil tab gp2 _ htab hgp2 (at_space_hops tab gps)),
      ih gp2 f _ hgp2 hrest (by simp at hf ⊢; omega)]
    simp

theorem hops_length (tab : Char) : ∀ gps : List GWPort,
    gps.length ≤ (unparse_hops tab false gps).length := by
  intro gps
  induction gps with
  | nil => simp
  | cons gp gps ih =>
    rw [unparse_hops_cons]
    simp only [List.length_append, List.length_cons, Bool.false_eq_true, if_false,
      List.length_singleton, List.length_nil]
    omega

theorem dropWhile_hop (tab : Char) (gp : GWPort) (R : List Char) :
    (hop_text tab gp ++ R).dropWhile is_space = hop_text tab gp ++ R := by
  unfold hop_text
  by_cases hg : gp.gw ≠ 0
  · simp only [if_pos hg, List.append_assoc]
    exact dropWhile_word _ _ (fun c hc => (unparse_ip_chars gp.gw c hc).1) (unparse_ip_ne_nil _)
  · simp only [if_neg hg]
    have e : ['-', tab] ++ unparse_int gp.port ++ R
        = ['-'] ++ (tab :: (unparse_int gp.port ++ R)) := by simp
    rw [e]
    exact dropWhile_word ['-'] _ (by intro c hc; simp at hc; rw [hc]; decide) (by simp)

/-- The parser reads the text of a valid route back as the route. -/
theorem parse_unparse_route (r : IPRouteMPath) (tabs b : Bool) (hr : RouteOK r)
    (hh : ∀ g ∈ r.gwports, HopOK g) :
    cp_ip_route_mpath (r.unparse tabs) b
      = some { addr := r.addr, mask := r.mask, gwports := r.gwports, extra := 0 } := by
  obtain ⟨⟨ha, ⟨len, hl, hm⟩, hcan⟩, h1, _⟩ := hr
  obtain ⟨gp, gps, hg⟩ : ∃ gp gps, r.gwports = gp :: gps := by
    cases hgw : r.gwports with
    | nil => rw [hgw] at h1; simp at h1
    | cons gp gps => exact ⟨gp, gps, rfl⟩
  have hgp : HopOK gp := hh gp (by rw [hg]; exact List.mem_cons_self _ _)
  have hgps : ∀ g ∈ gps, HopOK g := fun g hx => hh g (by rw [hg]; exact List.mem_cons_of_mem _ hx)
  have htab : is_space (if tabs = true then '\t' else ' ') = true := by
    cases tabs <;> decide
  obtain ⟨q1, q2⟩ := unparse_with_mask_chars r.addr len hl
  -- the text: the prefix, white space, the hops
  have htext : ∃ sp : List Char, sp ≠ [] ∧ (∀ c ∈ sp, is_space c = true) ∧
      r.unparse tabs = unparse_with_mask r.addr ( make_prefix len) ++
        (sp ++ (hop_text (if tabs = true then '\t' else ' ') gp ++
          unparse_hops (if tabs = true then '\t' else ' ') false gps)) := by
    have hreal : r.real = true := by simp [IPRouteMPath.real, hg]
    unfold IPRouteMPath.unparse
    simp only [hreal, Bool.true_eq_false, if_false, hm, hg]
    rw [unparse_hops_cons]
    simp only [if_true, List.nil_append]
    cases tabs
    · simp only [Bool.false_eq_true, and_false, if_false]
      exact ⟨[' '], by simp, by intro c hx; simp at hx; rw [hx]; decide, by simp⟩
    · simp only [and_true, if_true]
      split_ifs
      · exact ⟨['\t', '\t'], by simp,
          by intro c hx; simp at hx; rw [hx]; decide, by simp⟩
      · exact ⟨['\t'], by simp, by intro c hx; simp at hx; rw [hx]; decide, by simp⟩
  obtain ⟨sp, sp1, sp2, ht⟩ := htext
  have hdrop : ∀ (l : List Char) (X : List Char), (∀ c ∈ l, is_space c = true) →
      (l ++ X).dropWhile is_space = X.dropWhile is_space := by
    intro l X hl
    induction l with
    | nil => rfl
    | cons c l ih =>
      rw [List.cons_append, List.dropWhile_cons, if_pos (hl c (List.mem_cons_self _ _))]
      exact ih (fun x hx => hl x (List.mem_cons_of_mem _ hx))
  have hsp : at_space (sp ++ (hop_text (if tabs = true then '\t' else ' ') gp ++
      unparse_hops (if tabs = true then '\t' else ' ') false gps)) := by
    cases sp with
    | nil => exact absurd rfl sp1
    | cons c cs => exact Or.inr ⟨c, _, rfl, sp2 c (List.mem_cons_self _ _)⟩
  have hshift := shift_word _ _ q2 q1 hsp
  rw [hdrop sp _ sp2, dropWhile_hop] at hshift
  unfold cp_ip_route_mpath
  rw [ht, hshift]
  simp only []
  rw [parse_prefix_unparse r.addr len ha hl]
  simp only []
  rw [next_pair_hops b _ htab gps gp _ _ hgp hgps (by
    have := hops_length (if tabs = true then '\t' else ' ') gps
    simp only [List.length_append]
    omega)]
  rw [hm] at hcan
  simp only [List.nil_append, hcan, hm, hg]

/-- C20. Parsing undoes rendering: for every route with a canonical prefix
and one to seven hops, each with a 32-bit gateway (which may be 0) and a port
that is a non-negative `int`, `cp_ip_route_mpath` accepts the text of
`IPRouteMPath::unparse`, with tabs or with spaces, and stores a route with the
same address, the same mask and the same hops in the same order. -/
theorem parse_undoes_unparse (r : IPRouteMPath) (tabs : Bool) (hr : RouteOK r)
    (hh : ∀ g ∈ r.gwports, HopOK g) :
    ∃ route, cp_ip_route_mpath (r.unparse tabs) false = some route ∧
      route.addr = r.addr ∧ route.mask = r.mask ∧ route.gwports = r.gwports :=
  ⟨_, parse_unparse_route r tabs false hr hh, rfl, rfl, rfl⟩

/-- C20, witness: the route `10.1.2.0/24 - 2 192.168.1.1 3`, whose first
gateway is 0, is written with `-` for that gateway and is read back with
gateway 0. -/
theorem parse_undoes_unparse_witness :
    RouteOK route_gw ∧ (∀ g ∈ route_gw.gwports, HopOK g) ∧
    route_gw.unparse true = "10.1.2.0/24\t\t-\t2 192.168.1.1\t3".toList ∧
    ∃ route, cp_ip_route_mpath (route_gw.unparse true) false = some route ∧
      route.addr = route_gw.addr ∧ route.mask = route_gw.mask ∧
      route.gwports = route_gw.gwports :=
  have hr : RouteOK route_gw :=
    ⟨⟨by decide, ⟨24, by decide, rfl⟩, by decide⟩, by decide, by decide⟩
  have hh : ∀ g ∈ route_gw.gwports, HopOK g := by
    intro g hg
    simp only [route_gw, List.mem_cons, List.mem_singleton, List.not_mem_nil, or_false] at hg
    rcases hg with e | e <;> rw [e] <;> exact ⟨by decide, by decide, by decide⟩
  ⟨hr, hh, by decide, parse_undoes_unparse route_gw true hr hh⟩

theorem hash_mix_eq (a : Nat) : hash_mix a = jenkins_mix a := by
  simp only [hash_mix, jenkins_mix, add32, shl32, Nat.add_mod, Nat.mod_mod]

theorem hash_mix_lt (a : Nat) : hash_mix a < 2 ^ 32 := by
  simp only [hash_mix]
  apply Nat.xor_lt_two_pow
  · apply Nat.xor_lt_two_pow
    · exact Nat.mod_lt _ (by decide)
    · decide
  · rw [Nat.shiftRight_eq_div_pow]
    exact lt_of_le_of_lt (Nat.div_le_self _ _) (Nat.mod_lt _ (by decide))

/-- C30. In ADDR and PORT mode `calc_hash` is the 32-bit integer mix of the
flow key, all arithmetic taken mod `2^32`: the key is
`((src * 59) xor dst) xor salt`, in PORT mode for a first-fragment TCP or UDP
packet also `xor w0 xor (w1 << 16)`, and the result is the key after the six
steps of `jenkins_mix`, a 32-bit value.  In PORT mode a packet that is not a
first-fragment TCP or UDP packet gets its ADDR-mode hash. -/
theorem calc_hash_is_jenkins_mix (salt rnd : Nat) (p : Packet) :
    calc_hash Mode.ADDR salt rnd p = jenkins_mix (flow_key false salt p) ∧
    calc_hash Mode.PORT salt rnd p = jenkins_mix (flow_key true salt p) ∧
    calc_hash Mode.ADDR salt rnd p < 2 ^ 32 ∧ calc_hash Mode.PORT salt rnd p < 2 ^ 32 ∧
    (¬ (p.first_frag = true ∧ (p.ip_p = 6 ∨ p.ip_p = 17)) →
      calc_hash Mode.PORT salt rnd p = calc_hash Mode.ADDR salt rnd p) := by
  have h1 : calc_hash Mode.ADDR salt rnd p = hash_mix (flow_key false salt p) := by
    simp [calc_hash, flow_key]
  have h2 : calc_hash Mode.PORT salt rnd p = hash_mix (flow_key true salt p) := by
    simp only [calc_hash, flow_key, shl32, IP_PROTO_TCP, IP_PROTO_UDP]
    simp
  refine ⟨by rw [h1, hash_mix_eq], by rw [h2, hash_mix_eq], by rw [h1]; exact hash_mix_lt _,
    by rw [h2]; exact hash_mix_lt _, ?_⟩
  intro hn
  rw [h1, h2]
  simp only [flow_key]
  rw [if_neg (fun h => hn h.2), if_neg (fun h => absurd h.1 (by decide))]

/-- C30, witness: a UDP packet that is not a first fragment gets the same hash
in PORT mode as in ADDR mode, while the first-fragment TCP packet `packet_a`
does not. -/
theorem calc_hash_is_jenkins_mix_witness :
    calc_hash Mode.PORT 12345 99 packet_a ≠ calc_hash Mode.ADDR 12345 99 packet_a ∧
    calc_hash Mode.PORT 12345 99 ⟨ip 192 168 0 1, ip 10 0 0 77, 17, false, 53, 53, ip 10 0 0 77⟩
      = calc_hash Mode.ADDR 12345 99
          ⟨ip 192 168 0 1, ip 10 0 0 77, 17, false, 53, 53, ip 10 0 0 77⟩ :=
  ⟨by decide,
    (calc_hash_is_jenkins_mix 12345 99
      ⟨ip 192 168 0 1, ip 10 0 0 77, 17, false, 53, 53, ip 10 0 0 77⟩).2.2.2.2 (by decide)⟩

theorem lookup_steps_le (O : Own) (a : Nat) : ∀ (r : Radix) (path : List Nat) (level : Nat),
    Rep O r path level → level ≤ 5 → lookup_steps r a level ≤ 5 - level := by
  intro r
  induction r with
  | null => intro path level _ _; simp [lookup_steps]
  | node ck cc inner ih =>
    intro path level h hl
    cases h with
    | node _ _ _ _ _ hl4 _ hc =>
      simp only [lookup_steps]
      have := ih _ _ (level + 1) (hc ((a >>> _bitshift level) &&& (_nbuckets level - 1)))
        (by omega)
      omega

theorem route_32_ok : RouteOK route_32 :=
  ⟨⟨by decide, ⟨32, by decide, rfl⟩, by decide⟩, by decide, by decide⟩

theorem table_32_reachable : Reachable table_32 :=
  reach_add 0 Table.init route_32 false Reachable.init route_32_ok (by decide!)

/-- C24 (amended). The first level of the trie has 65536 buckets (a 16-bit
first stride) and each of the four succeeding levels has 16 (4-bit strides), so
that a lookup in a reachable table makes at most 5 passes of its loop. -/
theorem trie_has_five_levels (t : Table) (ht : Reachable t) (a : Nat) :
    _nbuckets 0 = 2 ^ 16 ∧ _bitshift 0 = 16 ∧
    (∀ level, 1 ≤ level → level ≤ 4 →
      _nbuckets level = 2 ^ 4 ∧ _bitshift level = 16 - 4 * level) ∧
    lookup_steps t._radix a 0 ≤ 5 := by
  obtain ⟨O, F, h⟩ := reachable_inv ht
  refine ⟨by decide, by decide, ?_, lookup_steps_le O a t._radix [] 0 h.rep (by omega)⟩
  intro level h1 h4
  interval_cases level <;> exact ⟨by decide, by decide⟩

/-- C24, witness: with the route `10.1.2.3/32` installed the lookup of
`10.1.2.3` makes exactly 5 passes. -/
theorem trie_has_five_levels_witness :
    Reachable table_32 ∧ lookup_steps table_32._radix (ip 10 1 2 3) 0 = 5 ∧
    (_nbuckets 0 = 2 ^ 16 ∧ _bitshift 0 = 16 ∧
    (∀ level, 1 ≤ level → level ≤ 4 →
      _nbuckets level = 2 ^ 4 ∧ _bitshift level = 16 - 4 * level) ∧
    lookup_steps table_32._radix (ip 10 1 2 3) 0 ≤ 5) :=
  ⟨table_32_reachable, by decide!,
    trie_has_five_levels table_32 table_32_reachable (ip 10 1 2 3)⟩

/-- C24, counterexample to the claim as stated: the first level does not have
256 buckets; it has 65536, and the bucket of an address at the first level is
its upper 16 bits, so `10.1.0.0` and `10.2.0.0` fall into different buckets of
the root. -/
theorem first_level_is_not_256 :
    _nbuckets 0 = 65536 ∧ _nbuckets 0 ≠ 256 ∧ _bitshift 0 ≠ 24 ∧
    bucket (ip 10 1 0 0) 0 = 10 * 256 + 1 ∧ bucket (ip 10 2 0 0) 0 = 10 * 256 + 2 := by
  decide

theorem pos_of_level_fuel (addr mask level e fuel : Nat)
    (h1 : ∀ j, j < level → mask &&& ((1 <<< _bitshift j) - 1) ≠ 0)
    (h2 : mask &&& ((1 <<< _bitshift level) - 1) = 0)
    (h3 : _nbuckets level - ((mask >>> _bitshift level) &&& (_nbuckets level - 1)) = 2 ^ e)
    (h4 : level < fuel) :
    pos_of fuel addr mask 0 = (apath addr level, halves e (_nbuckets level + bucket addr level)) := by
  rw [apath_eq_bpath]
  have := pos_of_level_aux addr mask e level 0 fuel h4 (by simpa using h1) (by simpa using h2)
    (by simpa using h3)
  simpa using this

/-- The position `change` reaches does not depend on the bound of the
recursion once five levels are allowed. -/
theorem pos_of_fuel (addr len fuel : Nat) (h1 : 1 ≤ len) (h2 : len ≤ 32) (hf : 5 ≤ fuel) :
    pos_of fuel addr ( make_prefix len) 0 = cand addr len := by
  interval_cases len <;>
    exact pos_of_level_fuel addr _ _ _ fuel (by decide) (by decide) (by decide)
      (lt_of_lt_of_le (by decide) hf)

theorem cand_place_ok (a len : Nat) (h1 : 1 ≤ len) (h2 : len ≤ 32) :
    (cand a len).1.length ≤ 4 ∧ 2 ≤ (cand a len).2 ∧
    (cand a len).2 < _nbuckets (cand a len).1.length * 2 := by
  obtain ⟨c1, _, c3⟩ := cand_level_bounds len h1 h2
  obtain ⟨d1, d2⟩ := halves_dyadic (cand_level len) _ _ c1 c3 (bucket_lt a _ c1)
  have hk : 1 ≤ (if cand_level len = 0 then 16 else 4) - (16 + 4 * cand_level len - len) := by
    omega
  have hlo : 2 ^ 1 ≤ 2 ^ ((if cand_level len = 0 then 16 else 4)
      - (16 + 4 * cand_level len - len)) := Nat.pow_le_pow_right (by decide) hk
  have hhi : 2 ^ ((if cand_level len = 0 then 16 else 4)
      - (16 + 4 * cand_level len - len) + 1)
      ≤ 2 ^ ((if cand_level len = 0 then 16 else 4) + 1) :=
    Nat.pow_le_pow_right (by decide) (by omega)
  have hn := nbuckets_pow (cand_level len) c1
  refine ⟨?_, ?_, ?_⟩
  · simp only [cand, apath_length]; exact c1
  · simp only [cand]; omega
  · simp only [cand, apath_length]
    have e2 : 2 ^ ((if cand_level len = 0 then 16 else 4) + 1)
        = _nbuckets (cand_level len) * 2 := by rw [hn, pow_succ]
    omega

/-- Two canonical prefixes with the same position are the same prefix. -/
theorem cand_inj (a b len len' : Nat) (ha : a < 2 ^ 32) (hb : b < 2 ^ 32) (h1 : 1 ≤ len)
    (h2 : len ≤ 32) (h1' : 1 ≤ len') (h2' : len' ≤ 32)
    (hca : a &&& make_prefix len = a) (hcb : b &&& make_prefix len' = b)
    (h : cand a len = cand b len') : a = b ∧ len = len' := by
  have hl := cand_len a b len len' h1 h2 h1' h2' h
  subst hl
  have hd := (cand_eq_iff a b len ha hb h1 h2).1 h
  rw [and_make_prefix_eq a len ha h2] at hca
  rw [and_make_prefix_eq b len hb h2] at hcb
  refine ⟨?_, rfl⟩
  rw [← hca, ← hcb, hd]

/-- The rows the propagation loop of `change` visits below a position lie
inside the node. -/
theorem subtree_rows_in_node (k i j x : Nat) (hi : 2 ≤ i) (hrow : i * 2 ^ j < 2 ^ (k + 1))
    (hx1 : i * 2 ^ j ≤ x) (hx2 : x < i * 2 ^ j + 2 ^ j) : 2 ≤ x ∧ x < 2 ^ (k + 1) := by
  have hp : 0 < 2 ^ j := Nat.two_pow_pos j
  have hj : j ≤ k + 1 := by
    by_contra hc
    have : 2 ^ (k + 1) ≤ 2 ^ j := Nat.pow_le_pow_right (by decide) (by omega)
    have : 2 ^ j ≤ i * 2 ^ j := Nat.le_mul_of_pos_left _ (by omega)
    omega
  have e : 2 ^ (k + 1) = 2 ^ (k + 1 - j) * 2 ^ j := by
    rw [← pow_add]; congr 1; omega
  rw [e] at hrow ⊢
  have hlt : i < 2 ^ (k + 1 - j) := Nat.lt_of_mul_lt_mul_right hrow
  have h3 : (i + 1) * 2 ^ j ≤ 2 ^ (k + 1 - j) * 2 ^ j := Nat.mul_le_mul_right _ hlt
  have h4 : i * 2 ^ j + 2 ^ j = (i + 1) * 2 ^ j := by ring
  have h5 : 2 * 1 ≤ i * 2 ^ j := Nat.mul_le_mul hi hp
  constructor
  · omega
  · omega

theorem bitshift_high (level : Nat) (h : 4 ≤ level) : _bitshift level = 0 := by
  obtain ⟨j, rfl⟩ : ∃ j, level = j + 4 := ⟨level - 4, by omega⟩
  cases j with
  | zero => rfl
  | succ j => simp [_bitshift]

/-- The recursion of `change` ends within five levels: a bound on its depth
above that changes nothing. -/
theorem change_fuel (addr mask key : Nat) (set : Bool) : ∀ (fuel k level : Nat) (r : Radix),
    5 ≤ level + fuel → 1 ≤ fuel →
    change (fuel + k) r addr mask key set level = change fuel r addr mask key set level := by
  intro fuel
  induction fuel with
  | zero => intro k level r _ h; omega
  | succ f ih =>
    intro k level r h5 _
    have e : f + 1 + k = (f + k) + 1 := by omega
    rw [e]
    cases r with
    | null => simp [change]
    | node ck cc inner =>
      simp only [change]
      by_cases ht : mask &&& ((1 <<< _bitshift level) - 1) ≠ 0
      · rw [if_pos ht, if_pos ht]
        have hl : level ≤ 3 := by
          by_contra hc
          rw [bitshift_high level (by omega)] at ht
          simp at ht
        rw [ih k (level + 1) _ (by omega) (by omega)]
      · rw [if_neg ht, if_neg ht]

/-- C22. The heap position at which `change` stores a prefix is well
defined.  For every address and every non-zero contiguous mask, `change`
started at level 0 on any trie does with five levels of recursion what it does
with more, it descends through at most 4 buckets, however many levels the
recursion is allowed, and the position `i` it computes in the node where it
stops satisfies `2 <= i < 2n` for that level's bucket count `n`; so do the
parent `i / 2` that `change` reads when `i > 3` and every position of the rows
below `i` that the propagation loop visits.  Two canonical prefixes that obtain
the same node and position are the same prefix. -/
theorem change_position_well_defined (addr len : Nat) (h1 : 1 ≤ len) (h2 : len ≤ 32) :
    (∀ (r : Radix) (key : Nat) (set : Bool) (fuel : Nat), 5 ≤ fuel →
      change fuel r addr ( make_prefix len) key set 0
        = change 5 r addr ( make_prefix len) key set 0) ∧
    (∀ fuel, 5 ≤ fuel →
      pos_of fuel addr ( make_prefix len) 0 = pos_of 5 addr ( make_prefix len) 0) ∧
    (pos_of 5 addr ( make_prefix len) 0).1.length ≤ 4 ∧
    2 ≤ (pos_of 5 addr ( make_prefix len) 0).2 ∧
    (pos_of 5 addr ( make_prefix len) 0).2
      < _nbuckets (pos_of 5 addr ( make_prefix len) 0).1.length * 2 ∧
    (3 < (pos_of 5 addr ( make_prefix len) 0).2 →
      2 ≤ (pos_of 5 addr ( make_prefix len) 0).2 / 2) ∧
    (∀ j x, (pos_of 5 addr ( make_prefix len) 0).2 * 2 ^ j
        < _nbuckets (pos_of 5 addr ( make_prefix len) 0).1.length * 2 →
      (pos_of 5 addr ( make_prefix len) 0).2 * 2 ^ j ≤ x →
      x < (pos_of 5 addr ( make_prefix len) 0).2 * 2 ^ j + 2 ^ j →
      2 ≤ x ∧ x < _nbuckets (pos_of 5 addr ( make_prefix len) 0).1.length * 2) ∧
    (∀ b len', addr < 2 ^ 32 → b < 2 ^ 32 → 1 ≤ len' → len' ≤ 32 →
      addr &&& make_prefix len = addr → b &&& make_prefix len' = b →
      pos_of 5 addr ( make_prefix len) 0 = pos_of 5 b ( make_prefix len') 0 →
      addr = b ∧ len = len') := by
  obtain ⟨p1, p2, p3⟩ := cand_place_ok addr len h1 h2
  have e5 := pos_of_fuel addr len 5 h1 h2 (le_refl _)
  rw [e5]
  refine ⟨?_, fun fuel hf => pos_of_fuel addr len fuel h1 h2 hf, p1, p2, p3,
    fun h => by omega, ?_, ?_⟩
  · intro r key set fuel hf
    obtain ⟨k, rfl⟩ : ∃ k, fuel = 5 + k := ⟨fuel - 5, by omega⟩
    exact change_fuel addr _ key set 5 k 0 r (by omega) (by omega)
  · intro j x hrow hx1 hx2
    have hn := nbuckets_pow (cand addr len).1.length p1
    have e2 : _nbuckets (cand addr len).1.length * 2
        = 2 ^ ((if (cand addr len).1.length = 0 then 16 else 4) + 1) := by rw [hn, pow_succ]
    rw [e2] at hrow ⊢
    exact subtree_rows_in_node _ _ j x p2 hrow hx1 hx2
  · intro b len' ha hb h1' h2' hca hcb h
    rw [pos_of_fuel b len' 5 h1' h2' (le_refl _)] at h
    exact cand_inj addr b len len' ha hb h1 h2 h1' h2' hca hcb h

/-- C22, witness: the prefix `10.1.128.0/17` is kept at position 3 of the
node under bucket `10.1` of the root. -/
theorem change_position_well_defined_witness :
    pos_of 5 (ip 10 1 128 0) ( make_prefix 17) 0 = ([10 * 256 + 1], 3) ∧
    (pos_of 5 (ip 10 1 128 0) ( make_prefix 17) 0).1.length ≤ 4 ∧
    2 ≤ (pos_of 5 (ip 10 1 128 0) ( make_prefix 17) 0).2 ∧
    (pos_of 5 (ip 10 1 128 0) ( make_prefix 17) 0).2
      < _nbuckets (pos_of 5 (ip 10 1 128 0) ( make_prefix 17) 0).1.length * 2 :=
  ⟨by decide,
    (change_position_well_defined (ip 10 1 128 0) 17 (by decide) (by decide)).2.2.1,
    (change_position_well_defined (ip 10 1 128 0) 17 (by decide) (by decide)).2.2.2.1,
    (change_position_well_defined (ip 10 1 128 0) 17 (by decide) (by decide)).2.2.2.2.1⟩

/-! ## Heap positions 2 and 3, and `change` without `set` -/

theorem route_17_ok : RouteOK route_17 :=
  ⟨⟨by decide, ⟨17, by decide, rfl⟩, by decide⟩, by decide, by decide⟩

theorem table_17_reachable : Reachable table_17 :=
  reach_add 0 Table.init route_17 false Reachable.init route_17_ok (by decide!)

/-- The prefix kept at heap position 2 or 3 of a node is one bit longer than
the prefixes that select the node. -/
theorem cand_top_len (a len : Nat) (h1 : 1 ≤ len) (h2 : len ≤ 32)
    (hp : (cand a len).2 = 2 ∨ (cand a len).2 = 3) :
    len = if (cand a len).1.length = 0 then 1 else 13 + 4 * (cand a len).1.length := by
  obtain ⟨c1, c2, c3⟩ := cand_level_bounds len h1 h2
  obtain ⟨d1, d2⟩ := halves_dyadic (cand_level len) _ _ c1 c3 (bucket_lt a _ c1)
  have hl : (cand a len).1.length = cand_level len := by simp only [cand, apath_length]
  have hv : (cand a len).2 = halves (16 + 4 * cand_level len - len)
      (_nbuckets (cand_level len) + bucket a (cand_level len)) := rfl
  rw [hl]
  rw [hv] at hp
  have hk : (if cand_level len = 0 then 16 else 4) - (16 + 4 * cand_level len - len) = 1 := by
    by_contra hne
    have hge : 2 ≤ (if cand_level len = 0 then 16 else 4) - (16 + 4 * cand_level len - len) := by
      omega
    have : 2 ^ 2 ≤ 2 ^ ((if cand_level len = 0 then 16 else 4)
        - (16 + 4 * cand_level len - len)) := Nat.pow_le_pow_right (by decide) hge
    omega
  split_ifs at hk ⊢ <;> omega

theorem change_at_fst (r : Radix) (i1 key : Nat) (set : Bool) (level : Nat) :
    (change_at r i1 key set level).1 = (change_at r i1 0 set level).1 := by
  simp only [change_at]
  split_ifs <;> rfl

/-- `change_at` without `set` at a position that has an own key returns that
key and leaves the node as it was, whatever key it is given. -/
theorem change_at_noop (O : Nat → Nat) (r : Radix) (level i1 key : Nat)
    (hr : is_node r) (hi : 2 ≤ i1) (hi2 : i1 < _nbuckets level * 2)
    (hrep : ∀ y, 2 ≤ y → y < _nbuckets level * 2 → key_for r y level = inh O y)
    (hinj : ∀ x y, O x ≠ 0 → O x = O y → x = y) (h0 : O i1 ≠ 0) :
    change_at r i1 key false level = (O i1, r) := by
  obtain ⟨c1, _⟩ := change_at_spec O r level i1 0 false hr hi hi2 hrep hinj
    (fun h => absurd rfl h)
  have e1 : (change_at r i1 key false level).1 = O i1 := by rw [change_at_fst, c1]
  have e2 : (change_at r i1 key false level).2 = r := by
    have hp : (if key_for r i1 level ≠ 0 ∧ i1 > 3 ∧ key_for r (i1 / 2) level = key_for r i1 level
        then 0 else key_for r i1 level) = O i1 := by
      have := e1
      simp only [change_at] at this
      split_ifs at this ⊢ <;> exact this
    simp only [change_at]
    rw [hp, if_neg]
    rintro ⟨_, h | h⟩
    · exact h0 h
    · exact absurd h (by decide)
  exact Prod.ext e1 e2

/-- `change` without `set` on a prefix whose position has an own key returns
that key and leaves the trie as it was, whatever key it is given. -/
theorem change_noop (O : Own)
    (hinj : ∀ p i p' i', O p i ≠ 0 → O p i = O p' i' → p = p' ∧ i = i')
    (key addr mask : Nat) :
    ∀ (fuel level : Nat) (r : Radix) (path : List Nat), level + fuel = 5 → 1 ≤ fuel →
      Rep O r path level → is_node r → mask % 2 ^ top_bit level ≠ 0 →
      O (path ++ (pos_of fuel addr mask level).1) (pos_of fuel addr mask level).2 ≠ 0 →
      change fuel r addr mask key false level
        = (O (path ++ (pos_of fuel addr mask level).1) (pos_of fuel addr mask level).2, r) := by
  intro fuel
  induction fuel with
  | zero => intro level r path h1 h2; omega
  | succ fuel ih =>
    intro level r path hlf _ hrep hr hmask
    have hl : level ≤ 4 := by omega
    cases hrep with
    | null _ _ _ => exact absurd hr (by simp [is_node])
    | node ck cc inner _ _ _ hk hc =>
      simp only [change, pos_of]
      by_cases ht : mask &&& ((1 <<< _bitshift level) - 1) ≠ 0
      · rw [if_pos ht, if_pos ht]
        intro h0
        have hl3 : level ≤ 3 := by
          by_contra h
          have : level = 4 := by omega
          subst this
          simp [_bitshift] at ht
        have hfuel : 1 ≤ fuel := by omega
        have hmask' : mask % 2 ^ top_bit (level + 1) ≠ 0 := by
          rw [← stride_test mask level hl]; exact ht
        have hcb := hc (bucket addr level)
        cases hcc : cc (bucket addr level) with
        | null =>
          rw [hcc] at hcb
          cases hcb with
          | null _ _ hz =>
            have := hz (pos_of fuel addr mask (level + 1)).1 (pos_of fuel addr mask (level + 1)).2
            rw [List.append_assoc, List.singleton_append] at this
            exact absurd this h0
        | node ck' cc' inner' =>
          rw [hcc] at hcb
          have hpath : path ++ [bucket addr level] ++ (pos_of fuel addr mask (level + 1)).1
              = path ++ bucket addr level :: (pos_of fuel addr mask (level + 1)).1 := by
            simp
          have e := ih (level + 1) _ (path ++ [bucket addr level]) (by omega) hfuel hcb
            (by simp [is_node]) hmask' (by rw [hpath]; exact h0)
          rw [hpath] at e
          simp only [bucket] at e hcc
          rw [hcc]
          simp only []
          rw [e]
          refine Prod.ext rfl ?_
          simp only []
          congr 1
          funext j
          by_cases hj : j = (addr >>> _bitshift level) &&& (_nbuckets level - 1)
          · subst hj; simp only [if_true]; rw [hcc]
          · simp [hj]
      · have ht0 : mask &&& ((1 <<< _bitshift level) - 1) = 0 := by simpa using ht
        rw [if_neg ht, if_neg ht]
        obtain ⟨p1, p2⟩ := heap_pos_range addr mask level hl hmask ht0
        simp only [bucket] at p1 p2 ⊢
        simp only [List.append_nil]
        intro h0
        exact change_at_noop (O path) (Radix.node ck cc inner) level _ key (by simp [is_node])
          p1 p2 hk (fun x y hx hxy => (hinj path x path y hx hxy).2) h0

/-- C23, counterexample: after `add 10.1.128.0/17 - 7` on the empty table,
heap position 3 of the level-1 node under bucket `10.1` holds the key of the
new route. -/
theorem position_three_gets_key :
    RouteOK route_17 ∧ Reachable table_17 ∧ route_17.mask ≠ 0 ∧
    pos_of 5 route_17.addr route_17.mask 0 = ([10 * 256 + 1], 3) ∧
    key_for (child_of table_17._radix (10 * 256 + 1)) 3 1 = 1 * 2 ^ 24 + 1 ∧
    key_for (child_of table_17._radix (10 * 256 + 1)) 3 1 ≠ 0 :=
  ⟨route_17_ok, table_17_reachable, by decide, by decide, by decide!, by decide!⟩

/-- C23 (amended). Heap positions 2 and 3 of a trie node hold the key of the
prefix that is one bit longer than the prefixes selecting the node, and 0 when
no such prefix is installed.  In every reachable table, for a node reached
through at most four buckets and `p` equal to 2 or 3, `key_for(p)` is non-zero
exactly when a live route has this node and position; it is then the combined
key of that route, and the route's prefix length is 1 in the root and
`13 + 4 * level` in a node of a deeper level (17, 21, 25, 29). -/
theorem positions_two_three_hold_short_prefixes (t : Table) (ht : Reachable t)
    (path : List Nat) (p : Nat) (hpath : path.length ≤ 4) (hp : p = 2 ∨ p = 3) :
    (key_for (node_at t._radix path) p path.length ≠ 0 ↔
      ∃ i, is_live t i ∧ gpos (t._v.getD i default) = some (path, p)) ∧
    (∀ i, is_live t i → gpos (t._v.getD i default) = some (path, p) →
      key_for (node_at t._radix path) p path.length = slot_key t i ∧
      (t._v.getD i default).mask
        = make_prefix (if path.length = 0 then 1 else 13 + 4 * path.length)) := by
  obtain ⟨O, F, h⟩ := reachable_inv ht
  have hp2 : 2 ≤ p := by omega
  have hn : 4 ≤ _nbuckets path.length * 2 := by
    rw [nbuckets_pow _ hpath]
    split_ifs <;> norm_num
  have hs := stored_key_inh h path p hp2 (by omega)
  have hs' : key_for (node_at t._radix path) p path.length = inh (O path) p := hs
  have hlive : ∀ i, is_live t i → gpos (t._v.getD i default) = some (path, p) →
      key_for (node_at t._radix path) p path.length = slot_key t i ∧
      (t._v.getD i default).mask
        = make_prefix (if path.length = 0 then 1 else 13 + 4 * path.length) := by
    intro i hi hg
    obtain ⟨i1, i2⟩ := (h.live_iff i).1 hi
    obtain ⟨_, b, _⟩ := live_slot_stored h i i1 i2
    rw [hg] at b
    refine ⟨b, ?_⟩
    obtain ⟨len, l1, l2, _, _⟩ := live_key h i i1 i2
    have hm : (t._v.getD i default).mask ≠ 0 := by
      intro e
      unfold gpos at hg
      rw [if_neg (fun hh => hh e)] at hg
      cases hg
    have hlen : 1 ≤ len := by
      rcases Nat.eq_zero_or_pos len with z | z
      · rw [z, make_prefix_zero] at l2; exact absurd l2 hm
      · exact z
    simp only [gpos, if_pos hm, Option.some.injEq] at hg
    rw [l2, pos_of_prefix_len _ len hlen l1] at hg
    have := cand_top_len (t._v.getD i default).addr len hlen l1 (by rw [hg]; exact hp)
    rw [hg] at this
    rw [l2]
    exact congrArg make_prefix this
  refine ⟨⟨?_, ?_⟩, hlive⟩
  · intro hne
    rw [hs'] at hne
    have hO : O path p ≠ 0 := by
      intro e
      exact hne (inh_top (O path) p e (by omega))
    obtain ⟨i, i1, i2, i3, _⟩ := h.key_slot (some (path, p)) hO
    exact ⟨i, (h.live_iff i).2 ⟨i1, i2⟩, i3⟩
  · rintro ⟨i, hi, hg⟩
    rw [(hlive i hi hg).1]
    exact InvW.slot_key_ne_zero t i

/-- C23 (amended), witness: in the table with the route `10.1.128.0/17`,
position 3 of the node under bucket `10.1` holds the key of slot 0. -/
theorem positions_two_three_hold_short_prefixes_witness :
    Reachable table_17 ∧ [10 * 256 + 1].length ≤ 4 ∧ ((3 : Nat) = 2 ∨ (3 : Nat) = 3) ∧
    is_live table_17 0 ∧ gpos (table_17._v.getD 0 default) = some ([10 * 256 + 1], 3) ∧
    ((key_for (node_at table_17._radix [10 * 256 + 1]) 3 [10 * 256 + 1].length ≠ 0 ↔
      ∃ i, is_live table_17 i ∧ gpos (table_17._v.getD i default) = some ([10 * 256 + 1], 3)) ∧
    (∀ i, is_live table_17 i →
      gpos (table_17._v.getD i default) = some ([10 * 256 + 1], 3) →
      key_for (node_at table_17._radix [10 * 256 + 1]) 3 [10 * 256 + 1].length
        = slot_key table_17 i ∧
      (table_17._v.getD i default).mask
        = make_prefix (if [10 * 256 + 1].length = 0 then 1
            else 13 + 4 * [10 * 256 + 1].length))) :=
  ⟨table_17_reachable, by decide, by decide, by decide!, by decide!,
    positions_two_three_hold_short_prefixes table_17 table_17_reachable [10 * 256 + 1] 3
      (by decide) (by decide)⟩

/-- C25. `change` with `set = false` is free of side effects whenever the
prefix already carries a key: in every reachable table, for every live route
with a non-zero mask and every value of `newKey` (0, the dry run of
`remove_route`, included), `change(addr, mask, newKey, false, 0)` returns the
combined key of the route, which is the non-zero key stored at the position of
the prefix, and the trie after the call is the trie before it. -/
theorem change_without_set_is_noop (t : Table) (ht : Reachable t) (i : Nat) (hi : is_live t i)
    (hm : (t._v.getD i default).mask ≠ 0) (newKey : Nat) :
    change 5 t._radix (t._v.getD i default).addr (t._v.getD i default).mask newKey false 0
      = (slot_key t i, t._radix) ∧
    slot_key t i ≠ 0 ∧
    stored_key t (gpos (t._v.getD i default)) = slot_key t i := by
  obtain ⟨O, F, h⟩ := reachable_inv ht
  obtain ⟨i1, i2⟩ := (h.live_iff i).1 hi
  obtain ⟨_, b, c⟩ := live_slot_stored h i i1 i2
  refine ⟨?_, InvW.slot_key_ne_zero t i, b⟩
  have hg : gpos (t._v.getD i default)
      = some (pos_of 5 (t._v.getD i default).addr (t._v.getD i default).mask 0) := by
    simp only [gpos, if_pos hm]
  rw [hg] at c
  simp only [keyG] at c
  have hlt : (t._v.getD i default).mask < 2 ^ 32 := (h.live i i1 i2).2.1.mask_lt
  have := change_noop O h.own_inj newKey (t._v.getD i default).addr (t._v.getD i default).mask
    5 0 t._radix [] rfl (by omega) h.rep h.node (mask_top hm hlt)
    (by simp only [List.nil_append]; rw [c]; exact InvW.slot_key_ne_zero t i)
  simp only [List.nil_append] at this
  rw [this, c]

/-- C25, witness: on the table with the route `10.1.128.0/17`, the dry run
`change(10.1.128.0, /17, 0, false, 0)` returns the key of slot 0 and leaves the
trie as it was. -/
theorem change_without_set_is_noop_witness :
    Reachable table_17 ∧ is_live table_17 0 ∧ (table_17._v.getD 0 default).mask ≠ 0 ∧
    (change 5 table_17._radix (table_17._v.getD 0 default).addr
        (table_17._v.getD 0 default).mask 0 false 0
      = (slot_key table_17 0, table_17._radix) ∧
    slot_key table_17 0 ≠ 0 ∧
    stored_key table_17 (gpos (table_17._v.getD 0 default)) = slot_key table_17 0) :=
  ⟨table_17_reachable, by decide!, by decide!,
    change_without_set_is_noop table_17 table_17_reachable 0 (by decide!) (by decide!) 0⟩

/-! ## The pool across `flush_table` -/

/-- A call of `add_route` that returns 0 leaves the pool that interning the
path set of the route gives. -/
theorem add_route_pool_intern (junk : Nat) (t : Table) (route : IPRouteMPath) (set : Bool)
    (res : CallResult) (h : add_route junk t route set = some res) (h0 : res.ret = 0) :
    res.table._lookup = (intern junk t._lookup route.gwports).2 := by
  have hne : (-EEXIST : Int) ≠ 0 := by decide
  unfold add_route at h
  simp only [] at h
  have hint : ∀ lk, (if find_lookup_key t._lookup route.gwports = 0 then t._lookup.length + 1
        else find_lookup_key t._lookup route.gwports) = lk →
      (intern junk t._lookup route.gwports).2
        = if lk = t._lookup.length + 1 then t._lookup ++ [collect junk route.gwports]
          else t._lookup := by
    intro lk e
    rw [← e]
    rfl
  generalize hlk : (if find_lookup_key t._lookup route.gwports = 0 then t._lookup.length + 1
        else find_lookup_key t._lookup route.gwports) = lk at h
  rw [hint lk hlk]
  by_cases hm : route.mask ≠ 0
  · rw [if_pos hm] at h
    cases hck : combine_key (found_slot t + 1) lk with
    | none => rw [hck] at h; exact absurd h (by simp)
    | some ck =>
      rw [hck] at h
      simp only [] at h
      by_cases hc : get_key (change 5 t._radix route.addr route.mask ck set 0).1 ≠ 0 ∧ set = false
      · rw [if_pos hc] at h
        simp only [Option.some.injEq] at h
        rw [← h] at h0
        exact absurd h0 hne
      · rw [if_neg hc] at h
        simp only [Option.some.injEq] at h
        rw [← h]
        rfl
  · rw [if_neg hm] at h
    by_cases hc : get_key t._default_key = 0 ∨ set = true
    · rw [if_pos hc] at h
      cases hck : combine_key (found_slot t + 1) lk with
      | none => rw [hck] at h; exact absurd h (by simp)
      | some ck =>
        rw [hck] at h
        simp only [Option.some.injEq] at h
        rw [← h]
        rfl
    · rw [if_neg hc] at h
      simp only [Option.some.injEq] at h
      rw [← h] at h0
      exact absurd h0 hne

theorem find_lookup_key_head (gs : List GWPort) (cs : List GWPortArr) :
    find_lookup_key (arr_of gs :: cs) gs = 1 := by
  unfold find_lookup_key
  simp only [find_lookup_key_from]
  rw [if_neg (by simp [arr_of]), if_pos ((arr_match_iff _ gs rfl rfl).2 rfl)]

/-- The first route added to a flushed table gets the path key that interning
its path set in the pool from before the flush gives. -/
theorem add_after_flush (junk : Nat) (t : Table) (ht : Reachable t) (route : IPRouteMPath)
    (hr : RouteOK route) (set : Bool) (res : CallResult)
    (ha : add_route junk (flush_table t) route set = some res) :
    res.ret = 0 ∧ res.table._lookup = (intern junk t._lookup route.gwports).2 ∧
    stored_key res.table (gpos route) ≠ 0 ∧
    get_key (stored_key res.table (gpos route)) = 1 ∧
    get_lookup_key (stored_key res.table (gpos route))
      = (intern junk t._lookup route.gwports).1 := by
  obtain ⟨O, F, h⟩ := reachable_inv ht
  have hf := h.flush
  have hfound : found_slot (flush_table t) = 0 := by simp [found_slot, flush_table]
  rcases add_route_inv junk hf route hr set res ha with ⟨k, _⟩ |
    ⟨_, r0, _, _, _, O', F', hI, _, _, hlive, hv, _⟩
  · exfalso
    apply k
    cases gpos route with
    | none => simp [keyG, flush_table]
    | some q => simp [keyG]
  · have hpool := add_route_pool_intern junk (flush_table t) route set res ha r0
    have hpool' : res.table._lookup = (intern junk t._lookup route.gwports).2 := hpool
    rw [hfound] at hlive hv
    obtain ⟨i1, i2⟩ := (hlive 0).2 (Or.inl rfl)
    obtain ⟨_, b, _⟩ := live_slot_stored hI 0 i1 i2
    have hg : gpos (res.table._v.getD 0 default) = gpos route := by
      rw [hv]; exact gpos_congr _ _ rfl rfl
    rw [hg] at b
    obtain ⟨g1, g2⟩ := hI.slot_key_get 0 i1
    have hnz := (hI.live 0 i1 i2).2.2
    rw [hv] at g2 hnz
    simp only [] at g2 hnz
    refine ⟨r0, hpool', ?_, ?_, ?_⟩
    · rw [b]; exact InvW.slot_key_ne_zero _ 0
    · rw [b, g1]
    · rw [b, g2, hpool']
      have e1 := intern_found junk (intern junk t._lookup route.gwports).2 route.gwports
        (by rw [← hpool']; exact hnz)
      have e2 := (intern_twice junk junk t._lookup route.gwports route.gwports hr.2.1 hr.2.2).2
      rw [e1] at e2
      exact congrArg Prod.fst e2

/-- C26, counterexample: the table holds `10.1.0.0/16 - 1`, so its pool has
one entry.  After `flush_table` the pool still has that entry, and the first
route added afterwards, `10.1.0.0/16 - 2`, receives path key 2. -/
theorem flush_table_keeps_pool :
    Reachable table_16 ∧ RouteOK route_16_b ∧
    (flush_table table_16)._lookup = [arr_of [⟨0, 1⟩]] ∧
    (flush_table table_16)._lookup ≠ [] ∧
    (res_of (add_route 0 (flush_table table_16) route_16_b false)).ret = 0 ∧
    get_lookup_key (stored_key
      (res_of (add_route 0 (flush_table table_16) route_16_b false)).table (gpos route_16_b)) = 2 ∧
    get_lookup_key (stored_key
      (res_of (add_route 0 (flush_table table_16) route_16_b false)).table (gpos route_16_b)) ≠ 1 :=
  ⟨table_16_reachable, route_16_b_ok, by decide!, by decide!, by decide!, by decide!,
    by decide!⟩

/-- C26 (amended). `flush_table` leaves the path-set pool as it was.  From
any reachable state, after `flush_table` the pool has the entries it had before,
and the first route added afterwards is installed with the path key that
`find_lookup_key` gives for its path set on that pool, or the size of the pool
plus one, with a new entry, when the pool does not hold the path set; it is 1
only when the pool was empty or its first entry is the path set. -/
theorem flush_table_leaves_pool (t : Table) (ht : Reachable t) :
    (flush_table t)._lookup = t._lookup ∧
    (∀ junk route set res, RouteOK route →
      add_route junk (flush_table t) route set = some res →
      res.ret = 0 ∧ res.table._lookup = (intern junk t._lookup route.gwports).2 ∧
      stored_key res.table (gpos route) ≠ 0 ∧
      get_lookup_key (stored_key res.table (gpos route))
        = (if find_lookup_key t._lookup route.gwports = 0 then t._lookup.length + 1
            else find_lookup_key t._lookup route.gwports) ∧
      (get_lookup_key (stored_key res.table (gpos route)) = 1 ↔
        t._lookup = [] ∨ t._lookup.head? = some (arr_of route.gwports))) := by
  refine ⟨rfl, ?_⟩
  intro junk route set res hr ha
  obtain ⟨a1, a2, a3, _, a5⟩ := add_after_flush junk t ht route hr set res ha
  have hk : (intern junk t._lookup route.gwports).1
      = (if find_lookup_key t._lookup route.gwports = 0 then t._lookup.length + 1
          else find_lookup_key t._lookup route.gwports) := rfl
  refine ⟨a1, a2, a3, by rw [a5, hk], ?_⟩
  rw [a5, hk]
  obtain ⟨O, F, h⟩ := reachable_inv ht
  by_cases hz : find_lookup_key t._lookup route.gwports = 0
  · rw [if_pos hz]
    constructor
    · intro e
      left
      exact List.length_eq_zero.1 (by omega)
    · rintro (e | e)
      · rw [e]; rfl
      · exfalso
        cases hp : t._lookup with
        | nil => rw [hp] at e; simp at e
        | cons c cs =>
          rw [hp] at e hz
          simp only [List.head?_cons, Option.some.injEq] at e
          subst e
          rw [find_lookup_key_head] at hz
          exact absurd hz (by decide)
  · rw [if_neg hz]
    have hent := find_lookup_key_entry t._lookup route.gwports h.sane hz
    constructor
    · intro e
      right
      rw [e] at hent
      cases hp : t._lookup with
      | nil => rw [hp] at hz; exact absurd rfl hz
      | cons c cs =>
        rw [hp] at hent
        simpa using hent
    · rintro (e | e)
      · rw [e] at hz; exact absurd rfl hz
      · cases hp : t._lookup with
        | nil => rw [hp] at e; simp at e
        | cons c cs =>
          rw [hp] at e
          simp only [List.head?_cons, Option.some.injEq] at e
          subst e
          exact find_lookup_key_head _ _

/-- C26 (amended), witness: flushing the table that holds `10.1.0.0/16 - 1`
keeps the pool entry `- 1`; the route `10.1.0.0/16 - 2` added afterwards gets
path key 2. -/
theorem flush_table_leaves_pool_witness :
    Reachable table_16 ∧
    ((flush_table table_16)._lookup = table_16._lookup ∧
    (∀ junk route set res, RouteOK route →
      add_route junk (flush_table table_16) route set = some res →
      res.ret = 0 ∧ res.table._lookup = (intern junk table_16._lookup route.gwports).2 ∧
      stored_key res.table (gpos route) ≠ 0 ∧
      get_lookup_key (stored_key res.table (gpos route))
        = (if find_lookup_key table_16._lookup route.gwports = 0
            then table_16._lookup.length + 1
            else find_lookup_key table_16._lookup route.gwports) ∧
      (get_lookup_key (stored_key res.table (gpos route)) = 1 ↔
        table_16._lookup = [] ∨ table_16._lookup.head? = some (arr_of route.gwports)))) :=
  ⟨table_16_reachable, flush_table_leaves_pool table_16 table_16_reachable⟩

theorem route_10_8_ok : RouteOK route_10_8 :=
  ⟨⟨by decide, ⟨8, by decide, rfl⟩, by decide⟩, by decide, by decide⟩

theorem table_10_8_reachable : Reachable table_10_8 :=
  reach_add 0 Table.init route_10_8 false Reachable.init route_10_8_ok (by decide!)

set_option maxHeartbeats 4000000 in
theorem script_batch_ret :
    outcome_ret (ctrl_handler 0 2 table_10_8 script_batch) = some (-EEXIST) := by decide!

set_option maxHeartbeats 4000000 in
theorem script_batch_dump :
    outcome_dump (ctrl_handler 0 2 table_10_8 script_batch)
      = some "10.0.0.0/8\t\t-\t1\n".toList := by decide!

theorem table_10_8_dump :
    (dump_routes table_10_8).map Prod.fst = some "10.0.0.0/8\t\t-\t1\n".toList := by decide!

/-- A route argument of `configure` whose prefix is installed leaves the
table as it was and adds one to the counter of the warning: the installed route
stays. -/
theorem configure_loop_installed (junk : Nat) (t : Table) (ht : Reachable t)
    (arg : List Char) (rest : List (List Char)) (route : IPRouteMPath)
    (hp : cp_ip_route_mpath arg false = some route) (i : Nat) (hi : is_live t i)
    (haddr : (t._v.getD i default).addr = route.addr)
    (hmask : (t._v.getD i default).mask = route.mask)
    (hroom : route.mask = 0 ∨ has_room t route) (r : Int) (eexist : Nat) :
    configure_loop junk (arg :: rest) t r eexist = configure_loop junk rest t r (eexist + 1) := by
  obtain ⟨O, F, h⟩ := reachable_inv ht
  have hi' := (h.live_iff i).1 hi
  obtain ⟨m1, m2, _⟩ := h.live i hi'.1 hi'.2
  have hg : gpos (t._v.getD i default) = gpos route := gpos_congr _ _ haddr hmask
  rw [hg] at m1
  have hk : keyG t._default_key O (gpos route) ≠ 0 := by
    rw [m1]; exact InvW.slot_key_ne_zero t i
  have hml : route.mask < 2 ^ 32 := by rw [← hmask]; exact m2.mask_lt
  have hneg : (-EEXIST : Int) < 0 := by decide
  rw [configure_loop, hp]
  simp only []
  rw [add_route_eexist junk h route hml hk hroom]
  simp only [if_pos hneg, if_true]

/-- C28, counterexample: on the table that holds only `10.0.0.0/8 - 1` the
batch `add 11.0.0.0/8 - 5`, `add 10.0.0.0/8 - 6`, `remove 99.0.0.0/8` does not
return `-ENOENT`: within two passes of its loop the handler returns `-EEXIST`,
the code `add` gives for the installed prefix of the second line. -/
theorem batch_does_not_return_enoent :
    Reachable table_10_8 ∧
    (dump_routes table_10_8).map Prod.fst = some "10.0.0.0/8\t\t-\t1\n".toList ∧
    outcome_ret (ctrl_handler 0 2 table_10_8 script_batch) = some (-17) ∧
    outcome_ret (ctrl_handler 0 2 table_10_8 script_batch) ≠ some (-ENOENT) := by
  refine ⟨table_10_8_reachable, table_10_8_dump, script_batch_ret, ?_⟩
  rw [script_batch_ret]
  decide

/-- C28 (amended). For the pre-state that holds only `10.0.0.0/8` with port
1, the batch `add 11.0.0.0/8 - 5`, `add 10.0.0.0/8 - 6`, `remove 99.0.0.0/8`
fails at its second line with `-EEXIST`: the handler returns `-EEXIST` in the
second pass of its loop, the third line is not run, and after the handler
returns the table lists exactly the route `10.0.0.0/8` with port 1, as it did
before the batch. -/
theorem batch_fails_at_second_line :
    outcome_ret (ctrl_handler 0 2 table_10_8 script_batch) = some (-EEXIST) ∧
    line_at script_batch (find_char script_batch 0 '\n' + 1) = "add 10.0.0.0/8 - 6".toList ∧
    outcome_dump (ctrl_handler 0 2 table_10_8 script_batch)
      = some "10.0.0.0/8\t\t-\t1\n".toList ∧
    outcome_dump (ctrl_handler 0 2 table_10_8 script_batch)
      = (dump_routes table_10_8).map Prod.fst := by
  refine ⟨script_batch_ret, by decide, script_batch_dump, ?_⟩
  rw [script_batch_dump, table_10_8_dump]

/-- C29, the code at a failing input.  `configure` is given the prefix
`10.1.0.0/16` twice, first with port 1 and then with port 2.  The call returns
0 and counts one route for its warning "replaced by later versions", but the
table holds the hops of the earlier argument: the lookup gives port 1, and the
table lists `10.1.0.0/16` with port 1. -/
theorem configure_keeps_earlier_route :
    (configure 0 Table.init conf_twice).isSome = true ∧
    (config_of (configure 0 Table.init conf_twice)).ret = 0 ∧
    (config_of (configure 0 Table.init conf_twice)).eexist = 1 ∧
    (config_of (configure 0 Table.init conf_twice)).mode = some Mode.SINGLE ∧
    lookup_route (config_of (configure 0 Table.init conf_twice)).table (ip 10 1 0 5) 0 = (1, 0) ∧
    lookup_route (config_of (configure 0 Table.init conf_twice)).table (ip 10 1 0 5) 0 ≠ (2, 0) ∧
    (dump_routes (config_of (configure 0 Table.init conf_twice)).table).map Prod.fst
      = some "10.1.0.0/16\t\t-\t1\n".toList :=
  ⟨by decide!, by decide!, by decide!, by decide!, by decide!, by decide!, by decide!⟩

theorem and_not_mask (a m : Nat) (hm : m < 2 ^ 32) : (a &&& m) &&& (m ^^^ 0xFFFFFFFF) = 0 := by
  apply Nat.eq_of_testBit_eq
  intro i
  simp only [Nat.testBit_and, Nat.testBit_xor, Nat.zero_testBit]
  by_cases hi : i < 32
  · have : (0xFFFFFFFF : Nat).testBit i = true := by
      have e : (0xFFFFFFFF : Nat) = 2 ^ 32 - 1 := by norm_num
      rw [e, Nat.testBit_two_pow_sub_one]
      simpa using hi
    rw [this]
    cases m.testBit i <;> simp
  · have : m.testBit i = false := by
      apply Nat.testBit_eq_false_of_lt
      calc m < 2 ^ 32 := hm
        _ ≤ 2 ^ i := Nat.pow_le_pow_right (by decide) (by omega)
    rw [this]
    simp

theorem canonical_default : Canonical (default : IPRouteMPath) := by decide

theorem canonical_extra (r : IPRouteMPath) (e : Int) (h : Canonical r) :
    Canonical { r with extra := e } := h

theorem canonical_kill (r : IPRouteMPath) : Canonical r.kill := by
  unfold Canonical IPRouteMPath.kill
  simp

theorem canonical_getD (v : List IPRouteMPath) (h : ∀ r ∈ v, Canonical r) (i : Nat) :
    Canonical (v.getD i default) := by
  by_cases hi : i < v.length
  · rw [List.getD_eq_getElem v default hi]
    exact h _ (List.getElem_mem hi)
  · rw [List.getD_eq_default v default (by omega)]
    exact canonical_default

theorem canonical_set (v : List IPRouteMPath) (h : ∀ r ∈ v, Canonical r) (i : Nat)
    (x : IPRouteMPath) (hx : Canonical x) : ∀ r ∈ v.set i x, Canonical r := by
  intro r hr
  rcases List.mem_or_eq_of_mem_set hr with z | z
  · exact h r z
  · rw [z]; exact hx

theorem canonical_append (v : List IPRouteMPath) (h : ∀ r ∈ v, Canonical r)
    (x : IPRouteMPath) (hx : Canonical x) : ∀ r ∈ v ++ [x], Canonical r := by
  intro r hr
  rcases List.mem_append.1 hr with z | z
  · exact h r z
  · rw [List.mem_singleton.1 z]; exact hx

theorem add_route_commit_canonical (junk : Nat) (t : Table) (route : IPRouteMPath)
    (found lookup_key last_key : Nat) (radix : Radix) (default_key : Nat)
    (old : Option IPRouteMPath) (ht : AllCanonical t) (hr : Canonical route) :
    AllCanonical
      (add_route_commit junk t route found lookup_key last_key radix default_key old).table := by
  unfold add_route_commit AllCanonical
  simp only []
  have h1 : ∀ r ∈ (if found = t._v.length then t._v ++ [route] else t._v.set found route),
      Canonical r := by
    by_cases hf : found = t._v.length
    · rw [if_pos hf]; exact canonical_append _ ht _ hr
    · rw [if_neg hf]; exact canonical_set _ ht _ _ hr
  have h2 := canonical_set _ h1 found _
    (canonical_extra _ (-1) (canonical_getD _ h1 found))
  by_cases hl : last_key ≠ 0
  · rw [if_pos hl]
    exact canonical_set _ h2 _ _ (canonical_extra _ _ (canonical_getD _ h2 _))
  · rw [if_neg hl]
    exact h2

/-- A call of `add_route` with a canonical route keeps the arena canonical,
and the route it writes through `old_route` is canonical. -/
theorem add_route_canonical (junk : Nat) (t : Table) (route : IPRouteMPath) (set : Bool)
    (res : CallResult) (h : add_route junk t route set = some res) (ht : AllCanonical t)
    (hr : Canonical route) :
    AllCanonical res.table ∧ Canonical (res.old_route.getD default) := by
  have hold : ∀ k : Nat, Canonical ((if k ≠ 0 then some (t._v.getD (k - 1) default)
      else none).getD default) := by
    intro k
    split_ifs
    · exact canonical_getD _ ht _
    · exact canonical_default
  unfold add_route at h
  simp only [] at h
  generalize (if find_lookup_key t._lookup route.gwports = 0 then t._lookup.length + 1
        else find_lookup_key t._lookup route.gwports) = lk at h
  by_cases hm : route.mask ≠ 0
  · rw [if_pos hm] at h
    cases hck : combine_key (found_slot t + 1) lk with
    | none => rw [hck] at h; exact absurd h (by simp)
    | some ck =>
      rw [hck] at h
      simp only [] at h
      by_cases hc : get_key (change 5 t._radix route.addr route.mask ck set 0).1 ≠ 0 ∧ set = false
      · rw [if_pos hc] at h
        simp only [Option.some.injEq] at h
        rw [← h]
        exact ⟨ht, hold _⟩
      · rw [if_neg hc] at h
        simp only [Option.some.injEq] at h
        rw [← h]
        exact ⟨add_route_commit_canonical _ _ _ _ _ _ _ _ _ ht hr, hold _⟩
  · rw [if_neg hm] at h
    by_cases hc : get_key t._default_key = 0 ∨ set = true
    · rw [if_pos hc] at h
      cases hck : combine_key (found_slot t + 1) lk with
      | none => rw [hck] at h; exact absurd h (by simp)
      | some ck =>
        rw [hck] at h
        simp only [Option.some.injEq] at h
        rw [← h]
        exact ⟨add_route_commit_canonical _ _ _ _ _ _ _ _ _ ht hr, hold _⟩
    · rw [if_neg hc] at h
      simp only [Option.some.injEq] at h
      rw [← h]
      exact ⟨ht, hold _⟩

/-- A call of `remove_route` keeps the arena canonical, and the route it
writes through `old_route` is canonical. -/
theorem remove_route_canonical (t : Table) (route : IPRouteMPath) (ht : AllCanonical t) :
    AllCanonical (remove_route t route).table ∧
    Canonical ((remove_route t route).old_route.getD default) := by
  unfold remove_route
  simp only []
  split_ifs
  all_goals
    refine ⟨?_, ?_⟩
    · first
        | exact ht
        | exact canonical_set _ ht _ _ (canonical_extra _ _ (canonical_getD _ ht _))
    · first
        | exact canonical_getD _ ht _
        | exact canonical_default

theorem parse_ip_lt (w : List Char) (a : Nat) (h : parse_ip w = some a) : a < 2 ^ 32 := by
  unfold parse_ip at h
  split at h
  · split_ifs at h with hc
    simp only [Option.some.injEq] at h
    omega
  · exact absurd h (by simp)

theorem parse_prefix_mask_lt (w : List Char) (addr mask : Nat)
    (h : parse_prefix_arg w = some (addr, mask)) : mask < 2 ^ 32 := by
  unfold parse_prefix_arg at h
  split at h
  · cases hp : parse_ip ‹_› with
    | none => rw [hp] at h; simp at h
    | some x =>
      rw [hp] at h
      simp only [Option.map_some', Option.some.injEq, Prod.mk.injEq] at h
      rw [← h.2]
      exact make_prefix_lt 32
  · split at h
    · exact absurd h (by simp)
    · split at h
      · split_ifs at h
        simp only [Option.some.injEq, Prod.mk.injEq] at h
        rw [← h.2]
        exact make_prefix_lt _
      · cases hp : parse_ip ‹_› with
        | none => rw [hp] at h; simp at h
        | some x =>
          rw [hp] at h
          simp only [Option.map_some', Option.some.injEq, Prod.mk.injEq] at h
          rw [← h.2]
          exact parse_ip_lt _ _ hp
  · exact absurd h (by simp)

/-- The loop of the parser leaves the prefix of the route alone. -/
theorem next_pair_prefix_eq (rr : Bool) : ∀ (fuel : Nat) (r : IPRouteMPath) (word s : List Char)
    (r1 : IPRouteMPath), next_pair rr fuel r word s = some r1 →
    r1.addr = r.addr ∧ r1.mask = r.mask := by
  intro fuel
  induction fuel with
  | zero => intro r word s r1 h; simp [next_pair] at h
  | succ fuel ih =>
    intro r word s r1 h
    simp only [next_pair] at h
    split at h
    · exact absurd h (by simp)
    · rename_i port _
      split_ifs at h
      all_goals
        first
          | (have h2 := ih _ _ _ _ h
             exact h2)
          | (simp only [Option.some.injEq] at h
             rw [← h]
             exact ⟨rfl, rfl⟩)

/-- The parser stores `addr & mask`: every route it returns is canonical. -/
theorem cp_ip_route_mpath_canonical (s : List Char) (rr : Bool) (r : IPRouteMPath)
    (h : cp_ip_route_mpath s rr = some r) : Canonical r := by
  unfold cp_ip_route_mpath at h
  split at h
  · exact absurd h (by simp)
  · rename_i addr mask hp
    simp only [] at h
    obtain ⟨e1, e2⟩ := next_pair_prefix_eq rr _ _ _ _ _ h
    unfold Canonical
    rw [e1, e2]
    exact and_not_mask addr mask (parse_prefix_mask_lt _ _ _ hp)

/-- A call of `run_command` keeps the arena canonical, and so are the records
it adds to the undo log. -/
theorem run_command_canonical (junk : Nat) (t : Table) (command : Int) (str : List Char)
    (log : Option (List IPRouteMPath)) (r : Int) (t1 : Table)
    (log1 : Option (List IPRouteMPath))
    (h : run_command junk t command str log = some (r, t1, log1)) (ht : AllCanonical t)
    (hl : ∀ x ∈ log.getD [], Canonical x) :
    AllCanonical t1 ∧ ∀ x ∈ log1.getD [], Canonical x := by
  unfold run_command at h
  cases hp : cp_ip_route_mpath str (decide (command = CMD_REMOVE)) with
  | none =>
    rw [hp] at h
    simp only [Option.some.injEq, Prod.mk.injEq] at h
    obtain ⟨_, e1, e2⟩ := h
    rw [← e1, ← e2]
    exact ⟨ht, hl⟩
  | some route =>
    rw [hp] at h
    simp only [] at h
    have hr := cp_ip_route_mpath_canonical _ _ _ hp
    have hcall : ∀ res, (if command = CMD_ADD then add_route junk t route false
        else if command = CMD_SET then add_route junk t route true
        else some (remove_route t route)) = some res →
        AllCanonical res.table ∧ Canonical (res.old_route.getD default) := by
      intro res e
      split_ifs at e
      · exact add_route_canonical junk t route false res e ht hr
      · exact add_route_canonical junk t route true res e ht hr
      · simp only [Option.some.injEq] at e
        rw [← e]
        exact remove_route_canonical t route ht
    cases hc : (if command = CMD_ADD then add_route junk t route false
        else if command = CMD_SET then add_route junk t route true
        else some (remove_route t route)) with
    | none => rw [hc] at h; exact absurd h (by simp)
    | some res =>
      rw [hc] at h
      simp only [Option.some.injEq, Prod.mk.injEq] at h
      obtain ⟨_, e1, e2⟩ := h
      obtain ⟨c1, c2⟩ := hcall res hc
      rw [← e1, ← e2]
      refine ⟨c1, ?_⟩
      cases log with
      | none => intro x hx; simp at hx
      | some l =>
        simp only [Option.getD_some] at hl
        simp only []
        by_cases hge : res.ret ≥ 0
        · rw [if_pos hge]
          simp only [Option.getD_some]
          intro x hx
          rcases List.mem_append.1 hx with z | z
          · exact hl x z
          · rw [List.mem_singleton.1 z]
            split_ifs
            · exact hr
            · exact c2
        · rw [if_neg hge]
          exact hl

/-- The rollback loop keeps the arena canonical when the records of the undo
log are. -/
theorem rollback_canonical (junk : Nat) : ∀ (l : List IPRouteMPath) (t t1 : Table),
    rollback junk l t = some t1 → AllCanonical t → (∀ x ∈ l, Canonical x) → AllCanonical t1 := by
  intro l
  induction l with
  | nil =>
    intro t t1 h ht _
    simp only [rollback, Option.some.injEq] at h
    rw [← h]; exact ht
  | cons rt older ih =>
    intro t t1 h ht hl
    have hrt := hl rt (List.mem_cons_self _ _)
    have hold : ∀ x ∈ older, Canonical x := fun x hx => hl x (List.mem_cons_of_mem _ hx)
    simp only [rollback] at h
    split_ifs at h
    · cases ha : add_route junk t rt false with
      | none => rw [ha] at h; exact absurd h (by simp)
      | some res =>
        rw [ha] at h
        exact ih _ _ h (add_route_canonical junk t rt false res ha ht hrt).1 hold
    · exact ih _ _ h (remove_route_canonical t rt ht).1 hold
    · cases ha : add_route junk t rt true with
      | none => rw [ha] at h; exact absurd h (by simp)
      | some res =>
        rw [ha] at h
        exact ih _ _ h (add_route_canonical junk t rt true res ha ht hrt).1 hold

theorem ctrl_rollback_canonical (junk : Nat) (t : Table) (log : List IPRouteMPath) (r r1 : Int)
    (t1 : Table) (h : ctrl_rollback junk t log r = Outcome.done (r1, t1)) (ht : AllCanonical t)
    (hl : ∀ x ∈ log, Canonical x) : AllCanonical t1 := by
  unfold ctrl_rollback at h
  cases hr : rollback junk log.reverse t with
  | none => rw [hr] at h; exact Outcome.noConfusion h
  | some t2 =>
    rw [hr] at h
    simp only [Outcome.done.injEq, Prod.mk.injEq] at h
    rw [← h.2]
    exact rollback_canonical junk _ _ _ hr ht (fun x hx => hl x (List.mem_reverse.1 hx))

/-- The `ctrl` handler keeps the arena canonical. -/
theorem ctrl_loop_canonical (junk : Nat) (conf : List Char) : ∀ (fuel : Nat) (t : Table)
    (s : Nat) (log : List IPRouteMPath) (r : Int) (t1 : Table),
    ctrl_loop junk conf fuel t s log = Outcome.done (r, t1) → AllCanonical t →
    (∀ x ∈ log, Canonical x) → AllCanonical t1 := by
  intro fuel
  induction fuel with
  | zero => intro t s log r t1 h; exact Outcome.noConfusion h
  | succ fuel ih =>
    intro t s log r t1 h ht hl
    rw [ctrl_loop] at h
    by_cases hs : s < conf.length
    · rw [if_pos hs] at h
      simp only [] at h
      cases hc : command_of (cp_shift_spacevec ((conf.drop s).take (find_char conf s '\n' - s))).1 with
      | none =>
        rw [hc] at h
        simp only [] at h
        split_ifs at h
        · exact ih _ _ _ _ _ h ht hl
        · exact ctrl_rollback_canonical junk _ _ _ _ _ h ht hl
      | some command =>
        rw [hc] at h
        simp only [] at h
        cases hrun : run_command junk t command
            (cp_shift_spacevec ((conf.drop s).take (find_char conf s '\n' - s))).2 (some log) with
        | none => rw [hrun] at h; exact Outcome.noConfusion h
        | some x =>
          obtain ⟨r2, t2, log2⟩ := x
          rw [hrun] at h
          simp only [] at h
          obtain ⟨c1, c2⟩ := run_command_canonical junk t command _ (some log) r2 t2 log2 hrun ht
            (by simpa using hl)
          split_ifs at h
          · exact ctrl_rollback_canonical junk _ _ _ _ _ h c1 c2
          · exact ih _ _ _ _ _ h c1 c2
    · rw [if_neg hs] at h
      simp only [Outcome.done.injEq, Prod.mk.injEq] at h
      rw [← h.2]; exact ht

/-- The loop of `configure` keeps the arena canonical. -/
theorem configure_loop_canonical (junk : Nat) : ∀ (args : List (List Char)) (t : Table) (r : Int)
    (e : Nat) (x : Int × Table × Nat), configure_loop junk args t r e = some x →
    AllCanonical t → AllCanonical x.2.1 := by
  intro args
  induction args with
  | nil =>
    intro t r e x h ht
    simp only [configure_loop, Option.some.injEq] at h
    rw [← h]; exact ht
  | cons arg rest ih =>
    intro t r e x h ht
    rw [configure_loop] at h
    cases hp : cp_ip_route_mpath arg false with
    | none =>
      rw [hp] at h
      exact ih _ _ _ _ h ht
    | some route =>
      rw [hp] at h
      simp only [] at h
      cases ha : add_route junk t route false with
      | none => rw [ha] at h; exact absurd h (by simp)
      | some res =>
        rw [ha] at h
        simp only [] at h
        have hc := (add_route_canonical junk t route false res ha ht
          (cp_ip_route_mpath_canonical _ _ _ hp)).1
        split_ifs at h
        all_goals exact ih _ _ _ _ h hc

theorem kill_loop_canonical : ∀ (fuel : Nat) (v : List IPRouteMPath) (j : Int)
    (v1 : List IPRouteMPath), kill_loop fuel v j = some v1 → (∀ r ∈ v, Canonical r) →
    ∀ r ∈ v1, Canonical r := by
  intro fuel
  induction fuel with
  | zero =>
    intro v j v1 h hv
    simp only [kill_loop] at h
    split_ifs at h
    simp only [Option.some.injEq] at h
    rw [← h]; exact hv
  | succ fuel ih =>
    intro v j v1 h hv
    simp only [kill_loop] at h
    split_ifs at h
    · simp only [Option.some.injEq] at h
      rw [← h]; exact hv
    · exact ih _ _ _ h (canonical_set _ hv _ _ (canonical_kill _))

/-- Every slot of the arena of a table reached through the handlers holds a
canonical route. -/
theorem handler_reachable_canonical (t : Table) (h : HandlerReachable t) : AllCanonical t := by
  induction h with
  | init => intro r hr; simp [Table.init] at hr
  | configure junk t conf res _ hc ih =>
    unfold configure at hc
    cases conf with
    | nil =>
      simp only [Option.some.injEq] at hc
      rw [← hc]; exact ih
    | cons mode args =>
      simp only [] at hc
      cases hl : configure_loop junk args t 0 0 with
      | none => rw [hl] at hc; simp at hc
      | some x =>
        rw [hl] at hc
        simp only [Option.map_some', Option.some.injEq] at hc
        rw [← hc]
        exact configure_loop_canonical junk args t 0 0 x hl ih
  | handler junk t command str r t1 log _ hc ih =>
    exact (run_command_canonical junk t command str none r t1 log hc ih
      (by intro x hx; simp at hx)).1
  | ctrl junk fuel t conf r t1 _ hc ih =>
    exact ctrl_loop_canonical junk conf fuel t 0 [] r t1 hc ih (by intro x hx; simp at hx)
  | add junk t route set res _ hr ha ih =>
    exact (add_route_canonical junk t route set res ha ih hr).1
  | remove t route _ ih => exact (remove_route_canonical t route ih).1
  | flush t _ _ => intro r hr; simp [flush_table] at hr
  | dump t text t1 _ hd ih =>
    unfold dump_routes at hd
    cases hk : kill_loop t._v.length t._v t._vfree with
    | none => rw [hk] at hd; simp at hd
    | some v =>
      rw [hk] at hd
      simp only [Option.map_some', Option.some.injEq, Prod.mk.injEq] at hd
      rw [← hd.2]
      exact kill_loop_canonical _ _ _ _ hk ih

theorem table_handler_add_reachable : HandlerReachable table_handler_add := by
  have h : ∃ x, run_command 0 Table.init CMD_ADD "10.1.0.1/16 1".toList none = some x := by
    cases hr : run_command 0 Table.init CMD_ADD "10.1.0.1/16 1".toList none with
    | none =>
      have : (run_command 0 Table.init CMD_ADD "10.1.0.1/16 1".toList none).isSome = true := by
        decide!
      rw [hr] at this
      exact absurd this (by decide)
    | some x => exact ⟨x, rfl⟩
  obtain ⟨⟨r, t1, log⟩, hx⟩ := h
  have e : table_handler_add = t1 := by
    unfold table_handler_add table_of
    rw [hx]
    rfl
  rw [e]
  exact HandlerReachable.handler 0 Table.init CMD_ADD _ r t1 log HandlerReachable.init hx

/-- C21, counterexample: `add_route` stores the route it is given.  Called
on the empty table with the route `10.1.0.1/16 - 1`, whose address has a bit
outside the mask, it returns 0, and the live slot 0 of the arena then holds the
route with the address `10.1.0.1`, which is not canonical. -/
theorem add_route_stores_route_as_given :
    (res_of (add_route 0 Table.init route_host_bits false)).ret = 0 ∧
    is_live (res_of (add_route 0 Table.init route_host_bits false)).table 0 ∧
    ((res_of (add_route 0 Table.init route_host_bits false)).table._v.getD 0 default).addr
      = ip 10 1 0 1 ∧
    ((res_of (add_route 0 Table.init route_host_bits false)).table._v.getD 0 default).mask
      = make_prefix 16 ∧
    ¬ Canonical ((res_of (add_route 0 Table.init route_host_bits false)).table._v.getD 0 default) :=
  ⟨by decide!, by decide!, by decide!, by decide!, by decide!⟩

/-- C21 (amended). Every stored route is canonical when the routes given to
`add_route` are.  In every table state reachable through `configure`, the
`add`, `set`, `remove` and `ctrl` handlers, `remove_route`, `flush_table`,
`dump_routes`, and `add_route` called with a canonical route, every slot of
the arena, and so every live route, satisfies `addr & ~mask == 0`.  The
parser `cp_ip_route_mpath` returns canonical routes only. -/
theorem stored_routes_canonical (t : Table) (h : HandlerReachable t) :
    (∀ r ∈ t._v, r.addr &&& (r.mask ^^^ 0xFFFFFFFF) = 0) ∧
    (∀ i, is_live t i → Canonical (t._v.getD i default)) ∧
    (∀ s rr r, cp_ip_route_mpath s rr = some r → Canonical r) := by
  have hc := handler_reachable_canonical t h
  exact ⟨hc, fun i _ => canonical_getD _ hc i, cp_ip_route_mpath_canonical⟩

/-- C21 (amended), witness: the handler call `add 10.1.0.1/16 1` on the
empty table stores the canonical route `10.1.0.0/16` in the live slot 0. -/
theorem stored_routes_canonical_witness :
    HandlerReachable table_handler_add ∧ is_live table_handler_add 0 ∧
    (table_handler_add._v.getD 0 default).addr = ip 10 1 0 0 ∧
    ((∀ r ∈ table_handler_add._v, r.addr &&& (r.mask ^^^ 0xFFFFFFFF) = 0) ∧
    (∀ i, is_live table_handler_add i → Canonical (table_handler_add._v.getD i default)) ∧
    (∀ s rr r, cp_ip_route_mpath s rr = some r → Canonical r)) :=
  ⟨table_handler_add_reachable, by decide!, by decide!,
    stored_routes_canonical table_handler_add table_handler_add_reachable⟩

/-- No entry of the pool of a reachable table is longer than the capacity. -/
theorem reachable_pool_cap {t : Table} (ht : Reachable t) : ∀ c ∈ t._lookup, c.length ≤ 7 := by
  induction ht with
  | init => intro c hc; simp [Table.init] at hc
  | add junk t route set res _ hr ha ih =>
    rcases add_route_pool junk t route set res ha with e | e
    · rw [e]; exact ih
    · rw [e]
      intro c hc
      rcases List.mem_append.1 hc with z | z
      · exact ih c z
      · rw [List.mem_singleton.1 z, collect_eq junk _ hr.2.1 hr.2.2]
        exact hr.2.2
  | remove t route _ _ ih => rw [remove_route_pool]; exact ih
  | flush t _ ih => exact ih

theorem find_from_long (gs : List GWPort) (hl : 7 < gs.length) : ∀ (cs : List GWPortArr) (i : Nat),
    (∀ c ∈ cs, c.length ≤ 7) → find_lookup_key_from gs cs i = 0 := by
  intro cs
  induction cs with
  | nil => intro i _; rfl
  | cons c cs ih =>
    intro i h
    have hc := h c (List.mem_cons_self _ _)
    simp only [find_lookup_key_from]
    rw [if_pos (by omega)]
    exact ih (i + 1) (fun x hx => h x (List.mem_cons_of_mem _ hx))

/-- A path set longer than the capacity is never found in the pool. -/
theorem find_lookup_key_long (pool : List GWPortArr) (gs : List GWPort) (hl : 7 < gs.length)
    (h : ∀ c ∈ pool, c.length ≤ 7) : find_lookup_key pool gs = 0 :=
  find_from_long gs hl pool 0 h

theorem collect_loop_full : ∀ (gs : List GWPort) (i : Nat) (c : GWPortArr), i < 7 →
    7 ≤ i + gs.length → collect_loop gs i c = ⟨7, c.data ++ gs.take (7 - i)⟩ := by
  intro gs
  induction gs with
  | nil => intro i c h1 h2; simp at h2; omega
  | cons g gs ih =>
    intro i c h1 h2
    simp only [collect_loop, GWPortArr.capacity, if_pos h1]
    simp only [List.length_cons] at h2
    obtain ⟨k, hk⟩ : ∃ k, 7 - i = k + 1 := ⟨6 - i, by omega⟩
    rw [hk, List.take_succ_cons]
    by_cases h6 : i + 1 < 7
    · rw [ih (i + 1) _ h6 (by omega)]
      have : 7 - (i + 1) = k := by omega
      rw [this]
      simp
    · have hi : i + 1 = 7 := by omega
      have hk0 : k = 0 := by omega
      rw [hi, hk0]
      cases gs with
      | nil => simp [collect_loop]
      | cons g2 gs2 => simp [collect_loop, GWPortArr.capacity]

/-- The copy loop of `add_route` stops at the capacity: the entry holds the
first seven hops. -/
theorem collect_long (junk : Nat) (gs : List GWPort) (hl : 7 < gs.length) :
    collect junk gs = ⟨7, gs.take 7⟩ := by
  unfold collect
  rw [collect_loop_full gs 0 _ (by omega) (by omega)]
  simp

/-- Two canonical prefixes kept at the same place are the same prefix. -/
theorem gpos_inj (r s : IPRouteMPath) (hr : PrefixOK r) (hs : PrefixOK s)
    (h : gpos r = gpos s) : r.addr = s.addr ∧ r.mask = s.mask := by
  obtain ⟨l, l1, l2⟩ := hr.2.1
  obtain ⟨l', l1', l2'⟩ := hs.2.1
  have hzero : ∀ x : IPRouteMPath, PrefixOK x → x.mask = 0 → x.addr = 0 := by
    intro x hx hm
    have := hx.2.2
    rw [hm, Nat.and_zero] at this
    exact this.symm
  unfold gpos at h
  by_cases hm : r.mask ≠ 0
  · rw [if_pos hm] at h
    by_cases hm' : s.mask ≠ 0
    · rw [if_pos hm'] at h
      simp only [Option.some.injEq] at h
      have hl : 1 ≤ l := by
        rcases Nat.eq_zero_or_pos l with z | z
        · rw [z, make_prefix_zero] at l2; exact absurd l2 hm
        · exact z
      have hl' : 1 ≤ l' := by
        rcases Nat.eq_zero_or_pos l' with z | z
        · rw [z, make_prefix_zero] at l2'; exact absurd l2' hm'
        · exact z
      rw [l2, l2', pos_of_prefix_len _ l hl l1, pos_of_prefix_len _ l' hl' l1'] at h
      have hca := hr.2.2
      have hcb := hs.2.2
      rw [l2] at hca
      rw [l2'] at hcb
      obtain ⟨e1, e2⟩ := cand_inj r.addr s.addr l l' hr.1 hs.1 hl l1 hl' l1' hca hcb h
      exact ⟨e1, by rw [l2, l2', e2]⟩
    · rw [if_neg hm'] at h
      exact Option.noConfusion h
  · rw [if_neg hm] at h
    by_cases hm' : s.mask ≠ 0
    · rw [if_pos hm'] at h
      exact Option.noConfusion h
    · have e1 : r.mask = 0 := by simpa using hm
      have e2 : s.mask = 0 := by simpa using hm'
      exact ⟨by rw [hzero r hr e1, hzero s hs e2], by rw [e1, e2]⟩

/-- A key kept at the place of a canonical prefix belongs to an installed
route with that prefix. -/
theorem key_installed {t : Table} {O : Own} {F : List Nat} (h : InvW t O F)
    (route : IPRouteMPath) (hp : PrefixOK route)
    (hk : keyG t._default_key O (gpos route) ≠ 0) : installed t route.addr route.mask := by
  obtain ⟨i, i1, i2, i3, _⟩ := h.key_slot (gpos route) hk
  obtain ⟨e1, e2⟩ := gpos_inj _ _ (h.live i i1 i2).2.1.1 hp i3
  exact ⟨i, (h.live_iff i).2 ⟨i1, i2⟩, e1, e2⟩

/-- The hop `lookup_route` returns when the descent ends with a key whose
path key names the last entry of the pool. -/
theorem lookup_last_entry (t : Table) (pool : List GWPortArr) (c : GWPortArr) (a hash ck : Nat)
    (hpool : t._lookup = pool ++ [c])
    (hkey : Radix.lookup t._radix t._default_key a 0 = ck)
    (hlk : get_lookup_key ck = pool.length + 1) :
    lookup_route t a hash = ((c.get (hash % c.length)).port, (c.get (hash % c.length)).gw) := by
  unfold lookup_route
  simp only []
  rw [hkey, hlk, if_pos (by omega), hpool]
  have : (pool ++ [c]).getD (pool.length + 1 - 1) default = c := by
    simp
  rw [this]

theorem take_getD (gs : List GWPort) (n k : Nat) (h : n < k) :
    (gs.take k).getD n default = gs.getD n default := by
  simp only [List.getD_eq_getElem?_getD, List.getElem?_take, if_pos h]

/-- The hop the lookup returns from the entry of a truncated path set. -/
theorem truncated_hop (t : Table) (pool : List GWPortArr) (gs : List GWPort) (a hash ck : Nat)
    (hpool : t._lookup = pool ++ [⟨7, gs.take 7⟩])
    (hkey : Radix.lookup t._radix t._default_key a 0 = ck)
    (hlk : get_lookup_key ck = pool.length + 1) :
    lookup_route t a hash
      = ((gs.getD (hash % 7) default).port, (gs.getD (hash % 7) default).gw) := by
  rw [lookup_last_entry t pool ⟨7, gs.take 7⟩ a hash ck hpool hkey hlk]
  simp only [GWPortArr.get]
  rw [take_getD gs (hash % 7) 7 (Nat.mod_lt _ (by decide))]

/-- What `add_route` does with a route of more than seven hops on a table
that satisfies the invariant. -/
theorem add_route_long (junk : Nat) (t : Table) (ht : Reachable t) (route : IPRouteMPath)
    (hp : PrefixOK route) (hlen : 7 < route.gwports.length) (set : Bool)
    (hfree : set = true ∨ ¬ installed t route.addr route.mask)
    (hpool : t._lookup.length < 255) (hslot : found_slot t + 1 ≤ 0x00ffffff) :
    ∃ res, add_route junk t route set = some res ∧ res.ret = 0 ∧
      res.table._lookup = t._lookup ++ [⟨7, route.gwports.take 7⟩] ∧
      ∀ a hash, a < 2 ^ 32 → contains route a →
        (∀ j, is_live t j → contains (t._v.getD j default) a →
          (t._v.getD j default).mask ≤ route.mask) →
        lookup_route res.table a hash
          = ((route.gwports.getD (hash % 7) default).port,
             (route.gwports.getD (hash % 7) default).gw) := by
  obtain ⟨O, F, h⟩ := reachable_inv ht
  have hcap := reachable_pool_cap ht
  have hfind := find_lookup_key_long t._lookup route.gwports hlen hcap
  have hck := combine_key_some (found_slot t + 1) (t._lookup.length + 1) hslot (by omega)
  have hgk : get_key ((t._lookup.length + 1) * 2 ^ 24 + (found_slot t + 1)) = found_slot t + 1 :=
    get_key_combined _ _ hslot
  have hglk : get_lookup_key ((t._lookup.length + 1) * 2 ^ 24 + (found_slot t + 1))
      = t._lookup.length + 1 := get_lookup_key_combined _ _ hslot (by omega)
  have hck0 : (t._lookup.length + 1) * 2 ^ 24 + (found_slot t + 1) ≠ 0 := by omega
  generalize (t._lookup.length + 1) * 2 ^ 24 + (found_slot t + 1) = ck at hck hgk hglk hck0
  have hkey0 : set = true ∨ keyG t._default_key O (gpos route) = 0 := by
    rcases hfree with z | z
    · exact Or.inl z
    · right
      by_contra hne
      exact z (key_installed h route hp hne)
  obtain ⟨L, L1, L2⟩ := hp.2.1
  have hpooleq : ∀ (found last_key : Nat) (radix : Radix) (dk : Nat) (old : Option IPRouteMPath),
      (add_route_commit junk t route found (t._lookup.length + 1) last_key radix dk
        old).table._lookup = t._lookup ++ [⟨7, route.gwports.take 7⟩] := by
    intro found last_key radix dk old
    unfold add_route_commit
    simp only [if_true]
    rw [collect_long junk _ hlen]
  unfold add_route
  simp only []
  rw [hfind]
  simp only [if_true]
  by_cases hm : route.mask ≠ 0
  · rw [if_pos hm, hck]
    simp only []
    have hgp : gpos route = some (pos_of 5 route.addr route.mask 0) := by simp [gpos, hm]
    have hL : 1 ≤ L := by
      rcases Nat.eq_zero_or_pos L with z | z
      · rw [z, make_prefix_zero] at L2; exact absurd L2 hm
      · exact z
    obtain ⟨c1, _, c3, _⟩ := change_spec O h.own_inj ck
      (fun _ p i => h.key_fresh ck hgk (some (p, i))) route.addr route.mask set 5 0
      t._radix [] rfl (by omega) h.rep h.node
      (mask_top hm (by rw [L2]; exact make_prefix_lt L))
    simp only [List.nil_append] at c1 c3
    have hcond : O (pos_of 5 route.addr route.mask 0).1 (pos_of 5 route.addr route.mask 0).2 = 0
        ∨ set = true := by
      rcases hkey0 with z | z
      · exact Or.inr z
      · left
        rw [hgp] at z
        exact z
    rw [if_pos hcond] at c3
    have hnot : ¬ (get_key (change 5 t._radix route.addr route.mask ck set 0).1 ≠ 0
        ∧ set = false) := by
      rw [c1]
      rintro ⟨x, y⟩
      rcases hcond with z | z
      · rw [z] at x; exact x get_key_zero
      · rw [y] at z; cases z
    rw [if_neg hnot]
    refine ⟨_, rfl, rfl, hpooleq _ _ _ _ _, ?_⟩
    intro a hash ha hc hmax
    have hpos : pos_of 5 route.addr route.mask 0 = cand a L := by
      rw [L2, pos_of_prefix_len _ L hL L1]
      exact (cand_eq_iff _ _ L hp.1 ha hL L1).2 ((contains_iff route a L ha hp L1 L2).1 hc).symm
    rw [hpos] at c3
    have hfL : Own.update O (cand a L).1 (cand a L).2 ck (cand a L).1 (cand a L).2 = ck := by
      simp [Own.update]
    have hfl : ∀ l, 1 ≤ l → l ≤ 32 → l ≠ L →
        Own.update O (cand a L).1 (cand a L).2 ck (cand a l).1 (cand a l).2
          = O (cand a l).1 (cand a l).2 := by
      intro l l1 l2 hne
      simp only [Own.update]
      rw [if_neg]
      rintro ⟨e1, e2⟩
      exact hne (cand_len a a l L l1 l2 hL L1 (Prod.ext e1 e2))
    apply truncated_hop _ t._lookup route.gwports a hash ck (hpooleq _ _ _ _ _) _ hglk
    show Radix.lookup (change 5 t._radix route.addr route.mask ck set 0).2 t._default_key a 0 = ck
    rw [lookup_spec _ a 5 0 _ [] _ rfl c3, lk_bestL]
    rcases bestL_spec (fun len => Own.update O (cand a L).1 (cand a L).2 ck
        (cand a len).1 (cand a len).2) t._default_key 32 with ⟨_, e2⟩ | ⟨l0, e1, e2, e3, e4, e5⟩
    · have := e2 L hL L1
      beta_reduce at this
      rw [hfL] at this
      exact absurd this hck0
    · have hl0 : l0 = L := by
        rcases Nat.lt_trichotomy l0 L with z | z | z
        · have := e5 L z L1
          rw [hfL] at this
          exact absurd this hck0
        · exact z
        · exfalso
          rw [hfl l0 e1 e2 (by omega)] at e4
          obtain ⟨j, j1, j2, j3, j4⟩ := key_route h a l0 ha e1 e2 e4
          have := hmax j ((h.live_iff j).2 ⟨j1, j2⟩) j3
          rw [j4, L2] at this
          have := make_prefix_lt_of_lt L l0 z e2
          omega
      rw [e3, hl0, hfL]
  · rw [if_neg hm]
    have hm0 : route.mask = 0 := by simpa using hm
    have hgp : gpos route = none := by simp [gpos, hm0]
    have hcond : get_key t._default_key = 0 ∨ set = true := by
      rcases hkey0 with z | z
      · exact Or.inr z
      · left
        rw [hgp] at z
        simp only [keyG] at z
        rw [z]; exact get_key_zero
    rw [if_pos hcond, hck]
    simp only []
    refine ⟨_, rfl, rfl, hpooleq _ _ _ _ _, ?_⟩
    intro a hash ha hc hmax
    apply truncated_hop _ t._lookup route.gwports a hash ck (hpooleq _ _ _ _ _) _ hglk
    show Radix.lookup t._radix ck a 0 = ck
    rw [lookup_spec O a 5 0 _ [] _ rfl h.rep, lk_bestL]
    rcases bestL_spec (fun len => O (cand a len).1 (cand a len).2) ck 32 with
      ⟨e1, _⟩ | ⟨l0, e1, e2, _, e4, _⟩
    · exact e1
    · exfalso
      obtain ⟨j, j1, j2, j3, j4⟩ := key_route h a l0 ha e1 e2 e4
      have := hmax j ((h.live_iff j).2 ⟨j1, j2⟩) j3
      rw [j4, hm0] at this
      exact make_prefix_pos l0 e1 e2 (by omega)

theorem route_8hops_prefix_ok : PrefixOK route_8hops :=
  ⟨by decide, ⟨16, by decide, rfl⟩, by decide⟩

/-- C27, counterexample: `add_route` with a route of eight hops does not
always succeed.  On the table that holds `10.1.0.0/16` the call for
`10.1.0.0/16` without `set` returns `-EEXIST`; and on a reachable table whose
pool holds 255 path sets the call for the new prefix `10.2.0.0/16` never
returns: a path set of eight hops matches no pool entry, its path key would be
256, and the call dies on the assertion of `combine_key`. -/
theorem long_path_set_add_fails :
    7 < route_16_8hops.gwports.length ∧ 7 < route_8hops.gwports.length ∧
    Reachable table_16 ∧
    (add_route 0 table_16 route_16_8hops false).isSome = true ∧
    (res_of (add_route 0 table_16 route_16_8hops false)).ret = -EEXIST ∧
    Reachable full_table ∧ full_table._lookup.length = 255 ∧
    (∀ junk set, add_route junk full_table route_8hops set = none) := by
  obtain ⟨f1, f2, _⟩ := full_table_facts
  refine ⟨by decide, by decide, table_16_reachable, by decide!, by decide!, f1, f2, ?_⟩
  intro junk set
  exact add_route_abort junk full_table route_8hops set (by decide)
    (find_lookup_key_long _ _ (by decide) (reachable_pool_cap f1)) f2

/-- C27 (amended). A path set longer than the capacity is truncated
silently.  In every reachable table whose pool has fewer than 255 entries and
whose next slot index fits a route key, for every route with a canonical prefix
and more than 7 hops that is not installed or is added with `set`:
`find_lookup_key` finds no entry for the path set, `add_route` succeeds, and
the pool entry it appends holds exactly the route's first 7 hops in order; and
`lookup_route` with hash `h` for an address that the route contains, and that no
installed route with a longer prefix contains, returns hop `h mod 7` of the
route, which is never one of the hops after the seventh. -/
theorem long_path_set_truncated (junk : Nat) (t : Table) (ht : Reachable t)
    (route : IPRouteMPath) (hp : PrefixOK route) (hlen : 7 < route.gwports.length) (set : Bool)
    (hfree : set = true ∨ ¬ installed t route.addr route.mask)
    (hpool : t._lookup.length < 255) (hslot : found_slot t + 1 ≤ 0x00ffffff) :
    find_lookup_key t._lookup route.gwports = 0 ∧
    ∃ res, add_route junk t route set = some res ∧ res.ret = 0 ∧
      res.table._lookup = t._lookup ++ [⟨7, route.gwports.take 7⟩] ∧
      ∀ a hash, a < 2 ^ 32 → contains route a →
        (∀ j, is_live t j → contains (t._v.getD j default) a →
          (t._v.getD j default).mask ≤ route.mask) →
        lookup_route res.table a hash
          = ((route.gwports.getD (hash % 7) default).port,
             (route.gwports.getD (hash % 7) default).gw) ∧
        hash % 7 < 7 := by
  refine ⟨find_lookup_key_long _ _ hlen (reachable_pool_cap ht), ?_⟩
  obtain ⟨res, r1, r2, r3, r4⟩ := add_route_long junk t ht route hp hlen set hfree hpool hslot
  exact ⟨res, r1, r2, r3, fun a hash ha hc hmax =>
    ⟨r4 a hash ha hc hmax, Nat.mod_lt _ (by decide)⟩⟩

/-- C27 (amended), witness: `set 10.2.0.0/16` with eight hops, ports 1 to
8, on the table that holds `10.1.0.0/16`.  The lookup of `10.2.0.9` with hash 7
gives port 1, hop `7 mod 7`; hop `7 mod 8` would be port 8. -/
theorem long_path_set_truncated_witness :
    Reachable table_16 ∧ PrefixOK route_8hops ∧ 7 < route_8hops.gwports.length ∧
    table_16._lookup.length < 255 ∧ found_slot table_16 + 1 ≤ 0x00ffffff ∧
    lookup_route (res_of (add_route 0 table_16 route_8hops true)).table (ip 10 2 0 9) 7 = (1, 0) ∧
    (find_lookup_key table_16._lookup route_8hops.gwports = 0 ∧
    ∃ res, add_route 0 table_16 route_8hops true = some res ∧ res.ret = 0 ∧
      res.table._lookup = table_16._lookup ++ [⟨7, route_8hops.gwports.take 7⟩] ∧
      ∀ a hash, a < 2 ^ 32 → contains route_8hops a →
        (∀ j, is_live table_16 j → contains (table_16._v.getD j default) a →
          (table_16._v.getD j default).mask ≤ route_8hops.mask) →
        lookup_route res.table a hash
          = ((route_8hops.gwports.getD (hash % 7) default).port,
             (route_8hops.gwports.getD (hash % 7) default).gw) ∧
        hash % 7 < 7) :=
  ⟨table_16_reachable, route_8hops_prefix_ok, by decide, by decide!, by decide!, by decide!,
    long_path_set_truncated 0 table_16 table_16_reachable route_8hops route_8hops_prefix_ok
      (by decide) true (Or.inl rfl) (by decide!) (by decide!)⟩

theorem allkeys_mono {P Q : Nat → Prop} (hpq : ∀ k, P k → Q k) {r : Radix} (h : AllKeys P r) :
    AllKeys Q r := by
  induction h with
  | null => exact AllKeys.null
  | node ck cc inner h1 h2 _ ih =>
    exact AllKeys.node ck cc inner (fun b => hpq _ (h1 b)) (fun j => hpq _ (h2 j)) ih

theorem allkeys_make_radix (P : Nat → Prop) (h0 : P 0) (level : Nat) :
    AllKeys P (make_radix level) :=
  AllKeys.node _ _ _ (fun _ => h0) (fun _ => h0) (fun _ => AllKeys.null)

theorem allkeys_key_for {P : Nat → Prop} {r : Radix} (h : AllKeys P r) (h0 : P 0)
    (i level : Nat) : P (key_for r i level) := by
  cases h with
  | null => exact h0
  | node ck cc inner h1 h2 _ =>
    simp only [key_for]
    split_ifs
    · exact h1 _
    · exact h2 _

theorem allkeys_set_key_for {P : Nat → Prop} {r : Radix} (h : AllKeys P r) (i level key : Nat)
    (hk : P key) : AllKeys P (set_key_for r i level key) := by
  cases h with
  | null => exact AllKeys.null
  | node ck cc inner h1 h2 h3 =>
    simp only [set_key_for]
    split_ifs
    · refine AllKeys.node _ _ _ (fun b => ?_) h2 h3
      split_ifs
      · exact hk
      · exact h1 b
    · refine AllKeys.node _ _ _ h1 (fun j => ?_) h3
      split_ifs
      · exact hk
      · exact h2 j

theorem allkeys_replace_row {P : Nat → Prop} (rk key level : Nat) (hk : P key) :
    ∀ (cnt x : Nat) (r : Radix), AllKeys P r → AllKeys P (replace_row rk key level cnt x r) := by
  intro cnt
  induction cnt with
  | zero => intro x r h; exact h
  | succ cnt ih =>
    intro x r h
    simp only [replace_row]
    apply ih
    split_ifs
    · exact allkeys_set_key_for h _ _ _ hk
    · exact h

theorem allkeys_replace_loop {P : Nat → Prop} (rk key level : Nat) (hk : P key) :
    ∀ (fuel i1 nmasked : Nat) (r : Radix), AllKeys P r →
      AllKeys P (replace_loop rk key level fuel i1 nmasked r) := by
  intro fuel
  induction fuel with
  | zero => intro i1 nmasked r h; exact h
  | succ fuel ih =>
    intro i1 nmasked r h
    simp only [replace_loop]
    split_ifs
    · exact ih _ _ _ (allkeys_replace_row rk key level hk _ _ _ h)
    · exact h

/-- `change_at` writes nothing but the key it is given or a key the node
holds, and it writes only when the position had no own key or `set` is
given. -/
theorem allkeys_change_at {P : Nat → Prop} {r : Radix} (h : AllKeys P r) (h0 : P 0)
    (i1 key : Nat) (set : Bool) (level : Nat)
    (hk : P key ∨ ((change_at r i1 key set level).1 ≠ 0 ∧ set = false)) :
    AllKeys P (change_at r i1 key set level).2 := by
  have hfst : (change_at r i1 key set level).1
      = (if key_for r i1 level ≠ 0 ∧ i1 > 3 ∧ key_for r (i1 / 2) level = key_for r i1 level
          then 0 else key_for r i1 level) := by
    simp only [change_at]
    split_ifs <;> rfl
  rw [hfst] at hk
  simp only [change_at]
  by_cases hc : (if key_for r i1 level ≠ 0 ∧ i1 > 3 ∧ key_for r (i1 / 2) level = key_for r i1 level
      then 0 else key_for r i1 level) ≠ (if key = 0 ∧ i1 > 3 then key_for r (i1 / 2) level else key)
      ∧ ((if key_for r i1 level ≠ 0 ∧ i1 > 3 ∧ key_for r (i1 / 2) level = key_for r i1 level
      then 0 else key_for r i1 level) = 0 ∨ set = true)
  · rw [if_pos hc]
    apply allkeys_replace_loop _ _ _ _ _ _ _ _ h
    have hP : P key := by
      rcases hk with z | ⟨z1, z2⟩
      · exact z
      · exfalso
        rcases hc.2 with y | y
        · exact z1 y
        · rw [z2] at y; cases y
    split_ifs
    · exact allkeys_key_for h h0 _ _
    · exact hP
  · rw [if_neg hc]
    exact h

theorem change_null (fuel addr mask key : Nat) (set : Bool) (level : Nat) :
    change fuel Radix.null addr mask key set level = (0, Radix.null) := by
  cases fuel <;> rfl

/-- `change` keeps the keys of the trie in `P` when the key it is given is in
`P`, or when it is called without `set` and returns a non-zero previous
key. -/
theorem allkeys_change {P : Nat → Prop} (h0 : P 0) (addr mask key : Nat) (set : Bool) :
    ∀ (fuel level : Nat) (r : Radix), AllKeys P r →
      (P key ∨ ((change fuel r addr mask key set level).1 ≠ 0 ∧ set = false)) →
      AllKeys P (change fuel r addr mask key set level).2 := by
  intro fuel
  induction fuel with
  | zero => intro level r h _; exact h
  | succ fuel ih =>
    intro level r h hk
    cases h with
    | null => rw [change_null]; exact AllKeys.null
    | node ck cc inner h1 h2 h3 =>
      simp only [change] at hk ⊢
      by_cases ht : mask &&& ((1 <<< _bitshift level) - 1) ≠ 0
      · rw [if_pos ht] at hk ⊢
        simp only [] at hk ⊢
        have hchild : AllKeys P (match cc ((addr >>> _bitshift level) &&& (_nbuckets level - 1)) with
            | Radix.null => make_radix (level + 1)
            | c => c) := by
          have := h3 ((addr >>> _bitshift level) &&& (_nbuckets level - 1))
          split
          · exact allkeys_make_radix P h0 _
          · exact this
        refine AllKeys.node _ _ _ h1 h2 (fun b => ?_)
        split_ifs
        · exact ih _ _ hchild hk
        · exact h3 b
      · rw [if_neg ht] at hk ⊢
        exact allkeys_change_at (AllKeys.node ck cc inner h1 h2 h3) h0 _ _ _ _ hk

/-- The descent returns the key it was started with or a key of the trie. -/
theorem allkeys_lookup {P : Nat → Prop} {r : Radix} (h : AllKeys P r) :
    ∀ (cur addr level : Nat), P cur → P (Radix.lookup r cur addr level) := by
  induction h with
  | null => intro cur addr level hc; exact hc
  | node ck cc inner h1 _ _ ih =>
    intro cur addr level hc
    simp only [Radix.lookup]
    apply ih
    split_ifs
    · exact h1 _
    · exact hc

theorem valid_zero (n : Nat) : ValidKey n 0 := Or.inl rfl

theorem valid_key_mono {n m k : Nat} (h : ValidKey n k) (hnm : n ≤ m) : ValidKey m k := by
  rcases h with z | ⟨z1, z2⟩
  · exact Or.inl z
  · exact Or.inr ⟨z1, by omega⟩

theorem combine_key_lookup (k p c : Nat) (h : combine_key k p = some c) :
    get_lookup_key c = p := by
  have hb : p ≤ 0xff ∧ k ≤ 0x00ffffff := by
    by_contra hn
    unfold combine_key at h
    rw [if_neg hn] at h
    exact absurd h (by simp)
  rw [combine_key_some k p hb.2 hb.1] at h
  simp only [Option.some.injEq] at h
  rw [← h]
  exact get_lookup_key_combined k p hb.2 hb.1

/-- The entry `add_route` builds from a path set with at least one hop. -/
theorem collect_ok (junk : Nat) (gs : List GWPort) (h : gs ≠ []) :
    1 ≤ (collect junk gs).length ∧ (collect junk gs).length ≤ 7 ∧
    (collect junk gs).data.length = (collect junk gs).length := by
  have h1 : 1 ≤ gs.length := by
    cases gs with
    | nil => exact absurd rfl h
    | cons g gs => simp
  by_cases h7 : gs.length ≤ 7
  · rw [collect_eq junk gs h1 h7]
    exact ⟨h1, h7, rfl⟩
  · rw [collect_long junk gs (by omega)]
    refine ⟨by show 1 ≤ 7; omega, by show 7 ≤ 7; omega, ?_⟩
    simp only [List.length_take]
    omega

theorem sound_init : Sound Table.init :=
  ⟨fun c hc => by simp [Table.init] at hc, allkeys_make_radix _ (valid_zero _) 0, valid_zero _⟩

theorem sound_flush (t : Table) (h : Sound t) : Sound (flush_table t) :=
  ⟨h.1, allkeys_make_radix _ (valid_zero _) 0, valid_zero _⟩

theorem sound_commit (junk : Nat) (t : Table) (route : IPRouteMPath)
    (found lk last_key : Nat) (radix : Radix) (dk : Nat) (old : Option IPRouteMPath)
    (hp : PoolOK t._lookup) (hg : route.gwports ≠ [])
    (hr : AllKeys (ValidKey (if lk = t._lookup.length + 1 then t._lookup.length + 1
      else t._lookup.length)) radix)
    (hd : ValidKey (if lk = t._lookup.length + 1 then t._lookup.length + 1
      else t._lookup.length) dk) :
    Sound (add_route_commit junk t route found lk last_key radix dk old).table := by
  unfold Sound add_route_commit
  simp only []
  by_cases hl : lk = t._lookup.length + 1
  · simp only [if_pos hl] at hr hd ⊢
    refine ⟨?_, by simpa using hr, by simpa using hd⟩
    intro c hc
    rcases List.mem_append.1 hc with z | z
    · exact hp c z
    · rw [List.mem_singleton.1 z]
      exact collect_ok junk _ hg
  · simp only [if_neg hl] at hr hd ⊢
    exact ⟨hp, hr, hd⟩

/-- A call of `add_route` with a route of at least one hop keeps every stored
path key within the pool. -/
theorem add_route_sound (junk : Nat) (t : Table) (route : IPRouteMPath) (set : Bool)
    (res : CallResult) (h : add_route junk t route set = some res) (ht : Sound t)
    (hg : route.gwports ≠ []) : Sound res.table := by
  obtain ⟨hp, hr, hd⟩ := ht
  unfold add_route at h
  simp only [] at h
  have hlk : 1 ≤ (if find_lookup_key t._lookup route.gwports = 0 then t._lookup.length + 1
        else find_lookup_key t._lookup route.gwports) ∧
      (if find_lookup_key t._lookup route.gwports = 0 then t._lookup.length + 1
        else find_lookup_key t._lookup route.gwports)
      ≤ (if (if find_lookup_key t._lookup route.gwports = 0 then t._lookup.length + 1
        else find_lookup_key t._lookup route.gwports) = t._lookup.length + 1
        then t._lookup.length + 1 else t._lookup.length) := by
    by_cases hf : find_lookup_key t._lookup route.gwports = 0
    · simp [hf]
    · obtain ⟨f1, f2, _⟩ := find_lookup_key_found _ _ hf
      rw [if_neg hf]
      refine ⟨f1, ?_⟩
      split_ifs <;> omega
  generalize (if find_lookup_key t._lookup route.gwports = 0 then t._lookup.length + 1
        else find_lookup_key t._lookup route.gwports) = lk at h hlk
  have hle : t._lookup.length ≤ (if lk = t._lookup.length + 1 then t._lookup.length + 1
      else t._lookup.length) := by split_ifs <;> omega
  by_cases hm : route.mask ≠ 0
  · rw [if_pos hm] at h
    cases hck : combine_key (found_slot t + 1) lk with
    | none => rw [hck] at h; exact absurd h (by simp)
    | some ck =>
      rw [hck] at h
      simp only [] at h
      have hv := combine_key_lookup _ _ _ hck
      by_cases hc : get_key (change 5 t._radix route.addr route.mask ck set 0).1 ≠ 0 ∧ set = false
      · rw [if_pos hc] at h
        simp only [Option.some.injEq] at h
        rw [← h]
        refine ⟨hp, ?_, hd⟩
        apply allkeys_change (valid_zero _) _ _ _ _ _ _ _ hr
        right
        refine ⟨?_, hc.2⟩
        intro e
        rw [e] at hc
        exact hc.1 get_key_zero
      · rw [if_neg hc] at h
        simp only [Option.some.injEq] at h
        rw [← h]
        apply sound_commit junk t route _ lk _ _ _ _ hp hg
        · apply allkeys_change (valid_zero _) _ _ _ _ _ _ _
            (allkeys_mono (fun k hk => valid_key_mono hk hle) hr)
          left
          right
          rw [hv]
          exact hlk
        · exact valid_key_mono hd hle
  · rw [if_neg hm] at h
    by_cases hc : get_key t._default_key = 0 ∨ set = true
    · rw [if_pos hc] at h
      cases hck : combine_key (found_slot t + 1) lk with
      | none => rw [hck] at h; exact absurd h (by simp)
      | some ck =>
        rw [hck] at h
        simp only [Option.some.injEq] at h
        rw [← h]
        have hv := combine_key_lookup _ _ _ hck
        apply sound_commit junk t route _ lk _ _ _ _ hp hg
        · exact allkeys_mono (fun k hk => valid_key_mono hk hle) hr
        · right
          rw [hv]
          exact hlk
    · rw [if_neg hc] at h
      simp only [Option.some.injEq] at h
      rw [← h]
      exact ⟨hp, hr, hd⟩

/-- A call of `remove_route` keeps every stored path key within the pool. -/
theorem remove_route_sound (t : Table) (route : IPRouteMPath) (ht : Sound t) :
    Sound (remove_route t route).table := by
  obtain ⟨hp, hr, hd⟩ := ht
  unfold remove_route
  simp only []
  by_cases hm : route.mask ≠ 0
  · simp only [if_pos hm]
    have hdry : AllKeys (ValidKey t._lookup.length)
        (change 5 t._radix route.addr route.mask 0 false 0).2 :=
      allkeys_change (valid_zero _) _ _ _ _ _ _ _ hr (Or.inl (valid_zero _))
    have hset : AllKeys (ValidKey t._lookup.length)
        (change 5 (change 5 t._radix route.addr route.mask 0 false 0).2
          route.addr route.mask 0 true 0).2 :=
      allkeys_change (valid_zero _) _ _ _ _ _ _ _ hdry (Or.inl (valid_zero _))
    split_ifs
    all_goals
      first
        | exact ⟨hp, hdry, hd⟩
        | exact ⟨hp, hset, hd⟩
  · simp only [if_neg hm]
    split_ifs
    all_goals
      first
        | exact ⟨hp, hr, hd⟩
        | exact ⟨hp, hr, valid_zero _⟩

/-- In a table whose stored path keys are within the pool, `lookup_route`
divides by a length between 1 and 7 and reads a hop that was written. -/
theorem sound_lookup (t : Table) (ht : Sound t) (a hash : Nat)
    (hp : get_lookup_key (Radix.lookup t._radix t._default_key a 0) ≠ 0) :
    get_lookup_key (Radix.lookup t._radix t._default_key a 0) - 1 < t._lookup.length ∧
    1 ≤ (t._lookup.getD (get_lookup_key (Radix.lookup t._radix t._default_key a 0) - 1)
      default).length ∧
    (t._lookup.getD (get_lookup_key (Radix.lookup t._radix t._default_key a 0) - 1)
      default).length ≤ 7 ∧
    hash % (t._lookup.getD (get_lookup_key (Radix.lookup t._radix t._default_key a 0) - 1)
      default).length < 7 ∧
    hash % (t._lookup.getD (get_lookup_key (Radix.lookup t._radix t._default_key a 0) - 1)
      default).length
      < (t._lookup.getD (get_lookup_key (Radix.lookup t._radix t._default_key a 0) - 1)
        default).data.length := by
  obtain ⟨h1, h2, h3⟩ := ht
  have hv := allkeys_lookup h2 t._default_key a 0 h3
  generalize Radix.lookup t._radix t._default_key a 0 = key at hp hv
  rcases hv with z | ⟨z1, z2⟩
  · rw [z] at hp
    exact absurd get_lookup_key_zero hp
  · have hlt : get_lookup_key key - 1 < t._lookup.length := by omega
    rw [List.getD_eq_getElem _ _ hlt]
    obtain ⟨c1, c2, c3⟩ := h1 _ (List.getElem_mem hlt)
    have hm := Nat.mod_lt hash (by omega : 0 < (t._lookup[get_lookup_key key - 1]).length)
    refine ⟨hlt, c1, c2, by omega, by omega⟩

theorem arg_has_hops_spec (arg : List Char) (route : IPRouteMPath) (h : arg_has_hops arg = true)
    (hp : cp_ip_route_mpath arg false = some route) : route.gwports ≠ [] := by
  unfold arg_has_hops at h
  rw [hp] at h
  simp only [Bool.not_eq_true', List.isEmpty_eq_false] at h
  intro e
  rw [e] at h
  simp at h

/-- A call of `run_command` keeps the stored path keys within the pool, and
the records it adds to the undo log are removals or have a hop. -/
theorem run_command_sound (junk : Nat) (t : Table) (command : Int) (str : List Char)
    (log : Option (List IPRouteMPath)) (r : Int) (t1 : Table)
    (log1 : Option (List IPRouteMPath))
    (h : run_command junk t command str log = some (r, t1, log1)) (ht : Sound t)
    (hl : LogOK (log.getD []))
    (hh : command = CMD_ADD ∨ command = CMD_SET → arg_has_hops str = true) :
    Sound t1 ∧ LogOK (log1.getD []) := by
  unfold run_command at h
  cases hp : cp_ip_route_mpath str (decide (command = CMD_REMOVE)) with
  | none =>
    rw [hp] at h
    simp only [Option.some.injEq, Prod.mk.injEq] at h
    obtain ⟨_, e1, e2⟩ := h
    rw [← e1, ← e2]
    exact ⟨ht, hl⟩
  | some route =>
    rw [hp] at h
    simp only [] at h
    have hadd : command = CMD_ADD ∨ command = CMD_SET → route.gwports ≠ [] := by
      intro hc
      have hd : decide (command = CMD_REMOVE) = false := by
        rcases hc with z | z <;> rw [z] <;> decide
      rw [hd] at hp
      exact arg_has_hops_spec str route (hh hc) hp
    have hcall : ∀ res, (if command = CMD_ADD then add_route junk t route false
        else if command = CMD_SET then add_route junk t route true
        else some (remove_route t route)) = some res → Sound res.table := by
      intro res e
      split_ifs at e with c1 c2
      · exact add_route_sound junk t route false res e ht (hadd (Or.inl c1))
      · exact add_route_sound junk t route true res e ht (hadd (Or.inr c2))
      · simp only [Option.some.injEq] at e
        rw [← e]
        exact remove_route_sound t route ht
    cases hc : (if command = CMD_ADD then add_route junk t route false
        else if command = CMD_SET then add_route junk t route true
        else some (remove_route t route)) with
    | none => rw [hc] at h; exact absurd h (by simp)
    | some res =>
      rw [hc] at h
      simp only [Option.some.injEq, Prod.mk.injEq] at h
      obtain ⟨_, e1, e2⟩ := h
      rw [← e1, ← e2]
      refine ⟨hcall res hc, ?_⟩
      cases log with
      | none => intro x hx; simp at hx
      | some l =>
        simp only [Option.getD_some] at hl
        simp only []
        by_cases hge : res.ret ≥ 0
        · rw [if_pos hge]
          simp only [Option.getD_some]
          intro x hx
          rcases List.mem_append.1 hx with z | z
          · exact hl x z
          · rw [List.mem_singleton.1 z]
            by_cases he : (res.old_route.getD default).gwports.isEmpty = true
            · rw [if_pos he]
              exact Or.inl rfl
            · rw [if_neg he]
              right
              intro e
              apply he
              show (res.old_route.getD default).gwports.isEmpty = true
              have e' : (res.old_route.getD default).gwports = [] := e
              rw [e']
              rfl
        · rw [if_neg hge]
          exact hl

/-- The rollback loop keeps the stored path keys within the pool. -/
theorem rollback_sound (junk : Nat) : ∀ (l : List IPRouteMPath) (t t1 : Table),
    rollback junk l t = some t1 → Sound t → LogOK l → Sound t1 := by
  intro l
  induction l with
  | nil =>
    intro t t1 h ht _
    simp only [rollback, Option.some.injEq] at h
    rw [← h]; exact ht
  | cons rt older ih =>
    intro t t1 h ht hl
    have hrt := hl rt (List.mem_cons_self _ _)
    have hold : LogOK older := fun x hx => hl x (List.mem_cons_of_mem _ hx)
    simp only [rollback] at h
    by_cases c1 : rt.extra = CMD_REMOVE
    · rw [if_pos c1] at h
      have hg : rt.gwports ≠ [] := by
        rcases hrt with z | z
        · rw [c1] at z; exact absurd z (by decide)
        · exact z
      cases ha : add_route junk t rt false with
      | none => rw [ha] at h; exact absurd h (by simp)
      | some res =>
        rw [ha] at h
        exact ih _ _ h (add_route_sound junk t rt false res ha ht hg) hold
    · rw [if_neg c1] at h
      by_cases c2 : rt.extra = CMD_ADD
      · rw [if_pos c2] at h
        exact ih _ _ h (remove_route_sound t rt ht) hold
      · rw [if_neg c2] at h
        have hg : rt.gwports ≠ [] := by
          rcases hrt with z | z
          · exact absurd z c2
          · exact z
        cases ha : add_route junk t rt true with
        | none => rw [ha] at h; exact absurd h (by simp)
        | some res =>
          rw [ha] at h
          exact ih _ _ h (add_route_sound junk t rt true res ha ht hg) hold

theorem ctrl_rollback_sound (junk : Nat) (t : Table) (log : List IPRouteMPath) (r r1 : Int)
    (t1 : Table) (h : ctrl_rollback junk t log r = Outcome.done (r1, t1)) (ht : Sound t)
    (hl : LogOK log) : Sound t1 := by
  unfold ctrl_rollback at h
  cases hr : rollback junk log.reverse t with
  | none => rw [hr] at h; exact Outcome.noConfusion h
  | some t2 =>
    rw [hr] at h
    simp only [Outcome.done.injEq, Prod.mk.injEq] at h
    rw [← h.2]
    exact rollback_sound junk _ _ _ hr ht (fun x hx => hl x (List.mem_reverse.1 hx))

/-- The text up to the first separator is the first piece of the split, and
the pieces of the text behind that separator are the other pieces. -/
theorem split_on_spec (c : Char) : ∀ l : List Char,
    (l.dropWhile (fun d => d ≠ c) = [] ∧ split_on c l = [l.takeWhile (fun d => d ≠ c)]) ∨
    (∃ l', l.dropWhile (fun d => d ≠ c) = c :: l' ∧
      split_on c l = l.takeWhile (fun d => d ≠ c) :: split_on c l') := by
  intro l
  induction l with
  | nil => left; exact ⟨rfl, rfl⟩
  | cons d ds ih =>
    by_cases hd : d = c
    · right
      refine ⟨ds, ?_, ?_⟩
      · simp [List.dropWhile, hd]
      · simp [split_on, hd, List.takeWhile]
    · have e1 : (d :: ds).dropWhile (fun d => d ≠ c) = ds.dropWhile (fun d => d ≠ c) := by
        simp [List.dropWhile, hd]
      have e2 : (d :: ds).takeWhile (fun d => d ≠ c) = d :: ds.takeWhile (fun d => d ≠ c) := by
        simp [List.takeWhile, hd]
      rw [e1, e2]
      rcases ih with ⟨i1, i2⟩ | ⟨l', i1, i2⟩
      · left
        exact ⟨i1, split_on_cons c d ds _ _ hd i2⟩
      · right
        exact ⟨l', i1, split_on_cons c d ds _ _ hd i2⟩

theorem take_takeWhile (p : Char → Bool) : ∀ l : List Char,
    l.take (l.takeWhile p).length = l.takeWhile p := by
  intro l
  induction l with
  | nil => rfl
  | cons d ds ih =>
    by_cases hd : p d = true
    · simp [List.takeWhile, hd, ih]
    · simp [List.takeWhile, hd]

theorem drop_takeWhile (p : Char → Bool) : ∀ l : List Char,
    l.drop (l.takeWhile p).length = l.dropWhile p := by
  intro l
  induction l with
  | nil => rfl
  | cons d ds ih =>
    by_cases hd : p d = true
    · simp [List.takeWhile, List.dropWhile, hd, ih]
    · simp [List.takeWhile, List.dropWhile, hd]

/-- The line the loop of `ctrl_handler` reads at an offset. -/
theorem line_at_eq (conf : List Char) (s : Nat) :
    (conf.drop s).take (find_char conf s '\n' - s)
      = (conf.drop s).takeWhile (fun d => d ≠ '\n') := by
  unfold find_char
  rw [Nat.add_sub_cancel_left]
  exact take_takeWhile _ _

theorem at_line_here (conf : List Char) (s : Nat) (hs : s < conf.length) (h : AtLine conf s) :
    (conf.drop s).take (find_char conf s '\n' - s) ∈ split_on '\n' conf := by
  rcases h with z | z
  · omega
  · apply z
    rw [line_at_eq]
    rcases split_on_spec '\n' (conf.drop s) with ⟨_, e⟩ | ⟨_, _, e⟩ <;> rw [e] <;>
      exact List.mem_cons_self _ _

theorem at_line_next (conf : List Char) (s : Nat) (hs : s < conf.length) (h : AtLine conf s) :
    AtLine conf (find_char conf s '\n' + 1) := by
  rcases h with z | z
  · omega
  · have hlen : (conf.drop s).length = conf.length - s := List.length_drop s conf
    have hsplit : conf.drop s = (conf.drop s).takeWhile (fun d => d ≠ '\n')
        ++ (conf.drop s).dropWhile (fun d => d ≠ '\n') := (List.takeWhile_append_dropWhile _ _).symm
    rcases split_on_spec '\n' (conf.drop s) with ⟨e1, _⟩ | ⟨l', e1, e2⟩
    · left
      have := congrArg List.length hsplit
      rw [e1, List.length_append, List.length_nil, hlen] at this
      unfold find_char
      omega
    · right
      intro x hx
      apply z
      rw [e2]
      apply List.mem_cons_of_mem
      have hd : conf.drop (find_char conf s '\n' + 1) = l' := by
        unfold find_char
        have : s + ((conf.drop s).takeWhile (fun d => d ≠ '\n')).length + 1
            = s + (((conf.drop s).takeWhile (fun d => d ≠ '\n')).length + 1) := by omega
        rw [this, ← List.drop_drop, ← List.drop_drop, drop_takeWhile, e1]
        rfl
      rw [hd] at hx
      exact hx

theorem line_has_hops_spec (line : List Char) (command : Int) (h : line_has_hops line = true)
    (hc : command_of (cp_shift_spacevec line).1 = some command) :
    command = CMD_ADD ∨ command = CMD_SET → arg_has_hops (cp_shift_spacevec line).2 = true := by
  intro hcmd
  unfold line_has_hops at h
  rw [hc] at h
  simp only [if_pos hcmd] at h
  exact h

/-- The `ctrl` handler keeps the stored path keys within the pool when no
line of the batch adds a route without a hop. -/
theorem ctrl_loop_sound (junk : Nat) (conf : List Char) (hb : batch_has_hops conf = true) :
    ∀ (fuel : Nat) (t : Table) (s : Nat) (log : List IPRouteMPath) (r : Int) (t1 : Table),
    ctrl_loop junk conf fuel t s log = Outcome.done (r, t1) → Sound t → LogOK log →
    AtLine conf s → Sound t1 := by
  intro fuel
  induction fuel with
  | zero => intro t s log r t1 h; exact Outcome.noConfusion h
  | succ fuel ih =>
    intro t s log r t1 h ht hl hat
    rw [ctrl_loop] at h
    by_cases hs : s < conf.length
    · rw [if_pos hs] at h
      simp only [] at h
      have hline := at_line_here conf s hs hat
      have hok : line_has_hops ((conf.drop s).take (find_char conf s '\n' - s)) = true := by
        unfold batch_has_hops at hb
        rw [List.all_eq_true] at hb
        exact hb _ hline
      cases hc : command_of (cp_shift_spacevec ((conf.drop s).take (find_char conf s '\n' - s))).1 with
      | none =>
        rw [hc] at h
        simp only [] at h
        split_ifs at h
        · exact ih _ _ _ _ _ h ht hl hat
        · exact ctrl_rollback_sound junk _ _ _ _ _ h ht hl
      | some command =>
        rw [hc] at h
        simp only [] at h
        cases hrun : run_command junk t command
            (cp_shift_spacevec ((conf.drop s).take (find_char conf s '\n' - s))).2 (some log) with
        | none => rw [hrun] at h; exact Outcome.noConfusion h
        | some x =>
          obtain ⟨r2, t2, log2⟩ := x
          rw [hrun] at h
          simp only [] at h
          obtain ⟨c1, c2⟩ := run_command_sound junk t command _ (some log) r2 t2 log2 hrun ht
            (by simpa using hl) (line_has_hops_spec _ command hok hc)
          split_ifs at h
          · exact ctrl_rollback_sound junk _ _ _ _ _ h c1 c2
          · exact ih _ _ _ _ _ h c1 c2 (at_line_next conf s hs hat)
    · rw [if_neg hs] at h
      simp only [Outcome.done.injEq, Prod.mk.injEq] at h
      rw [← h.2]; exact ht

/-- The loop of `configure` keeps the stored path keys within the pool when
no argument is a route without a hop. -/
theorem configure_loop_sound (junk : Nat) : ∀ (args : List (List Char)) (t : Table) (r : Int)
    (e : Nat) (x : Int × Table × Nat), args.all arg_has_hops = true →
    configure_loop junk args t r e = some x → Sound t → Sound x.2.1 := by
  intro args
  induction args with
  | nil =>
    intro t r e x _ h ht
    simp only [configure_loop, Option.some.injEq] at h
    rw [← h]; exact ht
  | cons arg rest ih =>
    intro t r e x hall h ht
    simp only [List.all_cons, Bool.and_eq_true] at hall
    rw [configure_loop] at h
    cases hp : cp_ip_route_mpath arg false with
    | none =>
      rw [hp] at h
      exact ih _ _ _ _ hall.2 h ht
    | some route =>
      rw [hp] at h
      simp only [] at h
      cases ha : add_route junk t route false with
      | none => rw [ha] at h; exact absurd h (by simp)
      | some res =>
        rw [ha] at h
        simp only [] at h
        have hc := add_route_sound junk t route false res ha ht
          (arg_has_hops_spec arg route hall.1 hp)
        split_ifs at h
        all_goals exact ih _ _ _ _ hall.2 h hc

/-- In every table reached through the handlers with routes that have a hop,
every stored path key names an entry of the pool and every entry of the pool
has between 1 and 7 hops. -/
theorem hop_reachable_sound (t : Table) (h : HopReachable t) : Sound t := by
  induction h with
  | init => exact sound_init
  | configure junk t conf res _ hh hc ih =>
    unfold configure at hc
    cases conf with
    | nil =>
      simp only [Option.some.injEq] at hc
      rw [← hc]; exact ih
    | cons mode args =>
      simp only [] at hc
      cases hl : configure_loop junk args t 0 0 with
      | none => rw [hl] at hc; simp at hc
      | some x =>
        rw [hl] at hc
        simp only [Option.map_some', Option.some.injEq] at hc
        rw [← hc]
        exact configure_loop_sound junk args t 0 0 x hh hl ih
  | handler junk t command str r t1 log _ hh hc ih =>
    exact (run_command_sound junk t command str none r t1 log hc ih
      (by intro x hx; simp at hx) hh).1
  | ctrl junk fuel t conf r t1 _ hb hc ih =>
    exact ctrl_loop_sound junk conf hb fuel t 0 [] r t1 hc ih (by intro x hx; simp at hx)
      (Or.inr (fun x hx => by simpa using hx))
  | add junk t route set res _ hg ha ih => exact add_route_sound junk t route set res ha ih hg
  | remove t route _ ih => exact remove_route_sound t route ih
  | flush t _ ih => exact sound_flush t ih
  | dump t text t1 _ hd ih =>
    unfold dump_routes at hd
    cases hk : kill_loop t._v.length t._v t._vfree with
    | none => rw [hk] at hd; simp at hd
    | some v =>
      rw [hk] at hd
      simp only [Option.map_some', Option.some.injEq, Prod.mk.injEq] at hd
      rw [← hd.2]
      exact ih

/-- The uninitialised length of `add_route` reaches only the pool: the return
code, the trie, the default key and the arena do not depend on it. -/
theorem add_route_any_junk (junk : Nat) (t : Table) (route : IPRouteMPath) (set : Bool) :
    ((add_route junk t route set).isSome = (add_route 0 t route set).isSome) ∧
    (res_of (add_route junk t route set)).ret = (res_of (add_route 0 t route set)).ret ∧
    (res_of (add_route junk t route set)).table._radix
      = (res_of (add_route 0 t route set)).table._radix ∧
    (res_of (add_route junk t route set)).table._default_key
      = (res_of (add_route 0 t route set)).table._default_key ∧
    (res_of (add_route junk t route set)).table._v
      = (res_of (add_route 0 t route set)).table._v := by
  unfold add_route
  simp only []
  generalize (if find_lookup_key t._lookup route.gwports = 0 then t._lookup.length + 1
        else find_lookup_key t._lookup route.gwports) = lk
  by_cases hm : route.mask ≠ 0
  · simp only [if_pos hm]
    cases hck : combine_key (found_slot t + 1) lk with
    | none => first | done | (refine ⟨?_, ?_, ?_, ?_, ?_⟩ <;> trivial)
    | some ck =>
      simp only []
      by_cases hc : get_key (change 5 t._radix route.addr route.mask ck set 0).1 ≠ 0 ∧ set = false
      · simp only [if_pos hc]
        first | done | (refine ⟨?_, ?_, ?_, ?_, ?_⟩ <;> trivial)
      · simp only [if_neg hc]
        first | done | (refine ⟨?_, ?_, ?_, ?_, ?_⟩ <;> trivial)
  · simp only [if_neg hm]
    by_cases hc : get_key t._default_key = 0 ∨ set = true
    · simp only [if_pos hc]
      cases hck : combine_key (found_slot t + 1) lk with
      | none => first | done | (refine ⟨?_, ?_, ?_, ?_, ?_⟩ <;> trivial)
      | some ck => first | done | (refine ⟨?_, ?_, ?_, ?_, ?_⟩ <;> trivial)
    · simp only [if_neg hc]
      first | done | (refine ⟨?_, ?_, ?_, ?_, ?_⟩ <;> trivial)

theorem parse_hopless :
    cp_ip_route_mpath "10.1.0.0/16 -1".toList false = some route_hopless := by decide!

theorem add_hopless_some (junk : Nat) :
    add_route junk Table.init route_hopless false
      = some (res_of (add_route junk Table.init route_hopless false)) := by
  apply res_of_some
  rw [(add_route_any_junk junk Table.init route_hopless false).1]
  decide!

theorem add_hopless_ret (junk : Nat) :
    (res_of (add_route junk Table.init route_hopless false)).ret = 0 := by
  rw [(add_route_any_junk junk Table.init route_hopless false).2.1]
  decide!

/-- The pool after the add of the route without a hop: one entry, no hop
written, with the length the uninitialised member holds. -/
theorem table_hopless_pool (junk : Nat) : (table_hopless junk)._lookup = [⟨junk, []⟩] := by
  unfold table_hopless
  rw [add_route_pool_intern junk Table.init route_hopless false _ (add_hopless_some junk)
    (add_hopless_ret junk)]
  rfl

theorem table_hopless_key (junk : Nat) :
    get_lookup_key (Radix.lookup (table_hopless junk)._radix (table_hopless junk)._default_key
      (ip 10 1 0 5) 0) = 1 := by
  unfold table_hopless
  rw [(add_route_any_junk junk Table.init route_hopless false).2.2.1,
    (add_route_any_junk junk Table.init route_hopless false).2.2.2.1]
  decide!

/-- The handler call `add 10.1.0.0/16 -1` on a new element returns 0 and
leaves `table_hopless`. -/
theorem handler_add_hopless (junk : Nat) :
    run_command junk Table.init CMD_ADD "10.1.0.0/16 -1".toList none
      = some (0, table_hopless junk, none) := by
  have hd : decide (CMD_ADD = CMD_REMOVE) = false := by decide
  unfold run_command
  rw [hd, parse_hopless]
  simp only [if_true]
  rw [add_hopless_some junk]
  simp only []
  rw [add_hopless_ret junk]
  rfl

theorem script_two_adds_reachable :
    HopReachable (outcome_table (ctrl_handler 0 3 Table.init script_two_adds)) := by
  have h : ∃ r t1, ctrl_handler 0 3 Table.init script_two_adds = Outcome.done (r, t1) := by
    cases hr : ctrl_handler 0 3 Table.init script_two_adds with
    | done x => exact ⟨x.1, x.2, rfl⟩
    | abort =>
      have : outcome_ret (ctrl_handler 0 3 Table.init script_two_adds) = some 0 := by decide!
      rw [hr] at this
      exact absurd this (by decide)
    | out_of_fuel =>
      have : outcome_ret (ctrl_handler 0 3 Table.init script_two_adds) = some 0 := by decide!
      rw [hr] at this
      exact absurd this (by decide)
  obtain ⟨r, t1, hx⟩ := h
  rw [hx]
  exact HopReachable.ctrl 0 3 Table.init script_two_adds r t1 HopReachable.init (by decide!) hx

/-- In every table state reached through `configure`, the handlers and
`flush_table` with routes that have at least one hop, `lookup_route` finds for
a non-zero path key an entry of the pool with a length between 1 and 7. -/
theorem lookup_route_in_bounds (t : Table) (h : HopReachable t) (a hash : Nat)
    (hp : get_lookup_key (Radix.lookup t._radix t._default_key a 0) ≠ 0) :
    get_lookup_key (Radix.lookup t._radix t._default_key a 0) - 1 < t._lookup.length ∧
    1 ≤ (t._lookup.getD (get_lookup_key (Radix.lookup t._radix t._default_key a 0) - 1)
      default).length ∧
    (t._lookup.getD (get_lookup_key (Radix.lookup t._radix t._default_key a 0) - 1)
      default).length ≤ 7 ∧
    hash % (t._lookup.getD (get_lookup_key (Radix.lookup t._radix t._default_key a 0) - 1)
      default).length < 7 :=
  ⟨(sound_lookup t (hop_reachable_sound t h) a hash hp).1,
    (sound_lookup t (hop_reachable_sound t h) a hash hp).2.1,
    (sound_lookup t (hop_reachable_sound t h) a hash hp).2.2.1,
    (sound_lookup t (hop_reachable_sound t h) a hash hp).2.2.2.1⟩

/-- The batch `add 10.1.0.0/16 - 1`, `add 10.2.0.0/16 - 2 - 3` on a new
element: the lookup of `10.2.0.1` finds path key 2, an entry of two hops. -/
theorem lookup_route_in_bounds_example :
    batch_has_hops script_two_adds = true ∧
    get_lookup_key (Radix.lookup (outcome_table (ctrl_handler 0 3 Table.init script_two_adds))._radix
      (outcome_table (ctrl_handler 0 3 Table.init script_two_adds))._default_key
      (ip 10 2 0 1) 0) = 2 ∧
    ((outcome_table (ctrl_handler 0 3 Table.init script_two_adds))._lookup.getD (2 - 1)
      default).length = 2 ∧
    (1 ≤ ((outcome_table (ctrl_handler 0 3 Table.init script_two_adds))._lookup.getD
        (get_lookup_key (Radix.lookup
          (outcome_table (ctrl_handler 0 3 Table.init script_two_adds))._radix
          (outcome_table (ctrl_handler 0 3 Table.init script_two_adds))._default_key
          (ip 10 2 0 1) 0) - 1) default).length) :=
  ⟨by decide!, by decide!, by decide!,
    (lookup_route_in_bounds _ script_two_adds_reachable (ip 10 2 0 1) 0 (by decide!)).2.1⟩

/-- C31, the code at a failing input.  The handler call
`add 10.1.0.0/16 -1` on a new element is accepted: the parser returns a route
without a hop, `add_route` returns 0 and appends a pool entry in which no hop
is written and whose `length` was never set.  The lookup of `10.1.0.5` then
finds path key 1, and the length of `L[0]` is whatever the uninitialised member
holds: with 0 `lookup_route` computes `hash mod 0`, with 8 the index `7 mod 8`
is not below 7, and in every case the hop read was never written.  What holds
is the claim for routes that have a hop: in every table state reached through
`configure`, the `add`, `set`, `remove` and `ctrl` handlers, `flush_table`,
`dump_routes`, `add_route` and `remove_route` in which no added route is
without a hop, a non-zero looked-up path key `p` has an entry `L[p-1]` whose
length is between 1 and 7, so `hash mod length` is defined, is below 7 and
is the index of a hop that was written. -/
theorem lookup_route_reads_unset_length :
    cp_ip_route_mpath "10.1.0.0/16 -1".toList false = some route_hopless ∧
    route_hopless.gwports = [] ∧
    (∀ junk,
      run_command junk Table.init CMD_ADD "10.1.0.0/16 -1".toList none
        = some (0, table_hopless junk, none) ∧
      HandlerReachable (table_hopless junk) ∧
      get_lookup_key (Radix.lookup (table_hopless junk)._radix (table_hopless junk)._default_key
        (ip 10 1 0 5) 0) = 1 ∧
      (table_hopless junk)._lookup = [⟨junk, []⟩] ∧
      ((table_hopless junk)._lookup.getD (1 - 1) default).length = junk ∧
      ((table_hopless junk)._lookup.getD (1 - 1) default).data.length = 0) ∧
    ¬ (1 ≤ ((table_hopless 0)._lookup.getD (1 - 1) default).length) ∧
    ¬ (((table_hopless 8)._lookup.getD (1 - 1) default).length ≤ 7) ∧
    ¬ (7 % ((table_hopless 8)._lookup.getD (1 - 1) default).length < 7) ∧
    (∀ t, HopReachable t → ∀ a hash,
      get_lookup_key (Radix.lookup t._radix t._default_key a 0) ≠ 0 →
      get_lookup_key (Radix.lookup t._radix t._default_key a 0) - 1 < t._lookup.length ∧
      1 ≤ (t._lookup.getD (get_lookup_key (Radix.lookup t._radix t._default_key a 0) - 1)
        default).length ∧
      (t._lookup.getD (get_lookup_key (Radix.lookup t._radix t._default_key a 0) - 1)
        default).length ≤ 7 ∧
      hash % (t._lookup.getD (get_lookup_key (Radix.lookup t._radix t._default_key a 0) - 1)
        default).length < 7 ∧
      hash % (t._lookup.getD (get_lookup_key (Radix.lookup t._radix t._default_key a 0) - 1)
        default).length
        < (t._lookup.getD (get_lookup_key (Radix.lookup t._radix t._default_key a 0) - 1)
          default).data.length) := by
  refine ⟨parse_hopless, rfl, ?_, ?_, ?_, ?_, ?_⟩
  · intro junk
    have hp := table_hopless_pool junk
    refine ⟨handler_add_hopless junk,
      HandlerReachable.handler junk Table.init CMD_ADD _ 0 _ none HandlerReachable.init
        (handler_add_hopless junk),
      table_hopless_key junk, hp, ?_, ?_⟩
    · rw [hp]; rfl
    · rw [hp]; rfl
  · rw [table_hopless_pool 0]; decide
  · rw [table_hopless_pool 8]; decide
  · rw [table_hopless_pool 8]; decide
  · intro t ht a hash hp
    exact sound_lookup t (hop_reachable_sound t ht) a hash hp

end MPath
